import Mathlib

/-!
Darkness.Concurrency: the task queue, the registry, the timer.

A shallow embedding of `src/Concurrency/Queue.cpp` / `Queue.hpp`,
`QueueManager.cpp` and `AsyncTimer.cpp`.

The queue.

The queue is a concurrent object, so the embedding is a transition system.
`System` holds the member variables of one `Queue`, the shared stop states
behind its `std::stop_source` / `std::stop_token` pairs, and one record per
activation of `Queue::_Routine`.  The interface methods are state
transformers; an activation of `_Routine` advances by the steps of
`Queue._Routine`, which end where the source takes or releases `m_Mutex`,
invokes a task or returns.

Granularity: a call of `Start`, `Stop` or `Post` is one step (the read of
the atomic `m_State` and the critical section that follows it are not
interleaved with other threads).  A step that needs `m_Mutex` while another
thread holds it is not enabled (`none`).  The `assert`s of the source are
not executed (release build), and the code under the macros
`Darkness_Concurrency_Queue_DEBUG` and `Darkness_Concurrency_Timer_DEBUG`,
which no file of the repository defines, is not compiled.

The registry.

`QueueManager` embeds `src/Concurrency/QueueManager.cpp`: the store of
`QueueManager::_Impl` maps a name to a pointer, the index of a `Cell` of the
heap.  A cell is a `Queue` object with its threads (a `System`), the number
of `std::shared_ptr` that callers hold besides the registry, and whether the
destructor has run.  The handles of the interface are `std::weak_ptr`: they
are pointers that own nothing.  Every member function runs under `m_Access`.
A member function that does not wait is one step.  `ForgetByName`,
`ForgetMainQueue` and `KillAndForgetAll` destroy the queues that nobody else
owns, and the destructor of a queue joins the thread of the queue: the
calling thread waits, holding `m_Access`, until that thread has returned from
`_Routine`.  Such a call is a step up to the first `join` in which the thread
has to wait, and a continuation (`QueueManager.resume`) from each `join` to
the next one or to the return.  A thread that joins itself terminates the
process.

The timer.

`AsyncTimer` embeds `src/Concurrency/AsyncTimer.cpp`: the members of
`AsyncTimer::_Impl`, and one record per `_ExecutionContext` that was
created, with the stop state and the position of its thread in `_Routine`.
Time is not represented: a `wait_for` returns at any moment, with the value
of its predicate.  `Stop` on a `Busy` timer destroys the execution context,
which joins its thread: the steps this thread still takes are part of the
step of `Stop`.  A call of `Start` or `Stop` is one step, and the thread of
a context works on the record of its own context.
-/

namespace Darkness.Concurrency

/-- The enumeration `eAsyncState` of `Types.hpp`. -/
inductive eAsyncState where
  | Free
  | Busy
  | Stopping
  | Stopped
  deriving DecidableEq, Repr

/-- Identity of a thread (`std::thread::id`): a thread of the application, or
the thread behind the `n`-th `std::jthread` the queue created. -/
inductive ThreadId where
  | user (n : Nat)
  | spawned (n : Nat)
  deriving DecidableEq, Repr

/-- An exception object, as carried by `std::exception_ptr`. -/
abbrev Failure := Nat

/-- A non-empty `std::function<void()>`: `label` identifies the callable,
`raises` is what invoking it does (`none`: returns, `some f`: throws `f`). -/
structure Callable where
  label : Nat
  raises : Option Failure
  deriving DecidableEq, Repr

/-- The type `tTask` of `Types.hpp`; `none` is the empty `std::function`. -/
abbrev tTask := Option Callable

/-- The type `tExceptionHandler` of `Types.hpp`; `none` is the empty
`std::function`.  Applied to a failure, a handler returns (`none`) or itself
throws (`some g`). -/
abbrev tExceptionHandler := Option (Failure → Option Failure)

/-- The two implementations of `Queue::IExecutionPolicy` with their member:
`m_StopSource` (`none` is `std::nostopstate`) and `m_Worker` (`none` is a
default-constructed `std::jthread`); a stop source is the index of its stop
state in `System.stopStates`. -/
inductive ExecutionPolicy where
  | MainThread (m_StopSource : Option Nat)
  | BackgroundThread (m_Worker : Option Nat)
  deriving DecidableEq, Repr

/-- The member variables of `class Queue` (`Queue.hpp`); `m_Mutex` is the
thread holding the mutex, `m_Condition` has no state of its own. -/
structure Queue where
  m_Name : String
  m_ExceptionHandler : tExceptionHandler
  m_ExecutionPolicy : ExecutionPolicy
  m_State : eAsyncState
  m_Id : Option ThreadId
  m_TaskQueue : List tTask
  m_Mutex : Option ThreadId

/-- Where an activation of `Queue::_Routine` stands. -/
inductive PC where
  /-- Before line 199, nothing is published yet. -/
  | entry
  /-- At the test of `while (!stopToken.stop_requested())`, line 220. -/
  | loopHead
  /-- At `tUniquLock lock(m_Mutex)` or blocked in `m_Condition.wait`,
  without the mutex. -/
  | waiting
  /-- Holding the mutex, about to evaluate the predicate of the wait. -/
  | locked
  /-- The wait is over and the mutex released, at `if (task)`, line 242. -/
  | popped (task : tTask)
  /-- Inside `task()`, line 246. -/
  | inTask (task : Callable)
  /-- The routine `_Routine` has returned. -/
  | done
  deriving DecidableEq, Repr

/-- One activation of `Queue::_Routine`: the thread that executes it, the
stop state of its `stopToken` argument, and its position. -/
structure Loop where
  tid : ThreadId
  stopToken : Nat
  pc : PC
  deriving DecidableEq, Repr

/-- What the outside world observes of a run loop. -/
inductive Obs where
  | invoke (label : Nat)
  | handle (f : Failure)
  deriving DecidableEq, Repr

/-- A queue with its environment: stop states (`true`: stop requested), the
activations of `_Routine` in the order they were created, the observations
so far, and whether `std::terminate` was called. -/
structure System where
  queue : Queue
  stopStates : List Bool
  loops : List Loop
  trace : List Obs
  terminated : Bool

/-- The constructor `Queue::Queue` (line 62), in a process with no thread of
this queue yet. -/
def System.init (name : String) (exceptionHandler : tExceptionHandler)
    (executionPolicy : ExecutionPolicy) : System :=
  { queue :=
      { m_Name := name
        m_ExceptionHandler := exceptionHandler
        m_ExecutionPolicy := executionPolicy
        m_State := eAsyncState.Free
        m_Id := none
        m_TaskQueue := []
        m_Mutex := none }
    stopStates := []
    loops := []
    trace := []
    terminated := false }

/-- The member `std::stop_token::stop_requested`. -/
def stop_requested (s : System) (token : Nat) : Bool :=
  s.stopStates.getD token false

/-- The member `request_stop` of `std::stop_source` and `std::jthread`: the
result is true when this call made the request. -/
def request_stop (s : System) (source : Nat) : Bool × System :=
  (decide (source < s.stopStates.length) && !stop_requested s source,
    { s with stopStates := s.stopStates.set source true })

/-- The stop state the execution policy holds: `m_StopSource`, or the stop
source of `m_Worker`. -/
def ExecutionPolicy.source : ExecutionPolicy → Option Nat
  | ExecutionPolicy.MainThread m_StopSource => m_StopSource
  | ExecutionPolicy.BackgroundThread m_Worker => m_Worker

/-- The methods `MainThreadExecutionPolicy::RequestStop` (line 31) and
`BackgroundThreadExecutionPolicy::RequestStop` (line 52). -/
def ExecutionPolicy.RequestStop (s : System) : Bool × System :=
  match s.queue.m_ExecutionPolicy.source with
  | some source => request_stop s source
  | none => (false, s)

/-- The methods `GetStopToken` (lines 36 and 57) followed by
`stop_possible()`. -/
def ExecutionPolicy.stop_possible (s : System) : Bool :=
  match s.queue.m_ExecutionPolicy.source with
  | some source => decide (source < s.stopStates.length)
  | none => false

/-- Move an activation of `_Routine` to another position. -/
def setPc (s : System) (i : Nat) (pc : PC) : System :=
  { s with loops := s.loops.modify (fun w => { w with pc := pc }) i }

/-- The completion of the `ScopeExit` in `_Routine` (lines 201-204). -/
def scopeExit (s : System) : System :=
  { s with queue := { s.queue with m_Id := none, m_State := eAsyncState.Stopped } }

/-- Release of `m_Mutex` at the end of a lock's scope, or by a wait. -/
def unlock (s : System) : System :=
  { s with queue := { s.queue with m_Mutex := none } }

/-- Append to the observations. -/
def observe (s : System) (o : Obs) : System :=
  { s with trace := s.trace ++ [o] }

/-- One step of the `i`-th activation of `Queue::_Routine` (lines 197-269).
The call of `SetCurrentThreadName` (line 213) touches no member of the queue
and is left out. -/
def Queue._Routine (s : System) (i : Nat) : Option System :=
  match s.loops[i]? with
  | none => none
  | some w =>
    match w.pc with
    | PC.entry =>
      -- m_Id = std::this_thread::get_id(); m_State = eAsyncState::Busy;
      some (setPc { s with queue := { s.queue with m_Id := some w.tid,
                                                   m_State := eAsyncState.Busy } } i PC.loopHead)
    | PC.loopHead =>
      -- while (!stopToken.stop_requested())
      if stop_requested s w.stopToken then
        some (setPc (scopeExit s) i PC.done)
      else
        some (setPc s i PC.waiting)
    | PC.waiting =>
      -- tUniquLock lock(m_Mutex), or the wake-up of m_Condition.wait
      if s.queue.m_Mutex = none then
        some (setPc { s with queue := { s.queue with m_Mutex := some w.tid } } i PC.locked)
      else
        none
    | PC.locked =>
      -- the predicate of m_Condition.wait, under the mutex
      if stop_requested s w.stopToken then
        some (setPc (unlock s) i (PC.popped none))
      else
        match s.queue.m_TaskQueue with
        | task :: rest =>
          some (setPc (unlock { s with queue := { s.queue with m_TaskQueue := rest } }) i
            (PC.popped task))
        | [] =>
          -- return false: continue waiting, the wait releases the mutex
          some (setPc (unlock s) i PC.waiting)
    | PC.popped none =>
      -- if (task) fails
      some (setPc s i PC.loopHead)
    | PC.popped (some c) =>
      -- task();
      some (setPc (observe s (Obs.invoke c.label)) i (PC.inTask c))
    | PC.inTask c =>
      match c.raises with
      | none => some (setPc s i PC.loopHead)
      | some f =>
        -- catch (...) of line 248
        match s.queue.m_ExceptionHandler with
        | none => some (setPc s i PC.loopHead)
        | some handler =>
          let s1 := observe s (Obs.handle f)
          match handler f with
          | none => some (setPc s1 i PC.loopHead)
          | some g =>
            -- the handler threw: catch (...) of line 260, outside the loop
            let s2 := observe s1 (Obs.handle g)
            match handler g with
            | none => some (setPc (scopeExit s2) i PC.done)
            | some _ =>
              -- an exception leaves a noexcept function
              some { s2 with terminated := true }
    | PC.done => some s

/-- The method `MainThreadExecutionPolicy::Start` (line 21): a fresh stop
source, then `_Routine` is called on the calling thread, which at once
publishes its identity and `Busy`.  These first statements of `_Routine`
(lines 199 and 200) belong to the step of the call: two calls of `Start` on
the caller-driven queue do not overlap. -/
def MainThreadExecutionPolicy.Start (caller : ThreadId) (s : System) : Option System :=
  let token := s.stopStates.length
  Queue._Routine
    { s with
      queue := { s.queue with m_ExecutionPolicy := ExecutionPolicy.MainThread (some token) }
      stopStates := s.stopStates ++ [false]
      loops := s.loops ++ [{ tid := caller, stopToken := token, pc := PC.entry }] }
    s.loops.length

/-- The method `BackgroundThreadExecutionPolicy::Start` (line 41): a new
`std::jthread` with its own stop state runs `_Routine`; the move assignment
to `m_Worker` first requests the stop of the thread `m_Worker` held (and
joins it, which is not represented). -/
def BackgroundThreadExecutionPolicy.Start (m_Worker : Option Nat) (s : System) :
    Option System :=
  let token := s.stopStates.length
  let s1 : System :=
    { s with
      stopStates := s.stopStates ++ [false]
      loops := s.loops ++
        [{ tid := ThreadId.spawned s.loops.length, stopToken := token, pc := PC.entry }] }
  let s2 : System :=
    match m_Worker with
    | some old => (request_stop s1 old).2
    | none => s1
  some { s2 with
    queue := { s2.queue with m_ExecutionPolicy := ExecutionPolicy.BackgroundThread (some token) } }

/-- The method `Queue::Start` (line 78). -/
def Queue.Start (caller : ThreadId) (s : System) : Option System :=
  match s.queue.m_State with
  | eAsyncState.Free | eAsyncState.Stopped =>
    match s.queue.m_ExecutionPolicy with
    | ExecutionPolicy.MainThread _ => MainThreadExecutionPolicy.Start caller s
    | ExecutionPolicy.BackgroundThread m_Worker =>
      BackgroundThreadExecutionPolicy.Start m_Worker s
  | eAsyncState.Busy => some s
  | eAsyncState.Stopping => some s

/-- The method `Queue::_DoStop` (line 170), one critical section. -/
def Queue._DoStop (s : System) : Option System :=
  if s.queue.m_Mutex = none then
    let s1 : System :=
      { s with queue := { s.queue with m_State := eAsyncState.Stopping, m_TaskQueue := [] } }
    some (ExecutionPolicy.RequestStop s1).2
  else
    none

/-- The method `Queue::_Stop` (line 139). -/
def Queue._Stop (s : System) : Option System :=
  match s.queue.m_State with
  | eAsyncState.Free | eAsyncState.Stopped => some s
  | eAsyncState.Busy => Queue._DoStop s
  | eAsyncState.Stopping => some s

/-- The method `Queue::Stop` (line 105). -/
def Queue.Stop (s : System) : Option System :=
  Queue._Stop s

/-- The method `Queue::Post` (lines 115 and 122), one critical section. -/
def Queue.Post (task : tTask) (s : System) : Option System :=
  if s.queue.m_Mutex = none then
    some { s with queue := { s.queue with m_TaskQueue := s.queue.m_TaskQueue ++ [task] } }
  else
    none

/-- The method `Queue::GetState` (line 110). -/
def Queue.GetState (s : System) : eAsyncState :=
  s.queue.m_State

/-- The method `Queue::GetWorkThreadId` (line 129). -/
def Queue.GetWorkThreadId (s : System) : Option ThreadId :=
  s.queue.m_Id

/-- The method `Queue::GetName` (line 134). -/
def Queue.GetName (s : System) : String :=
  s.queue.m_Name

/-- What can happen next: a thread calls a method of the queue, or the
thread of the `i`-th activation of `_Routine` advances. -/
inductive Event where
  | Start (caller : ThreadId)
  | Stop (caller : ThreadId)
  | Post (caller : ThreadId) (task : tTask)
  | advance (i : Nat)

/-- Whether a thread is free to call the interface: a thread that executes
`_Routine` can only do so from inside a task. -/
def canCall (s : System) (caller : ThreadId) : Bool :=
  s.loops.all fun w =>
    decide (w.tid ≠ caller) ||
      match w.pc with
      | PC.inTask _ => true
      | PC.done => true
      | _ => false

/-- One step of the system. -/
def step (s : System) (e : Event) : Option System :=
  if s.terminated then none
  else
    match e with
    | Event.Start caller => if canCall s caller then Queue.Start caller s else none
    | Event.Stop caller => if canCall s caller then Queue.Stop s else none
    | Event.Post caller task => if canCall s caller then Queue.Post task s else none
    | Event.advance i => Queue._Routine s i

/-- A schedule, event after event. -/
def run (s : System) : List Event → Option System
  | [] => some s
  | e :: es => (step s e).bind fun s1 => run s1 es

/-- The labels of the tasks invoked so far, in order. -/
def System.executed (s : System) : List Nat :=
  s.trace.filterMap fun o =>
    match o with
    | Obs.invoke label => some label
    | Obs.handle _ => none

/-- The failures passed to the exception handler so far, in order. -/
def System.handled (s : System) : List Failure :=
  s.trace.filterMap fun o =>
    match o with
    | Obs.invoke _ => none
    | Obs.handle f => some f

/-- The states a freshly constructed queue can reach. -/
def Reachable (s : System) : Prop :=
  ∃ name handler policy evs, ExecutionPolicy.source policy = none ∧
    run (System.init name handler policy) evs = some s

/-- What holds of every reachable state: the `i`-th activation of `_Routine`
owns the `i`-th stop state; the execution policy holds the stop source of
the newest activation; an older activation has returned or is cancelled; on
the caller-driven policy a running activation is the newest one, has
published its thread, and the state tells whether it is cancelled; the
mutex is only held by an activation evaluating the predicate of its wait. -/
structure Consistent (s : System) : Prop where
  tokens : s.stopStates.length = s.loops.length
  token_eq : ∀ (i : Nat) (w : Loop), s.loops[i]? = some w → w.stopToken = i
  source : s.queue.m_ExecutionPolicy.source =
    if s.loops.length = 0 then none else some (s.loops.length - 1)
  older : ∀ (i : Nat) (w : Loop), s.loops[i]? = some w → i + 1 < s.loops.length →
    w.pc = PC.done ∨ stop_requested s i = true
  main : ∀ m, s.queue.m_ExecutionPolicy = ExecutionPolicy.MainThread m →
    ∀ (i : Nat) (w : Loop), s.loops[i]? = some w → w.pc ≠ PC.done →
      i + 1 = s.loops.length ∧ s.queue.m_Id = some w.tid ∧ w.pc ≠ PC.entry ∧
        s.queue.m_State =
          (if stop_requested s i then eAsyncState.Stopping else eAsyncState.Busy)
  mutex : s.queue.m_Mutex ≠ none → ∃ (j : Nat) (w : Loop), s.loops[j]? = some w ∧ w.pc = PC.locked

/-- A background queue after `Start`, the entry of its worker and the post
of two tasks, the second of which throws. -/
def busyBackground : System :=
  { queue :=
      { m_Name := "worker"
        m_ExceptionHandler := some fun _ => none
        m_ExecutionPolicy := ExecutionPolicy.BackgroundThread (some 0)
        m_State := eAsyncState.Busy
        m_Id := some (ThreadId.spawned 0)
        m_TaskQueue := [some { label := 1, raises := none }, some { label := 2, raises := some 7 }]
        m_Mutex := none }
    stopStates := [false]
    loops := [{ tid := ThreadId.spawned 0, stopToken := 0, pc := PC.loopHead }]
    trace := []
    terminated := false }

/-- The schedule that leads to `busyBackground`. -/
def busyBackgroundSchedule : List Event :=
  [Event.Start (ThreadId.user 0), Event.advance 0,
    Event.Post (ThreadId.user 0) (some { label := 1, raises := none }),
    Event.Post (ThreadId.user 1) (some { label := 2, raises := some 7 })]

/-- The state `busyBackground` after `Stop`. -/
def stoppingBackground : System :=
  { busyBackground with
    queue := { busyBackground.queue with m_State := eAsyncState.Stopping, m_TaskQueue := [] }
    stopStates := [true] }

/-- The state `stoppingBackground` after its worker has seen the stop
request and returned. -/
def stoppedBackground : System :=
  setPc (scopeExit stoppingBackground) 0 PC.done

/-- The state `stoppedBackground` with one task posted after the `Stop`. -/
def abandonedBackground : System :=
  { stoppedBackground with
    queue := { stoppedBackground.queue with
      m_TaskQueue := [some { label := 3, raises := none }] } }

/-- The handler, when there is one, returns normally whatever the failure. -/
def HandlerReturns (h : tExceptionHandler) : Prop :=
  ∀ handler, h = some handler → ∀ f, handler f = none

/-- What is observed of a callable after its invocation: the call of the
handler, when it throws and a handler is set. -/
def afterInvoke (h : tExceptionHandler) (c : Callable) : List Obs :=
  match c.raises, h with
  | some f, some _ => [Obs.handle f]
  | _, _ => []

/-- What is observed of a task the loop dequeues, when the handler returns:
nothing for an empty task, else its invocation and then `afterInvoke`. -/
def future (h : tExceptionHandler) : tTask → List Obs
  | none => []
  | some c => Obs.invoke c.label :: afterInvoke h c

/-- What is still to be observed of the task an activation holds. -/
def PC.owed (h : tExceptionHandler) : PC → List Obs
  | PC.popped task => future h task
  | PC.inTask c => afterInvoke h c
  | _ => []

/-- The observations so far, then those owed for the task the `n`-th
activation holds, then those of the pending tasks, in queue order. -/
def outlook (s : System) (n : Nat) : List Obs :=
  s.trace ++
    (match s.loops[n]? with
      | some w => w.pc.owed s.queue.m_ExceptionHandler
      | none => []) ++
    s.queue.m_TaskQueue.flatMap (future s.queue.m_ExceptionHandler)

/-- The tasks a schedule posts, in order. -/
def posted : List Event → List tTask
  | [] => []
  | Event.Post _ task :: es => task :: posted es
  | _ :: es => posted es

/-- Calls of `Start` and `Stop`. -/
def Event.isControl : Event → Bool
  | Event.Start _ => true
  | Event.Stop _ => true
  | _ => false

/-- The `n`-th activation is the only one that has not returned, it is not
cancelled, the process is alive, the handler returns, and the mutex is free
unless this activation holds it. -/
structure Solo (s : System) (n : Nat) : Prop where
  alive : s.terminated = false
  handler : HandlerReturns s.queue.m_ExceptionHandler
  others : ∀ (j : Nat) (w : Loop), s.loops[j]? = some w → j ≠ n → w.pc = PC.done
  loop : ∃ w, s.loops[n]? = some w ∧ w.pc ≠ PC.done ∧ stop_requested s w.stopToken = false ∧
    (w.pc ≠ PC.locked → s.queue.m_Mutex = none)

/-- Steps left before the position `waiting`, within one turn of the loop. -/
def PC.rank : PC → Nat
  | PC.entry => 4
  | PC.loopHead => 3
  | PC.waiting => 2
  | PC.locked => 1
  | PC.popped _ => 5
  | PC.inTask _ => 4
  | PC.done => 0

/-- A bound on the steps the `n`-th activation needs to drain the queue. -/
def effort (s : System) (n : Nat) : Nat :=
  7 * s.queue.m_TaskQueue.length +
    match s.loops[n]? with
    | some w => w.pc.rank
    | none => 0

/-- The queue is empty and the `n`-th activation waits for a task. -/
def Idle (s : System) (n : Nat) : Prop :=
  s.queue.m_TaskQueue = [] ∧ ∃ w, s.loops[n]? = some w ∧ w.pc = PC.waiting

/-- No activation of `_Routine` is running: each has returned. -/
def Quiescent (s : System) : Prop :=
  ∀ (j : Nat) (w : Loop), s.loops[j]? = some w → w.pc = PC.done

/-- The labels of the non-empty tasks of a list, in order. -/
def labels (tasks : List tTask) : List Nat :=
  tasks.filterMap fun task => task.map Callable.label

/-- The failures of the tasks of a list that throw, in order. -/
def failures (tasks : List tTask) : List Failure :=
  tasks.filterMap fun task => task.bind Callable.raises

/-- The queue is not running: every activation of `_Routine` has returned
or has its stop requested. -/
def Wound (s : System) : Prop :=
  ∀ (j : Nat) (w : Loop), s.loops[j]? = some w →
    w.pc = PC.done ∨ stop_requested s w.stopToken = true

/-- The non-empty task an activation has dequeued and not yet completed. -/
def PC.held : PC → List tTask
  | PC.popped (some c) => [some c]
  | PC.inTask c => [some c]
  | _ => []

/-- The tasks that the activations hold. -/
def System.heldTasks (s : System) : List tTask :=
  s.loops.flatMap fun w => w.pc.held

/-- An observation that one of `tasks` can cause: the invocation of one
of them, the call of the handler with the failure of one of them, or the
call of the handler with a failure the handler itself threw. -/
def Allowed (h : tExceptionHandler) (tasks : List tTask) (o : Obs) : Prop :=
  match o with
  | Obs.invoke label => ∃ c, some c ∈ tasks ∧ c.label = label
  | Obs.handle f =>
    (∃ c, some c ∈ tasks ∧ c.raises = some f) ∨
      ∃ handler f0, h = some handler ∧ handler f0 = some f

/-- What a step can add: observations caused by tasks the activations hold;
and the tasks held or pending afterwards were held or pending before, or
are posted by this step. -/
def Accounted (s s1 : System) (e : Event) : Prop :=
  s1.queue.m_ExceptionHandler = s.queue.m_ExceptionHandler ∧
  (∃ Y, s1.trace = s.trace ++ Y ∧ ∀ o ∈ Y, Allowed s.queue.m_ExceptionHandler s.heldTasks o) ∧
  ∀ t, t ∈ s1.heldTasks ++ s1.queue.m_TaskQueue →
    t ∈ s.heldTasks ++ s.queue.m_TaskQueue ++ posted [e]

/-- What no step changes: the name, the handler, the kind of execution
policy, and the thread and stop state of the activations that exist. -/
def Kept (s s1 : System) : Prop :=
  s1.queue.m_Name = s.queue.m_Name ∧
  s1.queue.m_ExceptionHandler = s.queue.m_ExceptionHandler ∧
  ((∃ m, s.queue.m_ExecutionPolicy = ExecutionPolicy.MainThread m) →
    ∃ m, s1.queue.m_ExecutionPolicy = ExecutionPolicy.MainThread m) ∧
  ∀ (n : Nat) (w : Loop), s.loops[n]? = some w →
    ∃ w1, s1.loops[n]? = some w1 ∧ w1.tid = w.tid ∧ w1.stopToken = w.stopToken

/-- Calls of `Stop`. -/
def Event.isStop : Event → Bool
  | Event.Stop _ => true
  | _ => false

/-- What holds of the mutex in every reachable state: a thread that holds
it executes an activation that evaluates the predicate of its wait, such an
activation holds it, and the activations of the background policy run on
threads of their own. -/
structure Exclusive (s : System) : Prop where
  holder : ∀ t, s.queue.m_Mutex = some t →
    ∃ (j : Nat) (w : Loop), s.loops[j]? = some w ∧ w.pc = PC.locked ∧ w.tid = t
  locked : ∀ (j : Nat) (w : Loop), s.loops[j]? = some w → w.pc = PC.locked →
    s.queue.m_Mutex = some w.tid
  tids : ∀ m, s.queue.m_ExecutionPolicy = ExecutionPolicy.BackgroundThread m →
    ∀ (j : Nat) (w : Loop), s.loops[j]? = some w → w.tid = ThreadId.spawned j

/-- The background queue while its worker executes the task 5 and the task 6
is pending. -/
def backgroundInTask : System :=
  { queue :=
      { m_Name := "worker"
        m_ExceptionHandler := none
        m_ExecutionPolicy := ExecutionPolicy.BackgroundThread (some 0)
        m_State := eAsyncState.Busy
        m_Id := some (ThreadId.spawned 0)
        m_TaskQueue := [some { label := 6, raises := none }]
        m_Mutex := none }
    stopStates := [false]
    loops := [{ tid := ThreadId.spawned 0, stopToken := 0,
                pc := PC.inTask { label := 5, raises := none } }]
    trace := [Obs.invoke 5]
    terminated := false }

/-- The schedule that leads to `backgroundInTask`. -/
def backgroundInTaskSchedule : List Event :=
  [Event.Start (ThreadId.user 0),
    Event.Post (ThreadId.user 1) (some { label := 5, raises := none }),
    Event.Post (ThreadId.user 1) (some { label := 6, raises := none }),
    Event.advance 0, Event.advance 0, Event.advance 0, Event.advance 0, Event.advance 0]

/-- The constant `QueueManager::mainQueueName` (QueueManager.cpp, line 122). -/
def mainQueueName : String := "Darkness.Concurrency.MainQueue"

/-- Whether the execution policy is `MainThreadExecutionPolicy`. -/
def ExecutionPolicy.isMain : ExecutionPolicy → Bool
  | ExecutionPolicy.MainThread _ => true
  | ExecutionPolicy.BackgroundThread _ => false

/-- A `Queue` object made by `std::make_shared`, with its threads.  The
registry owns it through the `tQueuePtr` of its store; `holders` counts the
other owners: the `std::shared_ptr` that callers got from `lock()` on a
`tQueueWeakPtr`.  `alive` is false once the destructor has begun. -/
structure Cell where
  queue : System
  holders : Nat
  alive : Bool

/-- A thread inside `m_QueuesStore.erase` or `m_QueuesStore.clear`, which it
called under `m_Access`: it is in the destructor of the object `joining`,
waiting in the `join` of the `std::jthread` of that object, and has still to
give up the pointers `rest`; `caller p` is the identity under which the
object `p` knows this thread. -/
structure Removal where
  joining : Nat
  rest : List Nat
  caller : Nat → ThreadId

/-- The class `QueueManager::_Impl` (QueueManager.cpp, line 17).  An entry of
`m_QueuesStore` maps a name to a pointer, the index of the object in `heap`;
a `tQueueWeakPtr` handed to a caller is such an index too.  Every member
function runs under the mutex `m_Access`.  A member function that does not
wait takes and releases it within its step, so that `m_Access` is `none`
between the steps; it is `some` while the thread that holds it waits, inside
`erase` or `clear`, for the thread of a queue it destroys. -/
structure QueueManager where
  m_QueuesStore : List (String × Nat)
  heap : List Cell
  m_Access : Option Removal

/-- The registry of `QueueManager::Instance()` when it is first used. -/
def QueueManager.init : QueueManager :=
  { m_QueuesStore := [], heap := [], m_Access := none }

/-- The method `_IsExists` (line 25): `m_QueuesStore.contains(name)`. -/
def QueueManager._IsExists (r : QueueManager) (name : String) : Bool :=
  r.m_QueuesStore.any fun e => e.1 == name

/-- The call `m_QueuesStore.find(name)` (line 36). -/
def QueueManager.find (r : QueueManager) (name : String) : Option Nat :=
  (r.m_QueuesStore.find? fun e => e.1 == name).map Prod.snd

/-- The method `_CreateOrGetBackgroundQueueByName` (line 31): the pointer
that is returned and the registry afterwards. -/
def QueueManager._CreateOrGetBackgroundQueueByName (name : String)
    (exceptionHandler : tExceptionHandler) (r : QueueManager) : Nat × QueueManager :=
  match r.find name with
  | none =>
    let executionPolicy :=
      if name = mainQueueName then ExecutionPolicy.MainThread none
      else ExecutionPolicy.BackgroundThread none
    (r.heap.length,
      { m_QueuesStore := r.m_QueuesStore ++ [(name, r.heap.length)]
        heap := r.heap ++
          [{ queue := System.init name exceptionHandler executionPolicy
             holders := 0
             alive := true }]
        m_Access := r.m_Access })
  | some found => (found, r)

/-- Whether `join` on the `std::jthread` of the execution policy returns at
once: the policy has no thread, or `_Routine` has returned in its thread. -/
def System.joined (s : System) : Bool :=
  match s.queue.m_ExecutionPolicy with
  | ExecutionPolicy.BackgroundThread (some worker) =>
    match s.loops[worker]? with
    | some w => decide (w.pc = PC.done)
    | none => true
  | _ => true

/-- The destructor `Queue::~Queue` (Queue.cpp, line 73) and the destruction
of the members after it, executed by the thread `caller`, up to the `join`:
`_Stop()`, then the execution policy, whose `std::jthread` requests the stop
of its thread and joins it.  A thread that joins itself gets
`std::system_error`, which leaves a destructor: `std::terminate`.  Any other
caller waits in the `join` as long as `System.joined` is false.  (The members
`m_Mutex` and `m_Condition` are destroyed before the execution policy,
Queue.hpp, lines 102 to 109; the thread being joined still uses them, which
is not represented.) -/
def Queue.destructor (caller : ThreadId) (s : System) : Option System :=
  (Queue._Stop s).map fun s1 =>
    match s1.queue.m_ExecutionPolicy with
    | ExecutionPolicy.BackgroundThread (some worker) =>
      let s2 := (request_stop s1 worker).2
      if caller = ThreadId.spawned worker ∧ s2.joined = false then
        { s2 with terminated := true }
      else
        s2
    | _ => s1

/-- The thread `caller` gives up a `tQueuePtr` of the registry to the
object `p`: the object is destroyed when no caller owns it. -/
def QueueManager.release (caller : ThreadId) (r : QueueManager) (p : Nat) :
    Option QueueManager :=
  match r.heap[p]? with
  | none => some r
  | some cell =>
    if cell.holders = 0 then
      (Queue.destructor caller cell.queue).map fun q =>
        { r with heap := r.heap.set p { cell with queue := q, alive := false } }
    else
      some r

/-- Whether a thread that is in the destructor of the object `p` waits in
the `join`: the object is being destroyed and its thread has not returned
from `_Routine`. -/
def QueueManager.waits (r : QueueManager) (p : Nat) : Bool :=
  match r.heap[p]? with
  | some cell => !cell.alive && !cell.queue.joined
  | none => false

/-- The thread that holds `m_Access` gives up a list of pointers one after
the other, up to the first destructor in which it has to wait; when none is
left it releases `m_Access`. -/
def QueueManager.releaseAll (caller : Nat → ThreadId) (r : QueueManager) :
    List Nat → Option QueueManager
  | [] => some { r with m_Access := none }
  | p :: ps =>
    (QueueManager.release (caller p) r p).bind fun r1 =>
      if r1.waits p then
        some { r1 with m_Access := some { joining := p, rest := ps, caller := caller } }
      else
        QueueManager.releaseAll caller r1 ps

/-- The method `_ForgetByName` (line 56), called by the thread `caller`:
`m_QueuesStore.erase(name)`, up to the return or to the `join` in which the
thread waits. -/
def QueueManager._ForgetByName (caller : ThreadId) (name : String) (r : QueueManager) :
    Option QueueManager :=
  match r.find name with
  | none => some r
  | some p =>
    QueueManager.releaseAll (fun _ => caller)
      { r with m_QueuesStore := r.m_QueuesStore.filter fun e => !(e.1 == name) } [p]

/-- The method `_KillAndForgetAll` (line 62), called by a thread that the
object `p` knows as `caller p`: `m_QueuesStore.clear()`, up to the return or
to the first `join` in which the thread waits. -/
def QueueManager._KillAndForgetAll (caller : Nat → ThreadId) (r : QueueManager) :
    Option QueueManager :=
  QueueManager.releaseAll caller { r with m_QueuesStore := [] } (r.m_QueuesStore.map Prod.snd)

/-- The thread that waits inside `erase` or `clear` goes on when the thread
it joins has returned from `_Routine`: it gives up the pointers that are
left, up to the next `join` in which it has to wait, or returns and releases
`m_Access`. -/
def QueueManager.resume (r : QueueManager) : Option QueueManager :=
  match r.m_Access with
  | none => none
  | some removal =>
    if r.waits removal.joining then none
    else QueueManager.releaseAll removal.caller r removal.rest

/-- The method `QueueManager::CreateOrGetBackgroundQueueByName` (line 81). -/
def QueueManager.CreateOrGetBackgroundQueueByName (name : String)
    (exceptionHandler : tExceptionHandler) (r : QueueManager) : Nat × QueueManager :=
  QueueManager._CreateOrGetBackgroundQueueByName name exceptionHandler r

/-- The method `QueueManager::IsExists` (line 87). -/
def QueueManager.IsExists (r : QueueManager) (name : String) : Bool :=
  QueueManager._IsExists r name

/-- The method `QueueManager::IsMainExists` (line 92). -/
def QueueManager.IsMainExists (r : QueueManager) : Bool :=
  QueueManager.IsExists r mainQueueName

/-- The method `QueueManager::CreateOrGetMainQueue` (line 97). -/
def QueueManager.CreateOrGetMainQueue (exceptionHandler : tExceptionHandler)
    (r : QueueManager) : Nat × QueueManager :=
  QueueManager.CreateOrGetBackgroundQueueByName mainQueueName exceptionHandler r

/-- The method `QueueManager::ForgetByName` (line 102). -/
def QueueManager.ForgetByName (caller : ThreadId) (name : String) (r : QueueManager) :
    Option QueueManager :=
  QueueManager._ForgetByName caller name r

/-- The method `QueueManager::ForgetMainQueue` (line 107). -/
def QueueManager.ForgetMainQueue (caller : ThreadId) (r : QueueManager) :
    Option QueueManager :=
  QueueManager.ForgetByName caller mainQueueName r

/-- The method `QueueManager::KillAndForgetAll` (line 112). -/
def QueueManager.KillAndForgetAll (caller : Nat → ThreadId) (r : QueueManager) :
    Option QueueManager :=
  QueueManager._KillAndForgetAll caller r

/-- What the threads of the program do with the registry and its queues: the
calls of the registry, `lock()` on a handle, the release of the
`std::shared_ptr` that `lock()` gave, an event of one queue, and the
continuation of the thread that waits inside `erase` or `clear`.  The thread
that calls `ForgetByName` or `ForgetMainQueue` is given by the identity under
which the queue registered under the name knows it, the thread that calls
`KillAndForgetAll` by the identity under which each object knows it, the
thread that releases a `std::shared_ptr` by the identity under which the
object it releases knows it. -/
inductive Call where
  | CreateOrGetBackgroundQueueByName (name : String) (exceptionHandler : tExceptionHandler)
  | CreateOrGetMainQueue (exceptionHandler : tExceptionHandler)
  | ForgetByName (caller : ThreadId) (name : String)
  | ForgetMainQueue (caller : ThreadId)
  | KillAndForgetAll (caller : Nat → ThreadId)
  | resume
  | lock (p : Nat)
  | reset (caller : ThreadId) (p : Nat)
  | queue (p : Nat) (e : Event)

/-- The call `lock()` on the handle `p`: an owner more, if the object is
alive. -/
def QueueManager.lock (r : QueueManager) (p : Nat) : Option QueueManager :=
  match r.heap[p]? with
  | none => none
  | some cell =>
    if cell.alive then
      some { r with heap := r.heap.set p { cell with holders := cell.holders + 1 } }
    else
      none

/-- The thread `caller` releases its `std::shared_ptr` to the object `p`,
which is destroyed, in this thread, when this was the last owner.  The thread
then waits in the `join` of the destructor, outside the registry; this wait
is not represented, as the steps of a thread of the application are not told
from those of another. -/
def QueueManager.reset (caller : ThreadId) (r : QueueManager) (p : Nat) :
    Option QueueManager :=
  match r.heap[p]? with
  | none => none
  | some cell =>
    if cell.holders = 0 then none
    else if cell.holders = 1 ∧ r.m_QueuesStore.all (fun e => e.2 != p) then
      (Queue.destructor caller cell.queue).map fun q =>
        { r with heap := r.heap.set p { queue := q, holders := 0, alive := false } }
    else
      some { r with heap := r.heap.set p { cell with holders := cell.holders - 1 } }

/-- Whether `std::terminate` was called in the process. -/
def QueueManager.terminated (r : QueueManager) : Bool :=
  r.heap.any fun cell => cell.queue.terminated

/-- Steps of a thread in `_Routine`. -/
def Event.isAdvance : Event → Bool
  | Event.advance _ => true
  | _ => false

/-- Whether the thread that the object `p` knows as `caller p` is free to
call, as far as the objects `ps` are concerned: it does not execute
`_Routine` of one of them, unless it is inside a task. -/
def QueueManager.mayCall (r : QueueManager) (caller : Nat → ThreadId) (ps : List Nat) : Bool :=
  ps.all fun p =>
    match r.heap[p]? with
    | some cell => canCall cell.queue (caller p)
    | none => true

/-- Calls of `CreateOrGetBackgroundQueueByName` and `CreateOrGetMainQueue`. -/
def Call.isCreate : Call → Bool
  | Call.CreateOrGetBackgroundQueueByName _ _ => true
  | Call.CreateOrGetMainQueue _ => true
  | _ => false

/-- One step of the program around the registry.  Nothing happens after
`std::terminate`.  A member function of the registry is entered when
`m_Access` is free.  A thread whose identity is given calls when it is free
to call, as far as the objects are concerned that the call can destroy.  The
interface of a queue is called on an object that is alive; the threads that
are inside `_Routine` when the object is destroyed go on. -/
def QueueManager.call (r : QueueManager) (c : Call) : Option QueueManager :=
  if r.terminated then none
  else
    match c with
    | Call.CreateOrGetBackgroundQueueByName name exceptionHandler =>
      if r.m_Access.isNone then
        some (QueueManager.CreateOrGetBackgroundQueueByName name exceptionHandler r).2
      else none
    | Call.CreateOrGetMainQueue exceptionHandler =>
      if r.m_Access.isNone then
        some (QueueManager.CreateOrGetMainQueue exceptionHandler r).2
      else none
    | Call.ForgetByName caller name =>
      if r.m_Access.isNone && r.mayCall (fun _ => caller) (r.find name).toList then
        QueueManager.ForgetByName caller name r
      else none
    | Call.ForgetMainQueue caller =>
      if r.m_Access.isNone && r.mayCall (fun _ => caller) (r.find mainQueueName).toList then
        QueueManager.ForgetMainQueue caller r
      else none
    | Call.KillAndForgetAll caller =>
      if r.m_Access.isNone && r.mayCall caller (r.m_QueuesStore.map Prod.snd) then
        QueueManager.KillAndForgetAll caller r
      else none
    | Call.resume => QueueManager.resume r
    | Call.lock p => QueueManager.lock r p
    | Call.reset caller p =>
      if r.mayCall (fun _ => caller) [p] then QueueManager.reset caller r p else none
    | Call.queue p e =>
      match r.heap[p]? with
      | none => none
      | some cell =>
        if cell.alive || e.isAdvance then
          (step cell.queue e).map fun q =>
            { r with heap := r.heap.set p { cell with queue := q } }
        else
          none

/-- A schedule of the program around the registry. -/
def QueueManager.calls (r : QueueManager) : List Call → Option QueueManager
  | [] => some r
  | c :: cs => (QueueManager.call r c).bind fun r1 => QueueManager.calls r1 cs

/-- The registry states that a program can reach. -/
def QueueManager.Reachable (r : QueueManager) : Prop :=
  ∃ cs, QueueManager.calls QueueManager.init cs = some r

/-- What holds of every reachable registry: no name is registered twice; a
registered name maps to a live object that carries this name and whose
execution policy is the one of the main thread exactly for `mainQueueName`;
and the pointers that a thread waiting inside `erase` or `clear` has still
to give up differ from each other, point to objects and are not registered
any more. -/
structure QueueManager.Sound (r : QueueManager) : Prop where
  keys : (r.m_QueuesStore.map Prod.fst).Nodup
  cells : ∀ (name : String) (p : Nat), (name, p) ∈ r.m_QueuesStore →
    ∃ cell, r.heap[p]? = some cell ∧ cell.alive = true ∧
      cell.queue.queue.m_Name = name ∧
      (cell.queue.queue.m_ExecutionPolicy.isMain = true ↔ name = mainQueueName)
  access : ∀ rem, r.m_Access = some rem → rem.rest.Nodup ∧ ∀ p ∈ rem.rest,
    p < r.heap.length ∧ ∀ n, (n, p) ∉ r.m_QueuesStore

/-- Every object that is alive is in a state that a queue can reach from its
construction through its interface and the steps of its threads. -/
def QueueManager.Live (r : QueueManager) : Prop :=
  ∀ (p : Nat) (cell : Cell), r.heap[p]? = some cell → cell.alive = true →
    Darkness.Concurrency.Reachable cell.queue

/-- A program that registers a background queue, starts it through a locked
handle, posts the task 5, releases the handle and lets the worker reach its
wait. -/
def busyRegisteredCalls : List Call :=
  [Call.CreateOrGetBackgroundQueueByName "worker" none,
    Call.lock 0,
    Call.queue 0 (Event.Start (ThreadId.user 0)),
    Call.queue 0 (Event.Post (ThreadId.user 0) (some { label := 5, raises := none })),
    Call.reset (ThreadId.user 0) 0,
    Call.queue 0 (Event.advance 0),
    Call.queue 0 (Event.advance 0)]

/-- The registry after `busyRegisteredCalls`: the queue "worker" is `Busy`,
the task 5 is pending, no caller owns the queue. -/
def busyRegistered : QueueManager :=
  { m_QueuesStore := [("worker", 0)]
    heap :=
      [{ queue :=
           { queue :=
               { m_Name := "worker"
                 m_ExceptionHandler := none
                 m_ExecutionPolicy := ExecutionPolicy.BackgroundThread (some 0)
                 m_State := eAsyncState.Busy
                 m_Id := some (ThreadId.spawned 0)
                 m_TaskQueue := [some { label := 5, raises := none }]
                 m_Mutex := none }
             stopStates := [false]
             loops := [{ tid := ThreadId.spawned 0, stopToken := 0, pc := PC.waiting }]
             trace := []
             terminated := false }
         holders := 0
         alive := true }]
    m_Access := none }

/-- The same program without the release of the handle. -/
def busyHeldCalls : List Call :=
  [Call.CreateOrGetBackgroundQueueByName "worker" none,
    Call.lock 0,
    Call.queue 0 (Event.Start (ThreadId.user 0)),
    Call.queue 0 (Event.Post (ThreadId.user 0) (some { label := 5, raises := none })),
    Call.queue 0 (Event.advance 0),
    Call.queue 0 (Event.advance 0)]

/-- The registry after `busyHeldCalls`: as `busyRegistered`, and a caller
owns the queue. -/
def busyHeld : QueueManager :=
  { m_QueuesStore := [("worker", 0)]
    heap :=
      [{ queue :=
           { queue :=
               { m_Name := "worker"
                 m_ExceptionHandler := none
                 m_ExecutionPolicy := ExecutionPolicy.BackgroundThread (some 0)
                 m_State := eAsyncState.Busy
                 m_Id := some (ThreadId.spawned 0)
                 m_TaskQueue := [some { label := 5, raises := none }]
                 m_Mutex := none }
             stopStates := [false]
             loops := [{ tid := ThreadId.spawned 0, stopToken := 0, pc := PC.waiting }]
             trace := []
             terminated := false }
         holders := 1
         alive := true }]
    m_Access := none }

/-- A program that registers three queues, the first under the reserved name
through `CreateOrGetBackgroundQueueByName`, and starts two of them. -/
def namedCalls : List Call :=
  [Call.CreateOrGetBackgroundQueueByName "Darkness.Concurrency.MainQueue" none,
    Call.CreateOrGetBackgroundQueueByName "MainQueue" none,
    Call.CreateOrGetBackgroundQueueByName "darkness.concurrency.mainqueue" none,
    Call.queue 0 (Event.Start (ThreadId.user 0)),
    Call.queue 1 (Event.Start (ThreadId.user 1))]

/-- The registry after `namedCalls`. -/
def namedRegistry : QueueManager :=
  (QueueManager.calls QueueManager.init namedCalls).getD QueueManager.init
/-- Steps that an activation whose stop is requested has left before it
returns. -/
def PC.left : PC → Nat
  | PC.done => 0
  | PC.loopHead => 1
  | PC.entry => 2
  | PC.popped none => 2
  | PC.inTask _ => 2
  | PC.popped (some _) => 3
  | PC.locked => 3
  | PC.waiting => 4

/-- A program that registers a background queue, starts it through a locked
handle, posts the task 5, releases the handle and lets the worker dequeue
the task and invoke it. -/
def inTaskCalls : List Call :=
  [Call.CreateOrGetBackgroundQueueByName "worker" none,
    Call.lock 0,
    Call.queue 0 (Event.Start (ThreadId.user 0)),
    Call.queue 0 (Event.Post (ThreadId.user 0) (some { label := 5, raises := none })),
    Call.reset (ThreadId.user 0) 0,
    Call.queue 0 (Event.advance 0),
    Call.queue 0 (Event.advance 0),
    Call.queue 0 (Event.advance 0),
    Call.queue 0 (Event.advance 0),
    Call.queue 0 (Event.advance 0)]

/-- The registry after `inTaskCalls`: the queue "worker" is `Busy`, its
worker is inside the task 5, no caller owns the queue. -/
def inTaskRegistered : QueueManager :=
  { m_QueuesStore := [("worker", 0)]
    heap :=
      [{ queue :=
           { queue :=
               { m_Name := "worker"
                 m_ExceptionHandler := none
                 m_ExecutionPolicy := ExecutionPolicy.BackgroundThread (some 0)
                 m_State := eAsyncState.Busy
                 m_Id := some (ThreadId.spawned 0)
                 m_TaskQueue := []
                 m_Mutex := none }
             stopStates := [false]
             loops :=
               [{ tid := ThreadId.spawned 0, stopToken := 0
                  pc := PC.inTask { label := 5, raises := none } }]
             trace := [Obs.invoke 5]
             terminated := false }
         holders := 0
         alive := true }]
    m_Access := none }

/-- The registry `busyRegistered` after `ForgetByName("worker")`, called by a
thread of the application: the queue is destroyed and `Stopping`, the stop of
its worker is requested, and the caller waits, inside the registry, for the
worker. -/
def busyForgotten : QueueManager :=
  { m_QueuesStore := []
    heap :=
      [{ queue :=
           { queue :=
               { m_Name := "worker"
                 m_ExceptionHandler := none
                 m_ExecutionPolicy := ExecutionPolicy.BackgroundThread (some 0)
                 m_State := eAsyncState.Stopping
                 m_Id := some (ThreadId.spawned 0)
                 m_TaskQueue := []
                 m_Mutex := none }
             stopStates := [true]
             loops := [{ tid := ThreadId.spawned 0, stopToken := 0, pc := PC.waiting }]
             trace := []
             terminated := false }
         holders := 0
         alive := false }]
    m_Access := some { joining := 0, rest := [], caller := fun _ => ThreadId.user 1 } }

/-- The steps of the worker of `busyForgotten` up to its return from
`_Routine`. -/
def workerReturns : List Call :=
  [Call.queue 0 (Event.advance 0),
    Call.queue 0 (Event.advance 0),
    Call.queue 0 (Event.advance 0),
    Call.queue 0 (Event.advance 0)]

/-- The registry `busyForgotten` after `workerReturns`: the queue is
`Stopped`. -/
def busyJoined : QueueManager :=
  { m_QueuesStore := []
    heap :=
      [{ queue :=
           { queue :=
               { m_Name := "worker"
                 m_ExceptionHandler := none
                 m_ExecutionPolicy := ExecutionPolicy.BackgroundThread (some 0)
                 m_State := eAsyncState.Stopped
                 m_Id := none
                 m_TaskQueue := []
                 m_Mutex := none }
             stopStates := [true]
             loops := [{ tid := ThreadId.spawned 0, stopToken := 0, pc := PC.done }]
             trace := []
             terminated := false }
         holders := 0
         alive := false }]
    m_Access := some { joining := 0, rest := [], caller := fun _ => ThreadId.user 1 } }

/-- The type `AsyncTimer::tDurationDelay` (AsyncTimer.hpp, line 24), in
nanoseconds. -/
abbrev tDurationDelay := Nat

/-- The type `AsyncTimer::tDurationDelayRuntimeProvider` (AsyncTimer.hpp,
line 25); `none` is the empty `std::function`.  The `n`-th call of a provider
returns a delay or throws. -/
abbrev tDurationDelayRuntimeProvider := Option (Nat → Except Failure tDurationDelay)

/-- The type `tTask` as the timer uses it, a callable that is invoked again
and again: the `n`-th invocation returns (`none`) or throws (`some f`);
`none` is the empty `std::function`. -/
abbrev tPeriodicTask := Option (Nat → Option Failure)

/-- The exception `std::invalid_argument` of AsyncTimer.cpp, line 301. -/
def invalid_argument : Failure := 22

/-- The exception `std::bad_function_call` that the call of an empty
`std::function` throws. -/
def bad_function_call : Failure := 23

/-- The variant `_Params::tDelayProviderHolder` (AsyncTimer.cpp, line 31). -/
inductive tDelayProviderHolder where
  | provider (durationDelayRuntimeProvider : tDurationDelayRuntimeProvider)
  | delay (durationDelay : tDurationDelay)

/-- The structure `AsyncTimer::_Impl::_Params` (AsyncTimer.cpp, line 29). -/
structure AsyncTimer._Params where
  delayProviderHolder : tDelayProviderHolder
  task : tPeriodicTask
  exceptionHandler : tExceptionHandler
  name : String

/-- Where the thread of an execution context is in `_Impl::_Routine`
(AsyncTimer.cpp, line 200):
`entry`: the thread exists and has not executed line 210 yet;
`compute`: it holds the mutex of its context and is at line 225, the
computation of the delay;
`waiting`: inside `wait_for`, the mutex released;
`woke isStopped`: `wait_for` has returned `isStopped`, the mutex is held
again, next is the test of line 242;
`inTask isStopped raises`: inside the task, which will return or throw;
`afterTask isStopped`: at line 250;
`caught exceptionPtr`: in the handler of line 257, the lock released by the
unwinding;
`done`: `_Routine` has returned. -/
inductive AsyncTimer.PC where
  | entry
  | compute
  | waiting
  | woke (isStopped : Bool)
  | inTask (isStopped : Bool) (raises : Option Failure)
  | afterTask (isStopped : Bool)
  | caught (exceptionPtr : Failure)
  | done
  deriving DecidableEq, Repr

/-- The structure `AsyncTimer::_Impl::_ExecutionContext` (AsyncTimer.cpp,
line 52) with its thread: `stop` is the stop state of `thread`, `pc` the
position of this thread. -/
structure AsyncTimer._ExecutionContext where
  stop : Bool
  pc : AsyncTimer.PC
  deriving DecidableEq, Repr

/-- What is observed of a timer: the `n`-th call of the delay provider, the
`n`-th invocation of the task, a call of the exception handler. -/
inductive AsyncTimer.Obs where
  | provide (n : Nat)
  | invoke (n : Nat)
  | handle (f : Failure)
  deriving DecidableEq, Repr

/-- The class `AsyncTimer::_Impl` (AsyncTimer.cpp, line 25) and the process
around it.  `contexts` holds every execution context that was created;
`m_ExecutionContext` is the index of the one the timer holds, `none` for a
null pointer.  `provided` and `invoked` count the calls of the delay provider
and of the task, `trace` lists what was observed, `terminated` is set when
`std::terminate` was called. -/
structure AsyncTimer where
  m_Params : Option AsyncTimer._Params
  m_ExecutionContext : Option Nat
  m_State : eAsyncState
  contexts : List AsyncTimer._ExecutionContext
  provided : Nat
  invoked : Nat
  trace : List AsyncTimer.Obs
  terminated : Bool

/-- The constructors of `_Impl` (AsyncTimer.cpp, lines 87, 89 and 96): the
members as given, no execution context, the state `Free`. -/
def AsyncTimer._Impl (m_Params : Option AsyncTimer._Params) : AsyncTimer :=
  { m_Params := m_Params
    m_ExecutionContext := none
    m_State := eAsyncState.Free
    contexts := []
    provided := 0
    invoked := 0
    trace := []
    terminated := false }

/-- Move the thread of the context `i` to another position. -/
def AsyncTimer.setPc (t : AsyncTimer) (i : Nat) (pc : AsyncTimer.PC) : AsyncTimer :=
  { t with contexts := t.contexts.modify (fun w => { w with pc := pc }) i }

/-- The call `thread.request_stop()` on the context `i`. -/
def AsyncTimer.request_stop (t : AsyncTimer) (i : Nat) : AsyncTimer :=
  { t with contexts := t.contexts.modify (fun w => { w with stop := true }) i }

/-- The `ScopeExit` of `_Routine` (AsyncTimer.cpp, line 213). -/
def AsyncTimer.scopeExit (t : AsyncTimer) : AsyncTimer :=
  { t with m_State := eAsyncState.Stopped }

/-- One step of the thread of the context `i` in `_Impl::_Routine`
(AsyncTimer.cpp, line 200).  Only this thread locks the mutex of its context,
so no step waits for it. -/
def AsyncTimer._Routine (t : AsyncTimer) (i : Nat) : AsyncTimer :=
  match t.contexts[i]? with
  | none => t
  | some w =>
    match t.m_Params with
    | none =>
      match w.pc with
      | AsyncTimer.PC.done => t
      | _ =>
        -- `m_Params->name` on an empty optional (line 205)
        { t with terminated := true }
    | some params =>
      match w.pc with
      | AsyncTimer.PC.entry =>
        -- m_ExecutionContext->id = ...; m_State = eAsyncState::Busy; the lock of line 221
        AsyncTimer.setPc { t with m_State := eAsyncState.Busy } i AsyncTimer.PC.compute
      | AsyncTimer.PC.compute =>
        -- auto const delay = std::visit(...)
        match params.delayProviderHolder with
        | tDelayProviderHolder.delay _ => AsyncTimer.setPc t i AsyncTimer.PC.waiting
        | tDelayProviderHolder.provider none =>
          AsyncTimer.setPc t i (AsyncTimer.PC.caught bad_function_call)
        | tDelayProviderHolder.provider (some provider) =>
          let t1 : AsyncTimer :=
            { t with provided := t.provided + 1
                     trace := t.trace ++ [AsyncTimer.Obs.provide t.provided] }
          match provider t.provided with
          | Except.ok _ => AsyncTimer.setPc t1 i AsyncTimer.PC.waiting
          | Except.error f => AsyncTimer.setPc t1 i (AsyncTimer.PC.caught f)
      | AsyncTimer.PC.waiting =>
        -- isStopped = condition.wait_for(lock, delay, pred): the value of the predicate
        AsyncTimer.setPc t i (AsyncTimer.PC.woke w.stop)
      | AsyncTimer.PC.woke isStopped =>
        -- if (!isStopped || !stopToken.stop_requested())
        if !isStopped || !w.stop then
          match params.task with
          | none => AsyncTimer.setPc t i (AsyncTimer.PC.afterTask isStopped)
          | some task =>
            -- m_Params->task();
            AsyncTimer.setPc
              { t with invoked := t.invoked + 1
                       trace := t.trace ++ [AsyncTimer.Obs.invoke t.invoked] }
              i (AsyncTimer.PC.inTask isStopped (task t.invoked))
        else
          AsyncTimer.setPc t i (AsyncTimer.PC.afterTask isStopped)
      | AsyncTimer.PC.inTask isStopped raises =>
        match raises with
        | none => AsyncTimer.setPc t i (AsyncTimer.PC.afterTask isStopped)
        | some f => AsyncTimer.setPc t i (AsyncTimer.PC.caught f)
      | AsyncTimer.PC.afterTask isStopped =>
        -- if (stopToken.stop_requested()) isStopped = true;
        let isStopped1 := if w.stop then true else isStopped
        -- while (!isStopped || !stopToken.stop_requested());
        if !isStopped1 || !w.stop then
          AsyncTimer.setPc t i AsyncTimer.PC.compute
        else
          AsyncTimer.setPc (AsyncTimer.scopeExit t) i AsyncTimer.PC.done
      | AsyncTimer.PC.caught exceptionPtr =>
        -- if (exceptionPtr && m_Params->exceptionHandler)
        match params.exceptionHandler with
        | none => AsyncTimer.setPc (AsyncTimer.scopeExit t) i AsyncTimer.PC.done
        | some handler =>
          let t1 : AsyncTimer :=
            { t with trace := t.trace ++ [AsyncTimer.Obs.handle exceptionPtr] }
          match handler exceptionPtr with
          | none => AsyncTimer.setPc (AsyncTimer.scopeExit t1) i AsyncTimer.PC.done
          | some _ =>
            -- an exception leaves a noexcept function
            { t1 with terminated := true }
      | AsyncTimer.PC.done => t

/-- The steps of the thread of the context `i`, as many as `fuel`, or until
`std::terminate`. -/
def AsyncTimer.advance (t : AsyncTimer) (i : Nat) : Nat → AsyncTimer
  | 0 => t
  | fuel + 1 =>
    if t.terminated then t else AsyncTimer.advance (AsyncTimer._Routine t i) i fuel

/-- The destructor of the context `i`, which is the destructor of its
`std::jthread`, executed by the thread `caller`: the stop is requested and
the thread is joined.  A thread that joins itself gets `std::system_error`,
which leaves a destructor: `std::terminate`.  Otherwise the caller waits
until `_Routine` has returned; a thread whose stop is requested returns
within five steps. -/
def AsyncTimer.destroy (caller : ThreadId) (t : AsyncTimer) (i : Nat) : AsyncTimer :=
  if caller = ThreadId.spawned i then
    { AsyncTimer.request_stop t i with terminated := true }
  else
    AsyncTimer.advance (AsyncTimer.request_stop t i) i 5

/-- The method `_Impl::_Start` (AsyncTimer.cpp, line 138), executed by the
thread `caller`: `std::make_unique<_ExecutionContext>(this)` creates a context
and its thread; the move assignment to `m_ExecutionContext` destroys the
context that was held. -/
def AsyncTimer._Start (caller : ThreadId) (t : AsyncTimer) : AsyncTimer :=
  match t.m_State with
  | eAsyncState.Free | eAsyncState.Stopped =>
    let t1 : AsyncTimer :=
      { t with contexts := t.contexts ++ [{ stop := false, pc := AsyncTimer.PC.entry }]
               m_ExecutionContext := some t.contexts.length }
    match t.m_ExecutionContext with
    | none => t1
    | some old => AsyncTimer.destroy caller t1 old
  | eAsyncState.Busy => t
  | eAsyncState.Stopping => t

/-- The method `_Impl::_Stop` (AsyncTimer.cpp, line 166), executed by the
thread `caller`. -/
def AsyncTimer._Stop (caller : ThreadId) (t : AsyncTimer) : AsyncTimer :=
  match t.m_State with
  | eAsyncState.Free | eAsyncState.Stopped => t
  | eAsyncState.Busy =>
    let t1 : AsyncTimer := { t with m_State := eAsyncState.Stopping }
    match t.m_ExecutionContext with
    | none =>
      -- `m_ExecutionContext->_Stop()` on a null pointer
      { t1 with terminated := true }
    | some i =>
      -- m_ExecutionContext->_Stop(); m_ExecutionContext.reset();
      { AsyncTimer.destroy caller (AsyncTimer.request_stop t1 i) i with
        m_ExecutionContext := none }
  | eAsyncState.Stopping => t

/-- The method `AsyncTimer::GetState` (AsyncTimer.cpp, line 328). -/
def AsyncTimer.GetState (t : AsyncTimer) : eAsyncState :=
  t.m_State

/-- The method `AsyncTimer::Start` (AsyncTimer.cpp, line 333). -/
def AsyncTimer.Start (caller : ThreadId) (t : AsyncTimer) : AsyncTimer :=
  AsyncTimer._Start caller t

/-- The method `AsyncTimer::Stop` (AsyncTimer.cpp, line 338). -/
def AsyncTimer.Stop (caller : ThreadId) (t : AsyncTimer) : AsyncTimer :=
  AsyncTimer._Stop caller t

/-- The constructor of AsyncTimer.cpp, line 293: the member `m_Impl` is
built, then an empty provider is refused with `std::invalid_argument`, which
destroys `m_Impl` again, whose destructor (line 103) calls `_Stop`.  The
result is the timer or the exception, and the execution contexts that exist
when the constructor is left. -/
def AsyncTimer.ofProvider (durationDelayRuntimeProvider : tDurationDelayRuntimeProvider)
    (task : tPeriodicTask) (name : String) (exceptionHandler : tExceptionHandler) :
    Except Failure AsyncTimer × List AsyncTimer._ExecutionContext :=
  let m_Impl := AsyncTimer._Impl (some
    { delayProviderHolder := tDelayProviderHolder.provider durationDelayRuntimeProvider
      task := task
      exceptionHandler := exceptionHandler
      name := name })
  match durationDelayRuntimeProvider with
  | none =>
    (Except.error invalid_argument, (AsyncTimer._Stop (ThreadId.user 0) m_Impl).contexts)
  | some _ => (Except.ok m_Impl, m_Impl.contexts)

/-- The constructor of AsyncTimer.cpp, line 343, which the constructor
template of AsyncTimer.hpp, line 37, delegates to. -/
def AsyncTimer.ofDelay (durationDelay : tDurationDelay) (task : tPeriodicTask)
    (name : String) (exceptionHandler : tExceptionHandler) : AsyncTimer :=
  AsyncTimer._Impl (some
    { delayProviderHolder := tDelayProviderHolder.delay durationDelay
      task := task
      exceptionHandler := exceptionHandler
      name := name })

/-- The default constructor (AsyncTimer.cpp, line 306). -/
def AsyncTimer.default : AsyncTimer :=
  AsyncTimer._Impl none

/-- What the threads of the program do with a timer: a call of `Start` or of
`Stop` by a thread, or a step of the thread of a context. -/
inductive AsyncTimer.Event where
  | Start (caller : ThreadId)
  | Stop (caller : ThreadId)
  | advance (i : Nat)

/-- Whether the thread `caller` is free to call the timer: a thread of an
execution context is so only from inside the task. -/
def AsyncTimer.canCall (t : AsyncTimer) (caller : ThreadId) : Bool :=
  match caller with
  | ThreadId.user _ => true
  | ThreadId.spawned i =>
    match t.contexts[i]? with
    | some w =>
      match w.pc with
      | AsyncTimer.PC.inTask _ _ => true
      | _ => false
    | none => false

/-- One step of the program around a timer. -/
def AsyncTimer.step (t : AsyncTimer) (e : AsyncTimer.Event) : Option AsyncTimer :=
  if t.terminated then none
  else
    match e with
    | AsyncTimer.Event.Start caller =>
      if AsyncTimer.canCall t caller then some (AsyncTimer.Start caller t) else none
    | AsyncTimer.Event.Stop caller =>
      if AsyncTimer.canCall t caller then some (AsyncTimer.Stop caller t) else none
    | AsyncTimer.Event.advance i =>
      if i < t.contexts.length then some (AsyncTimer._Routine t i) else none

/-- A schedule of the program around a timer. -/
def AsyncTimer.run (t : AsyncTimer) : List AsyncTimer.Event → Option AsyncTimer
  | [] => some t
  | e :: es => (AsyncTimer.step t e).bind fun t1 => AsyncTimer.run t1 es

/-- The timers that the public constructors make. -/
def AsyncTimer.Constructed (t : AsyncTimer) : Prop :=
  (∃ provider task name handler,
    (AsyncTimer.ofProvider provider task name handler).1 = Except.ok t) ∨
  (∃ delay task name handler, t = AsyncTimer.ofDelay delay task name handler) ∨
  t = AsyncTimer.default

/-- The states of a timer that a program can reach. -/
def AsyncTimer.Reachable (t : AsyncTimer) : Prop :=
  ∃ t0 evs, AsyncTimer.Constructed t0 ∧ AsyncTimer.run t0 evs = some t

/-- Calls of `Start`. -/
def AsyncTimer.Event.isStart : AsyncTimer.Event → Bool
  | AsyncTimer.Event.Start _ => true
  | _ => false
/-- How many steps a thread whose stop is requested is away, at most, from
the end of `_Routine`. -/
def AsyncTimer.PC.rank : AsyncTimer.PC → Nat
  | AsyncTimer.PC.entry => 5
  | AsyncTimer.PC.compute => 4
  | AsyncTimer.PC.waiting => 3
  | AsyncTimer.PC.woke true => 2
  | AsyncTimer.PC.woke false => 3
  | AsyncTimer.PC.inTask _ _ => 2
  | AsyncTimer.PC.afterTask _ => 1
  | AsyncTimer.PC.caught _ => 1
  | AsyncTimer.PC.done => 0

/-- A timer at rest: the thread of every context has returned from
`_Routine` and the state is `Stopped`. -/
def AsyncTimer.Halted (t : AsyncTimer) : Prop :=
  (∀ w ∈ t.contexts, w.pc = AsyncTimer.PC.done) ∧ t.m_State = eAsyncState.Stopped ∧
    t.terminated = false

/-- A timer with the fixed delay 10 whose task returns at every invocation. -/
def steadyTimer : AsyncTimer :=
  AsyncTimer.ofDelay 10 (some fun _ => none) "timer" none

/-- A timer with the fixed delay 10 whose task throws 7 at its first
invocation and would return at every later one; the handler returns. -/
def failingTimer : AsyncTimer :=
  AsyncTimer.ofDelay 10 (some fun n => if n = 0 then some 7 else none) "timer"
    (some fun _ => none)

/-- A timer whose delay provider throws 7 at its first call and would return
10 at every later one; the task and the handler return. -/
def failingProviderTimer : AsyncTimer :=
  AsyncTimer._Impl (some
    { delayProviderHolder := tDelayProviderHolder.provider
        (some fun n => if n = 0 then Except.error 7 else Except.ok 10)
      task := some fun _ => none
      exceptionHandler := some fun _ => none
      name := "timer" })

/-- The schedule `Start`, then as many steps of the thread of the first
context. -/
def startAndAdvance (steps : Nat) : List AsyncTimer.Event :=
  AsyncTimer.Event.Start (ThreadId.user 0) ::
    List.replicate steps (AsyncTimer.Event.advance 0)

/-- The timer `failingTimer` after `Start` and four steps of its thread: the
thread is inside the first invocation of the task, which will throw 7. -/
def failingTimerInTask : AsyncTimer :=
  { m_Params := failingTimer.m_Params
    m_ExecutionContext := some 0
    m_State := eAsyncState.Busy
    contexts := [{ stop := false, pc := AsyncTimer.PC.inTask false (some 7) }]
    provided := 0
    invoked := 1
    trace := [AsyncTimer.Obs.invoke 0]
    terminated := false }

/-- The timer `steadyTimer` after `Start` and four steps of its thread: the
thread is inside the first invocation of the task. -/
def steadyTimerInTask : AsyncTimer :=
  { m_Params := steadyTimer.m_Params
    m_ExecutionContext := some 0
    m_State := eAsyncState.Busy
    contexts := [{ stop := false, pc := AsyncTimer.PC.inTask false none }]
    provided := 0
    invoked := 1
    trace := [AsyncTimer.Obs.invoke 0]
    terminated := false }

/-- A program that calls `Start` twice before the first worker has run.  The
second worker publishes `Busy`; the first worker, whose stop the second
`Start` requested, runs to its end, so that the second `Start` can return.
The tasks 1 and 2 are posted and the second worker reaches the inside of
task 1.  `Start` is called a third time and the third worker reaches the
inside of task 2. -/
def overlappingSchedule : List Event :=
  [Event.Start (ThreadId.user 0), Event.Start (ThreadId.user 0),
    Event.advance 1, Event.advance 0, Event.advance 0,
    Event.Post (ThreadId.user 0) (some { label := 1, raises := none }),
    Event.Post (ThreadId.user 0) (some { label := 2, raises := none }),
    Event.advance 1, Event.advance 1, Event.advance 1, Event.advance 1,
    Event.Start (ThreadId.user 0),
    Event.advance 2, Event.advance 2, Event.advance 2, Event.advance 2, Event.advance 2]

/-- An exception handler that throws 8 when it is given the failure 7 and
returns on every other failure. -/
def throwingHandler : tExceptionHandler :=
  some fun f => if f = 7 then some 8 else none

/-- A program on a queue with `throwingHandler`: `Start`, the post of task 1,
which throws 7, and of task 2, then the steps of the worker up to the inside
of task 1. -/
def escapingSchedule : List Event :=
  [Event.Start (ThreadId.user 0),
    Event.Post (ThreadId.user 0) (some { label := 1, raises := some 7 }),
    Event.Post (ThreadId.user 0) (some { label := 2, raises := none }),
    Event.advance 0, Event.advance 0, Event.advance 0, Event.advance 0, Event.advance 0]

/-- The queue after `escapingSchedule`: the worker is inside task 1, task 2
is pending. -/
def escapingInTask : System :=
  { queue :=
      { m_Name := "worker"
        m_ExceptionHandler := throwingHandler
        m_ExecutionPolicy := ExecutionPolicy.BackgroundThread (some 0)
        m_State := eAsyncState.Busy
        m_Id := some (ThreadId.spawned 0)
        m_TaskQueue := [some { label := 2, raises := none }]
        m_Mutex := none }
    stopStates := [false]
    loops := [{ tid := ThreadId.spawned 0, stopToken := 0,
                pc := PC.inTask { label := 1, raises := some 7 } }]
    trace := [Obs.invoke 1]
    terminated := false }

/-- How many calls of the delay provider the computation of one delay makes
(AsyncTimer.cpp, line 225): one for a provider, none for a fixed delay. -/
def tDelayProviderHolder.calls : tDelayProviderHolder → Nat
  | tDelayProviderHolder.provider _ => 1
  | tDelayProviderHolder.delay _ => 0

/-- What is observed of the computation of one delay, the provider having
been called `p` times before. -/
def tDelayProviderHolder.observed (p : Nat) : tDelayProviderHolder → List AsyncTimer.Obs
  | tDelayProviderHolder.provider _ => [AsyncTimer.Obs.provide p]
  | tDelayProviderHolder.delay _ => []

/-- What is observed of `k` iterations of the loop of `_Routine` in which
the delay is computed and the task is invoked, the provider having been
called `p` times and the task `m` times before. -/
def AsyncTimer.iterations (holder : tDelayProviderHolder) (p m : Nat) :
    Nat → List AsyncTimer.Obs
  | 0 => []
  | k + 1 =>
    holder.observed p ++ [AsyncTimer.Obs.invoke m] ++
      AsyncTimer.iterations holder (p + holder.calls) (m + 1) k

/-- The delay provider, if there is one, is not empty and returns a delay
at each of its calls. -/
def tDelayProviderHolder.Provides : tDelayProviderHolder → Prop
  | tDelayProviderHolder.provider none => False
  | tDelayProviderHolder.provider (some f) => ∀ n, ∃ d, f n = Except.ok d
  | tDelayProviderHolder.delay _ => True

/-- A timer with a delay provider that returns 10 at every call and a task
that returns at every invocation. -/
def providedTimer : AsyncTimer :=
  AsyncTimer._Impl (some
    { delayProviderHolder := tDelayProviderHolder.provider (some fun _ => Except.ok 10)
      task := some fun _ => none
      exceptionHandler := none
      name := "timer" })

/-- The timer `providedTimer` after `Start` and the first step of its
thread, which is about to compute the first delay. -/
def providedTimerBusy : AsyncTimer :=
  { providedTimer with
    m_ExecutionContext := some 0
    m_State := eAsyncState.Busy
    contexts := [{ stop := false, pc := AsyncTimer.PC.compute }] }

/-- A program on the queue "worker" once it is registered: it is started
through a locked handle, the task 5 is posted and the worker publishes
`Busy`. -/
def handlerCalls : List Call :=
  [Call.lock 0,
    Call.queue 0 (Event.Start (ThreadId.user 0)),
    Call.queue 0 (Event.Post (ThreadId.user 0) (some { label := 5, raises := none })),
    Call.queue 0 (Event.advance 0)]

/-- The registry after the creation of "worker" with `throwingHandler` and
`handlerCalls`. -/
def handlerRegistry : QueueManager :=
  (QueueManager.calls
    (QueueManager.CreateOrGetBackgroundQueueByName "worker" throwingHandler
      QueueManager.init).2 handlerCalls).getD QueueManager.init

/-- A program that registers a queue under the empty name, starts it and
lets its worker publish `Busy`. -/
def emptyNameCalls : List Call :=
  [Call.CreateOrGetBackgroundQueueByName "" none,
    Call.lock 0,
    Call.queue 0 (Event.Start (ThreadId.user 0)),
    Call.queue 0 (Event.advance 0)]
/-- The calls of `Post` by one thread, task after task. -/
def posts (caller : ThreadId) (tasks : List tTask) : List Event :=
  tasks.map (Event.Post caller)

/-- The queue `escapingInTask` after the next step of its worker: the handler
threw, `_Routine` has returned, task 2 is pending. -/
def escapedQueue : System :=
  { queue :=
      { m_Name := "worker"
        m_ExceptionHandler := throwingHandler
        m_ExecutionPolicy := ExecutionPolicy.BackgroundThread (some 0)
        m_State := eAsyncState.Stopped
        m_Id := none
        m_TaskQueue := [some { label := 2, raises := none }]
        m_Mutex := none }
    stopStates := [false]
    loops := [{ tid := ThreadId.spawned 0, stopToken := 0, pc := PC.done }]
    trace := [Obs.invoke 1, Obs.handle 7, Obs.handle 8]
    terminated := false }

/-- A program on the caller-driven queue with `throwingHandler`: task 1,
which throws 7, and task 2 are posted before the queue is started; `Start`
is called, and the run loop takes its steps until `_Routine` returns. -/
def lostSchedule : List Event :=
  [Event.Post (ThreadId.user 1) (some { label := 1, raises := some 7 }),
    Event.Post (ThreadId.user 1) (some { label := 2, raises := none }),
    Event.Start (ThreadId.user 0),
    Event.advance 0, Event.advance 0, Event.advance 0, Event.advance 0, Event.advance 0]

/-- The queue after `lostSchedule`: `_Routine` has returned, task 2 is
pending. -/
def lostMain : System :=
  { queue :=
      { m_Name := "Darkness.Concurrency.MainQueue"
        m_ExceptionHandler := throwingHandler
        m_ExecutionPolicy := ExecutionPolicy.MainThread (some 0)
        m_State := eAsyncState.Stopped
        m_Id := none
        m_TaskQueue := [some { label := 2, raises := none }]
        m_Mutex := none }
    stopStates := [false]
    loops := [{ tid := ThreadId.user 0, stopToken := 0, pc := PC.done }]
    trace := [Obs.invoke 1, Obs.handle 7, Obs.handle 8]
    terminated := false }

/-- The caller-driven queue, not yet started, with the tasks 3 and 4
pending; task 4 throws 9. -/
def pendingMain : System :=
  { queue :=
      { m_Name := "Darkness.Concurrency.MainQueue"
        m_ExceptionHandler := some fun _ => none
        m_ExecutionPolicy := ExecutionPolicy.MainThread none
        m_State := eAsyncState.Free
        m_Id := none
        m_TaskQueue := [some { label := 3, raises := none }, some { label := 4, raises := some 9 }]
        m_Mutex := none }
    stopStates := []
    loops := []
    trace := []
    terminated := false }

/-- The state `stoppedBackground` with the tasks 3 and 4 posted after the
`Stop`; task 4 throws 9. -/
def pendingBackground : System :=
  { stoppedBackground with
    queue := { stoppedBackground.queue with
      m_TaskQueue := [some { label := 3, raises := none }, some { label := 4, raises := some 9 }] } }

/-- A timer with the fixed delay 10 whose task throws 7 at its first
invocation, with the handler `throwingHandler`, which throws when it is
given 7. -/
def doomedTimer : AsyncTimer :=
  AsyncTimer.ofDelay 10 (some fun n => if n = 0 then some 7 else none) "timer"
    throwingHandler

/-- The timer `doomedTimer` after `Start` and four steps of its thread: the
thread is inside the first invocation of the task, which will throw 7. -/
def doomedTimerInTask : AsyncTimer :=
  { m_Params := doomedTimer.m_Params
    m_ExecutionContext := some 0
    m_State := eAsyncState.Busy
    contexts := [{ stop := false, pc := AsyncTimer.PC.inTask false (some 7) }]
    provided := 0
    invoked := 1
    trace := [AsyncTimer.Obs.invoke 0]
    terminated := false }

@[simp] theorem setPc_queue (s : System) (i : Nat) (pc : PC) : (setPc s i pc).queue = s.queue := rfl

@[simp] theorem setPc_stopStates (s : System) (i : Nat) (pc : PC) :
    (setPc s i pc).stopStates = s.stopStates := rfl

@[simp] theorem setPc_trace (s : System) (i : Nat) (pc : PC) : (setPc s i pc).trace = s.trace := rfl

@[simp] theorem setPc_terminated (s : System) (i : Nat) (pc : PC) :
    (setPc s i pc).terminated = s.terminated := rfl

theorem setPc_loops (s : System) (i : Nat) (pc : PC) :
    (setPc s i pc).loops = s.loops.modify (fun w => { w with pc := pc }) i := rfl

@[simp] theorem setPc_length (s : System) (i : Nat) (pc : PC) :
    (setPc s i pc).loops.length = s.loops.length := by
  simp [setPc_loops]

theorem setPc_getElem? (s : System) (i j : Nat) (pc : PC) :
    (setPc s i pc).loops[j]? =
      (s.loops[j]?).map fun w => if i = j then { w with pc := pc } else w := by
  simp [setPc_loops, List.getElem?_modify]

theorem setPc_self (s : System) (i : Nat) (pc : PC) (w : Loop) (hw : s.loops[i]? = some w) :
    (setPc s i pc).loops[i]? = some { w with pc := pc } := by
  simp [setPc_getElem?, hw]

theorem setPc_other (s : System) (i j : Nat) (pc : PC) (hij : i ≠ j) :
    (setPc s i pc).loops[j]? = s.loops[j]? := by
  rw [setPc_getElem?]
  cases s.loops[j]? <;> simp [hij]

@[simp] theorem stop_requested_setPc (s : System) (i : Nat) (pc : PC) (t : Nat) :
    stop_requested (setPc s i pc) t = stop_requested s t := rfl

theorem setPc_getElem?_eq_some (s : System) (i j : Nat) (pc : PC) (w1 : Loop) :
    (setPc s i pc).loops[j]? = some w1 ↔
      ∃ w, s.loops[j]? = some w ∧ w1 = if i = j then { w with pc := pc } else w := by
  rw [setPc_getElem?]
  cases s.loops[j]? <;> simp [eq_comm]

theorem stop_requested_append (s : System) (t : Nat) (ht : t < s.stopStates.length) (b : Bool)
    (s1 : System) (h1 : s1.stopStates = s.stopStates ++ [b]) :
    stop_requested s1 t = stop_requested s t := by
  simp [stop_requested, h1, List.getElem?_append_left ht]

theorem stop_requested_fresh (s : System) (s1 : System)
    (h1 : s1.stopStates = s.stopStates ++ [false]) :
    stop_requested s1 s.stopStates.length = false := by
  simp [stop_requested, h1]

theorem stop_requested_set (s : System) (t u : Nat) (s1 : System)
    (h1 : s1.stopStates = s.stopStates.set u true) :
    stop_requested s1 t = (stop_requested s t || (decide (t = u) && decide (u < s.stopStates.length))) := by
  simp only [stop_requested, h1, List.getD_eq_getElem?_getD, List.getElem?_set]
  by_cases h : u = t
  · subst h
    by_cases hu : u < s.stopStates.length <;> simp [hu]
    simp [List.getElem?_eq_none (Nat.le_of_not_lt hu)]
  · have h2 : ¬ t = u := fun e => h e.symm
    simp [h, h2]

theorem Consistent_init (name : String) (handler : tExceptionHandler) (policy : ExecutionPolicy)
    (hp : policy.source = none) : Consistent (System.init name handler policy) := by
  constructor <;> simp [System.init, hp]

theorem Consistent_Post (s s1 : System) (task : tTask) (h : Consistent s) (hs : Queue.Post task s = some s1) :
    Consistent s1 := by
  unfold Queue.Post at hs
  split at hs
  · simp at hs
    subst hs
    exact ⟨h.tokens, h.token_eq, h.source, h.older, h.main, h.mutex⟩
  · simp at hs

theorem Consistent_congr (s s0 : System) (h : Consistent s) (hq : s0.queue = s.queue)
    (hl : s0.loops = s.loops) (hst : s0.stopStates = s.stopStates) : Consistent s0 := by
  have hr : ∀ t, stop_requested s0 t = stop_requested s t := fun t => by
    simp [stop_requested, hst]
  constructor
  · rw [hst, hl]; exact h.tokens
  · rw [hl]; exact h.token_eq
  · rw [hq, hl]; exact h.source
  · intro i w hi hlt
    rw [hl] at hi hlt
    rw [hr]
    exact h.older i w hi hlt
  · intro m hm i w hi hd
    rw [hl] at hi
    rw [hq] at hm
    rw [hl, hq, hr]
    exact h.main m hm i w hi hd
  · intro hm
    rw [hq] at hm
    rw [hl]
    exact h.mutex hm

theorem Consistent_move (s s0 : System) (i : Nat) (w : Loop) (pc1 : PC) (h : Consistent s)
    (hw : s.loops[i]? = some w) (hne : w.pc ≠ PC.done) (hl : s0.loops = s.loops)
    (hst : s0.stopStates = s.stopStates)
    (hpol : s0.queue.m_ExecutionPolicy = s.queue.m_ExecutionPolicy)
    (hmain : ∀ m, s.queue.m_ExecutionPolicy = ExecutionPolicy.MainThread m → pc1 ≠ PC.done →
      s0.queue.m_Id = some w.tid ∧ pc1 ≠ PC.entry ∧
        s0.queue.m_State =
          (if stop_requested s i then eAsyncState.Stopping else eAsyncState.Busy))
    (hmx : s0.queue.m_Mutex ≠ none →
      pc1 = PC.locked ∨ (w.pc ≠ PC.locked ∧ s0.queue.m_Mutex = s.queue.m_Mutex)) :
    Consistent (setPc s0 i pc1) := by
  have hr : ∀ t, stop_requested s0 t = stop_requested s t := fun t => by
    simp [stop_requested, hst]
  constructor
  · simp [hst, hl, h.tokens]
  · intro j w1 hj
    rw [setPc_getElem?_eq_some, hl] at hj
    obtain ⟨w0, hw0, rfl⟩ := hj
    have := h.token_eq j w0 hw0
    split <;> simpa using this
  · simp [hpol, hl, h.source]
  · intro j w1 hj hlt
    rw [setPc_getElem?_eq_some, hl] at hj
    obtain ⟨w0, hw0, rfl⟩ := hj
    simp only [setPc_length, hl] at hlt
    simp only [stop_requested_setPc, hr]
    rcases h.older j w0 hw0 hlt with hd | hq
    · by_cases hij : i = j
      · subst hij
        rw [hw] at hw0
        cases hw0
        exact absurd hd hne
      · simp [hij, hd]
    · exact Or.inr hq
  · intro m hm j w1 hj hd
    rw [setPc_getElem?_eq_some, hl] at hj
    obtain ⟨w0, hw0, rfl⟩ := hj
    simp only [setPc_queue, hpol] at hm
    simp only [setPc_length, hl, setPc_queue, stop_requested_setPc, hr]
    have hi := h.main m hm i w hw hne
    by_cases hij : i = j
    · subst hij
      rw [hw] at hw0
      cases hw0
      simp only [if_true] at hd ⊢
      have := hmain m hm hd
      exact ⟨hi.1, this.1, this.2.1, this.2.2⟩
    · simp only [hij, if_false] at hd ⊢
      have hj2 := h.main m hm j w0 hw0 hd
      omega
  · intro hm
    simp only [setPc_queue] at hm
    rcases hmx hm with hp | ⟨hnl, he⟩
    · exact ⟨i, { w with pc := pc1 }, by rw [setPc_getElem?_eq_some, hl]; exact ⟨w, hw, by simp⟩, hp⟩
    · rw [he] at hm
      obtain ⟨j, w0, hw0, hlk⟩ := h.mutex hm
      have hij : i ≠ j := by
        intro e
        subst e
        rw [hw] at hw0
        cases hw0
        exact hnl hlk
      exact ⟨j, w0, by rw [setPc_getElem?_eq_some, hl]; exact ⟨w0, hw0, by simp [hij]⟩, hlk⟩

theorem Consistent_Routine (s s1 : System) (i : Nat) (h : Consistent s)
    (hs : Queue._Routine s i = some s1) : Consistent s1 := by
  unfold Queue._Routine at hs
  cases hw : s.loops[i]? with
  | none => simp [hw] at hs
  | some w =>
    simp only [hw] at hs
    have hM := h.main
    cases hpc : w.pc with
    | entry =>
      simp only [hpc, Option.some.injEq] at hs
      subst hs
      refine Consistent_move s _ i w _ h hw (by simp [hpc]) rfl rfl rfl ?_ ?_
      · intro m hm _
        exact absurd hpc (hM m hm i w hw (by simp [hpc])).2.2.1
      · intro hm
        exact Or.inr ⟨by simp [hpc], rfl⟩
    | loopHead =>
      simp only [hpc] at hs
      split at hs <;> simp only [Option.some.injEq] at hs <;> subst hs
      · refine Consistent_move s _ i w _ h hw (by simp [hpc]) rfl rfl rfl ?_ ?_
        · intro m hm hd
          exact absurd rfl hd
        · intro hm
          exact Or.inr ⟨by simp [hpc], rfl⟩
      · refine Consistent_move s _ i w _ h hw (by simp [hpc]) rfl rfl rfl ?_ ?_
        · intro m hm _
          have := hM m hm i w hw (by simp [hpc])
          exact ⟨this.2.1, by simp, this.2.2.2⟩
        · intro hm
          exact Or.inr ⟨by simp [hpc], rfl⟩
    | waiting =>
      simp only [hpc] at hs
      split at hs
      · simp only [Option.some.injEq] at hs
        subst hs
        refine Consistent_move s _ i w _ h hw (by simp [hpc]) rfl rfl rfl ?_ ?_
        · intro m hm _
          have := hM m hm i w hw (by simp [hpc])
          exact ⟨this.2.1, by simp, this.2.2.2⟩
        · intro _
          exact Or.inl rfl
      · cases hs
    | locked =>
      simp only [hpc] at hs
      split at hs
      · simp only [Option.some.injEq] at hs
        subst hs
        refine Consistent_move s _ i w _ h hw (by simp [hpc]) rfl rfl rfl ?_ ?_
        · intro m hm _
          have := hM m hm i w hw (by simp [hpc])
          exact ⟨this.2.1, by simp, this.2.2.2⟩
        · intro hm
          exact absurd rfl hm
      · split at hs <;> simp only [Option.some.injEq] at hs <;> subst hs
        · refine Consistent_move s _ i w _ h hw (by simp [hpc]) rfl rfl rfl ?_ ?_
          · intro m hm _
            have := hM m hm i w hw (by simp [hpc])
            exact ⟨this.2.1, by simp, this.2.2.2⟩
          · intro hm
            exact absurd rfl hm
        · refine Consistent_move s _ i w _ h hw (by simp [hpc]) rfl rfl rfl ?_ ?_
          · intro m hm _
            have := hM m hm i w hw (by simp [hpc])
            exact ⟨this.2.1, by simp, this.2.2.2⟩
          · intro hm
            exact absurd rfl hm
    | popped task =>
      simp only [hpc] at hs
      cases task with
      | none =>
        simp only [Option.some.injEq] at hs
        subst hs
        refine Consistent_move s _ i w _ h hw (by simp [hpc]) rfl rfl rfl ?_ ?_
        · intro m hm _
          have := hM m hm i w hw (by simp [hpc])
          exact ⟨this.2.1, by simp, this.2.2.2⟩
        · intro hm
          exact Or.inr ⟨by simp [hpc], rfl⟩
      | some c =>
        simp only [Option.some.injEq] at hs
        subst hs
        refine Consistent_move s _ i w _ h hw (by simp [hpc]) rfl rfl rfl ?_ ?_
        · intro m hm _
          have := hM m hm i w hw (by simp [hpc])
          exact ⟨this.2.1, by simp, this.2.2.2⟩
        · intro hm
          exact Or.inr ⟨by simp [hpc], rfl⟩
    | inTask c =>
      simp only [hpc] at hs
      have keep : ∀ s0 : System, s0.loops = s.loops → s0.stopStates = s.stopStates →
          s0.queue = s.queue → Consistent (setPc s0 i PC.loopHead) := by
        intro s0 h1 h2 h3
        refine Consistent_move s _ i w _ h hw (by simp [hpc]) h1 h2 (by rw [h3]) ?_ ?_
        · intro m hm _
          have := hM m hm i w hw (by simp [hpc])
          rw [h3]
          exact ⟨this.2.1, by simp, this.2.2.2⟩
        · intro hm
          exact Or.inr ⟨by simp [hpc], by rw [h3]⟩
      have leave : ∀ s0 : System, s0.loops = s.loops → s0.stopStates = s.stopStates →
          s0.queue = s.queue → Consistent (setPc (scopeExit s0) i PC.done) := by
        intro s0 h1 h2 h3
        refine Consistent_move s _ i w _ h hw (by simp [hpc]) h1 h2 (by simp [scopeExit, h3]) ?_ ?_
        · intro m hm hd
          exact absurd rfl hd
        · intro hm
          exact Or.inr ⟨by simp [hpc], by simp [scopeExit, h3]⟩
      split at hs
      · simp only [Option.some.injEq] at hs
        subst hs
        exact keep s rfl rfl rfl
      · split at hs
        · simp only [Option.some.injEq] at hs
          subst hs
          exact keep s rfl rfl rfl
        · split at hs
          · simp only [Option.some.injEq] at hs
            subst hs
            exact keep _ rfl rfl rfl
          · split at hs <;> simp only [Option.some.injEq] at hs <;> subst hs
            · exact leave _ rfl rfl rfl
            · exact Consistent_congr s _ h rfl rfl rfl
    | done =>
      simp only [hpc, Option.some.injEq] at hs
      subst hs
      exact h

theorem getElem?_concat_eq_some {α : Type} (l : List α) (a b : α) (j : Nat) :
    (l ++ [a])[j]? = some b ↔ l[j]? = some b ∨ (j = l.length ∧ b = a) := by
  by_cases hj : j < l.length
  · rw [List.getElem?_append_left hj]
    constructor
    · intro h; exact Or.inl h
    · rintro (h | ⟨h, _⟩)
      · exact h
      · omega
  · rw [List.getElem?_append_right (Nat.le_of_not_lt hj)]
    have hn : l[j]? = none := List.getElem?_eq_none (Nat.le_of_not_lt hj)
    rw [hn]
    by_cases he : j = l.length
    · subst he
      simp [eq_comm]
    · have : j - l.length ≠ 0 := by omega
      obtain ⟨k, hk⟩ := Nat.exists_eq_succ_of_ne_zero this
      simp [hk, he]

theorem MainStart_eq (caller : ThreadId) (s : System) :
    MainThreadExecutionPolicy.Start caller s = some
      { queue := { s.queue with
          m_ExecutionPolicy := ExecutionPolicy.MainThread (some s.stopStates.length)
          m_Id := some caller
          m_State := eAsyncState.Busy }
        stopStates := s.stopStates ++ [false]
        loops := s.loops ++
          [{ tid := caller, stopToken := s.stopStates.length, pc := PC.loopHead }]
        trace := s.trace
        terminated := s.terminated } := by
  unfold MainThreadExecutionPolicy.Start Queue._Routine
  simp only [List.getElem?_concat_length, Option.some.injEq]
  simp only [setPc]
  congr 1
  apply List.ext_getElem?
  intro j
  rw [List.getElem?_modify]
  by_cases hj : j < s.loops.length
  · have : ¬ s.loops.length = j := by omega
    simp [List.getElem?_append_left hj, this]
  · rw [List.getElem?_append_right (Nat.le_of_not_lt hj),
      List.getElem?_append_right (Nat.le_of_not_lt hj)]
    by_cases he : j = s.loops.length
    · subst he
      simp
    · have : j - s.loops.length ≠ 0 := by omega
      obtain ⟨k, hk⟩ := Nat.exists_eq_succ_of_ne_zero this
      simp [hk]

theorem BackgroundStart_eq (m_Worker : Option Nat) (s : System) :
    BackgroundThreadExecutionPolicy.Start m_Worker s = some
      { queue := { s.queue with
          m_ExecutionPolicy := ExecutionPolicy.BackgroundThread (some s.stopStates.length) }
        stopStates :=
          match m_Worker with
          | some old => (s.stopStates ++ [false]).set old true
          | none => s.stopStates ++ [false]
        loops := s.loops ++
          [{ tid := ThreadId.spawned s.loops.length, stopToken := s.stopStates.length,
             pc := PC.entry }]
        trace := s.trace
        terminated := s.terminated } := by
  cases m_Worker <;> rfl

theorem DoStop_eq (s s1 : System) (h : Queue._DoStop s = some s1) :
    s.queue.m_Mutex = none ∧
    s1 = { s with
      queue := { s.queue with m_State := eAsyncState.Stopping, m_TaskQueue := [] }
      stopStates :=
        match s.queue.m_ExecutionPolicy.source with
        | some source => s.stopStates.set source true
        | none => s.stopStates } := by
  unfold Queue._DoStop at h
  split at h
  · rename_i hm
    refine ⟨hm, ?_⟩
    simp only [Option.some.injEq] at h
    subst h
    unfold ExecutionPolicy.RequestStop
    cases hsrc : s.queue.m_ExecutionPolicy.source <;> simp [hsrc, request_stop]
  · cases h

theorem Consistent_DoStop (s s1 : System) (h : Consistent s)
    (hs : Queue._DoStop s = some s1) : Consistent s1 := by
  obtain ⟨hm, rfl⟩ := DoStop_eq s s1 hs
  have hsrc := h.source
  have hmono : ∀ t, stop_requested s t = true →
      stop_requested { s with
        queue := { s.queue with m_State := eAsyncState.Stopping, m_TaskQueue := [] }
        stopStates :=
          match s.queue.m_ExecutionPolicy.source with
          | some source => s.stopStates.set source true
          | none => s.stopStates } t = true := by
    intro t ht
    cases hsc : s.queue.m_ExecutionPolicy.source with
    | none => simpa [stop_requested] using ht
    | some src =>
      rw [stop_requested_set s t src _ rfl]
      simp [ht]
  constructor
  · simp only
    split <;> simp [h.tokens]
  · exact h.token_eq
  · exact h.source
  · intro i w hi hlt
    rcases h.older i w hi hlt with hd | hq
    · exact Or.inl hd
    · exact Or.inr (hmono i hq)
  · intro m hpm i w hi hd
    have := h.main m hpm i w hi hd
    refine ⟨this.1, this.2.1, this.2.2.1, ?_⟩
    have hlen : s.loops.length ≠ 0 := by
      have := this.1
      omega
    have hsrc2 : s.queue.m_ExecutionPolicy.source = some i := by
      rw [hsrc]
      simp only [hlen, if_false]
      congr 1
      have := this.1
      omega
    have hreq : stop_requested { s with
        queue := { s.queue with m_State := eAsyncState.Stopping, m_TaskQueue := [] }
        stopStates :=
          match s.queue.m_ExecutionPolicy.source with
          | some source => s.stopStates.set source true
          | none => s.stopStates } i = true := by
      simp only [hsrc2]
      rw [stop_requested_set s i i _ rfl]
      have : i < s.stopStates.length := by
        rw [h.tokens]
        have := this.1
        omega
      simp [this]
    simp only [hreq, if_true]
  · exact h.mutex

theorem Consistent_Stop (s s1 : System) (h : Consistent s) (hs : Queue.Stop s = some s1) :
    Consistent s1 := by
  unfold Queue.Stop Queue._Stop at hs
  cases hst : s.queue.m_State <;> simp only [hst] at hs
  · cases hs; exact h
  · exact Consistent_DoStop s s1 h hs
  · cases hs; exact h
  · cases hs; exact h

theorem Consistent_Start (s s1 : System) (caller : ThreadId) (h : Consistent s)
    (hs : Queue.Start caller s = some s1) : Consistent s1 := by
  unfold Queue.Start at hs
  have hidle : s.queue.m_State = eAsyncState.Free ∨ s.queue.m_State = eAsyncState.Stopped →
      Consistent s1 := by
    intro hfs
    have hs2 : (match s.queue.m_ExecutionPolicy with
        | ExecutionPolicy.MainThread _ => MainThreadExecutionPolicy.Start caller s
        | ExecutionPolicy.BackgroundThread m_Worker =>
          BackgroundThreadExecutionPolicy.Start m_Worker s) = some s1 := by
      rcases hfs with hf | hf <;> simpa [hf] using hs
    cases hp : s.queue.m_ExecutionPolicy with
    | MainThread m =>
      simp only [hp, MainStart_eq, Option.some.injEq] at hs2
      subst hs2
      have hall : ∀ (i : Nat) (w : Loop), s.loops[i]? = some w → w.pc = PC.done := by
        intro i w hi
        by_contra hd
        have := (h.main m hp i w hi hd).2.2.2
        rcases hfs with hf | hf <;> rw [hf] at this <;> split at this <;> cases this
      constructor
      · simp [h.tokens]
      · intro i w hi
        rw [getElem?_concat_eq_some] at hi
        rcases hi with hi | ⟨rfl, rfl⟩
        · exact h.token_eq i w hi
        · simp [h.tokens]
      · simp [ExecutionPolicy.source, h.tokens]
      · intro i w hi _
        rw [getElem?_concat_eq_some] at hi
        rcases hi with hi | ⟨rfl, rfl⟩
        · exact Or.inl (hall i w hi)
        · simp at *
      · intro m2 _ i w hi hd
        rw [getElem?_concat_eq_some] at hi
        rcases hi with hi | ⟨rfl, rfl⟩
        · exact absurd (hall i w hi) hd
        · simp [stop_requested, ← h.tokens]
      · intro hm
        obtain ⟨j, w, hj, hl⟩ := h.mutex hm
        exact ⟨j, w, by rw [getElem?_concat_eq_some]; exact Or.inl hj, hl⟩
    | BackgroundThread m =>
      simp only [hp, BackgroundStart_eq, Option.some.injEq] at hs2
      subst hs2
      have hsrc := h.source
      simp only [hp, ExecutionPolicy.source] at hsrc
      constructor
      · simp only
        split <;> simp [h.tokens]
      · intro i w hi
        rw [getElem?_concat_eq_some] at hi
        rcases hi with hi | ⟨rfl, rfl⟩
        · exact h.token_eq i w hi
        · simp [h.tokens]
      · simp [ExecutionPolicy.source, h.tokens]
      · intro i w hi hlt
        rw [getElem?_concat_eq_some] at hi
        simp only [List.length_append, List.length_singleton] at hlt
        rcases hi with hi | ⟨rfl, rfl⟩
        · have hil : i < s.loops.length := by omega
          by_cases hlast : i + 1 = s.loops.length
          · right
            have hm : m = some i := by
              rw [hsrc]
              have : s.loops.length ≠ 0 := by omega
              simp only [this, if_false]
              congr 1
              omega
            subst hm
            simp only [stop_requested, List.getD_eq_getElem?_getD]
            rw [List.getElem?_set_self (by simp [h.tokens]; omega)]
            rfl
          · rcases h.older i w hi (by omega) with hd | hq
            · exact Or.inl hd
            · right
              cases m with
              | none =>
                rw [stop_requested_append s i (by rw [h.tokens]; exact hil) false _ rfl]
                exact hq
              | some old =>
                simp only [stop_requested, List.getD_eq_getElem?_getD, List.getElem?_set]
                split
                · split <;> simp_all
                  omega
                · rw [List.getElem?_append_left (by rw [h.tokens]; exact hil)]
                  simpa [stop_requested] using hq
        · omega
      · intro m2 hm2
        cases hm2
      · intro hm
        obtain ⟨j, w, hj, hl⟩ := h.mutex hm
        exact ⟨j, w, by rw [getElem?_concat_eq_some]; exact Or.inl hj, hl⟩
  cases hst : s.queue.m_State
  · exact hidle (Or.inl hst)
  · simp only [hst, Option.some.injEq] at hs
    subst hs
    exact h
  · simp only [hst, Option.some.injEq] at hs
    subst hs
    exact h
  · exact hidle (Or.inr hst)

theorem Consistent_step (s s1 : System) (e : Event) (h : Consistent s) (hs : step s e = some s1) :
    Consistent s1 := by
  unfold step at hs
  split at hs
  · cases hs
  · cases e with
    | Start caller =>
      simp only at hs
      split at hs
      · exact Consistent_Start s s1 caller h hs
      · cases hs
    | Stop caller =>
      simp only at hs
      split at hs
      · exact Consistent_Stop s s1 h hs
      · cases hs
    | Post caller task =>
      simp only at hs
      split at hs
      · exact Consistent_Post s s1 task h hs
      · cases hs
    | advance i => exact Consistent_Routine s s1 i h hs

theorem Consistent_run (evs : List Event) (s s1 : System) (h : Consistent s)
    (hs : run s evs = some s1) : Consistent s1 := by
  induction evs generalizing s with
  | nil =>
    simp only [run, Option.some.injEq] at hs
    subst hs
    exact h
  | cons e es ih =>
    simp only [run] at hs
    cases h1 : step s e with
    | none => simp [h1] at hs
    | some s2 =>
      simp only [h1, Option.some_bind] at hs
      exact ih s2 (Consistent_step s s2 e h h1) hs

theorem Consistent_of_Reachable (s : System) (h : Reachable s) : Consistent s := by
  obtain ⟨name, handler, policy, evs, hp, hr⟩ := h
  exact Consistent_run evs _ s (Consistent_init name handler policy hp) hr

theorem busyBackground_reachable : Reachable busyBackground :=
  ⟨"worker", some fun _ => none, ExecutionPolicy.BackgroundThread none, busyBackgroundSchedule,
    rfl, rfl⟩

/-- After `_DoStop` in a consistent state, every activation that has not
returned has its stop requested. -/
theorem DoStop_cancels (s s1 : System) (hc : Consistent s) (hd : Queue._DoStop s = some s1) :
    ∀ (i : Nat) (w : Loop), s1.loops[i]? = some w → w.pc ≠ PC.done →
      stop_requested s1 w.stopToken = true := by
  have hc1 : Consistent s1 := Consistent_DoStop s s1 hc hd
  obtain ⟨_, he⟩ := DoStop_eq s s1 hd
  intro i w hi hlive
  rw [hc1.token_eq i w hi]
  have hlt : i < s1.loops.length := by
    rcases Nat.lt_or_ge i s1.loops.length with h | h
    · exact h
    · rw [List.getElem?_eq_none h] at hi
      cases hi
  by_cases hlast : i + 1 < s1.loops.length
  · rcases hc1.older i w hi hlast with h | h
    · exact absurd h hlive
    · exact h
  · have hl : s1.loops = s.loops := by rw [he]
    have hsrc := hc.source
    have hne : s.loops.length ≠ 0 := by rw [hl] at hlt; omega
    simp only [hne, if_false] at hsrc
    have hi2 : s.loops.length - 1 = i := by rw [hl] at hlt hlast; omega
    rw [hi2] at hsrc
    rw [he]
    simp only [hsrc]
    rw [stop_requested_set s i i _ rfl]
    have : i < s.stopStates.length := by rw [hc.tokens, ← hl]; exact hlt
    simp [this]

theorem Solo_move (s s0 : System) (n : Nat) (w : Loop) (pc1 : PC) (h : Solo s n)
    (hw : s.loops[n]? = some w) (hreq : stop_requested s w.stopToken = false)
    (hl : s0.loops = s.loops) (hst : s0.stopStates = s.stopStates)
    (hh : s0.queue.m_ExceptionHandler = s.queue.m_ExceptionHandler)
    (ht : s0.terminated = false) (hpc : pc1 ≠ PC.done)
    (hmx : pc1 ≠ PC.locked → s0.queue.m_Mutex = none) : Solo (setPc s0 n pc1) n := by
  constructor
  · exact ht
  · simp only [setPc_queue, hh]
    exact h.handler
  · intro j w1 hj hne
    rw [setPc_other _ n j _ (Ne.symm hne), hl] at hj
    exact h.others j w1 hj hne
  · refine ⟨{ w with pc := pc1 }, setPc_self s0 n pc1 w (by rw [hl]; exact hw), hpc, ?_, hmx⟩
    simpa [stop_requested, hst] using hreq

theorem outlook_move (s s0 : System) (n : Nat) (w : Loop) (pc1 : PC) (hw : s.loops[n]? = some w)
    (hl : s0.loops = s.loops) :
    outlook (setPc s0 n pc1) n =
      s0.trace ++ pc1.owed s0.queue.m_ExceptionHandler ++
        s0.queue.m_TaskQueue.flatMap (future s0.queue.m_ExceptionHandler) := by
  simp [outlook, setPc_self s0 n pc1 w (by rw [hl]; exact hw)]

theorem effort_move (s s0 : System) (n : Nat) (w : Loop) (pc1 : PC) (hw : s.loops[n]? = some w)
    (hl : s0.loops = s.loops) :
    effort (setPc s0 n pc1) n = 7 * s0.queue.m_TaskQueue.length + pc1.rank := by
  simp [effort, setPc_self s0 n pc1 w (by rw [hl]; exact hw)]

/-- The step of the only running activation: it is enabled, keeps `Solo`
and `outlook`, and gets nearer to `Idle`. -/
theorem Solo_advance (s : System) (n : Nat) (h : Solo s n) :
    ∃ s1, Queue._Routine s n = some s1 ∧ Solo s1 n ∧ outlook s1 n = outlook s n ∧
      s1.queue.m_ExceptionHandler = s.queue.m_ExceptionHandler ∧
      (effort s1 n < effort s n ∨ Idle s1 n) := by
  obtain ⟨w, hw, hlive, hreq, hmx⟩ := h.loop
  have hout : outlook s n = s.trace ++ w.pc.owed s.queue.m_ExceptionHandler ++
      s.queue.m_TaskQueue.flatMap (future s.queue.m_ExceptionHandler) := by
    simp [outlook, hw]
  have heff : effort s n = 7 * s.queue.m_TaskQueue.length + w.pc.rank := by
    simp [effort, hw]
  have key : ∀ (s0 : System) (pc1 : PC), s0.loops = s.loops → s0.stopStates = s.stopStates →
      s0.queue.m_ExceptionHandler = s.queue.m_ExceptionHandler → s0.terminated = false →
      pc1 ≠ PC.done → (pc1 ≠ PC.locked → s0.queue.m_Mutex = none) →
      s0.trace ++ pc1.owed s.queue.m_ExceptionHandler ++
          s0.queue.m_TaskQueue.flatMap (future s.queue.m_ExceptionHandler) =
        s.trace ++ w.pc.owed s.queue.m_ExceptionHandler ++
          s.queue.m_TaskQueue.flatMap (future s.queue.m_ExceptionHandler) →
      (7 * s0.queue.m_TaskQueue.length + pc1.rank < 7 * s.queue.m_TaskQueue.length + w.pc.rank ∨
        (s0.queue.m_TaskQueue = [] ∧ pc1 = PC.waiting)) →
      Solo (setPc s0 n pc1) n ∧ outlook (setPc s0 n pc1) n = outlook s n ∧
        (setPc s0 n pc1).queue.m_ExceptionHandler = s.queue.m_ExceptionHandler ∧
        (effort (setPc s0 n pc1) n < effort s n ∨ Idle (setPc s0 n pc1) n) := by
    intro s0 pc1 hl hst hh ht hpc hm ho he
    refine ⟨Solo_move s s0 n w pc1 h hw hreq hl hst hh ht hpc hm, ?_, hh, ?_⟩
    · rw [outlook_move s s0 n w pc1 hw hl, hout, hh]
      exact ho
    · rcases he with he | ⟨hq, hwt⟩
      · left
        rw [effort_move s s0 n w pc1 hw hl, heff]
        exact he
      · right
        exact ⟨hq, _, setPc_self s0 n pc1 w (by rw [hl]; exact hw), hwt⟩
  unfold Queue._Routine
  simp only [hw]
  cases hpc : w.pc with
  | entry =>
    exact ⟨_, rfl, key _ _ rfl rfl rfl h.alive (by simp) (fun _ => hmx (by simp [hpc]))
      (by simp [hpc, PC.owed]) (Or.inl (by simp [hpc, PC.rank]))⟩
  | loopHead =>
    simp only [hreq, Bool.false_eq_true, if_false]
    exact ⟨_, rfl, key _ _ rfl rfl rfl h.alive (by simp) (fun _ => hmx (by simp [hpc]))
      (by simp [hpc, PC.owed]) (Or.inl (by simp [hpc, PC.rank]))⟩
  | waiting =>
    have hm := hmx (by simp [hpc])
    simp only [hm, if_true]
    exact ⟨_, rfl, key _ _ rfl rfl rfl h.alive (by simp) (fun hne => absurd rfl hne)
      (by simp [hpc, PC.owed]) (Or.inl (by simp [hpc, PC.rank]))⟩
  | locked =>
    simp only [hreq, Bool.false_eq_true, if_false]
    cases hq : s.queue.m_TaskQueue with
    | nil =>
      simp only
      exact ⟨_, rfl, key _ _ rfl rfl rfl h.alive (by simp) (fun _ => rfl)
        (by simp [hpc, unlock, PC.owed, hq]) (Or.inr ⟨by simp [unlock, hq], rfl⟩)⟩
    | cons task rest =>
      simp only
      exact ⟨_, rfl, key _ _ rfl rfl rfl h.alive (by simp) (fun _ => rfl)
        (by simp [hpc, hq, unlock, PC.owed, List.flatMap_cons])
        (Or.inl (by simp [hpc, hq, unlock, PC.rank]; omega))⟩
  | popped task =>
    cases task with
    | none =>
      exact ⟨_, rfl, key _ _ rfl rfl rfl h.alive (by simp) (fun _ => hmx (by simp [hpc]))
        (by simp [hpc, PC.owed, future]) (Or.inl (by simp [hpc, PC.rank]))⟩
    | some c =>
      exact ⟨_, rfl, key _ _ rfl rfl rfl h.alive (by simp) (fun _ => hmx (by simp [hpc]))
        (by simp [hpc, observe, PC.owed, future]) (Or.inl (by simp [hpc, observe, PC.rank]))⟩
  | inTask c =>
    have hret := h.handler
    simp only
    cases hr : c.raises with
    | none =>
      simp only
      exact ⟨_, rfl, key _ _ rfl rfl rfl h.alive (by simp) (fun _ => hmx (by simp [hpc]))
        (by simp [hpc, PC.owed, afterInvoke, hr]) (Or.inl (by simp [hpc, PC.rank]))⟩
    | some f =>
      simp only
      cases hh : s.queue.m_ExceptionHandler with
      | none =>
        simp only
        refine ⟨_, rfl, ?_⟩
        rw [← hh]
        exact key _ _ rfl rfl rfl h.alive (by simp) (fun _ => hmx (by simp [hpc]))
          (by simp [hpc, PC.owed, afterInvoke, hr, hh]) (Or.inl (by simp [hpc, PC.rank]))
      | some handler =>
        simp only [hret handler hh f]
        refine ⟨_, rfl, ?_⟩
        rw [← hh]
        exact key _ _ rfl rfl rfl h.alive (by simp) (fun _ => hmx (by simp [hpc]))
          (by simp [hpc, observe, PC.owed, afterInvoke, hr, hh]) (Or.inl (by simp [hpc, observe, PC.rank]))
  | done => exact absurd hpc hlive

theorem run_append (s : System) (a b : List Event) :
    run s (a ++ b) = (run s a).bind fun s1 => run s1 b := by
  induction a generalizing s with
  | nil => simp [run]
  | cons e es ih =>
    simp only [List.cons_append, run]
    cases step s e with
    | none => simp
    | some s1 => simp [ih]

theorem Routine_done (s : System) (j : Nat) (w : Loop) (hw : s.loops[j]? = some w)
    (hd : w.pc = PC.done) : Queue._Routine s j = some s := by
  unfold Queue._Routine
  simp [hw, hd]

/-- A step that is no call of `Start` or `Stop` keeps `Solo`, and adds to
`outlook` what the posted task will show. -/
theorem Solo_step (s s1 : System) (n : Nat) (e : Event) (h : Solo s n)
    (he : e.isControl = false) (hs : step s e = some s1) :
    Solo s1 n ∧ s1.queue.m_ExceptionHandler = s.queue.m_ExceptionHandler ∧
      outlook s1 n = outlook s n ++ (posted [e]).flatMap (future s.queue.m_ExceptionHandler) := by
  unfold step at hs
  simp only [h.alive, Bool.false_eq_true, if_false] at hs
  cases e with
  | Start caller => simp [Event.isControl] at he
  | Stop caller => simp [Event.isControl] at he
  | Post caller task =>
    simp only at hs
    split at hs
    · unfold Queue.Post at hs
      split at hs
      · simp only [Option.some.injEq] at hs
        subst hs
        refine ⟨⟨h.alive, h.handler, h.others, ?_⟩, rfl, ?_⟩
        · obtain ⟨w, hw, hlive, hreq, hmx⟩ := h.loop
          exact ⟨w, hw, hlive, hreq, hmx⟩
        · simp [outlook, posted, List.flatMap_append, List.append_assoc]
      · cases hs
    · cases hs
  | advance j =>
    simp only at hs
    by_cases hj : j = n
    · subst hj
      obtain ⟨s2, h2, hsolo, hout, hh, _⟩ := Solo_advance s j h
      rw [h2] at hs
      cases hs
      exact ⟨hsolo, hh, by simp [hout, posted]⟩
    · cases hw : s.loops[j]? with
      | none => simp [Queue._Routine, hw] at hs
      | some w =>
        rw [Routine_done s j w hw (h.others j w hw hj)] at hs
        cases hs
        exact ⟨h, rfl, by simp [posted]⟩

theorem posted_append (a b : List Event) : posted (a ++ b) = posted a ++ posted b := by
  induction a with
  | nil => rfl
  | cons e es ih =>
    cases e <;> simp [posted, ih]

/-- A schedule without calls of `Start` and `Stop` keeps `Solo`, and adds
to `outlook` what the posted tasks will show, in the order of the posts. -/
theorem Solo_run (evs : List Event) (s s1 : System) (n : Nat) (h : Solo s n)
    (he : ∀ e ∈ evs, Event.isControl e = false) (hs : run s evs = some s1) :
    Solo s1 n ∧ s1.queue.m_ExceptionHandler = s.queue.m_ExceptionHandler ∧
      outlook s1 n =
        outlook s n ++ (posted evs).flatMap (future s.queue.m_ExceptionHandler) := by
  induction evs generalizing s with
  | nil =>
    simp only [run, Option.some.injEq] at hs
    subst hs
    exact ⟨h, rfl, by simp [posted]⟩
  | cons e es ih =>
    simp only [run] at hs
    cases h1 : step s e with
    | none => simp [h1] at hs
    | some s2 =>
      simp only [h1, Option.some_bind] at hs
      obtain ⟨hsolo, hh, hout⟩ := Solo_step s s2 n e h (he e (by simp)) h1
      obtain ⟨hsolo1, hh1, hout1⟩ := ih s2 hsolo (fun e1 h1 => he e1 (by simp [h1])) hs
      refine ⟨hsolo1, hh1.trans hh, ?_⟩
      rw [hout1, hout, hh]
      have : posted (e :: es) = posted [e] ++ posted es := posted_append [e] es
      rw [this, List.flatMap_append, List.append_assoc]

theorem Idle_outlook (s : System) (n : Nat) (h : Idle s n) : outlook s n = s.trace := by
  obtain ⟨hq, w, hw, hpc⟩ := h
  simp [outlook, hw, hpc, hq, PC.owed]

/-- Left to itself, the only running activation drains the queue: after
some number of its steps the queue is empty, the activation waits, and the
observations are the `outlook` of the start. -/
theorem Solo_drain (s : System) (n : Nat) (h : Solo s n) :
    ∃ k s1, run s (List.replicate k (Event.advance n)) = some s1 ∧ Solo s1 n ∧ Idle s1 n ∧
      s1.trace = outlook s n ∧
      s1.queue.m_ExceptionHandler = s.queue.m_ExceptionHandler := by
  have main : ∀ (m : Nat) (s : System), effort s n ≤ m → Solo s n →
      ∃ k s1, run s (List.replicate k (Event.advance n)) = some s1 ∧ Solo s1 n ∧ Idle s1 n ∧
        s1.trace = outlook s n ∧
        s1.queue.m_ExceptionHandler = s.queue.m_ExceptionHandler := by
    intro m
    induction m with
    | zero =>
      intro s hm hs
      obtain ⟨s2, h2, hsolo, hout, hh, hprog⟩ := Solo_advance s n hs
      rcases hprog with hlt | hidle
      · omega
      · refine ⟨1, s2, ?_, hsolo, hidle, ?_, hh⟩
        · simp [run, step, hs.alive, h2]
        · rw [← hout, Idle_outlook s2 n hidle]
    | succ m ih =>
      intro s hm hs
      obtain ⟨s2, h2, hsolo, hout, hh, hprog⟩ := Solo_advance s n hs
      rcases hprog with hlt | hidle
      · obtain ⟨k, s3, hr, hsolo3, hidle3, htr, hh3⟩ := ih s2 (by omega) hsolo
        refine ⟨k + 1, s3, ?_, hsolo3, hidle3, ?_, hh3.trans hh⟩
        · simp [List.replicate_succ, run, step, hs.alive, h2, hr]
        · rw [htr, hout]
      · refine ⟨1, s2, ?_, hsolo, hidle, ?_, hh⟩
        · simp [run, step, hs.alive, h2]
        · rw [← hout, Idle_outlook s2 n hidle]
  exact main (effort s n) s (Nat.le_refl _) h

theorem executed_append (s : System) (l : List Obs) (h : s.trace = l) :
    s.executed = l.filterMap fun o =>
      match o with
      | Obs.invoke label => some label
      | Obs.handle _ => none := by
  simp [System.executed, h]

theorem executed_flatMap_future (h : tExceptionHandler) (tasks : List tTask) :
    ((tasks.flatMap (future h)).filterMap fun o =>
      match o with
      | Obs.invoke label => some label
      | Obs.handle _ => none) = labels tasks := by
  induction tasks with
  | nil => rfl
  | cons t ts ih =>
    rw [List.flatMap_cons, List.filterMap_append, ih]
    cases t with
    | none => simp [future, labels]
    | some c =>
      cases hr : c.raises <;> cases h <;> simp [future, afterInvoke, labels, hr]

theorem handled_flatMap_future (h : tExceptionHandler) (tasks : List tTask) :
    ((tasks.flatMap (future h)).filterMap fun o =>
      match o with
      | Obs.invoke _ => none
      | Obs.handle f => some f) = if h.isSome then failures tasks else [] := by
  induction tasks with
  | nil => simp [failures]
  | cons t ts ih =>
    rw [List.flatMap_cons, List.filterMap_append, ih]
    cases t with
    | none => cases h <;> simp [future, failures]
    | some c =>
      cases hr : c.raises <;> cases h <;> simp [future, afterInvoke, failures, hr]

/-- With no activation running, a schedule without `Start` and `Stop` only
appends the posted tasks to the queue. -/
theorem Quiescent_run (evs : List Event) (s s1 : System) (h : Quiescent s)
    (he : ∀ e ∈ evs, Event.isControl e = false) (hs : run s evs = some s1) :
    s1 = { s with queue := { s.queue with
      m_TaskQueue := s.queue.m_TaskQueue ++ posted evs } } := by
  induction evs generalizing s with
  | nil =>
    simp only [run, Option.some.injEq] at hs
    subst hs
    simp [posted]
  | cons e es ih =>
    simp only [run] at hs
    cases h1 : step s e with
    | none => simp [h1] at hs
    | some s2 =>
      simp only [h1, Option.some_bind] at hs
      have hes : ∀ e1 ∈ es, Event.isControl e1 = false := fun e1 h1 => he e1 (by simp [h1])
      have hctl := he e (by simp)
      unfold step at h1
      split at h1
      · cases h1
      · cases e with
        | Start caller => simp [Event.isControl] at hctl
        | Stop caller => simp [Event.isControl] at hctl
        | Post caller task =>
          simp only at h1
          split at h1
          · unfold Queue.Post at h1
            split at h1
            · simp only [Option.some.injEq] at h1
              subst h1
              refine (ih _ ?_ hes hs).trans ?_
              · exact h
              · simp [posted]
            · cases h1
          · cases h1
        | advance j =>
          simp only at h1
          cases hw : s.loops[j]? with
          | none => simp [Queue._Routine, hw] at h1
          | some w =>
            rw [Routine_done s j w hw (h j w hw)] at h1
            cases h1
            refine (ih _ h hes hs).trans ?_
            simp [posted]

/-- From a consistent state in which no activation is running, `Start` in
the state `Free` or `Stopped` creates an activation with a stop state of its
own that is not requested, and this activation is the only one running. -/
theorem Start_Solo (s : System) (caller : ThreadId) (hc : Consistent s) (hq : Quiescent s)
    (hst : s.queue.m_State = eAsyncState.Free ∨ s.queue.m_State = eAsyncState.Stopped)
    (ht : s.terminated = false) (hret : HandlerReturns s.queue.m_ExceptionHandler) :
    ∃ s1, Queue.Start caller s = some s1 ∧ Solo s1 s.loops.length ∧
      s1.loops.length = s.loops.length + 1 ∧
      stop_requested s1 s.loops.length = false ∧
      s1.trace = s.trace ∧ s1.queue.m_TaskQueue = s.queue.m_TaskQueue ∧
      s1.queue.m_ExceptionHandler = s.queue.m_ExceptionHandler ∧
      outlook s1 s.loops.length =
        s.trace ++ s.queue.m_TaskQueue.flatMap (future s.queue.m_ExceptionHandler) := by
  have hmx : s.queue.m_Mutex = none := by
    by_contra hne
    obtain ⟨j, w, hj, hl⟩ := hc.mutex hne
    rw [hq j w hj] at hl
    cases hl
  have hS : Queue.Start caller s =
      match s.queue.m_ExecutionPolicy with
      | ExecutionPolicy.MainThread _ => MainThreadExecutionPolicy.Start caller s
      | ExecutionPolicy.BackgroundThread m_Worker =>
        BackgroundThreadExecutionPolicy.Start m_Worker s := by
    unfold Queue.Start
    rcases hst with h | h <;> simp [h]
  rw [hS]
  cases hp : s.queue.m_ExecutionPolicy with
  | MainThread m =>
    simp only [MainStart_eq]
    refine ⟨_, rfl, ⟨ht, hret, ?_, ?_⟩, by simp, ?_, rfl, rfl, rfl, ?_⟩
    · intro j w hj hne
      simp only [getElem?_concat_eq_some] at hj
      rcases hj with hj | ⟨hj, _⟩
      · exact hq j w hj
      · exact absurd hj hne
    · refine ⟨_, List.getElem?_concat_length _ _, by simp, ?_, fun _ => hmx⟩
      simp [stop_requested]
    · simp [stop_requested, ← hc.tokens]
    · simp [outlook, PC.owed]
  | BackgroundThread m =>
    simp only [BackgroundStart_eq]
    have hfresh : ∀ q l t b, stop_requested
        { queue := q
          stopStates :=
            match m with
            | some old => (s.stopStates ++ [false]).set old true
            | none => s.stopStates ++ [false]
          loops := l, trace := t, terminated := b } s.stopStates.length = false := by
      intro q l t b
      have hsrc := hc.source
      simp only [hp, ExecutionPolicy.source] at hsrc
      cases m with
      | none => simp [stop_requested]
      | some old =>
        have hold : old < s.stopStates.length := by
          rw [hc.tokens]
          split at hsrc
          · cases hsrc
          · simp only [Option.some.injEq] at hsrc
            omega
        simp only [stop_requested, List.getD_eq_getElem?_getD]
        rw [List.getElem?_set_ne (by omega)]
        simp
    refine ⟨_, rfl, ⟨ht, hret, ?_, ?_⟩, by simp, ?_, rfl, rfl, rfl, ?_⟩
    · intro j w hj hne
      simp only [getElem?_concat_eq_some] at hj
      rcases hj with hj | ⟨hj, _⟩
      · exact hq j w hj
      · exact absurd hj hne
    · exact ⟨_, List.getElem?_concat_length _ _, by simp, hfresh _ _ _ _, fun _ => hmx⟩
    · rw [← hc.tokens]
      exact hfresh _ _ _ _
    · simp [outlook, PC.owed]

theorem step_Start (s s1 : System) (caller : ThreadId) (h : step s (Event.Start caller) = some s1) :
    Queue.Start caller s = some s1 := by
  unfold step at h
  split at h
  · cases h
  · simp only at h
    split at h
    · exact h
    · cases h

/-- From a consistent state in which no activation is running: posts, then
`Start` in the state `Free` or `Stopped`, then a schedule without `Start`
and `Stop`.  The activation `Start` created is the only one running, and
`outlook` is the observations at the beginning followed by what the tasks
pending at the beginning and the posted tasks show, in that order. -/
theorem Start_run (s : System) (caller : ThreadId) (hc : Consistent s) (hq : Quiescent s)
    (hst : s.queue.m_State = eAsyncState.Free ∨ s.queue.m_State = eAsyncState.Stopped)
    (ht : s.terminated = false) (hret : HandlerReturns s.queue.m_ExceptionHandler)
    (before after : List Event) (hb : ∀ e ∈ before, Event.isControl e = false)
    (ha : ∀ e ∈ after, Event.isControl e = false) (s2 : System)
    (hs : run s (before ++ Event.Start caller :: after) = some s2) :
    Solo s2 s.loops.length ∧
      s2.queue.m_ExceptionHandler = s.queue.m_ExceptionHandler ∧
      outlook s2 s.loops.length =
        s.trace ++ (s.queue.m_TaskQueue ++ posted before ++ posted after).flatMap
          (future s.queue.m_ExceptionHandler) := by
  rw [run_append] at hs
  cases hb1 : run s before with
  | none => simp [hb1] at hs
  | some sb =>
    simp only [hb1, Option.some_bind, run] at hs
    cases h1 : step sb (Event.Start caller) with
    | none => simp [h1] at hs
    | some s1 =>
      simp only [h1, Option.some_bind] at hs
      have hsb := Quiescent_run before s sb hq hb hb1
      have hcb : Consistent sb := Consistent_run before s sb hc hb1
      have hqb : Quiescent sb := by rw [hsb]; exact hq
      have hstb : sb.queue.m_State = eAsyncState.Free ∨
          sb.queue.m_State = eAsyncState.Stopped := by rw [hsb]; exact hst
      have htb : sb.terminated = false := by rw [hsb]; exact ht
      have hhb : sb.queue.m_ExceptionHandler = s.queue.m_ExceptionHandler := by rw [hsb]
      have hlb : sb.loops.length = s.loops.length := by rw [hsb]
      obtain ⟨s1b, hS, hsolo, _, _, htr, hqu, hh, hout⟩ :=
        Start_Solo sb caller hcb hqb hstb htb (by rw [hhb]; exact hret)
      rw [step_Start sb s1 caller h1] at hS
      cases hS
      rw [hlb] at hsolo hout
      obtain ⟨hsolo2, hh2, hout2⟩ := Solo_run after s1 s2 s.loops.length hsolo ha hs
      refine ⟨hsolo2, (hh2.trans hh).trans hhb, ?_⟩
      rw [hout2, hout, hh, hhb]
      have h3 : sb.trace = s.trace := by rw [hsb]
      have h4 : sb.queue.m_TaskQueue = s.queue.m_TaskQueue ++ posted before := by rw [hsb]
      rw [h3, h4]
      simp [List.flatMap_append, List.append_assoc]

theorem trace_prefix_outlook (s : System) (n : Nat) : s.trace <+: outlook s n := by
  unfold outlook
  rw [List.append_assoc]
  exact List.prefix_append _ _

theorem executed_starts (s : System) (n : Nat) (tasks : List tTask)
    (h : outlook s n = tasks.flatMap (future s.queue.m_ExceptionHandler)) :
    s.executed <+: labels tasks := by
  have := (trace_prefix_outlook s n).filterMap fun o =>
    match o with
    | Obs.invoke label => some label
    | Obs.handle _ => none
  rw [h, executed_flatMap_future] at this
  exact this

theorem handlerReturns_const : HandlerReturns (some fun _ => none) := by
  intro handler h f
  cases h
  rfl

theorem mem_heldTasks (s : System) (t : tTask) :
    t ∈ s.heldTasks ↔ ∃ (j : Nat) (w : Loop), s.loops[j]? = some w ∧ t ∈ w.pc.held := by
  unfold System.heldTasks
  rw [List.mem_flatMap]
  constructor
  · rintro ⟨w, hw, ht⟩
    obtain ⟨j, hj⟩ := List.mem_iff_getElem?.1 hw
    exact ⟨j, w, hj, ht⟩
  · rintro ⟨j, w, hj, ht⟩
    exact ⟨w, List.mem_iff_getElem?.2 ⟨j, hj⟩, ht⟩

theorem Allowed_mono (h : tExceptionHandler) (a b : List tTask) (o : Obs)
    (hab : ∀ t ∈ a, t ∈ b) (ha : Allowed h a o) : Allowed h b o := by
  cases o with
  | invoke label =>
    obtain ⟨c, hc, hl⟩ := ha
    exact ⟨c, hab _ hc, hl⟩
  | handle f =>
    rcases ha with ⟨c, hc, hl⟩ | hh
    · exact Or.inl ⟨c, hab _ hc, hl⟩
    · exact Or.inr hh

theorem Accounted_same (s s1 : System) (e : Event)
    (hh : s1.queue.m_ExceptionHandler = s.queue.m_ExceptionHandler) (ht : s1.trace = s.trace)
    (hheld : ∀ t, t ∈ s1.heldTasks → t ∈ s.heldTasks)
    (hq : ∀ t, t ∈ s1.queue.m_TaskQueue → t ∈ s.queue.m_TaskQueue ++ posted [e]) :
    Accounted s s1 e := by
  refine ⟨hh, ⟨[], by simp [ht], by simp⟩, ?_⟩
  intro t ht
  rw [List.mem_append] at ht
  rcases ht with ht | ht
  · simp [hheld t ht]
  · have := hq t ht
    rw [List.mem_append] at this
    rcases this with h | h
    · simp [h]
    · simp [h]

theorem Accounted_move (s s0 : System) (i : Nat) (w : Loop) (pc1 : PC) (Y : List Obs)
    (hw : s.loops[i]? = some w) (hl : s0.loops = s.loops)
    (hh : s0.queue.m_ExceptionHandler = s.queue.m_ExceptionHandler)
    (ht : s0.trace = s.trace ++ Y)
    (hY : ∀ o ∈ Y, Allowed s.queue.m_ExceptionHandler w.pc.held o)
    (hheld : ∀ t, t ∈ pc1.held ++ s0.queue.m_TaskQueue → t ∈ w.pc.held ++ s.queue.m_TaskQueue) :
    Accounted s (setPc s0 i pc1) (Event.advance i) := by
  have hwheld : ∀ t, t ∈ w.pc.held → t ∈ s.heldTasks := fun t ht =>
    (mem_heldTasks s t).2 ⟨i, w, hw, ht⟩
  refine ⟨hh, ⟨Y, ht, fun o ho => Allowed_mono _ _ _ o hwheld (hY o ho)⟩, ?_⟩
  intro t ht2
  simp only [posted, List.append_nil]
  rw [List.mem_append] at ht2 ⊢
  rcases ht2 with ht2 | ht2
  · rw [mem_heldTasks] at ht2
    obtain ⟨j, w1, hj, htw⟩ := ht2
    rw [setPc_getElem?_eq_some, hl] at hj
    obtain ⟨w0, hw0, rfl⟩ := hj
    by_cases hij : i = j
    · subst hij
      simp only [if_true] at htw
      have := hheld t (List.mem_append_left _ htw)
      rw [List.mem_append] at this
      rcases this with h | h
      · exact Or.inl (hwheld t h)
      · exact Or.inr h
    · simp only [hij, if_false] at htw
      exact Or.inl ((mem_heldTasks s t).2 ⟨j, w0, hw0, htw⟩)
  · simp only [setPc_queue] at ht2
    have := hheld t (List.mem_append_right _ ht2)
    rw [List.mem_append] at this
    rcases this with h | h
    · exact Or.inl (hwheld t h)
    · exact Or.inr h

theorem Accounted_Routine (s s1 : System) (i : Nat) (hs : Queue._Routine s i = some s1) :
    Accounted s s1 (Event.advance i) := by
  unfold Queue._Routine at hs
  cases hw : s.loops[i]? with
  | none => simp [hw] at hs
  | some w =>
    simp only [hw] at hs
    cases hpc : w.pc with
    | entry =>
      simp only [hpc, Option.some.injEq] at hs
      subst hs
      exact Accounted_move s _ i w _ [] hw rfl rfl (by simp) (by simp) (by intro t; simp [hpc, PC.held])
    | loopHead =>
      simp only [hpc] at hs
      split at hs <;> simp only [Option.some.injEq] at hs <;> subst hs
      · exact Accounted_move s _ i w _ [] hw rfl rfl (by simp [scopeExit]) (by simp)
          (by intro t; simp [hpc, PC.held, scopeExit])
      · exact Accounted_move s _ i w _ [] hw rfl rfl (by simp) (by simp) (by intro t; simp [hpc, PC.held])
    | waiting =>
      simp only [hpc] at hs
      split at hs
      · simp only [Option.some.injEq] at hs
        subst hs
        exact Accounted_move s _ i w _ [] hw rfl rfl (by simp) (by simp) (by intro t; simp [hpc, PC.held])
      · cases hs
    | locked =>
      simp only [hpc] at hs
      split at hs
      · simp only [Option.some.injEq] at hs
        subst hs
        exact Accounted_move s _ i w _ [] hw rfl rfl (by simp [unlock]) (by simp)
          (by intro t; simp [hpc, PC.held, unlock])
      · split at hs <;> simp only [Option.some.injEq] at hs <;> subst hs
        · rename_i task rest hq
          exact Accounted_move s _ i w _ [] hw rfl rfl (by simp [unlock]) (by simp)
            (by intro t; cases task <;> simp [hpc, PC.held, unlock, hq]; tauto)
        · exact Accounted_move s _ i w _ [] hw rfl rfl (by simp [unlock]) (by simp)
            (by intro t; simp [hpc, PC.held, unlock])
    | popped task =>
      simp only [hpc] at hs
      cases task with
      | none =>
        simp only [Option.some.injEq] at hs
        subst hs
        exact Accounted_move s _ i w _ [] hw rfl rfl (by simp) (by simp) (by intro t; simp [hpc, PC.held])
      | some c =>
        simp only [Option.some.injEq] at hs
        subst hs
        exact Accounted_move s _ i w _ [Obs.invoke c.label] hw rfl rfl (by simp [observe])
          (by simp [hpc, PC.held, Allowed]) (by intro t; simp [hpc, PC.held, observe])
    | inTask c =>
      simp only [hpc] at hs
      split at hs
      · simp only [Option.some.injEq] at hs
        subst hs
        exact Accounted_move s _ i w _ [] hw rfl rfl (by simp) (by simp) (by intro t; simp [hpc, PC.held]; tauto)
      · rename_i f hf
        split at hs
        · simp only [Option.some.injEq] at hs
          subst hs
          exact Accounted_move s _ i w _ [] hw rfl rfl (by simp) (by simp) (by intro t; simp [hpc, PC.held]; tauto)
        · rename_i handler hh
          split at hs
          · simp only [Option.some.injEq] at hs
            subst hs
            exact Accounted_move s _ i w _ [Obs.handle f] hw rfl rfl (by simp [observe])
              (by simp [hpc, PC.held, Allowed, hf]) (by intro t; simp [hpc, PC.held, observe]; tauto)
          · rename_i g hg
            have hall : ∀ o ∈ [Obs.handle f, Obs.handle g],
                Allowed s.queue.m_ExceptionHandler w.pc.held o := by
              intro o ho
              simp only [List.mem_cons, List.mem_singleton, List.not_mem_nil, or_false] at ho
              rcases ho with rfl | rfl
              · simp [hpc, PC.held, Allowed, hf]
              · exact Or.inr ⟨handler, f, hh, hg⟩
            split at hs <;> simp only [Option.some.injEq] at hs <;> subst hs
            · exact Accounted_move s _ i w _ [Obs.handle f, Obs.handle g] hw rfl rfl
                (by simp [observe, scopeExit]) hall (by intro t; simp [hpc, PC.held, observe, scopeExit]; tauto)
            · refine ⟨rfl, ⟨[Obs.handle f, Obs.handle g], by simp [observe], ?_⟩, ?_⟩
              · intro o ho
                exact Allowed_mono _ _ _ o
                  (fun t ht => (mem_heldTasks s t).2 ⟨i, w, hw, ht⟩) (hall o ho)
              · intro t ht
                simpa [System.heldTasks, observe, posted] using ht
    | done =>
      simp only [hpc, Option.some.injEq] at hs
      subst hs
      exact Accounted_same s s _ rfl rfl (fun _ h => h) (by intro t ht; simp [ht])

theorem heldTasks_concat (s : System) (l : List Loop) (w : Loop) (hl : s.loops = l ++ [w])
    (hw : w.pc.held = []) : s.heldTasks = l.flatMap fun w => w.pc.held := by
  simp [System.heldTasks, hl, List.flatMap_append, hw]

theorem Accounted_Start (s s1 : System) (caller : ThreadId)
    (hs : Queue.Start caller s = some s1) : Accounted s s1 (Event.Start caller) := by
  unfold Queue.Start at hs
  have hidle : (match s.queue.m_ExecutionPolicy with
      | ExecutionPolicy.MainThread _ => MainThreadExecutionPolicy.Start caller s
      | ExecutionPolicy.BackgroundThread m_Worker =>
        BackgroundThreadExecutionPolicy.Start m_Worker s) = some s1 →
      Accounted s s1 (Event.Start caller) := by
    intro h
    cases hp : s.queue.m_ExecutionPolicy with
    | MainThread m =>
      simp only [hp, MainStart_eq, Option.some.injEq] at h
      subst h
      refine Accounted_same s _ _ rfl rfl ?_ (by intro t ht; simp [ht])
      intro t ht
      rw [heldTasks_concat _ s.loops _ rfl (by rfl)] at ht
      exact ht
    | BackgroundThread m =>
      simp only [hp, BackgroundStart_eq, Option.some.injEq] at h
      subst h
      refine Accounted_same s _ _ rfl rfl ?_ (by intro t ht; simp [ht])
      intro t ht
      rw [heldTasks_concat _ s.loops _ rfl (by rfl)] at ht
      exact ht
  cases hst : s.queue.m_State <;> simp only [hst] at hs
  · exact hidle hs
  · cases hs
    exact Accounted_same s s _ rfl rfl (fun _ h => h) (by intro t ht; simp [ht])
  · cases hs
    exact Accounted_same s s _ rfl rfl (fun _ h => h) (by intro t ht; simp [ht])
  · exact hidle hs

theorem Accounted_Stop (s s1 : System) (caller : ThreadId) (hs : Queue.Stop s = some s1) :
    Accounted s s1 (Event.Stop caller) := by
  unfold Queue.Stop Queue._Stop at hs
  cases hst : s.queue.m_State <;> simp only [hst] at hs
  · cases hs
    exact Accounted_same s s _ rfl rfl (fun _ h => h) (by intro t ht; simp [ht])
  · obtain ⟨_, rfl⟩ := DoStop_eq s s1 hs
    exact Accounted_same s _ _ rfl rfl (fun _ h => h) (by intro t ht; simp at ht)
  · cases hs
    exact Accounted_same s s _ rfl rfl (fun _ h => h) (by intro t ht; simp [ht])
  · cases hs
    exact Accounted_same s s _ rfl rfl (fun _ h => h) (by intro t ht; simp [ht])

theorem Accounted_step (s s1 : System) (e : Event) (hs : step s e = some s1) :
    Accounted s s1 e := by
  unfold step at hs
  split at hs
  · cases hs
  · cases e with
    | Start caller =>
      simp only at hs
      split at hs
      · exact Accounted_Start s s1 caller hs
      · cases hs
    | Stop caller =>
      simp only at hs
      split at hs
      · exact Accounted_Stop s s1 caller hs
      · cases hs
    | Post caller task =>
      simp only at hs
      split at hs
      · unfold Queue.Post at hs
        split at hs
        · simp only [Option.some.injEq] at hs
          subst hs
          exact Accounted_same s _ _ rfl rfl (fun _ h => h) (by intro t ht; simpa [posted] using ht)
        · cases hs
      · cases hs
    | advance i => exact Accounted_Routine s s1 i hs

/-- Along any schedule, what is observed is caused by the tasks that the
activations held at the beginning, that were pending at the beginning, or
that the schedule posts. -/
theorem Accounted_run (evs : List Event) (s s1 : System) (hs : run s evs = some s1) :
    ∃ Y, s1.trace = s.trace ++ Y ∧ ∀ o ∈ Y,
      Allowed s.queue.m_ExceptionHandler (s.heldTasks ++ s.queue.m_TaskQueue ++ posted evs) o := by
  induction evs generalizing s with
  | nil =>
    simp only [run, Option.some.injEq] at hs
    subst hs
    exact ⟨[], by simp, by simp⟩
  | cons e es ih =>
    simp only [run] at hs
    cases h1 : step s e with
    | none => simp [h1] at hs
    | some s2 =>
      simp only [h1, Option.some_bind] at hs
      obtain ⟨hh, ⟨Y1, ht1, hY1⟩, hsub⟩ := Accounted_step s s2 e h1
      obtain ⟨Y2, ht2, hY2⟩ := ih s2 hs
      have hpost : posted (e :: es) = posted [e] ++ posted es := posted_append [e] es
      refine ⟨Y1 ++ Y2, by rw [ht2, ht1, List.append_assoc], ?_⟩
      intro o ho
      rw [List.mem_append] at ho
      rcases ho with ho | ho
      · refine Allowed_mono _ _ _ o ?_ (hY1 o ho)
        intro t ht
        simp [ht]
      · rw [hh] at hY2
        refine Allowed_mono _ _ _ o ?_ (hY2 o ho)
        intro t ht
        rw [List.mem_append] at ht
        rcases ht with ht | ht
        · have := hsub t ht
          rw [hpost]
          simp only [List.mem_append] at this ⊢
          tauto
        · rw [hpost]
          simp [ht]

theorem heldTasks_setPc (s s0 : System) (i : Nat) (pc1 : PC) (t : tTask)
    (hl : s0.loops = s.loops) (ht : t ∈ (setPc s0 i pc1).heldTasks) :
    t ∈ pc1.held ∨ t ∈ s.heldTasks := by
  rw [mem_heldTasks] at ht
  obtain ⟨j, w1, hj, htw⟩ := ht
  rw [setPc_getElem?_eq_some, hl] at hj
  obtain ⟨w0, hw0, rfl⟩ := hj
  by_cases hij : i = j
  · simp only [hij, if_true] at htw
    exact Or.inl htw
  · simp only [hij, if_false] at htw
    exact Or.inr ((mem_heldTasks s t).2 ⟨j, w0, hw0, htw⟩)

theorem Wound_setPc (s s0 : System) (i : Nat) (pc1 : PC) (h : Wound s)
    (hl : s0.loops = s.loops) (hst : s0.stopStates = s.stopStates)
    (hi : ∀ w, s.loops[i]? = some w → stop_requested s w.stopToken = true ∨ pc1 = PC.done) :
    Wound (setPc s0 i pc1) := by
  intro j w1 hj
  rw [setPc_getElem?_eq_some, hl] at hj
  obtain ⟨w0, hw0, rfl⟩ := hj
  have hr : ∀ t, stop_requested (setPc s0 i pc1) t = stop_requested s t := fun t => by
    simp [stop_requested, hst]
  by_cases hij : i = j
  · subst hij
    simp only [if_true, hr]
    rcases hi w0 hw0 with h1 | h1
    · exact Or.inr h1
    · exact Or.inl h1
  · simp only [hij, if_false, hr]
    exact h j w0 hw0

/-- While the queue is not running, a step that is no call of `Start` or
`Stop` leaves the pending tasks in place, appends what it posts, and lets
the activations hold no task they did not hold before. -/
theorem Wound_step (s s1 : System) (e : Event) (h : Wound s) (ht : s.terminated = false)
    (hret : HandlerReturns s.queue.m_ExceptionHandler) (he : e.isControl = false)
    (hs : step s e = some s1) :
    Wound s1 ∧ s1.terminated = false ∧
      s1.queue.m_TaskQueue = s.queue.m_TaskQueue ++ posted [e] ∧
      (∀ t, t ∈ s1.heldTasks → t ∈ s.heldTasks) := by
  unfold step at hs
  simp only [ht, Bool.false_eq_true, if_false] at hs
  cases e with
  | Start caller => simp [Event.isControl] at he
  | Stop caller => simp [Event.isControl] at he
  | Post caller task =>
    simp only at hs
    split at hs
    · unfold Queue.Post at hs
      split at hs
      · simp only [Option.some.injEq] at hs
        subst hs
        exact ⟨h, ht, by simp [posted], fun _ h => h⟩
      · cases hs
    · cases hs
  | advance i =>
    simp only at hs
    unfold Queue._Routine at hs
    cases hw : s.loops[i]? with
    | none => simp [hw] at hs
    | some w =>
      simp only [hw] at hs
      have hwheld : ∀ t, t ∈ w.pc.held → t ∈ s.heldTasks := fun t ht =>
        (mem_heldTasks s t).2 ⟨i, w, hw, ht⟩
      have key : ∀ (s0 : System) (pc1 : PC), s0.loops = s.loops →
          s0.stopStates = s.stopStates → s0.terminated = false →
          s0.queue.m_TaskQueue = s.queue.m_TaskQueue →
          (stop_requested s w.stopToken = true ∨ pc1 = PC.done) →
          (∀ t, t ∈ pc1.held → t ∈ w.pc.held) →
          Wound (setPc s0 i pc1) ∧ (setPc s0 i pc1).terminated = false ∧
            (setPc s0 i pc1).queue.m_TaskQueue =
              s.queue.m_TaskQueue ++ posted [Event.advance i] ∧
            (∀ t, t ∈ (setPc s0 i pc1).heldTasks → t ∈ s.heldTasks) := by
        intro s0 pc1 hl hst ht0 hq hreq hheld
        refine ⟨Wound_setPc s s0 i pc1 h hl hst ?_, ht0, by simp [hq, posted], ?_⟩
        · intro w1 hw1
          rw [hw] at hw1
          cases hw1
          exact hreq
        · intro t ht1
          rcases heldTasks_setPc s s0 i pc1 t hl ht1 with h1 | h1
          · exact hwheld t (hheld t h1)
          · exact h1
      rcases h i w hw with hdone | hreq
      · simp only [hdone, Option.some.injEq] at hs
        subst hs
        exact ⟨h, ht, by simp [posted], fun _ h => h⟩
      · cases hpc : w.pc with
        | entry =>
          simp only [hpc, Option.some.injEq] at hs
          subst hs
          exact key _ _ rfl rfl ht rfl (Or.inl hreq) (by simp [PC.held])
        | loopHead =>
          simp only [hpc, hreq, if_true, Option.some.injEq] at hs
          subst hs
          exact key _ _ rfl rfl ht rfl (Or.inl hreq) (by simp [PC.held])
        | waiting =>
          simp only [hpc] at hs
          split at hs
          · simp only [Option.some.injEq] at hs
            subst hs
            exact key _ _ rfl rfl ht rfl (Or.inl hreq) (by simp [PC.held])
          · cases hs
        | locked =>
          simp only [hpc, hreq, if_true, Option.some.injEq] at hs
          subst hs
          exact key _ _ rfl rfl ht rfl (Or.inl hreq) (by simp [PC.held])
        | popped task =>
          simp only [hpc] at hs
          cases task with
          | none =>
            simp only [Option.some.injEq] at hs
            subst hs
            exact key _ _ rfl rfl ht rfl (Or.inl hreq) (by simp [PC.held])
          | some c =>
            simp only [Option.some.injEq] at hs
            subst hs
            exact key _ _ rfl rfl ht rfl (Or.inl hreq) (by simp [hpc, PC.held])
        | inTask c =>
          simp only [hpc] at hs
          split at hs
          · simp only [Option.some.injEq] at hs
            subst hs
            exact key _ _ rfl rfl ht rfl (Or.inl hreq) (by simp [PC.held])
          · rename_i f hf
            split at hs
            · simp only [Option.some.injEq] at hs
              subst hs
              exact key _ _ rfl rfl ht rfl (Or.inl hreq) (by simp [PC.held])
            · rename_i handler hh
              simp only [hret handler hh f, Option.some.injEq] at hs
              subst hs
              exact key _ _ rfl rfl ht rfl (Or.inl hreq) (by simp [PC.held])
        | done =>
          simp only [hpc, Option.some.injEq] at hs
          subst hs
          exact ⟨h, ht, by simp [posted], fun _ h => h⟩

/-- While the queue is not running, a schedule without `Start` and `Stop`
keeps the pending tasks and appends the posted ones, in post order; what it
adds to the observations is caused by tasks that were already dequeued. -/
theorem Wound_run (evs : List Event) (s s1 : System) (h : Wound s) (ht : s.terminated = false)
    (hret : HandlerReturns s.queue.m_ExceptionHandler)
    (he : ∀ e ∈ evs, Event.isControl e = false) (hs : run s evs = some s1) :
    Wound s1 ∧ s1.terminated = false ∧
      s1.queue.m_ExceptionHandler = s.queue.m_ExceptionHandler ∧
      s1.queue.m_TaskQueue = s.queue.m_TaskQueue ++ posted evs ∧
      (∀ t, t ∈ s1.heldTasks → t ∈ s.heldTasks) ∧
      ∃ Y, s1.trace = s.trace ++ Y ∧
        ∀ o ∈ Y, Allowed s.queue.m_ExceptionHandler s.heldTasks o := by
  induction evs generalizing s with
  | nil =>
    simp only [run, Option.some.injEq] at hs
    subst hs
    exact ⟨h, ht, rfl, by simp [posted], fun _ h => h, [], by simp, by simp⟩
  | cons e es ih =>
    simp only [run] at hs
    cases h1 : step s e with
    | none => simp [h1] at hs
    | some s2 =>
      simp only [h1, Option.some_bind] at hs
      obtain ⟨hw2, ht2, hq2, hheld2⟩ := Wound_step s s2 e h ht hret (he e (by simp)) h1
      obtain ⟨hh, ⟨Y1, htr1, hY1⟩, _⟩ := Accounted_step s s2 e h1
      obtain ⟨hw3, ht3, hh3, hq3, hheld3, Y2, htr2, hY2⟩ :=
        ih s2 hw2 ht2 (by rw [hh]; exact hret) (fun e1 h1 => he e1 (by simp [h1])) hs
      have hpost : posted (e :: es) = posted [e] ++ posted es := posted_append [e] es
      refine ⟨hw3, ht3, hh3.trans hh, ?_, fun t ht => hheld2 t (hheld3 t ht), Y1 ++ Y2, ?_, ?_⟩
      · rw [hq3, hq2, hpost, List.append_assoc]
      · rw [htr2, htr1, List.append_assoc]
      · intro o ho
        rw [List.mem_append] at ho
        rcases ho with ho | ho
        · exact hY1 o ho
        · rw [hh] at hY2
          exact Allowed_mono _ _ _ o hheld2 (hY2 o ho)

theorem Quiescent_of_all (s : System)
    (h : (s.loops.all fun w => decide (w.pc = PC.done)) = true) : Quiescent s := by
  intro j w hj
  rw [List.all_eq_true] at h
  simpa using h w (List.mem_iff_getElem?.2 ⟨j, hj⟩)

theorem Wound_of_all (s : System)
    (h : (s.loops.all fun w =>
      decide (w.pc = PC.done) || stop_requested s w.stopToken) = true) : Wound s := by
  intro j w hj
  rw [List.all_eq_true] at h
  simpa using h w (List.mem_iff_getElem?.2 ⟨j, hj⟩)

theorem stoppingBackground_reachable : Reachable stoppingBackground :=
  ⟨"worker", some fun _ => none, ExecutionPolicy.BackgroundThread none,
    busyBackgroundSchedule ++ [Event.Stop (ThreadId.user 0)], rfl, rfl⟩

theorem Quiescent_advance (s : System) (i k : Nat) (w : Loop) (hq : Quiescent s)
    (ht : s.terminated = false) (hw : s.loops[i]? = some w) :
    run s (List.replicate k (Event.advance i)) = some s := by
  induction k with
  | zero => rfl
  | succ k ih =>
    simp [List.replicate_succ, run, step, ht, Routine_done s i w hw (hq i w hw), ih]

theorem Kept_refl (s : System) : Kept s s :=
  ⟨rfl, rfl, fun h => h, fun _ w hw => ⟨w, hw, rfl, rfl⟩⟩

theorem Kept_congr (s s0 : System) (hn : s0.queue.m_Name = s.queue.m_Name)
    (hh : s0.queue.m_ExceptionHandler = s.queue.m_ExceptionHandler)
    (hp : s0.queue.m_ExecutionPolicy = s.queue.m_ExecutionPolicy) (hl : s0.loops = s.loops) :
    Kept s s0 := by
  refine ⟨hn, hh, fun h => by rw [hp]; exact h, ?_⟩
  intro n w hw
  exact ⟨w, by rw [hl]; exact hw, rfl, rfl⟩

theorem Kept_setPc (s s0 : System) (i : Nat) (pc1 : PC) (hn : s0.queue.m_Name = s.queue.m_Name)
    (hh : s0.queue.m_ExceptionHandler = s.queue.m_ExceptionHandler)
    (hp : s0.queue.m_ExecutionPolicy = s.queue.m_ExecutionPolicy) (hl : s0.loops = s.loops) :
    Kept s (setPc s0 i pc1) := by
  refine ⟨hn, hh, fun h => by rw [setPc_queue, hp]; exact h, ?_⟩
  intro n w hw
  refine ⟨if i = n then { w with pc := pc1 } else w, ?_, ?_, ?_⟩
  · rw [setPc_getElem?_eq_some, hl]
    exact ⟨w, hw, rfl⟩
  · split <;> rfl
  · split <;> rfl

theorem Kept_Routine (s s1 : System) (i : Nat) (hs : Queue._Routine s i = some s1) :
    Kept s s1 := by
  unfold Queue._Routine at hs
  cases hw : s.loops[i]? with
  | none => simp [hw] at hs
  | some w =>
    simp only [hw] at hs
    cases hpc : w.pc with
    | entry =>
      simp only [hpc, Option.some.injEq] at hs
      subst hs
      exact Kept_setPc s _ i _ rfl rfl rfl rfl
    | loopHead =>
      simp only [hpc] at hs
      split at hs <;> simp only [Option.some.injEq] at hs <;> subst hs <;>
        exact Kept_setPc s _ i _ rfl rfl rfl rfl
    | waiting =>
      simp only [hpc] at hs
      split at hs
      · simp only [Option.some.injEq] at hs
        subst hs
        exact Kept_setPc s _ i _ rfl rfl rfl rfl
      · cases hs
    | locked =>
      simp only [hpc] at hs
      split at hs
      · simp only [Option.some.injEq] at hs
        subst hs
        exact Kept_setPc s _ i _ rfl rfl rfl rfl
      · split at hs <;> simp only [Option.some.injEq] at hs <;> subst hs <;>
          exact Kept_setPc s _ i _ rfl rfl rfl rfl
    | popped task =>
      simp only [hpc] at hs
      cases task <;> simp only [Option.some.injEq] at hs <;> subst hs <;>
        exact Kept_setPc s _ i _ rfl rfl rfl rfl
    | inTask c =>
      simp only [hpc] at hs
      split at hs
      · simp only [Option.some.injEq] at hs
        subst hs
        exact Kept_setPc s _ i _ rfl rfl rfl rfl
      · split at hs
        · simp only [Option.some.injEq] at hs
          subst hs
          exact Kept_setPc s _ i _ rfl rfl rfl rfl
        · split at hs
          · simp only [Option.some.injEq] at hs
            subst hs
            exact Kept_setPc s _ i _ rfl rfl rfl rfl
          · split at hs <;> simp only [Option.some.injEq] at hs <;> subst hs
            · exact Kept_setPc s _ i _ rfl rfl rfl rfl
            · exact Kept_congr s _ rfl rfl rfl rfl
    | done =>
      simp only [hpc, Option.some.injEq] at hs
      subst hs
      exact Kept_refl s

theorem Kept_Start (s s1 : System) (caller : ThreadId) (hs : Queue.Start caller s = some s1) :
    Kept s s1 := by
  unfold Queue.Start at hs
  have hidle : (match s.queue.m_ExecutionPolicy with
      | ExecutionPolicy.MainThread _ => MainThreadExecutionPolicy.Start caller s
      | ExecutionPolicy.BackgroundThread m_Worker =>
        BackgroundThreadExecutionPolicy.Start m_Worker s) = some s1 → Kept s s1 := by
    intro h
    cases hp : s.queue.m_ExecutionPolicy with
    | MainThread m =>
      simp only [hp, MainStart_eq, Option.some.injEq] at h
      subst h
      refine ⟨rfl, rfl, fun _ => ⟨_, rfl⟩, ?_⟩
      intro n w hw
      exact ⟨w, by rw [getElem?_concat_eq_some]; exact Or.inl hw, rfl, rfl⟩
    | BackgroundThread m =>
      simp only [hp, BackgroundStart_eq, Option.some.injEq] at h
      subst h
      refine ⟨rfl, rfl, ?_, ?_⟩
      · rintro ⟨m2, hm2⟩
        rw [hp] at hm2
        cases hm2
      · intro n w hw
        exact ⟨w, by rw [getElem?_concat_eq_some]; exact Or.inl hw, rfl, rfl⟩
  cases hst : s.queue.m_State <;> simp only [hst] at hs
  · exact hidle hs
  · cases hs
    exact Kept_refl s
  · cases hs
    exact Kept_refl s
  · exact hidle hs

theorem Kept_step (s s1 : System) (e : Event) (hs : step s e = some s1) : Kept s s1 := by
  unfold step at hs
  split at hs
  · cases hs
  · cases e with
    | Start caller =>
      simp only at hs
      split at hs
      · exact Kept_Start s s1 caller hs
      · cases hs
    | Stop caller =>
      simp only at hs
      split at hs
      · unfold Queue.Stop Queue._Stop at hs
        cases hst : s.queue.m_State <;> simp only [hst] at hs
        · cases hs
          exact Kept_refl s
        · obtain ⟨_, rfl⟩ := DoStop_eq s s1 hs
          exact Kept_congr s _ rfl rfl rfl rfl
        · cases hs
          exact Kept_refl s
        · cases hs
          exact Kept_refl s
      · cases hs
    | Post caller task =>
      simp only at hs
      split at hs
      · unfold Queue.Post at hs
        split at hs
        · simp only [Option.some.injEq] at hs
          subst hs
          exact Kept_congr s _ rfl rfl rfl rfl
        · cases hs
      · cases hs
    | advance i => exact Kept_Routine s s1 i hs

/-- Two activations that have not returned run on different threads. -/
theorem live_tid_unique (s : System) (hc : Consistent s) (he : Exclusive s) (i j : Nat)
    (a b : Loop) (ha : s.loops[i]? = some a) (hb : s.loops[j]? = some b)
    (hla : a.pc ≠ PC.done) (hlb : b.pc ≠ PC.done) (ht : a.tid = b.tid) : i = j := by
  cases hp : s.queue.m_ExecutionPolicy with
  | MainThread m =>
    have h1 := (hc.main m hp i a ha hla).1
    have h2 := (hc.main m hp j b hb hlb).1
    omega
  | BackgroundThread m =>
    have h1 := he.tids m hp i a ha
    have h2 := he.tids m hp j b hb
    rw [h1, h2] at ht
    cases ht
    rfl

theorem Exclusive_congr (s s0 : System) (h : Exclusive s) (hq : s0.queue = s.queue)
    (hl : s0.loops = s.loops) : Exclusive s0 := by
  constructor
  · rw [hq, hl]; exact h.holder
  · rw [hq, hl]; exact h.locked
  · rw [hq, hl]; exact h.tids

theorem Exclusive_move (s s0 : System) (i : Nat) (w : Loop) (pc1 : PC) (hc : Consistent s)
    (he : Exclusive s) (hw : s.loops[i]? = some w) (hne : w.pc ≠ PC.done)
    (hl : s0.loops = s.loops)
    (hpol : s0.queue.m_ExecutionPolicy = s.queue.m_ExecutionPolicy)
    (hmx : (pc1 = PC.locked ∧ s.queue.m_Mutex = none ∧ s0.queue.m_Mutex = some w.tid) ∨
      (w.pc = PC.locked ∧ pc1 ≠ PC.locked ∧ s0.queue.m_Mutex = none) ∨
      (w.pc ≠ PC.locked ∧ pc1 ≠ PC.locked ∧ s0.queue.m_Mutex = s.queue.m_Mutex)) :
    Exclusive (setPc s0 i pc1) := by
  have hself : (setPc s0 i pc1).loops[i]? = some { w with pc := pc1 } :=
    setPc_self s0 i pc1 w (by rw [hl]; exact hw)
  have hother : ∀ (j : Nat) (w1 : Loop), (setPc s0 i pc1).loops[j]? = some w1 → i ≠ j →
      s.loops[j]? = some w1 := by
    intro j w1 hj hij
    rw [setPc_other s0 i j pc1 hij, hl] at hj
    exact hj
  have hkeep : ∀ (j : Nat) (w1 : Loop), s.loops[j]? = some w1 → i ≠ j →
      (setPc s0 i pc1).loops[j]? = some w1 := by
    intro j w1 hj hij
    rw [setPc_other s0 i j pc1 hij, hl]
    exact hj
  constructor
  · intro t ht
    simp only [setPc_queue] at ht
    rcases hmx with ⟨hp, _, hm⟩ | ⟨_, _, hm⟩ | ⟨hnl, _, hm⟩
    · rw [hm] at ht
      cases ht
      exact ⟨i, _, hself, hp, rfl⟩
    · rw [hm] at ht
      cases ht
    · rw [hm] at ht
      obtain ⟨j, w1, hj, hlk, htid⟩ := he.holder t ht
      have hij : i ≠ j := by
        intro e
        subst e
        rw [hw] at hj
        cases hj
        exact hnl hlk
      exact ⟨j, w1, hkeep j w1 hj hij, hlk, htid⟩
  · intro j w1 hj hlk
    simp only [setPc_queue]
    by_cases hij : i = j
    · subst hij
      rw [hself] at hj
      cases hj
      rcases hmx with ⟨_, _, hm⟩ | ⟨_, hp, _⟩ | ⟨_, hp, _⟩
      · exact hm
      · exact absurd hlk hp
      · exact absurd hlk hp
    · have hj0 := hother j w1 hj hij
      have hold := he.locked j w1 hj0 hlk
      rcases hmx with ⟨_, hnone, _⟩ | ⟨hwl, _, _⟩ | ⟨_, _, hm⟩
      · rw [hnone] at hold
        cases hold
      · have hwm := he.locked i w hw hwl
        rw [hold] at hwm
        have htid : w1.tid = w.tid := Option.some.inj hwm
        have := live_tid_unique s hc he j i w1 w hj0 hw (by rw [hlk]; simp) hne htid
        exact absurd this.symm hij
      · rw [hm]
        exact hold
  · intro m hm j w1 hj
    simp only [setPc_queue, hpol] at hm
    rw [setPc_getElem?_eq_some, hl] at hj
    obtain ⟨w0, hw0, rfl⟩ := hj
    have := he.tids m hm j w0 hw0
    split <;> simpa using this

theorem Exclusive_Routine (s s1 : System) (i : Nat) (hc : Consistent s) (he : Exclusive s)
    (hs : Queue._Routine s i = some s1) : Exclusive s1 := by
  unfold Queue._Routine at hs
  cases hw : s.loops[i]? with
  | none => simp [hw] at hs
  | some w =>
    simp only [hw] at hs
    cases hpc : w.pc with
    | entry =>
      simp only [hpc, Option.some.injEq] at hs
      subst hs
      exact Exclusive_move s _ i w _ hc he hw (by simp [hpc]) rfl rfl
        (Or.inr (Or.inr ⟨by simp [hpc], by simp, rfl⟩))
    | loopHead =>
      simp only [hpc] at hs
      split at hs <;> simp only [Option.some.injEq] at hs <;> subst hs <;>
        exact Exclusive_move s _ i w _ hc he hw (by simp [hpc]) rfl rfl
          (Or.inr (Or.inr ⟨by simp [hpc], by simp, rfl⟩))
    | waiting =>
      simp only [hpc] at hs
      split at hs
      · rename_i hm
        simp only [Option.some.injEq] at hs
        subst hs
        exact Exclusive_move s _ i w _ hc he hw (by simp [hpc]) rfl rfl
          (Or.inl ⟨rfl, hm, rfl⟩)
      · cases hs
    | locked =>
      simp only [hpc] at hs
      split at hs
      · simp only [Option.some.injEq] at hs
        subst hs
        exact Exclusive_move s _ i w _ hc he hw (by simp [hpc]) rfl rfl
          (Or.inr (Or.inl ⟨hpc, by simp, rfl⟩))
      · split at hs <;> simp only [Option.some.injEq] at hs <;> subst hs <;>
          exact Exclusive_move s _ i w _ hc he hw (by simp [hpc]) rfl rfl
            (Or.inr (Or.inl ⟨hpc, by simp, rfl⟩))
    | popped task =>
      simp only [hpc] at hs
      cases task <;> simp only [Option.some.injEq] at hs <;> subst hs <;>
        exact Exclusive_move s _ i w _ hc he hw (by simp [hpc]) rfl rfl
          (Or.inr (Or.inr ⟨by simp [hpc], by simp, rfl⟩))
    | inTask c =>
      simp only [hpc] at hs
      split at hs
      · simp only [Option.some.injEq] at hs
        subst hs
        exact Exclusive_move s _ i w _ hc he hw (by simp [hpc]) rfl rfl
          (Or.inr (Or.inr ⟨by simp [hpc], by simp, rfl⟩))
      · split at hs
        · simp only [Option.some.injEq] at hs
          subst hs
          exact Exclusive_move s _ i w _ hc he hw (by simp [hpc]) rfl rfl
            (Or.inr (Or.inr ⟨by simp [hpc], by simp, rfl⟩))
        · split at hs
          · simp only [Option.some.injEq] at hs
            subst hs
            exact Exclusive_move s _ i w _ hc he hw (by simp [hpc]) rfl rfl
              (Or.inr (Or.inr ⟨by simp [hpc], by simp, rfl⟩))
          · split at hs <;> simp only [Option.some.injEq] at hs <;> subst hs
            · exact Exclusive_move s _ i w _ hc he hw (by simp [hpc]) rfl rfl
                (Or.inr (Or.inr ⟨by simp [hpc], by simp, rfl⟩))
            · exact Exclusive_congr s _ he rfl rfl
    | done =>
      simp only [hpc, Option.some.injEq] at hs
      subst hs
      exact he

theorem Exclusive_Start (s s1 : System) (caller : ThreadId) (he : Exclusive s)
    (hs : Queue.Start caller s = some s1) : Exclusive s1 := by
  unfold Queue.Start at hs
  have hidle : (match s.queue.m_ExecutionPolicy with
      | ExecutionPolicy.MainThread _ => MainThreadExecutionPolicy.Start caller s
      | ExecutionPolicy.BackgroundThread m_Worker =>
        BackgroundThreadExecutionPolicy.Start m_Worker s) = some s1 → Exclusive s1 := by
    intro h
    cases hp : s.queue.m_ExecutionPolicy with
    | MainThread m =>
      simp only [hp, MainStart_eq, Option.some.injEq] at h
      subst h
      constructor
      · intro t ht
        obtain ⟨j, w, hj, hlk, htid⟩ := he.holder t ht
        exact ⟨j, w, by rw [getElem?_concat_eq_some]; exact Or.inl hj, hlk, htid⟩
      · intro j w hj hlk
        rw [getElem?_concat_eq_some] at hj
        rcases hj with hj | ⟨_, rfl⟩
        · exact he.locked j w hj hlk
        · cases hlk
      · intro m2 hm2
        cases hm2
    | BackgroundThread m =>
      simp only [hp, BackgroundStart_eq, Option.some.injEq] at h
      subst h
      constructor
      · intro t ht
        obtain ⟨j, w, hj, hlk, htid⟩ := he.holder t ht
        exact ⟨j, w, by rw [getElem?_concat_eq_some]; exact Or.inl hj, hlk, htid⟩
      · intro j w hj hlk
        rw [getElem?_concat_eq_some] at hj
        rcases hj with hj | ⟨_, rfl⟩
        · exact he.locked j w hj hlk
        · cases hlk
      · intro m2 _ j w hj
        rw [getElem?_concat_eq_some] at hj
        rcases hj with hj | ⟨rfl, rfl⟩
        · exact he.tids m hp j w hj
        · rfl
  cases hst : s.queue.m_State <;> simp only [hst] at hs
  · exact hidle hs
  · cases hs
    exact he
  · cases hs
    exact he
  · exact hidle hs

theorem Exclusive_step (s s1 : System) (e : Event) (hc : Consistent s) (he : Exclusive s)
    (hs : step s e = some s1) : Exclusive s1 := by
  unfold step at hs
  split at hs
  · cases hs
  · cases e with
    | Start caller =>
      simp only at hs
      split at hs
      · exact Exclusive_Start s s1 caller he hs
      · cases hs
    | Stop caller =>
      simp only at hs
      split at hs
      · unfold Queue.Stop Queue._Stop at hs
        cases hst : s.queue.m_State <;> simp only [hst] at hs
        · cases hs
          exact he
        · obtain ⟨_, rfl⟩ := DoStop_eq s s1 hs
          exact ⟨he.holder, he.locked, he.tids⟩
        · cases hs
          exact he
        · cases hs
          exact he
      · cases hs
    | Post caller task =>
      simp only at hs
      split at hs
      · unfold Queue.Post at hs
        split at hs
        · simp only [Option.some.injEq] at hs
          subst hs
          exact ⟨he.holder, he.locked, he.tids⟩
        · cases hs
      · cases hs
    | advance i => exact Exclusive_Routine s s1 i hc he hs

theorem Exclusive_run (evs : List Event) (s s1 : System) (hc : Consistent s)
    (he : Exclusive s) (hs : run s evs = some s1) : Exclusive s1 := by
  induction evs generalizing s with
  | nil =>
    simp only [run, Option.some.injEq] at hs
    subst hs
    exact he
  | cons e es ih =>
    simp only [run] at hs
    cases h1 : step s e with
    | none => simp [h1] at hs
    | some s2 =>
      simp only [h1, Option.some_bind] at hs
      exact ih s2 (Consistent_step s s2 e hc h1) (Exclusive_step s s2 e hc he h1) hs

theorem Exclusive_of_Reachable (s : System) (h : Reachable s) : Exclusive s := by
  obtain ⟨name, handler, policy, evs, hp, hr⟩ := h
  refine Exclusive_run evs _ s (Consistent_init name handler policy hp) ?_ hr
  constructor <;> simp [System.init]

/-- An activation that is neither in the predicate of its wait nor returned
runs on a thread that does not hold the mutex. -/
theorem not_holder (s : System) (hc : Consistent s) (he : Exclusive s) (n : Nat) (w : Loop)
    (hw : s.loops[n]? = some w) (hlive : w.pc ≠ PC.done) (hnl : w.pc ≠ PC.locked) :
    s.queue.m_Mutex ≠ some w.tid := by
  intro h
  obtain ⟨j, v, hj, hlk, htid⟩ := he.holder _ h
  have := live_tid_unique s hc he j n v w hj hw (by rw [hlk]; simp) hlive htid
  subst this
  rw [hw] at hj
  cases hj
  exact hnl hlk

/-- The thread of an activation that executes a task can call the interface. -/
theorem canCall_of_inTask (s : System) (hc : Consistent s) (he : Exclusive s) (n : Nat)
    (w : Loop) (c : Callable) (hw : s.loops[n]? = some w) (hpc : w.pc = PC.inTask c) :
    canCall s w.tid = true := by
  unfold canCall
  rw [List.all_eq_true]
  intro v hv
  obtain ⟨j, hj⟩ := List.mem_iff_getElem?.1 hv
  by_cases ht : v.tid = w.tid
  · by_cases hd : v.pc = PC.done
    · simp [hd]
    · have := live_tid_unique s hc he j n v w hj hw hd (by rw [hpc]; simp) ht
      subst this
      rw [hw] at hj
      cases hj
      simp [hpc]
  · simp [ht]

theorem Routine_policy (s s1 : System) (i : Nat) (hs : Queue._Routine s i = some s1) :
    s1.queue.m_ExecutionPolicy = s.queue.m_ExecutionPolicy := by
  unfold Queue._Routine at hs
  repeat' split at hs
  all_goals cases hs
  all_goals rfl

/-- No step changes the kind of the execution policy. -/
theorem step_isMain (s s1 : System) (e : Event) (hs : step s e = some s1) :
    s1.queue.m_ExecutionPolicy.isMain = s.queue.m_ExecutionPolicy.isMain := by
  unfold step at hs
  split at hs
  · cases hs
  · cases e with
    | Start caller =>
      simp only at hs
      split at hs
      · unfold Queue.Start at hs
        cases hp : s.queue.m_ExecutionPolicy <;>
          cases hst : s.queue.m_State <;>
          simp only [hp, hst, MainStart_eq, BackgroundStart_eq, Option.some.injEq] at hs <;>
          subst hs <;> simp [ExecutionPolicy.isMain, hp]
      · cases hs
    | Stop caller =>
      simp only at hs
      split at hs
      · unfold Queue.Stop Queue._Stop at hs
        cases hst : s.queue.m_State <;> simp only [hst] at hs
        · cases hs
          rfl
        · obtain ⟨_, rfl⟩ := DoStop_eq s s1 hs
          rfl
        · cases hs
          rfl
        · cases hs
          rfl
      · cases hs
    | Post caller task =>
      simp only at hs
      split at hs
      · unfold Queue.Post at hs
        split at hs
        · cases hs
          rfl
        · cases hs
      · cases hs
    | advance i => rw [Routine_policy s s1 i hs]

theorem find_mem (r : QueueManager) (name : String) (p : Nat)
    (h : r.find name = some p) : (name, p) ∈ r.m_QueuesStore := by
  unfold QueueManager.find at h
  cases hf : r.m_QueuesStore.find? (fun e => e.1 == name) with
  | none => simp [hf] at h
  | some e =>
    simp only [hf, Option.map_some', Option.some.injEq] at h
    have h1 : (e.1 == name) = true := @List.find?_some _ (fun e => e.1 == name) e _ hf
    have h2 := List.mem_of_find?_eq_some hf
    simp only [beq_iff_eq] at h1
    obtain ⟨a, b⟩ := e
    simp only at h1 h
    subst h1 h
    exact h2

theorem find_none (r : QueueManager) (name : String) :
    r.find name = none ↔ ∀ e ∈ r.m_QueuesStore, e.1 ≠ name := by
  unfold QueueManager.find
  simp [List.find?_eq_none]

theorem find_of_mem (store : List (String × Nat)) (heap : List Cell) (access : Option Removal)
    (hk : (store.map Prod.fst).Nodup) (name : String) (p : Nat) (h : (name, p) ∈ store) :
    QueueManager.find { m_QueuesStore := store, heap := heap, m_Access := access } name =
      some p := by
  unfold QueueManager.find
  simp only
  induction store with
  | nil => cases h
  | cons e es ih =>
    simp only [List.map_cons, List.nodup_cons] at hk
    rcases List.mem_cons.1 h with h1 | h1
    · subst h1
      simp
    · have hne : ¬ e.1 = name := by
        intro e1
        apply hk.1
        rw [e1]
        exact List.mem_map.2 ⟨(name, p), h1, rfl⟩
      rw [List.find?_cons_of_neg]
      · exact ih hk.2 h1
      · simpa using hne

theorem IsExists_eq (r : QueueManager) (name : String) :
    r._IsExists name = (r.find name).isSome := by
  unfold QueueManager._IsExists QueueManager.find
  cases hf : r.m_QueuesStore.find? (fun e => e.1 == name) with
  | none =>
    simp only [Option.map_none', Option.isSome_none]
    rw [List.find?_eq_none] at hf
    rw [Bool.eq_false_iff]
    intro h
    rw [List.any_eq_true] at h
    obtain ⟨e, he, hp⟩ := h
    exact hf e he hp
  | some e =>
    simp only [Option.map_some', Option.isSome_some]
    rw [List.any_eq_true]
    exact ⟨e, List.mem_of_find?_eq_some hf,
      @List.find?_some _ (fun e => e.1 == name) e _ hf⟩

theorem release_store (caller : ThreadId) (r r1 : QueueManager) (p : Nat)
    (h : r.release caller p = some r1) :
    r1.m_QueuesStore = r.m_QueuesStore ∧ r1.m_Access = r.m_Access := by
  unfold QueueManager.release at h
  split at h
  · cases h
    exact ⟨rfl, rfl⟩
  · split at h
    · simp only [Option.map_eq_some'] at h
      obtain ⟨q, _, rfl⟩ := h
      exact ⟨rfl, rfl⟩
    · cases h
      exact ⟨rfl, rfl⟩

theorem release_other (caller : ThreadId) (r r1 : QueueManager) (p q : Nat)
    (h : r.release caller p = some r1) (hne : p ≠ q) : r1.heap[q]? = r.heap[q]? := by
  unfold QueueManager.release at h
  split at h
  · cases h
    rfl
  · split at h
    · simp only [Option.map_eq_some'] at h
      obtain ⟨s1, _, rfl⟩ := h
      simp [List.getElem?_set_ne hne]
    · cases h
      rfl

theorem release_length (caller : ThreadId) (r r1 : QueueManager) (p : Nat)
    (h : r.release caller p = some r1) : r1.heap.length = r.heap.length := by
  unfold QueueManager.release at h
  split at h
  · cases h
    rfl
  · split at h
    · simp only [Option.map_eq_some'] at h
      obtain ⟨s1, _, rfl⟩ := h
      simp
    · cases h
      rfl

/-- An object that a caller owns is not touched when the registry gives up
a pointer. -/
theorem release_held (caller : ThreadId) (r r1 : QueueManager) (p q : Nat) (cell : Cell)
    (h : r.release caller p = some r1) (hq : r.heap[q]? = some cell) (hh : 0 < cell.holders) :
    r1.heap[q]? = some cell := by
  by_cases hne : p = q
  · subst hne
    unfold QueueManager.release at h
    simp only [hq] at h
    rw [if_neg (by omega)] at h
    cases h
    exact hq
  · rw [release_other caller r r1 p q h hne]
    exact hq

theorem releaseAll_store (caller : Nat → ThreadId) (ps : List Nat) (r r1 : QueueManager)
    (h : r.releaseAll caller ps = some r1) : r1.m_QueuesStore = r.m_QueuesStore := by
  induction ps generalizing r with
  | nil =>
    simp only [QueueManager.releaseAll, Option.some.injEq] at h
    subst h
    rfl
  | cons p ps ih =>
    simp only [QueueManager.releaseAll] at h
    cases h1 : r.release (caller p) p with
    | none => simp [h1] at h
    | some r2 =>
      simp only [h1, Option.some_bind] at h
      split at h
      · simp only [Option.some.injEq] at h
        subst h
        exact (release_store _ r r2 p h1).1
      · rw [ih r2 h, (release_store _ r r2 p h1).1]

theorem releaseAll_held (caller : Nat → ThreadId) (ps : List Nat) (r r1 : QueueManager)
    (q : Nat) (cell : Cell)
    (h : r.releaseAll caller ps = some r1) (hq : r.heap[q]? = some cell)
    (hh : 0 < cell.holders) : r1.heap[q]? = some cell := by
  induction ps generalizing r with
  | nil =>
    simp only [QueueManager.releaseAll, Option.some.injEq] at h
    subst h
    exact hq
  | cons p ps ih =>
    simp only [QueueManager.releaseAll] at h
    cases h1 : r.release (caller p) p with
    | none => simp [h1] at h
    | some r2 =>
      simp only [h1, Option.some_bind] at h
      have h2 := release_held _ r r2 p q cell h1 hq hh
      split at h
      · simp only [Option.some.injEq] at h
        subst h
        exact h2
      · exact ih r2 h h2

theorem releaseAll_length (caller : Nat → ThreadId) (ps : List Nat) (r r1 : QueueManager)
    (h : r.releaseAll caller ps = some r1) : r1.heap.length = r.heap.length := by
  induction ps generalizing r with
  | nil =>
    simp only [QueueManager.releaseAll, Option.some.injEq] at h
    subst h
    rfl
  | cons p ps ih =>
    simp only [QueueManager.releaseAll] at h
    cases h1 : r.release (caller p) p with
    | none => simp [h1] at h
    | some r2 =>
      simp only [h1, Option.some_bind] at h
      split at h
      · simp only [Option.some.injEq] at h
        subst h
        exact release_length _ r r2 p h1
      · rw [ih r2 h, release_length _ r r2 p h1]

/-- An object that is not in the list is not touched when the registry gives
up the pointers of the list. -/
theorem releaseAll_other (caller : Nat → ThreadId) (ps : List Nat) (r r1 : QueueManager)
    (q : Nat) (h : r.releaseAll caller ps = some r1) (hq : q ∉ ps) :
    r1.heap[q]? = r.heap[q]? := by
  induction ps generalizing r with
  | nil =>
    simp only [QueueManager.releaseAll, Option.some.injEq] at h
    subst h
    rfl
  | cons p ps ih =>
    simp only [QueueManager.releaseAll] at h
    simp only [List.mem_cons, not_or] at hq
    cases h1 : r.release (caller p) p with
    | none => simp [h1] at h
    | some r2 =>
      simp only [h1, Option.some_bind] at h
      have h2 := release_other _ r r2 p q h1 (fun e => hq.1 e.symm)
      split at h
      · simp only [Option.some.injEq] at h
        subst h
        exact h2
      · rw [ih r2 h hq.2, h2]

theorem resume_store (r r1 : QueueManager) (h : r.resume = some r1) :
    r1.m_QueuesStore = r.m_QueuesStore := by
  unfold QueueManager.resume at h
  split at h
  · cases h
  · split at h
    · cases h
    · exact releaseAll_store _ _ r r1 h

theorem resume_length (r r1 : QueueManager) (h : r.resume = some r1) :
    r1.heap.length = r.heap.length := by
  unfold QueueManager.resume at h
  split at h
  · cases h
  · split at h
    · cases h
    · exact releaseAll_length _ _ r r1 h

theorem resume_held (r r1 : QueueManager) (q : Nat) (cell : Cell) (h : r.resume = some r1)
    (hq : r.heap[q]? = some cell) (hh : 0 < cell.holders) : r1.heap[q]? = some cell := by
  unfold QueueManager.resume at h
  split at h
  · cases h
  · split at h
    · cases h
    · exact releaseAll_held _ _ r r1 q cell h hq hh

theorem ForgetByName_store (caller : ThreadId) (r r1 : QueueManager) (name : String)
    (h : QueueManager.ForgetByName caller name r = some r1) :
    r1.m_QueuesStore = r.m_QueuesStore.filter fun e => !(e.1 == name) := by
  unfold QueueManager.ForgetByName QueueManager._ForgetByName at h
  cases hf : r.find name with
  | none =>
    simp only [hf, Option.some.injEq] at h
    subst h
    rw [find_none] at hf
    symm
    rw [List.filter_eq_self]
    intro e he
    simpa using hf e he
  | some p =>
    simp only [hf] at h
    rw [releaseAll_store _ _ _ r1 h]

theorem ForgetByName_length (caller : ThreadId) (r r1 : QueueManager) (name : String)
    (h : QueueManager.ForgetByName caller name r = some r1) :
    r1.heap.length = r.heap.length := by
  unfold QueueManager.ForgetByName QueueManager._ForgetByName at h
  cases hf : r.find name with
  | none =>
    simp only [hf, Option.some.injEq] at h
    subst h
    rfl
  | some p =>
    simp only [hf] at h
    rw [releaseAll_length _ _ _ r1 h]

/-- An object that is not registered under the name is not touched when the
name is forgotten. -/
theorem ForgetByName_other (caller : ThreadId) (r r1 : QueueManager) (name : String) (q : Nat)
    (h : QueueManager.ForgetByName caller name r = some r1) (hq : r.find name ≠ some q) :
    r1.heap[q]? = r.heap[q]? := by
  unfold QueueManager.ForgetByName QueueManager._ForgetByName at h
  cases hf : r.find name with
  | none =>
    simp only [hf, Option.some.injEq] at h
    subst h
    rfl
  | some p =>
    simp only [hf] at h
    have hne : q ∉ [p] := by
      simp only [List.mem_singleton]
      intro e
      subst e
      exact hq hf
    have := releaseAll_other _ [p] _ r1 q h hne
    exact this

/-- What `m_Access` is after the registry gave up a list of pointers: free,
or held by the thread, which waits in the destructor of one of them and has
the pointers behind it left to give up. -/
theorem releaseAll_access (caller : Nat → ThreadId) (ps : List Nat) (r r1 : QueueManager)
    (h : r.releaseAll caller ps = some r1) :
    r1.m_Access = none ∨
      ∃ (p : Nat) (before rest : List Nat), ps = before ++ p :: rest ∧
        r1.m_Access = some { joining := p, rest := rest, caller := caller } ∧
        r1.waits p = true := by
  induction ps generalizing r with
  | nil =>
    simp only [QueueManager.releaseAll, Option.some.injEq] at h
    subst h
    exact Or.inl rfl
  | cons p ps ih =>
    simp only [QueueManager.releaseAll] at h
    cases h1 : r.release (caller p) p with
    | none => simp [h1] at h
    | some r2 =>
      simp only [h1, Option.some_bind] at h
      split at h
      · rename_i hwait
        simp only [Option.some.injEq] at h
        subst h
        exact Or.inr ⟨p, [], ps, rfl, rfl, hwait⟩
      · rcases ih r2 h with g | ⟨q, before, rest, g1, g2, g3⟩
        · exact Or.inl g
        · exact Or.inr ⟨q, p :: before, rest, by rw [g1]; rfl, g2, g3⟩

theorem Sound_init : QueueManager.Sound QueueManager.init := by
  constructor
  · simp [QueueManager.init]
  · intro name p h
    simp [QueueManager.init] at h
  · intro rem h
    simp [QueueManager.init] at h

theorem Sound_create (r : QueueManager) (name : String) (handler : tExceptionHandler)
    (h : QueueManager.Sound r) :
    QueueManager.Sound (QueueManager._CreateOrGetBackgroundQueueByName name handler r).2 := by
  unfold QueueManager._CreateOrGetBackgroundQueueByName
  cases hf : r.find name with
  | some p => exact h
  | none =>
    simp only
    rw [find_none] at hf
    constructor
    · simp only [List.map_append, List.map_cons, List.map_nil]
      rw [List.nodup_append]
      refine ⟨h.keys, by simp, ?_⟩
      intro a ha hb
      simp only [List.mem_singleton] at hb
      subst hb
      obtain ⟨e, he, rfl⟩ := List.mem_map.1 ha
      exact hf e he rfl
    · intro n p hm
      simp only [List.mem_append, List.mem_singleton, Prod.mk.injEq] at hm
      rcases hm with hm | ⟨rfl, rfl⟩
      · obtain ⟨cell, h1, h2⟩ := h.cells n p hm
        refine ⟨cell, ?_, h2⟩
        rw [List.getElem?_append_left (List.getElem?_eq_some.1 h1).1]
        exact h1
      · refine ⟨_, List.getElem?_concat_length _ _, rfl, rfl, ?_⟩
        by_cases hn : n = mainQueueName <;> simp [System.init, hn, ExecutionPolicy.isMain]
    · intro rem hrem
      refine ⟨(h.access rem hrem).1, ?_⟩
      intro p hp
      obtain ⟨g1, g2⟩ := (h.access rem hrem).2 p hp
      refine ⟨by simp only [List.length_append, List.length_singleton]; omega, ?_⟩
      intro n hm
      simp only [List.mem_append, List.mem_singleton, Prod.mk.injEq] at hm
      rcases hm with hm | ⟨_, hm⟩
      · exact g2 n hm
      · omega

/-- The pointers of two entries of the store differ when the names do. -/
theorem Sound_pointers (r : QueueManager) (h : QueueManager.Sound r) (n m : String) (p : Nat)
    (hn : (n, p) ∈ r.m_QueuesStore) (hm : (m, p) ∈ r.m_QueuesStore) : n = m := by
  obtain ⟨c1, g1, _, g3, _⟩ := h.cells n p hn
  obtain ⟨c2, k1, _, k3, _⟩ := h.cells m p hm
  rw [g1] at k1
  cases k1
  exact g3.symm.trans k3

/-- The invariant is kept when the registry gives up pointers that are not
registered any more. -/
theorem Sound_releaseAll (caller : Nat → ThreadId) (ps : List Nat) (r r1 : QueueManager)
    (hk : (r.m_QueuesStore.map Prod.fst).Nodup)
    (hc : ∀ (name : String) (p : Nat), (name, p) ∈ r.m_QueuesStore →
      ∃ cell, r.heap[p]? = some cell ∧ cell.alive = true ∧
        cell.queue.queue.m_Name = name ∧
        (cell.queue.queue.m_ExecutionPolicy.isMain = true ↔ name = mainQueueName))
    (hnd : ps.Nodup)
    (hps : ∀ p ∈ ps, p < r.heap.length ∧ ∀ n, (n, p) ∉ r.m_QueuesStore)
    (hs : r.releaseAll caller ps = some r1) : QueueManager.Sound r1 := by
  have hstore := releaseAll_store caller ps r r1 hs
  have hlen := releaseAll_length caller ps r r1 hs
  constructor
  · rw [hstore]
    exact hk
  · intro n p hm
    rw [hstore] at hm
    obtain ⟨cell, h1, h2⟩ := hc n p hm
    refine ⟨cell, ?_, h2⟩
    rw [releaseAll_other caller ps r r1 p hs]
    · exact h1
    · intro hp
      exact (hps p hp).2 n hm
  · intro rem hrem
    rcases releaseAll_access caller ps r r1 hs with g | ⟨q, before, rest, g1, g2, _⟩
    · rw [g] at hrem
      cases hrem
    · rw [g2] at hrem
      cases hrem
      have hsub : rest.Sublist ps := by
        rw [g1]
        exact (List.sublist_cons_self q rest).trans (List.sublist_append_right before _)
      refine ⟨hnd.sublist hsub, ?_⟩
      intro p hp
      have hmem : p ∈ ps := by
        rw [g1]
        simp only [List.mem_append, List.mem_cons]
        exact Or.inr (Or.inr hp)
      rw [hlen, hstore]
      exact hps p hmem

theorem Sound_forget (caller : ThreadId) (r r1 : QueueManager) (name : String)
    (h : QueueManager.Sound r)
    (hs : QueueManager.ForgetByName caller name r = some r1) : QueueManager.Sound r1 := by
  unfold QueueManager.ForgetByName QueueManager._ForgetByName at hs
  cases hf : r.find name with
  | none =>
    simp only [hf, Option.some.injEq] at hs
    subst hs
    exact h
  | some p =>
    simp only [hf] at hs
    have hmem := find_mem r name p hf
    refine Sound_releaseAll _ [p] _ r1 ?_ ?_ (List.nodup_singleton p) ?_ hs
    · exact (h.keys.sublist (List.Sublist.map _ (List.filter_sublist _)))
    · intro n q hm
      simp only [List.mem_filter] at hm
      exact h.cells n q hm.1
    · intro q hq
      simp only [List.mem_singleton] at hq
      subst hq
      obtain ⟨cell, h1, _⟩ := h.cells name q hmem
      refine ⟨(List.getElem?_eq_some.1 h1).1, ?_⟩
      intro n hm
      simp only [List.mem_filter] at hm
      have := Sound_pointers r h n name q hm.1 hmem
      subst this
      simpa using hm.2

/-- No two names are registered for the same object. -/
theorem Sound_nodup (r : QueueManager) (h : QueueManager.Sound r) :
    (r.m_QueuesStore.map Prod.snd).Nodup := by
  have key : ∀ (l : List (String × Nat)), (l.map Prod.fst).Nodup →
      (∀ n m p, (n, p) ∈ l → (m, p) ∈ l → n = m) → (l.map Prod.snd).Nodup := by
    intro l
    induction l with
    | nil => intro _ _; simp
    | cons e l ih =>
      intro hk hp
      simp only [List.map_cons, List.nodup_cons] at hk ⊢
      refine ⟨?_, ih hk.2 (fun n m p hn hm =>
        hp n m p (List.mem_cons_of_mem _ hn) (List.mem_cons_of_mem _ hm))⟩
      intro hmem
      obtain ⟨e2, he2, heq⟩ := List.mem_map.1 hmem
      have := hp e.1 e2.1 e.2 (List.mem_cons_self _ _)
        (List.mem_cons_of_mem _ (by rw [← heq]; exact he2))
      exact hk.1 (List.mem_map.2 ⟨e2, he2, this.symm⟩)
  exact key _ h.keys (fun n m p hn hm => Sound_pointers r h n m p hn hm)

theorem Sound_kill (caller : Nat → ThreadId) (r r1 : QueueManager) (h : QueueManager.Sound r)
    (hs : QueueManager.KillAndForgetAll caller r = some r1) : QueueManager.Sound r1 := by
  unfold QueueManager.KillAndForgetAll QueueManager._KillAndForgetAll at hs
  refine Sound_releaseAll _ _ _ r1 ?_ ?_ (Sound_nodup r h) ?_ hs
  · simp
  · intro n q hm
    cases hm
  · intro q hq
    obtain ⟨e, he, rfl⟩ := List.mem_map.1 hq
    obtain ⟨cell, h1, _⟩ := h.cells e.1 e.2 he
    exact ⟨(List.getElem?_eq_some.1 h1).1, fun n hm => by cases hm⟩

theorem Sound_resume (r r1 : QueueManager) (h : QueueManager.Sound r)
    (hs : r.resume = some r1) : QueueManager.Sound r1 := by
  unfold QueueManager.resume at hs
  cases ha : r.m_Access with
  | none => simp [ha] at hs
  | some rem =>
    simp only [ha] at hs
    split at hs
    · cases hs
    · exact Sound_releaseAll _ _ r r1 h.keys h.cells (h.access rem ha).1 (h.access rem ha).2 hs

/-- The invariant is kept when one object is replaced by an object with the
same name, of the same kind of execution policy, that is alive if the former
is. -/
theorem Sound_set (r : QueueManager) (p : Nat) (cell c1 : Cell) (h : QueueManager.Sound r)
    (hc : r.heap[p]? = some cell)
    (hreg : (∃ n, (n, p) ∈ r.m_QueuesStore) →
      c1.alive = true ∧ c1.queue.queue.m_Name = cell.queue.queue.m_Name ∧
      c1.queue.queue.m_ExecutionPolicy.isMain = cell.queue.queue.m_ExecutionPolicy.isMain) :
    QueueManager.Sound { r with heap := r.heap.set p c1 } := by
  constructor
  · exact h.keys
  · intro n q hm
    obtain ⟨cell2, h1, h2, h3, h4⟩ := h.cells n q hm
    by_cases hpq : p = q
    · subst hpq
      rw [hc] at h1
      cases h1
      obtain ⟨g1, g2, g3⟩ := hreg ⟨n, hm⟩
      exact ⟨c1, by simp [List.getElem?_set_self (List.getElem?_eq_some.1 hc).1], g1,
        g2.trans h3, by rw [g3]; exact h4⟩
    · exact ⟨cell2, by simp [List.getElem?_set_ne hpq, h1], h2, h3, h4⟩
  · intro rem hrem
    refine ⟨(h.access rem hrem).1, ?_⟩
    intro q hq
    obtain ⟨g1, g2⟩ := (h.access rem hrem).2 q hq
    exact ⟨by simpa using g1, g2⟩

theorem Sound_call (r r1 : QueueManager) (c : Call) (h : QueueManager.Sound r)
    (hs : r.call c = some r1) : QueueManager.Sound r1 := by
  unfold QueueManager.call at hs
  split at hs
  · cases hs
  · cases c with
    | CreateOrGetBackgroundQueueByName name handler =>
      simp only at hs
      split at hs
      · simp only [Option.some.injEq] at hs
        subst hs
        exact Sound_create r name handler h
      · cases hs
    | CreateOrGetMainQueue handler =>
      simp only at hs
      split at hs
      · simp only [Option.some.injEq] at hs
        subst hs
        exact Sound_create r mainQueueName handler h
      · cases hs
    | ForgetByName caller name =>
      simp only at hs
      split at hs
      · exact Sound_forget caller r r1 name h hs
      · cases hs
    | ForgetMainQueue caller =>
      simp only at hs
      split at hs
      · exact Sound_forget caller r r1 mainQueueName h hs
      · cases hs
    | KillAndForgetAll caller =>
      simp only at hs
      split at hs
      · exact Sound_kill caller r r1 h hs
      · cases hs
    | resume => exact Sound_resume r r1 h hs
    | lock p =>
      simp only [QueueManager.lock] at hs
      cases hc : r.heap[p]? with
      | none => simp [hc] at hs
      | some cell =>
        simp only [hc] at hs
        split at hs
        · simp only [Option.some.injEq] at hs
          subst hs
          rename_i halive
          exact Sound_set r p cell _ h hc (fun _ => ⟨halive, rfl, rfl⟩)
        · cases hs
    | reset caller p =>
      simp only at hs
      split at hs
      swap
      · cases hs
      simp only [QueueManager.reset] at hs
      cases hc : r.heap[p]? with
      | none => simp [hc] at hs
      | some cell =>
        simp only [hc] at hs
        split at hs
        · cases hs
        · split at hs
          · rename_i hlast
            simp only [Option.map_eq_some'] at hs
            obtain ⟨s1, _, rfl⟩ := hs
            refine Sound_set r p cell _ h hc ?_
            rintro ⟨n, hm⟩
            have := hlast.2
            rw [List.all_eq_true] at this
            simpa using this (n, p) hm
          · simp only [Option.some.injEq] at hs
            subst hs
            refine Sound_set r p cell _ h hc ?_
            rintro ⟨n, hm⟩
            obtain ⟨cell2, h1, h2, _⟩ := h.cells n p hm
            rw [hc] at h1
            cases h1
            exact ⟨h2, rfl, rfl⟩
    | queue p e =>
      simp only at hs
      cases hc : r.heap[p]? with
      | none => simp [hc] at hs
      | some cell =>
        simp only [hc] at hs
        split at hs
        · simp only [Option.map_eq_some'] at hs
          obtain ⟨s1, hstep, rfl⟩ := hs
          refine Sound_set r p cell _ h hc ?_
          rintro ⟨n, hm⟩
          obtain ⟨cell2, h1, h2, _⟩ := h.cells n p hm
          rw [hc] at h1
          cases h1
          exact ⟨h2, (Kept_step _ _ e hstep).1, step_isMain _ _ e hstep⟩
        · cases hs

theorem Sound_calls (cs : List Call) (r r1 : QueueManager) (h : QueueManager.Sound r)
    (hs : r.calls cs = some r1) : QueueManager.Sound r1 := by
  induction cs generalizing r with
  | nil =>
    simp only [QueueManager.calls, Option.some.injEq] at hs
    subst hs
    exact h
  | cons c cs ih =>
    simp only [QueueManager.calls] at hs
    cases h1 : r.call c with
    | none => simp [h1] at hs
    | some r2 =>
      simp only [h1, Option.some_bind] at hs
      exact ih r2 (Sound_call r r2 c h h1) hs

theorem Sound_of_Reachable (r : QueueManager) (h : QueueManager.Reachable r) :
    QueueManager.Sound r := by
  obtain ⟨cs, hcs⟩ := h
  exact Sound_calls cs _ r Sound_init hcs

theorem create_mem (r : QueueManager) (name : String) (handler : tExceptionHandler) :
    (name, (QueueManager._CreateOrGetBackgroundQueueByName name handler r).1) ∈
      (QueueManager._CreateOrGetBackgroundQueueByName name handler r).2.m_QueuesStore := by
  unfold QueueManager._CreateOrGetBackgroundQueueByName
  cases hf : r.find name with
  | some p => exact find_mem r name p hf
  | none => simp

theorem create_find (r : QueueManager) (name : String) (handler : tExceptionHandler)
    (h : QueueManager.Sound r) :
    (QueueManager._CreateOrGetBackgroundQueueByName name handler r).2.find name =
      some (QueueManager._CreateOrGetBackgroundQueueByName name handler r).1 :=
  find_of_mem _ _ _ (Sound_create r name handler h).keys name _ (create_mem r name handler)

theorem create_length (r : QueueManager) (name : String) (handler : tExceptionHandler)
    (h : QueueManager.Sound r) :
    (QueueManager._CreateOrGetBackgroundQueueByName name handler r).1 <
      (QueueManager._CreateOrGetBackgroundQueueByName name handler r).2.heap.length := by
  obtain ⟨cell, h1, _⟩ := (Sound_create r name handler h).cells name _ (create_mem r name handler)
  exact (List.getElem?_eq_some.1 h1).1

theorem find_filter_ne (r : QueueManager) (n m : String) (hne : m ≠ n) :
    QueueManager.find
      { r with m_QueuesStore := r.m_QueuesStore.filter fun e => !(e.1 == n) } m = r.find m := by
  unfold QueueManager.find
  simp only
  congr 1
  induction r.m_QueuesStore with
  | nil => rfl
  | cons e es ih =>
    by_cases h1 : e.1 = n
    · have h2 : ¬ e.1 = m := fun h => hne (h.symm.trans h1)
      rw [List.filter_cons_of_neg (by simp [h1]), List.find?_cons_of_neg _ (by simpa using h2)]
      exact ih
    · rw [List.filter_cons_of_pos (by simpa using h1)]
      by_cases h2 : e.1 = m
      · rw [List.find?_cons_of_pos _ (by simpa using h2),
          List.find?_cons_of_pos _ (by simpa using h2)]
      · rw [List.find?_cons_of_neg _ (by simpa using h2),
          List.find?_cons_of_neg _ (by simpa using h2)]
        exact ih

theorem create_found (r : QueueManager) (name : String) (handler : tExceptionHandler) (p : Nat)
    (h : r.find name = some p) :
    QueueManager._CreateOrGetBackgroundQueueByName name handler r = (p, r) := by
  unfold QueueManager._CreateOrGetBackgroundQueueByName
  rw [h]

/-- What the destructor does to a queue: what `_Stop` does, then the request
of the stop of the thread of the execution policy; the thread that joins
itself terminates the process. -/
theorem destructor_spec (caller : ThreadId) (s s1 : System)
    (h : Queue.destructor caller s = some s1) :
    ∃ s0, Queue._Stop s = some s0 ∧
      s1.queue = s0.queue ∧ s1.loops = s0.loops ∧ s1.trace = s0.trace ∧
      s1.stopStates.length = s0.stopStates.length ∧
      (∀ k, stop_requested s0 k = true → stop_requested s1 k = true) ∧
      (s1.terminated = s0.terminated ∨
        (s1.terminated = true ∧ s1.joined = false ∧
          ∃ worker, s.queue.m_ExecutionPolicy = ExecutionPolicy.BackgroundThread (some worker) ∧
            caller = ThreadId.spawned worker)) := by
  unfold Queue.destructor at h
  simp only [Option.map_eq_some'] at h
  obtain ⟨s0, h0, rfl⟩ := h
  have hpol : s0.queue.m_ExecutionPolicy = s.queue.m_ExecutionPolicy := by
    unfold Queue._Stop at h0
    cases hst : s.queue.m_State <;> simp only [hst] at h0
    · cases h0
      rfl
    · obtain ⟨_, rfl⟩ := DoStop_eq s s0 h0
      rfl
    · cases h0
      rfl
    · cases h0
      rfl
  refine ⟨s0, h0, ?_⟩
  cases hp : s0.queue.m_ExecutionPolicy with
  | MainThread m => exact ⟨rfl, rfl, rfl, rfl, fun _ hk => hk, Or.inl rfl⟩
  | BackgroundThread m =>
    cases m with
    | none => exact ⟨rfl, rfl, rfl, rfl, fun _ hk => hk, Or.inl rfl⟩
    | some worker =>
      have hreq : ∀ k, stop_requested s0 k = true →
          stop_requested (request_stop s0 worker).2 k = true := by
        intro k hk
        rw [stop_requested_set s0 k worker _ rfl, hk]
        rfl
      simp only
      split
      · rename_i hself
        refine ⟨rfl, rfl, rfl, by simp [request_stop], hreq, Or.inr ⟨rfl, ?_, worker, ?_, hself.1⟩⟩
        · exact hself.2
        · rw [← hpol, hp]
      · exact ⟨rfl, rfl, rfl, by simp [request_stop], hreq, Or.inl rfl⟩

/-- What `_Stop` keeps: the name, the handler, the execution policy, the
mutex, the activations, the observations; and the process is not terminated
by it. -/
theorem Stop_spec (s s0 : System) (h : Queue._Stop s = some s0) :
    s0.queue.m_Name = s.queue.m_Name ∧
    s0.queue.m_ExceptionHandler = s.queue.m_ExceptionHandler ∧
    s0.queue.m_ExecutionPolicy = s.queue.m_ExecutionPolicy ∧
    s0.queue.m_Mutex = s.queue.m_Mutex ∧
    s0.loops = s.loops ∧ s0.trace = s.trace ∧ s0.terminated = s.terminated ∧
    s0.stopStates.length = s.stopStates.length := by
  unfold Queue._Stop at h
  cases hst : s.queue.m_State <;> simp only [hst] at h
  · cases h
    exact ⟨rfl, rfl, rfl, rfl, rfl, rfl, rfl, rfl⟩
  · obtain ⟨_, rfl⟩ := DoStop_eq s s0 h
    refine ⟨rfl, rfl, rfl, rfl, rfl, rfl, rfl, ?_⟩
    simp only
    split <;> simp
  · cases h
    exact ⟨rfl, rfl, rfl, rfl, rfl, rfl, rfl, rfl⟩
  · cases h
    exact ⟨rfl, rfl, rfl, rfl, rfl, rfl, rfl, rfl⟩

theorem destructor_handler (caller : ThreadId) (s s1 : System)
    (h : Queue.destructor caller s = some s1) :
    s1.queue.m_ExceptionHandler = s.queue.m_ExceptionHandler := by
  obtain ⟨s0, h0, hq, _⟩ := destructor_spec caller s s1 h
  rw [hq]
  exact (Stop_spec s s0 h0).2.1

/-- One step of an activation whose stop is requested: it is enabled when the
mutex is free, and it terminates the process, which takes a handler that
throws, or brings the activation nearer to its return. -/
theorem cancelled_step (s : System) (i : Nat) (w : Loop)
    (hw : s.loops[i]? = some w) (hpc : w.pc ≠ PC.done)
    (hreq : stop_requested s w.stopToken = true)
    (hm : w.pc ≠ PC.locked → s.queue.m_Mutex = none) :
    ∃ s1, Queue._Routine s i = some s1 ∧
      s1.queue.m_ExceptionHandler = s.queue.m_ExceptionHandler ∧
      s1.queue.m_ExecutionPolicy = s.queue.m_ExecutionPolicy ∧
      (HandlerReturns s.queue.m_ExceptionHandler → s1.terminated = s.terminated) ∧
      (s1.terminated = true ∨
        (s1.terminated = s.terminated ∧
          ∃ w1, s1.loops[i]? = some w1 ∧ w1.pc.left < w.pc.left ∧
            stop_requested s1 w1.stopToken = true ∧
            (w1.pc ≠ PC.locked → s1.queue.m_Mutex = none))) := by
  unfold Queue._Routine
  simp only [hw]
  cases hp : w.pc with
  | entry =>
    refine ⟨_, rfl, rfl, rfl, fun _ => rfl, Or.inr ⟨rfl, { w with pc := PC.loopHead },
      setPc_self _ i _ w hw, by simp [PC.left], hreq, fun _ => hm (by simp [hp])⟩⟩
  | loopHead =>
    simp only [hreq, if_true]
    refine ⟨_, rfl, rfl, rfl, fun _ => rfl, Or.inr ⟨rfl, { w with pc := PC.done },
      setPc_self _ i _ w hw, by simp [PC.left], hreq, fun _ => hm (by simp [hp])⟩⟩
  | waiting =>
    simp only [hm (by simp [hp]), if_true]
    refine ⟨_, rfl, rfl, rfl, fun _ => rfl, Or.inr ⟨rfl, { w with pc := PC.locked },
      setPc_self _ i _ w hw, by simp [PC.left], hreq, fun h => absurd rfl h⟩⟩
  | locked =>
    simp only [hreq, if_true]
    refine ⟨_, rfl, rfl, rfl, fun _ => rfl, Or.inr ⟨rfl, { w with pc := PC.popped none },
      setPc_self _ i _ w hw, by simp [PC.left], hreq, fun _ => rfl⟩⟩
  | popped task =>
    cases task with
    | none =>
      refine ⟨_, rfl, rfl, rfl, fun _ => rfl, Or.inr ⟨rfl, { w with pc := PC.loopHead },
        setPc_self _ i _ w hw, by simp [PC.left], hreq, fun _ => hm (by simp [hp])⟩⟩
    | some c =>
      refine ⟨_, rfl, rfl, rfl, fun _ => rfl, Or.inr ⟨rfl, { w with pc := PC.inTask c },
        setPc_self _ i _ w hw, by simp [PC.left], hreq, fun _ => hm (by simp [hp])⟩⟩
  | inTask c =>
    simp only
    cases hr : c.raises with
    | none =>
      refine ⟨_, rfl, rfl, rfl, fun _ => rfl, Or.inr ⟨rfl, { w with pc := PC.loopHead },
        setPc_self _ i _ w hw, by simp [PC.left], hreq, fun _ => hm (by simp [hp])⟩⟩
    | some f =>
      simp only
      cases hh : s.queue.m_ExceptionHandler with
      | none =>
        refine ⟨_, rfl, hh, rfl, fun _ => rfl, Or.inr ⟨rfl, { w with pc := PC.loopHead },
          setPc_self _ i _ w hw, by simp [PC.left], hreq, fun _ => hm (by simp [hp])⟩⟩
      | some handler =>
        simp only
        cases hf : handler f with
        | none =>
          refine ⟨_, rfl, hh, rfl, fun _ => rfl, Or.inr ⟨rfl, { w with pc := PC.loopHead },
            setPc_self _ i _ w hw, by simp [PC.left], hreq, fun _ => hm (by simp [hp])⟩⟩
        | some g =>
          simp only
          cases hg : handler g with
          | none =>
            refine ⟨_, rfl, hh, rfl, fun _ => rfl, Or.inr ⟨rfl, { w with pc := PC.done },
              setPc_self _ i _ w hw, by simp [PC.left], hreq, fun _ => hm (by simp [hp])⟩⟩
          | some g2 =>
            refine ⟨_, rfl, hh, rfl, ?_, Or.inl rfl⟩
            intro hret
            have := hret handler rfl f
            rw [hf] at this
            cases this
  | done => exact absurd hp hpc

/-- An activation whose stop is requested returns within four of its steps
when the mutex is free, unless the process terminates, which takes a handler
that throws. -/
theorem cancelled_worker_returns (n : Nat) (s : System) (i : Nat) (w : Loop)
    (hw : s.loops[i]? = some w) (hn : w.pc.left ≤ n)
    (hreq : stop_requested s w.stopToken = true)
    (hm : w.pc ≠ PC.locked → s.queue.m_Mutex = none) (ht : s.terminated = false) :
    ∃ k s1, k ≤ n ∧ run s (List.replicate k (Event.advance i)) = some s1 ∧
      s1.queue.m_ExecutionPolicy = s.queue.m_ExecutionPolicy ∧
      (s1.terminated = true ∨
        (s1.terminated = false ∧ ∃ w1, s1.loops[i]? = some w1 ∧ w1.pc = PC.done)) ∧
      (HandlerReturns s.queue.m_ExceptionHandler → s1.terminated = false) := by
  induction n generalizing s w with
  | zero =>
    refine ⟨0, s, Nat.le_refl 0, rfl, rfl, Or.inr ⟨ht, w, hw, ?_⟩, fun _ => ht⟩
    cases hp : w.pc <;> simp [hp, PC.left] at hn
    · rename_i task
      cases task <;> simp [PC.left] at hn
    · rfl
  | succ n ih =>
    by_cases hd : w.pc = PC.done
    · exact ⟨0, s, Nat.zero_le _, rfl, rfl, Or.inr ⟨ht, w, hw, hd⟩, fun _ => ht⟩
    · obtain ⟨s1, h1, hh, hpol, hret, hcase⟩ := cancelled_step s i w hw hd hreq hm
      have hstep : step s (Event.advance i) = some s1 := by
        simp [step, ht, h1]
      rcases hcase with hterm | ⟨hsame, w1, hw1, hlt, hreq1, hm1⟩
      · refine ⟨1, s1, by omega, ?_, hpol, Or.inl hterm, ?_⟩
        · simp [run, hstep]
        · intro hr
          rw [hret hr]
          exact ht
      · obtain ⟨k, s2, hk, hrun, hpol2, hres, hret2⟩ :=
          ih s1 w1 hw1 (by omega) hreq1 hm1 (by rw [hsame]; exact ht)
        refine ⟨k + 1, s2, by omega, ?_, hpol2.trans hpol, hres, ?_⟩
        · simp [List.replicate_succ, run, hstep, hrun]
        · intro hr
          exact hret2 (by rw [hh]; exact hr)

theorem terminated_eq_false (r : QueueManager) :
    r.terminated = false ↔
      ∀ (q : Nat) (c : Cell), r.heap[q]? = some c → c.queue.terminated = false := by
  unfold QueueManager.terminated
  rw [List.any_eq_false]
  constructor
  · intro h q c hc
    have := h c (List.mem_iff_getElem?.2 ⟨q, hc⟩)
    simpa using this
  · intro h c hc
    obtain ⟨q, hq⟩ := List.mem_iff_getElem?.1 hc
    simp [h q c hq]

theorem joined_congr (s t : System)
    (hq : t.queue.m_ExecutionPolicy = s.queue.m_ExecutionPolicy) (hl : t.loops = s.loops) :
    t.joined = s.joined := by
  unfold System.joined
  rw [hq, hl]

theorem destructor_policy (caller : ThreadId) (s s1 : System)
    (h : Queue.destructor caller s = some s1) :
    s1.queue.m_ExecutionPolicy = s.queue.m_ExecutionPolicy ∧ s1.loops = s.loops ∧
      s1.queue.m_Mutex = s.queue.m_Mutex ∧ s1.queue.m_Name = s.queue.m_Name := by
  obtain ⟨s0, h0, hq, hl, _⟩ := destructor_spec caller s s1 h
  obtain ⟨g1, _, g3, g4, g5, _⟩ := Stop_spec s s0 h0
  rw [hq, hl]
  exact ⟨g3, g5, g4, g1⟩

theorem destructor_joined (caller : ThreadId) (s s1 : System)
    (h : Queue.destructor caller s = some s1) : s1.joined = s.joined :=
  joined_congr s s1 (destructor_policy caller s s1 h).1 (destructor_policy caller s s1 h).2.1

/-- The destructor does not block when the mutex of the queue is free. -/
theorem destructor_enabled (caller : ThreadId) (s : System) (hm : s.queue.m_Mutex = none) :
    ∃ q, Queue.destructor caller s = some q := by
  have : ∃ s0, Queue._Stop s = some s0 := by
    unfold Queue._Stop Queue._DoStop
    cases s.queue.m_State <;> simp [hm]
  obtain ⟨s0, h0⟩ := this
  unfold Queue.destructor
  rw [h0]
  exact ⟨_, rfl⟩

/-- The destructor terminates the process exactly when it is executed by the
thread of the execution policy of the queue and this thread has not returned
from `_Routine`. -/
theorem destructor_terminated (caller : ThreadId) (s s1 : System)
    (h : Queue.destructor caller s = some s1) :
    s1.terminated = true ↔
      s.terminated = true ∨
        ∃ worker, s.queue.m_ExecutionPolicy = ExecutionPolicy.BackgroundThread (some worker) ∧
          caller = ThreadId.spawned worker ∧ s.joined = false := by
  unfold Queue.destructor at h
  simp only [Option.map_eq_some'] at h
  obtain ⟨s0, h0, rfl⟩ := h
  obtain ⟨_, _, g3, _, g5, _, g7, _⟩ := Stop_spec s s0 h0
  rw [← g3, ← g7]
  cases hp : s0.queue.m_ExecutionPolicy with
  | MainThread m => simp
  | BackgroundThread m =>
    cases m with
    | none => simp
    | some worker =>
      have hrj : (request_stop s0 worker).2.joined = s.joined :=
        joined_congr s _ g3 g5
      simp only [hrj, ExecutionPolicy.BackgroundThread.injEq, Option.some.injEq,
        exists_eq_left']
      split
      · rename_i hself
        simp only [true_iff]
        exact Or.inr hself
      · rename_i hne
        simp only [request_stop]
        constructor
        · intro ht
          exact Or.inl ht
        · rintro (ht | hc)
          · exact ht
          · exact absurd hc hne

/-- The destructor of a `Busy` queue whose mutex is free stops it. -/
theorem destructor_Busy (caller : ThreadId) (s : System)
    (hb : s.queue.m_State = eAsyncState.Busy) (hm : s.queue.m_Mutex = none) :
    ∃ q, Queue.destructor caller s = some q ∧ q.queue.m_State = eAsyncState.Stopping ∧
      q.queue.m_TaskQueue = [] ∧ q.queue.m_Mutex = none ∧ q.trace = s.trace ∧
      ∀ k, s.queue.m_ExecutionPolicy.source = some k → k < s.stopStates.length →
        stop_requested q k = true := by
  obtain ⟨q, hq⟩ := destructor_enabled caller s hm
  obtain ⟨s0, h0, g1, _, g3, _, g5, _⟩ := destructor_spec caller s q hq
  have hd : Queue._DoStop s = some s0 := by
    simpa [Queue._Stop, hb] using h0
  obtain ⟨_, he⟩ := DoStop_eq s s0 hd
  refine ⟨q, hq, ?_, ?_, ?_, ?_, ?_⟩
  · rw [g1, he]
  · rw [g1, he]
  · rw [g1, he]
    exact hm
  · rw [g3, he]
  · intro k hk hlt
    apply g5
    rw [he]
    simp [stop_requested, hk, hlt]

theorem release_unowned (caller : ThreadId) (r : QueueManager) (p : Nat) (cell : Cell) (q : System)
    (hc : r.heap[p]? = some cell) (h0 : cell.holders = 0)
    (hq : Queue.destructor caller cell.queue = some q) :
    r.release caller p =
      some { r with heap := r.heap.set p { queue := q, holders := 0, alive := false } } := by
  unfold QueueManager.release
  simp only [hc, h0, if_true, hq, Option.map_some']

theorem release_owned (caller : ThreadId) (r : QueueManager) (p : Nat) (cell : Cell)
    (hc : r.heap[p]? = some cell) (h0 : 0 < cell.holders) :
    r.release caller p = some r := by
  unfold QueueManager.release
  simp only [hc]
  rw [if_neg (by omega)]

/-- What giving up a list of distinct pointers does to an object nobody owns
whose pointer is in the list: it is destroyed by its destructor, or the
thread waits in the destructor of an object before it, and the object is
untouched and its pointer among those still to give up. -/
theorem releaseAll_spec (caller : Nat → ThreadId) (ps : List Nat) (r r1 : QueueManager)
    (p : Nat) (cell : Cell) (hnd : ps.Nodup) (hp : p ∈ ps) (hc : r.heap[p]? = some cell)
    (h0 : cell.holders = 0) (h : r.releaseAll caller ps = some r1) :
    (∃ q, Queue.destructor (caller p) cell.queue = some q ∧
      r1.heap[p]? = some { queue := q, holders := 0, alive := false }) ∨
    (∃ rem, r1.m_Access = some rem ∧ p ∈ rem.rest ∧ r1.heap[p]? = some cell) := by
  induction ps generalizing r with
  | nil => cases hp
  | cons a ps ih =>
    simp only [QueueManager.releaseAll] at h
    cases h1 : r.release (caller a) a with
    | none => simp [h1] at h
    | some r2 =>
      simp only [h1, Option.some_bind] at h
      rw [List.nodup_cons] at hnd
      by_cases hap : a = p
      · subst hap
        left
        have hlt := (List.getElem?_eq_some.1 hc).1
        unfold QueueManager.release at h1
        simp only [hc, h0, if_true, Option.map_eq_some'] at h1
        obtain ⟨q, hq, rfl⟩ := h1
        refine ⟨q, hq, ?_⟩
        split at h
        · simp only [Option.some.injEq] at h
          subst h
          simp only [List.getElem?_set_self hlt]
        · rw [releaseAll_other caller ps _ r1 a h hnd.1]
          simp only [List.getElem?_set_self hlt]
      · have hp2 : p ∈ ps := by
          rcases List.mem_cons.1 hp with g | g
          · exact absurd g.symm hap
          · exact g
        have hc2 : r2.heap[p]? = some cell := by
          rw [release_other (caller a) r r2 a p h1 hap]
          exact hc
        split at h
        · simp only [Option.some.injEq] at h
          subst h
          right
          exact ⟨_, rfl, hp2, hc2⟩
        · exact ih r2 hnd.2 hp2 hc2 h

/-- Giving up pointers returns without waiting when each object is owned by
a caller, or has its mutex free and no thread that has not returned. -/
theorem releaseAll_returns (caller : Nat → ThreadId) (ps : List Nat) (r : QueueManager)
    (h : ∀ p ∈ ps, ∀ cell, r.heap[p]? = some cell →
      (0 < cell.holders ∧ cell.alive = true) ∨
        (cell.queue.queue.m_Mutex = none ∧ cell.queue.joined = true)) :
    ∃ r1, r.releaseAll caller ps = some r1 ∧ r1.m_Access = none ∧
      r1.m_QueuesStore = r.m_QueuesStore := by
  induction ps generalizing r with
  | nil => exact ⟨_, rfl, rfl, rfl⟩
  | cons a ps ih =>
    simp only [QueueManager.releaseAll]
    cases hc : r.heap[a]? with
    | none =>
      have h1 : r.release (caller a) a = some r := by
        unfold QueueManager.release
        simp only [hc]
      have hw : r.waits a = false := by
        unfold QueueManager.waits
        simp only [hc]
      simp only [h1, Option.some_bind, hw]
      exact ih r (fun p hp => h p (List.mem_cons_of_mem _ hp))
    | some cell =>
      rcases h a (List.mem_cons_self _ _) cell hc with ⟨hh, ha⟩ | ⟨hm, hj⟩
      · have hw : r.waits a = false := by
          unfold QueueManager.waits
          simp [hc, ha]
        simp only [release_owned (caller a) r a cell hc hh, Option.some_bind, hw]
        exact ih r (fun p hp => h p (List.mem_cons_of_mem _ hp))
      · by_cases hh : 0 < cell.holders
        · have hw : r.waits a = false := by
            unfold QueueManager.waits
            simp [hc, hj]
          simp only [release_owned (caller a) r a cell hc hh, Option.some_bind, hw]
          exact ih r (fun p hp => h p (List.mem_cons_of_mem _ hp))
        · have h0 : cell.holders = 0 := by omega
          obtain ⟨q, hq⟩ := destructor_enabled (caller a) cell.queue hm
          have hlt := (List.getElem?_eq_some.1 hc).1
          have hqj : q.joined = true := by
            rw [destructor_joined (caller a) cell.queue q hq]
            exact hj
          have hqm : q.queue.m_Mutex = none := by
            rw [(destructor_policy (caller a) cell.queue q hq).2.2.1]
            exact hm
          have hw : QueueManager.waits
              { r with heap := r.heap.set a { queue := q, holders := 0, alive := false } } a =
              false := by
            unfold QueueManager.waits
            simp [List.getElem?_set_self hlt, hqj]
          simp only [release_unowned (caller a) r a cell q hc h0 hq, Option.some_bind, hw]
          have := ih { r with heap := r.heap.set a { queue := q, holders := 0, alive := false } } ?_
          · exact this
          · intro p hp c2 hc2
            by_cases hap : a = p
            · subst hap
              simp only [List.getElem?_set_self hlt, Option.some.injEq] at hc2
              subst hc2
              exact Or.inr ⟨hqm, hqj⟩
            · simp only [List.getElem?_set_ne hap] at hc2
              exact h p (List.mem_cons_of_mem _ hp) c2 hc2

/-- The call `ForgetByName` on the name of an object that a caller owns. -/
theorem forget_owned (caller : ThreadId) (r : QueueManager) (name : String) (p : Nat)
    (cell : Cell) (hf : r.find name = some p) (hc : r.heap[p]? = some cell)
    (hh : 0 < cell.holders) (ha : cell.alive = true) :
    QueueManager.ForgetByName caller name r =
      some { m_QueuesStore := r.m_QueuesStore.filter fun e => !(e.1 == name)
             heap := r.heap
             m_Access := none } := by
  unfold QueueManager.ForgetByName QueueManager._ForgetByName
  simp only [hf, QueueManager.releaseAll]
  have hw : QueueManager.waits
      { r with m_QueuesStore := r.m_QueuesStore.filter fun e => !(e.1 == name) } p = false := by
    unfold QueueManager.waits
    simp [hc, ha]
  have hrel := release_owned caller
    { r with m_QueuesStore := r.m_QueuesStore.filter fun e => !(e.1 == name) } p cell hc hh
  rw [hrel]
  simp only [Option.some_bind, hw]
  rfl

/-- The call `ForgetByName` on the name of an object that nobody owns: the
object is destroyed, and the thread waits when the thread of the object has
not returned. -/
theorem forget_unowned (caller : ThreadId) (r : QueueManager) (name : String) (p : Nat)
    (cell : Cell) (q : System) (hf : r.find name = some p) (hc : r.heap[p]? = some cell)
    (h0 : cell.holders = 0) (hq : Queue.destructor caller cell.queue = some q) :
    QueueManager.ForgetByName caller name r =
      some { m_QueuesStore := r.m_QueuesStore.filter fun e => !(e.1 == name)
             heap := r.heap.set p { queue := q, holders := 0, alive := false }
             m_Access :=
               if cell.queue.joined = true then none
               else some { joining := p, rest := [], caller := fun _ => caller } } := by
  have hlt := (List.getElem?_eq_some.1 hc).1
  have hj := destructor_joined caller cell.queue q hq
  unfold QueueManager.ForgetByName QueueManager._ForgetByName
  simp only [hf, QueueManager.releaseAll]
  have hrel := release_unowned caller
    { r with m_QueuesStore := r.m_QueuesStore.filter fun e => !(e.1 == name) } p cell q hc h0 hq
  rw [hrel]
  simp only [Option.some_bind]
  have hw : QueueManager.waits
      { m_QueuesStore := r.m_QueuesStore.filter fun e => !(e.1 == name)
        heap := r.heap.set p { queue := q, holders := 0, alive := false }
        m_Access := r.m_Access } p = !cell.queue.joined := by
    unfold QueueManager.waits
    simp [List.getElem?_set_self hlt, hj]
  rw [hw]
  cases cell.queue.joined <;> rfl

/-- While a thread waits inside `erase` or `clear`, no step but its own
changes the names that are registered, or lets another thread enter the
registry. -/
theorem call_waiting (r r1 : QueueManager) (c : Call) (rem : Removal)
    (ha : r.m_Access = some rem) (hc : c ≠ Call.resume) (h : r.call c = some r1) :
    r1.m_QueuesStore = r.m_QueuesStore ∧ r1.m_Access = r.m_Access ∧
      r1.heap.length = r.heap.length := by
  unfold QueueManager.call at h
  split at h
  · cases h
  · cases c with
    | CreateOrGetBackgroundQueueByName name handler => simp [ha] at h
    | CreateOrGetMainQueue handler => simp [ha] at h
    | ForgetByName caller name => simp [ha] at h
    | ForgetMainQueue caller => simp [ha] at h
    | KillAndForgetAll caller => simp [ha] at h
    | resume => exact absurd rfl hc
    | lock p =>
      simp only [QueueManager.lock] at h
      cases hp : r.heap[p]? with
      | none => simp [hp] at h
      | some cell =>
        simp only [hp] at h
        split at h
        · simp only [Option.some.injEq] at h
          subst h
          exact ⟨rfl, rfl, by simp⟩
        · cases h
    | reset caller p =>
      simp only at h
      split at h
      swap
      · cases h
      simp only [QueueManager.reset] at h
      cases hp : r.heap[p]? with
      | none => simp [hp] at h
      | some cell =>
        simp only [hp] at h
        split at h
        · cases h
        · split at h
          · simp only [Option.map_eq_some'] at h
            obtain ⟨s1, _, rfl⟩ := h
            exact ⟨rfl, rfl, by simp⟩
          · simp only [Option.some.injEq] at h
            subst h
            exact ⟨rfl, rfl, by simp⟩
    | queue p e =>
      simp only at h
      cases hp : r.heap[p]? with
      | none => simp [hp] at h
      | some cell =>
        simp only [hp] at h
        split at h
        · simp only [Option.map_eq_some'] at h
          obtain ⟨s1, _, rfl⟩ := h
          exact ⟨rfl, rfl, by simp⟩
        · cases h

theorem calls_waiting (cs : List Call) (r r1 : QueueManager) (rem : Removal)
    (ha : r.m_Access = some rem) (hc : Call.resume ∉ cs) (h : r.calls cs = some r1) :
    r1.m_QueuesStore = r.m_QueuesStore ∧ r1.m_Access = r.m_Access ∧
      r1.heap.length = r.heap.length := by
  induction cs generalizing r with
  | nil =>
    simp only [QueueManager.calls, Option.some.injEq] at h
    subst h
    exact ⟨rfl, rfl, rfl⟩
  | cons c cs ih =>
    simp only [QueueManager.calls] at h
    cases h1 : r.call c with
    | none => simp [h1] at h
    | some r2 =>
      simp only [h1, Option.some_bind] at h
      simp only [List.mem_cons, not_or] at hc
      obtain ⟨g1, g2, g3⟩ := call_waiting r r2 c rem ha (fun e => hc.1 e.symm) h1
      obtain ⟨k1, k2, k3⟩ := ih r2 (by rw [g2]; exact ha) hc.2 h
      exact ⟨k1.trans g1, k2.trans g2, k3.trans g3⟩

/-- No step but a creation registers a name. -/
theorem call_store_nil (r r1 : QueueManager) (c : Call) (hs : r.m_QueuesStore = [])
    (hc : c.isCreate = false) (h : r.call c = some r1) : r1.m_QueuesStore = [] := by
  unfold QueueManager.call at h
  split at h
  · cases h
  · cases c with
    | CreateOrGetBackgroundQueueByName name handler => cases hc
    | CreateOrGetMainQueue handler => cases hc
    | ForgetByName caller name =>
      simp only at h
      split at h
      · rw [ForgetByName_store caller r r1 name h, hs]
        rfl
      · cases h
    | ForgetMainQueue caller =>
      simp only at h
      split at h
      · rw [ForgetByName_store caller r r1 mainQueueName h, hs]
        rfl
      · cases h
    | KillAndForgetAll caller =>
      simp only [QueueManager.KillAndForgetAll, QueueManager._KillAndForgetAll] at h
      split at h
      · exact releaseAll_store _ _ _ r1 h
      · cases h
    | resume =>
      rw [resume_store r r1 h]
      exact hs
    | lock p =>
      simp only [QueueManager.lock] at h
      cases hp : r.heap[p]? with
      | none => simp [hp] at h
      | some cell =>
        simp only [hp] at h
        split at h
        · simp only [Option.some.injEq] at h
          subst h
          exact hs
        · cases h
    | reset caller p =>
      simp only at h
      split at h
      swap
      · cases h
      simp only [QueueManager.reset] at h
      cases hp : r.heap[p]? with
      | none => simp [hp] at h
      | some cell =>
        simp only [hp] at h
        split at h
        · cases h
        · split at h
          · simp only [Option.map_eq_some'] at h
            obtain ⟨s1, _, rfl⟩ := h
            exact hs
          · simp only [Option.some.injEq] at h
            subst h
            exact hs
    | queue p e =>
      simp only at h
      cases hp : r.heap[p]? with
      | none => simp [hp] at h
      | some cell =>
        simp only [hp] at h
        split at h
        · simp only [Option.map_eq_some'] at h
          obtain ⟨s1, _, rfl⟩ := h
          exact hs
        · cases h

theorem calls_store_nil (cs : List Call) (r r1 : QueueManager) (hs : r.m_QueuesStore = [])
    (hc : ∀ c ∈ cs, c.isCreate = false) (h : r.calls cs = some r1) :
    r1.m_QueuesStore = [] := by
  induction cs generalizing r with
  | nil =>
    simp only [QueueManager.calls, Option.some.injEq] at h
    subst h
    exact hs
  | cons c cs ih =>
    simp only [QueueManager.calls] at h
    cases h1 : r.call c with
    | none => simp [h1] at h
    | some r2 =>
      simp only [h1, Option.some_bind] at h
      exact ih r2 (call_store_nil r r2 c hs (hc c (List.mem_cons_self _ _)) h1)
        (fun c2 hc2 => hc c2 (List.mem_cons_of_mem _ hc2)) h

theorem step_alive (s s1 : System) (e : Event) (h : step s e = some s1) :
    s.terminated = false := by
  unfold step at h
  split at h
  · cases h
  · rename_i ht
    simpa using ht

/-- A schedule of one queue, as a schedule of the program. -/
theorem calls_queue (evs : List Event) (r : QueueManager) (p : Nat) (cell : Cell) (s1 : System)
    (ho : ∀ (q : Nat) (c : Cell), q ≠ p → r.heap[q]? = some c → c.queue.terminated = false)
    (hc : r.heap[p]? = some cell)
    (ha : cell.alive = true ∨ ∀ e ∈ evs, e.isAdvance = true)
    (hrun : run cell.queue evs = some s1) :
    ∃ r1, r.calls (evs.map (Call.queue p)) = some r1 ∧
      r1.heap[p]? = some { cell with queue := s1 } ∧
      r1.m_QueuesStore = r.m_QueuesStore ∧ r1.m_Access = r.m_Access ∧
      ∀ q, q ≠ p → r1.heap[q]? = r.heap[q]? := by
  induction evs generalizing r cell with
  | nil =>
    simp only [run, Option.some.injEq] at hrun
    subst hrun
    exact ⟨r, rfl, hc, rfl, rfl, fun _ _ => rfl⟩
  | cons e evs ih =>
    simp only [run] at hrun
    cases hs : step cell.queue e with
    | none => simp [hs] at hrun
    | some s2 =>
      simp only [hs, Option.some_bind] at hrun
      have hlt := (List.getElem?_eq_some.1 hc).1
      have hterm : r.terminated = false := by
        rw [terminated_eq_false]
        intro q c hq
        by_cases hqp : q = p
        · subst hqp
          rw [hc] at hq
          cases hq
          exact step_alive _ _ e hs
        · exact ho q c hqp hq
      have hen : (cell.alive || e.isAdvance) = true := by
        rcases ha with ha | ha
        · simp [ha]
        · simp [ha e (List.mem_cons_self _ _)]
      have hcall : r.call (Call.queue p e) =
          some { r with heap := r.heap.set p { cell with queue := s2 } } := by
        unfold QueueManager.call
        simp only [hterm, hc, hen, hs]
        rfl
      obtain ⟨r1, g1, g2, g3, g4, g5⟩ :=
        ih { r with heap := r.heap.set p { cell with queue := s2 } } { cell with queue := s2 }
          (by
            intro q c hqp hq
            simp only [List.getElem?_set_ne (Ne.symm hqp)] at hq
            exact ho q c hqp hq)
          (by simp only [List.getElem?_set_self hlt])
          (by
            rcases ha with ha | ha
            · exact Or.inl ha
            · exact Or.inr (fun e2 he2 => ha e2 (List.mem_cons_of_mem _ he2)))
          hrun
      refine ⟨r1, ?_, g2, g3, g4, ?_⟩
      · simp only [List.map_cons, QueueManager.calls, hcall, Option.some_bind]
        exact g1
      · intro q hqp
        rw [g5 q hqp]
        simp only [List.getElem?_set_ne (Ne.symm hqp)]

theorem Reachable_step (s s1 : System) (e : Event) (h : Reachable s)
    (hs : step s e = some s1) : Reachable s1 := by
  obtain ⟨name, handler, policy, evs, hp, hrun⟩ := h
  refine ⟨name, handler, policy, evs ++ [e], hp, ?_⟩
  rw [run_append, hrun]
  simp [run, hs]

theorem Live_init : QueueManager.Live QueueManager.init := by
  intro p cell h
  simp [QueueManager.init] at h

theorem release_alive (caller : ThreadId) (r r1 : QueueManager) (q p : Nat) (cell1 : Cell)
    (h : r.release caller q = some r1) (hc : r1.heap[p]? = some cell1)
    (ha : cell1.alive = true) : r.heap[p]? = some cell1 := by
  by_cases hqp : q = p
  · subst hqp
    unfold QueueManager.release at h
    cases hq : r.heap[q]? with
    | none =>
      simp only [hq, Option.some.injEq] at h
      subst h
      rw [← hc, hq]
    | some cell =>
      simp only [hq] at h
      split at h
      · simp only [Option.map_eq_some'] at h
        obtain ⟨s1, _, rfl⟩ := h
        simp only [List.getElem?_set_self (List.getElem?_eq_some.1 hq).1,
          Option.some.injEq] at hc
        subst hc
        cases ha
      · simp only [Option.some.injEq] at h
        subst h
        rw [← hc, hq]
  · rw [← release_other caller r r1 q p h hqp]
    exact hc

theorem releaseAll_alive (caller : Nat → ThreadId) (ps : List Nat) (r r1 : QueueManager)
    (p : Nat) (cell1 : Cell) (h : r.releaseAll caller ps = some r1)
    (hc : r1.heap[p]? = some cell1) (ha : cell1.alive = true) : r.heap[p]? = some cell1 := by
  induction ps generalizing r with
  | nil =>
    simp only [QueueManager.releaseAll, Option.some.injEq] at h
    subst h
    exact hc
  | cons a ps ih =>
    simp only [QueueManager.releaseAll] at h
    cases h1 : r.release (caller a) a with
    | none => simp [h1] at h
    | some r2 =>
      simp only [h1, Option.some_bind] at h
      apply release_alive (caller a) r r2 a p cell1 h1 _ ha
      split at h
      · simp only [Option.some.injEq] at h
        subst h
        exact hc
      · exact ih r2 h

theorem Live_create (r : QueueManager) (name : String) (handler : tExceptionHandler)
    (h : QueueManager.Live r) :
    QueueManager.Live (QueueManager._CreateOrGetBackgroundQueueByName name handler r).2 := by
  unfold QueueManager._CreateOrGetBackgroundQueueByName
  cases hf : r.find name with
  | some p => exact h
  | none =>
    intro p cell hc ha
    simp only at hc
    by_cases hlt : p < r.heap.length
    · rw [List.getElem?_append_left hlt] at hc
      exact h p cell hc ha
    · have hp : p = r.heap.length := by
        have := (List.getElem?_eq_some.1 hc).1
        simp only [List.length_append, List.length_singleton] at this
        omega
      subst hp
      rw [List.getElem?_concat_length] at hc
      simp only [Option.some.injEq] at hc
      subst hc
      refine ⟨name, handler, _, [], ?_, rfl⟩
      by_cases hm : name = mainQueueName <;> simp [hm, ExecutionPolicy.source]

theorem Live_call (r r1 : QueueManager) (c : Call) (h : QueueManager.Live r)
    (hs : r.call c = some r1) : QueueManager.Live r1 := by
  unfold QueueManager.call at hs
  split at hs
  · cases hs
  · cases c with
    | CreateOrGetBackgroundQueueByName name handler =>
      simp only at hs
      split at hs
      · simp only [Option.some.injEq] at hs
        subst hs
        exact Live_create r name handler h
      · cases hs
    | CreateOrGetMainQueue handler =>
      simp only at hs
      split at hs
      · simp only [Option.some.injEq] at hs
        subst hs
        exact Live_create r mainQueueName handler h
      · cases hs
    | ForgetByName caller name =>
      simp only at hs
      split at hs
      · intro p cell hc ha
        unfold QueueManager.ForgetByName QueueManager._ForgetByName at hs
        cases hf : r.find name with
        | none =>
          simp only [hf, Option.some.injEq] at hs
          subst hs
          exact h p cell hc ha
        | some q =>
          simp only [hf] at hs
          have := releaseAll_alive _ _ _ r1 p cell hs hc ha
          exact h p cell this ha
      · cases hs
    | ForgetMainQueue caller =>
      simp only at hs
      split at hs
      · intro p cell hc ha
        unfold QueueManager.ForgetMainQueue QueueManager.ForgetByName
          QueueManager._ForgetByName at hs
        cases hf : r.find mainQueueName with
        | none =>
          simp only [hf, Option.some.injEq] at hs
          subst hs
          exact h p cell hc ha
        | some q =>
          simp only [hf] at hs
          have := releaseAll_alive _ _ _ r1 p cell hs hc ha
          exact h p cell this ha
      · cases hs
    | KillAndForgetAll caller =>
      simp only [QueueManager.KillAndForgetAll, QueueManager._KillAndForgetAll] at hs
      split at hs
      · intro p cell hc ha
        have := releaseAll_alive _ _ _ r1 p cell hs hc ha
        exact h p cell this ha
      · cases hs
    | resume =>
      simp only [QueueManager.resume] at hs
      split at hs
      · cases hs
      · split at hs
        · cases hs
        · intro p cell hc ha
          exact h p cell (releaseAll_alive _ _ _ r1 p cell hs hc ha) ha
    | lock q =>
      simp only [QueueManager.lock] at hs
      cases hq : r.heap[q]? with
      | none => simp [hq] at hs
      | some c0 =>
        simp only [hq] at hs
        split at hs
        · simp only [Option.some.injEq] at hs
          subst hs
          intro p cell hc ha
          by_cases hqp : q = p
          · subst hqp
            simp only [List.getElem?_set_self (List.getElem?_eq_some.1 hq).1,
              Option.some.injEq] at hc
            subst hc
            exact h q c0 hq ha
          · simp only [List.getElem?_set_ne hqp] at hc
            exact h p cell hc ha
        · cases hs
    | reset caller q =>
      simp only at hs
      split at hs
      swap
      · cases hs
      simp only [QueueManager.reset] at hs
      cases hq : r.heap[q]? with
      | none => simp [hq] at hs
      | some c0 =>
        simp only [hq] at hs
        split at hs
        · cases hs
        · split at hs
          · simp only [Option.map_eq_some'] at hs
            obtain ⟨s1, _, rfl⟩ := hs
            intro p cell hc ha
            by_cases hqp : q = p
            · subst hqp
              simp only [List.getElem?_set_self (List.getElem?_eq_some.1 hq).1,
                Option.some.injEq] at hc
              subst hc
              cases ha
            · simp only [List.getElem?_set_ne hqp] at hc
              exact h p cell hc ha
          · simp only [Option.some.injEq] at hs
            subst hs
            intro p cell hc ha
            by_cases hqp : q = p
            · subst hqp
              simp only [List.getElem?_set_self (List.getElem?_eq_some.1 hq).1,
                Option.some.injEq] at hc
              subst hc
              exact h q c0 hq ha
            · simp only [List.getElem?_set_ne hqp] at hc
              exact h p cell hc ha
    | queue q e =>
      simp only at hs
      cases hq : r.heap[q]? with
      | none => simp [hq] at hs
      | some c0 =>
        simp only [hq] at hs
        split at hs
        · simp only [Option.map_eq_some'] at hs
          obtain ⟨s1, hstep, rfl⟩ := hs
          intro p cell hc ha
          by_cases hqp : q = p
          · subst hqp
            simp only [List.getElem?_set_self (List.getElem?_eq_some.1 hq).1,
              Option.some.injEq] at hc
            subst hc
            exact Reachable_step _ _ e (h q c0 hq ha) hstep
          · simp only [List.getElem?_set_ne hqp] at hc
            exact h p cell hc ha
        · cases hs

theorem Live_calls (cs : List Call) (r r1 : QueueManager) (h : QueueManager.Live r)
    (hs : r.calls cs = some r1) : QueueManager.Live r1 := by
  induction cs generalizing r with
  | nil =>
    simp only [QueueManager.calls, Option.some.injEq] at hs
    subst hs
    exact h
  | cons c cs ih =>
    simp only [QueueManager.calls] at hs
    cases h1 : r.call c with
    | none => simp [h1] at hs
    | some r2 =>
      simp only [h1, Option.some_bind] at hs
      exact ih r2 (Live_call r r2 c h h1) hs

theorem Live_of_Reachable (r : QueueManager) (h : QueueManager.Reachable r) :
    QueueManager.Live r := by
  obtain ⟨cs, hcs⟩ := h
  exact Live_calls cs _ r Live_init hcs

theorem joined_false (s : System) (worker : Nat)
    (hp : s.queue.m_ExecutionPolicy = ExecutionPolicy.BackgroundThread (some worker))
    (hj : s.joined = false) : ∃ w, s.loops[worker]? = some w ∧ w.pc ≠ PC.done := by
  unfold System.joined at hj
  simp only [hp] at hj
  cases hw : s.loops[worker]? with
  | none => simp [hw] at hj
  | some w =>
    simp only [hw, decide_eq_false_iff_not] at hj
    exact ⟨w, rfl, hj⟩

theorem joined_true (s : System) (worker : Nat) (w : Loop)
    (hp : s.queue.m_ExecutionPolicy = ExecutionPolicy.BackgroundThread (some worker))
    (hw : s.loops[worker]? = some w) (hd : w.pc = PC.done) : s.joined = true := by
  unfold System.joined
  simp [hp, hw, hd]

theorem terminated_of_cell (r : QueueManager) (p : Nat) (cell : Cell)
    (hc : r.heap[p]? = some cell) (ht : cell.queue.terminated = true) : r.terminated = true := by
  cases h : r.terminated with
  | true => rfl
  | false =>
    rw [terminated_eq_false] at h
    rw [h p cell hc] at ht
    cases ht

theorem call_terminated (r : QueueManager) (c : Call) (ht : r.terminated = true) :
    r.call c = none := by
  unfold QueueManager.call
  simp [ht]

/-- The continuation of the thread that waits inside `erase`, once the thread
it joins has returned. -/
theorem resume_forget (r : QueueManager) (p : Nat) (caller : Nat → ThreadId)
    (ha : r.m_Access = some { joining := p, rest := [], caller := caller }) :
    (r.waits p = true → r.call Call.resume = none) ∧
    (r.waits p = false → r.terminated = false →
      r.call Call.resume = some { r with m_Access := none }) := by
  constructor
  · intro hw
    unfold QueueManager.call
    split
    · rfl
    · simp [QueueManager.resume, ha, hw]
  · intro hw ht
    unfold QueueManager.call
    simp [ht, QueueManager.resume, ha, hw, QueueManager.releaseAll]

theorem left_le (pc : PC) : pc.left ≤ 4 := by
  cases pc with
  | popped t => cases t <;> simp [PC.left]
  | _ => simp [PC.left]

/-- After the destruction of a `Busy` queue by a thread that is not its own,
the thread of the queue returns within four of its steps, unless the process
terminates, and the thread that waits in the `join` can go on. -/
theorem destroyed_worker_returns (r : QueueManager) (p : Nat) (cell : Cell) (q : System)
    (worker : Nat) (caller : ThreadId) (store : List (String × Nat)) (access : Option Removal)
    (hl : Reachable cell.queue) (ht : r.terminated = false)
    (hc : r.heap[p]? = some cell)
    (hb : cell.queue.queue.m_State = eAsyncState.Busy)
    (hm : cell.queue.queue.m_Mutex = none)
    (hp : cell.queue.queue.m_ExecutionPolicy = ExecutionPolicy.BackgroundThread (some worker))
    (hj : cell.queue.joined = false) (hne : caller ≠ ThreadId.spawned worker)
    (hq : Queue.destructor caller cell.queue = some q) :
    ∃ k r2, k ≤ 4 ∧
      QueueManager.calls
        { m_QueuesStore := store
          heap := r.heap.set p { queue := q, holders := 0, alive := false }
          m_Access := access }
        (List.replicate k (Call.queue p (Event.advance worker))) = some r2 ∧
      r2.m_QueuesStore = store ∧ r2.m_Access = access ∧
      (HandlerReturns cell.queue.queue.m_ExceptionHandler → r2.terminated = false) ∧
      (r2.terminated = false → r2.waits p = false) := by
  have hcons := Consistent_of_Reachable _ hl
  obtain ⟨w, hw, hnd⟩ := joined_false cell.queue worker hp hj
  have hlt := (List.getElem?_eq_some.1 hc).1
  have hwl := (List.getElem?_eq_some.1 hw).1
  obtain ⟨q2, hq2, _, _, hqm, _, hreq⟩ := destructor_Busy caller cell.queue hb hm
  rw [hq] at hq2
  cases hq2
  obtain ⟨gpol, gloops, _, _⟩ := destructor_policy caller cell.queue q hq
  have hqt : q.terminated = false := by
    cases hqt : q.terminated with
    | false => rfl
    | true =>
      rw [destructor_terminated caller cell.queue q hq] at hqt
      rcases hqt with hqt | ⟨w2, hw2, hcw, _⟩
      · rw [(terminated_eq_false r).1 ht p cell hc] at hqt
        cases hqt
      · rw [hp] at hw2
        cases hw2
        exact absurd hcw hne
  have hwq : q.loops[worker]? = some w := by
    rw [gloops]
    exact hw
  have htok : w.stopToken = worker := hcons.token_eq worker w hw
  have hreqw : stop_requested q w.stopToken = true := by
    rw [htok]
    apply hreq worker
    · rw [hp]
      rfl
    · rw [hcons.tokens]
      exact hwl
  obtain ⟨k, s1, hk, hrun, hpol1, hres, hret⟩ :=
    cancelled_worker_returns 4 q worker w hwq
      (left_le w.pc)
      hreqw (fun _ => hqm) hqt
  have hothers : ∀ (p2 : Nat) (c : Cell), p2 ≠ p →
      (QueueManager.mk store (r.heap.set p { queue := q, holders := 0, alive := false })
        access).heap[p2]? = some c → c.queue.terminated = false := by
    intro p2 c hne2 hc2
    simp only [List.getElem?_set_ne (Ne.symm hne2)] at hc2
    exact (terminated_eq_false r).1 ht p2 c hc2
  obtain ⟨r2, g1, g2, g3, g4, g5⟩ :=
    calls_queue (List.replicate k (Event.advance worker))
      (QueueManager.mk store (r.heap.set p { queue := q, holders := 0, alive := false }) access)
      p { queue := q, holders := 0, alive := false } s1 hothers
      (by simp only [List.getElem?_set_self hlt])
      (Or.inr (fun e he => by rw [List.eq_of_mem_replicate he]; rfl)) hrun
  rw [List.map_replicate] at g1
  have hterm2 : s1.terminated = false → r2.terminated = false := by
    intro hs1
    rw [terminated_eq_false]
    intro p2 c hc2
    by_cases hp2 : p2 = p
    · subst hp2
      rw [g2] at hc2
      cases hc2
      exact hs1
    · rw [g5 p2 hp2] at hc2
      exact hothers p2 c hp2 hc2
  refine ⟨k, r2, hk, g1, g3, g4, ?_, ?_⟩
  · intro hh
    apply hterm2
    apply hret
    rw [destructor_handler caller cell.queue q hq]
    exact hh
  · intro ht2
    rcases hres with hres | ⟨_, w1, hw1, hd1⟩
    · rw [terminated_of_cell r2 p _ g2 hres] at ht2
      cases ht2
    · unfold QueueManager.waits
      simp only [g2]
      have := joined_true s1 worker w1 (by rw [hpol1, gpol, hp]) hw1 hd1
      simp [this]

/-- Giving up pointers does not block when the mutex of every queue is
free. -/
theorem releaseAll_enabled (caller : Nat → ThreadId) (ps : List Nat) (r : QueueManager)
    (h : ∀ (p : Nat) (cell : Cell), r.heap[p]? = some cell → cell.queue.queue.m_Mutex = none) :
    ∃ r1, r.releaseAll caller ps = some r1 := by
  induction ps generalizing r with
  | nil => exact ⟨_, rfl⟩
  | cons a ps ih =>
    simp only [QueueManager.releaseAll]
    have hrel : ∃ r2, r.release (caller a) a = some r2 ∧
        ∀ (p : Nat) (cell : Cell), r2.heap[p]? = some cell →
          cell.queue.queue.m_Mutex = none := by
      cases hc : r.heap[a]? with
      | none =>
        refine ⟨r, ?_, h⟩
        unfold QueueManager.release
        simp only [hc]
      | some cell =>
        by_cases hh : 0 < cell.holders
        · exact ⟨r, release_owned (caller a) r a cell hc hh, h⟩
        · obtain ⟨q, hq⟩ := destructor_enabled (caller a) cell.queue (h a cell hc)
          refine ⟨_, release_unowned (caller a) r a cell q hc (by omega) hq, ?_⟩
          intro p c2 hc2
          by_cases hap : a = p
          · subst hap
            simp only [List.getElem?_set_self (List.getElem?_eq_some.1 hc).1,
              Option.some.injEq] at hc2
            subst hc2
            simp only
            rw [(destructor_policy (caller a) cell.queue q hq).2.2.1]
            exact h a cell hc
          · simp only [List.getElem?_set_ne hap] at hc2
            exact h p c2 hc2
    obtain ⟨r2, g1, g2⟩ := hrel
    simp only [g1, Option.some_bind]
    split
    · exact ⟨_, rfl⟩
    · exact ih r2 g2

@[simp] theorem timer_setPc_params (t : AsyncTimer) (i : Nat) (pc : AsyncTimer.PC) :
    (AsyncTimer.setPc t i pc).m_Params = t.m_Params := rfl

@[simp] theorem timer_setPc_context (t : AsyncTimer) (i : Nat) (pc : AsyncTimer.PC) :
    (AsyncTimer.setPc t i pc).m_ExecutionContext = t.m_ExecutionContext := rfl

@[simp] theorem timer_setPc_state (t : AsyncTimer) (i : Nat) (pc : AsyncTimer.PC) :
    (AsyncTimer.setPc t i pc).m_State = t.m_State := rfl

@[simp] theorem timer_setPc_trace (t : AsyncTimer) (i : Nat) (pc : AsyncTimer.PC) :
    (AsyncTimer.setPc t i pc).trace = t.trace := rfl

@[simp] theorem timer_setPc_invoked (t : AsyncTimer) (i : Nat) (pc : AsyncTimer.PC) :
    (AsyncTimer.setPc t i pc).invoked = t.invoked := rfl

@[simp] theorem timer_setPc_provided (t : AsyncTimer) (i : Nat) (pc : AsyncTimer.PC) :
    (AsyncTimer.setPc t i pc).provided = t.provided := rfl

@[simp] theorem timer_setPc_terminated (t : AsyncTimer) (i : Nat) (pc : AsyncTimer.PC) :
    (AsyncTimer.setPc t i pc).terminated = t.terminated := rfl

theorem timer_setPc_contexts (t : AsyncTimer) (i : Nat) (pc : AsyncTimer.PC) :
    (AsyncTimer.setPc t i pc).contexts =
      t.contexts.modify (fun w => { w with pc := pc }) i := rfl

/-- The shape of one step of the thread of a context: it has returned and
nothing changes; or the process is terminated; or the thread moves, and the
state becomes `Busy` on the first step, `Stopped` on the last one and is
unchanged in between. -/
theorem timer_Routine_shape (t : AsyncTimer) (i : Nat) (w : AsyncTimer._ExecutionContext)
    (hw : t.contexts[i]? = some w) :
    (AsyncTimer._Routine t i).m_Params = t.m_Params ∧
    (AsyncTimer._Routine t i).m_ExecutionContext = t.m_ExecutionContext ∧
    ((w.pc = AsyncTimer.PC.done ∧ AsyncTimer._Routine t i = t) ∨
     (w.pc ≠ AsyncTimer.PC.done ∧ (AsyncTimer._Routine t i).terminated = true ∧
        (AsyncTimer._Routine t i).contexts = t.contexts) ∨
     (w.pc ≠ AsyncTimer.PC.done ∧ ∃ pc1,
        (AsyncTimer._Routine t i).contexts =
          t.contexts.modify (fun w => { w with pc := pc1 }) i ∧
        (AsyncTimer._Routine t i).terminated = t.terminated ∧
        t.m_Params ≠ none ∧
        (w.stop = true → pc1.rank < w.pc.rank) ∧
        ((w.pc = AsyncTimer.PC.entry ∧ pc1 = AsyncTimer.PC.compute ∧
            (AsyncTimer._Routine t i).m_State = eAsyncState.Busy) ∨
         (w.pc ≠ AsyncTimer.PC.entry ∧ pc1 ≠ AsyncTimer.PC.entry ∧ pc1 ≠ AsyncTimer.PC.done ∧
            (AsyncTimer._Routine t i).m_State = t.m_State) ∨
         (w.pc ≠ AsyncTimer.PC.entry ∧ pc1 = AsyncTimer.PC.done ∧
            (AsyncTimer._Routine t i).m_State = eAsyncState.Stopped)))) := by
  obtain ⟨p, hp⟩ | hp : (∃ p, t.m_Params = some p) ∨ t.m_Params = none := by
    cases t.m_Params <;> simp
  · have hpn : t.m_Params ≠ none := by simp [hp]
    cases hpc : w.pc with
    | entry =>
      have hR : AsyncTimer._Routine t i =
          AsyncTimer.setPc { t with m_State := eAsyncState.Busy } i AsyncTimer.PC.compute := by
        simp only [AsyncTimer._Routine, hw, hp, hpc]
      rw [hR]
      exact ⟨rfl, rfl, Or.inr (Or.inr ⟨by simp, AsyncTimer.PC.compute, rfl, rfl, hpn,
        fun _ => by simp [AsyncTimer.PC.rank], Or.inl ⟨rfl, rfl, rfl⟩⟩)⟩
    | compute =>
      cases hd : p.delayProviderHolder with
      | delay d =>
        have hR : AsyncTimer._Routine t i = AsyncTimer.setPc t i AsyncTimer.PC.waiting := by
          simp only [AsyncTimer._Routine, hw, hp, hpc, hd]
        rw [hR]
        exact ⟨rfl, rfl, Or.inr (Or.inr ⟨by simp, AsyncTimer.PC.waiting, rfl, rfl, hpn,
          fun _ => by simp [AsyncTimer.PC.rank], Or.inr (Or.inl ⟨by simp, by simp, by simp, rfl⟩)⟩)⟩
      | provider f =>
        cases f with
        | none =>
          have hR : AsyncTimer._Routine t i =
              AsyncTimer.setPc t i (AsyncTimer.PC.caught bad_function_call) := by
            simp only [AsyncTimer._Routine, hw, hp, hpc, hd]
          rw [hR]
          exact ⟨rfl, rfl, Or.inr (Or.inr ⟨by simp, AsyncTimer.PC.caught bad_function_call,
            rfl, rfl, hpn, fun _ => by simp [AsyncTimer.PC.rank],
            Or.inr (Or.inl ⟨by simp, by simp, by simp, rfl⟩)⟩)⟩
        | some f =>
          cases hf : f t.provided with
          | ok d =>
            have hR : AsyncTimer._Routine t i =
                AsyncTimer.setPc
                  { t with provided := t.provided + 1
                           trace := t.trace ++ [AsyncTimer.Obs.provide t.provided] }
                  i AsyncTimer.PC.waiting := by
              simp only [AsyncTimer._Routine, hw, hp, hpc, hd, hf]
            rw [hR]
            exact ⟨rfl, rfl, Or.inr (Or.inr ⟨by simp, AsyncTimer.PC.waiting, rfl, rfl,
              hpn, fun _ => by simp [AsyncTimer.PC.rank],
              Or.inr (Or.inl ⟨by simp, by simp, by simp, rfl⟩)⟩)⟩
          | error e =>
            have hR : AsyncTimer._Routine t i =
                AsyncTimer.setPc
                  { t with provided := t.provided + 1
                           trace := t.trace ++ [AsyncTimer.Obs.provide t.provided] }
                  i (AsyncTimer.PC.caught e) := by
              simp only [AsyncTimer._Routine, hw, hp, hpc, hd, hf]
            rw [hR]
            exact ⟨rfl, rfl, Or.inr (Or.inr ⟨by simp, AsyncTimer.PC.caught e, rfl, rfl,
              hpn, fun _ => by simp [AsyncTimer.PC.rank],
              Or.inr (Or.inl ⟨by simp, by simp, by simp, rfl⟩)⟩)⟩
    | waiting =>
      have hR : AsyncTimer._Routine t i =
          AsyncTimer.setPc t i (AsyncTimer.PC.woke w.stop) := by
        simp only [AsyncTimer._Routine, hw, hp, hpc]
      rw [hR]
      exact ⟨rfl, rfl, Or.inr (Or.inr ⟨by simp, AsyncTimer.PC.woke w.stop, rfl, rfl, hpn,
        fun h => by rw [h]; simp [AsyncTimer.PC.rank], Or.inr (Or.inl ⟨by simp, by simp, by simp, rfl⟩)⟩)⟩
    | woke b =>
      by_cases hcond : (!b || !w.stop) = true
      · cases hk : p.task with
        | none =>
          have hR : AsyncTimer._Routine t i =
              AsyncTimer.setPc t i (AsyncTimer.PC.afterTask b) := by
            simp only [AsyncTimer._Routine, hw, hp, hpc, hk, hcond, if_true]
          rw [hR]
          exact ⟨rfl, rfl, Or.inr (Or.inr ⟨by simp, AsyncTimer.PC.afterTask b, rfl, rfl,
            hpn, fun _ => by cases b <;> simp [AsyncTimer.PC.rank],
            Or.inr (Or.inl ⟨by simp, by simp, by simp, rfl⟩)⟩)⟩
        | some task =>
          have hR : AsyncTimer._Routine t i =
              AsyncTimer.setPc
                { t with invoked := t.invoked + 1
                         trace := t.trace ++ [AsyncTimer.Obs.invoke t.invoked] }
                i (AsyncTimer.PC.inTask b (task t.invoked)) := by
            simp only [AsyncTimer._Routine, hw, hp, hpc, hk, hcond, if_true]
          rw [hR]
          refine ⟨rfl, rfl, Or.inr (Or.inr ⟨by simp,
            AsyncTimer.PC.inTask b (task t.invoked), rfl, rfl, hpn, ?_,
            Or.inr (Or.inl ⟨by simp, by simp, by simp, rfl⟩)⟩)⟩
          intro hs
          rw [hs] at hcond
          cases b
          · simp [AsyncTimer.PC.rank]
          · simp at hcond
      · have hR : AsyncTimer._Routine t i =
            AsyncTimer.setPc t i (AsyncTimer.PC.afterTask b) := by
          simp [AsyncTimer._Routine, hw, hp, hpc, hcond]
        rw [hR]
        exact ⟨rfl, rfl, Or.inr (Or.inr ⟨by simp, AsyncTimer.PC.afterTask b, rfl, rfl,
          hpn, fun _ => by cases b <;> simp [AsyncTimer.PC.rank],
          Or.inr (Or.inl ⟨by simp, by simp, by simp, rfl⟩)⟩)⟩
    | inTask b r =>
      cases r with
      | none =>
        have hR : AsyncTimer._Routine t i =
            AsyncTimer.setPc t i (AsyncTimer.PC.afterTask b) := by
          simp only [AsyncTimer._Routine, hw, hp, hpc]
        rw [hR]
        exact ⟨rfl, rfl, Or.inr (Or.inr ⟨by simp, AsyncTimer.PC.afterTask b, rfl, rfl,
          hpn, fun _ => by simp [AsyncTimer.PC.rank], Or.inr (Or.inl ⟨by simp, by simp, by simp, rfl⟩)⟩)⟩
      | some f =>
        have hR : AsyncTimer._Routine t i =
            AsyncTimer.setPc t i (AsyncTimer.PC.caught f) := by
          simp only [AsyncTimer._Routine, hw, hp, hpc]
        rw [hR]
        exact ⟨rfl, rfl, Or.inr (Or.inr ⟨by simp, AsyncTimer.PC.caught f, rfl, rfl,
          hpn, fun _ => by simp [AsyncTimer.PC.rank], Or.inr (Or.inl ⟨by simp, by simp, by simp, rfl⟩)⟩)⟩
    | afterTask b =>
      cases hs : w.stop with
      | false =>
        have hR : AsyncTimer._Routine t i = AsyncTimer.setPc t i AsyncTimer.PC.compute := by
          simp [AsyncTimer._Routine, hw, hp, hpc, hs]
        rw [hR]
        exact ⟨rfl, rfl, Or.inr (Or.inr ⟨by simp, AsyncTimer.PC.compute, rfl, rfl,
          hpn, (by intro h; cases h),
          Or.inr (Or.inl ⟨by simp, by simp, by simp, rfl⟩)⟩)⟩
      | true =>
        have hR : AsyncTimer._Routine t i =
            AsyncTimer.setPc (AsyncTimer.scopeExit t) i AsyncTimer.PC.done := by
          simp [AsyncTimer._Routine, hw, hp, hpc, hs]
        rw [hR]
        exact ⟨rfl, rfl, Or.inr (Or.inr ⟨by simp, AsyncTimer.PC.done, rfl, rfl,
          hpn, fun _ => by simp [AsyncTimer.PC.rank], Or.inr (Or.inr ⟨by simp, rfl, rfl⟩)⟩)⟩
    | caught f =>
      cases hh : p.exceptionHandler with
      | none =>
        have hR : AsyncTimer._Routine t i =
            AsyncTimer.setPc (AsyncTimer.scopeExit t) i AsyncTimer.PC.done := by
          simp only [AsyncTimer._Routine, hw, hp, hpc, hh]
        rw [hR]
        exact ⟨rfl, rfl, Or.inr (Or.inr ⟨by simp, AsyncTimer.PC.done, rfl, rfl,
          hpn, fun _ => by simp [AsyncTimer.PC.rank], Or.inr (Or.inr ⟨by simp, rfl, rfl⟩)⟩)⟩
      | some handler =>
        cases hr : handler f with
        | none =>
          have hR : AsyncTimer._Routine t i =
              AsyncTimer.setPc
                (AsyncTimer.scopeExit
                  { t with trace := t.trace ++ [AsyncTimer.Obs.handle f] })
                i AsyncTimer.PC.done := by
            simp only [AsyncTimer._Routine, hw, hp, hpc, hh, hr]
          rw [hR]
          exact ⟨rfl, rfl, Or.inr (Or.inr ⟨by simp, AsyncTimer.PC.done, rfl, rfl,
            hpn, fun _ => by simp [AsyncTimer.PC.rank], Or.inr (Or.inr ⟨by simp, rfl, rfl⟩)⟩)⟩
        | some g =>
          have hR : AsyncTimer._Routine t i =
              { t with trace := t.trace ++ [AsyncTimer.Obs.handle f], terminated := true } := by
            simp only [AsyncTimer._Routine, hw, hp, hpc, hh, hr]
          rw [hR]
          exact ⟨rfl, rfl, Or.inr (Or.inl ⟨by simp, rfl, rfl⟩)⟩
    | done =>
      have hR : AsyncTimer._Routine t i = t := by
        simp only [AsyncTimer._Routine, hw, hp, hpc]
      rw [hR]
      exact ⟨rfl, rfl, Or.inl ⟨rfl, rfl⟩⟩
  · by_cases hd : w.pc = AsyncTimer.PC.done
    · have hR : AsyncTimer._Routine t i = t := by
        simp only [AsyncTimer._Routine, hw, hp, hd]
      rw [hR]
      exact ⟨rfl, rfl, Or.inl ⟨hd, rfl⟩⟩
    · have hR : AsyncTimer._Routine t i = { t with terminated := true } := by
        cases hpc : w.pc <;> simp [AsyncTimer._Routine, hw, hp, hpc] at hd ⊢
      rw [hR]
      exact ⟨rfl, rfl, Or.inr (Or.inl ⟨hd, rfl, rfl⟩)⟩

theorem timer_modify_self (l : List AsyncTimer._ExecutionContext)
    (f : AsyncTimer._ExecutionContext → AsyncTimer._ExecutionContext) (i : Nat)
    (w : AsyncTimer._ExecutionContext) (hw : l[i]? = some w) :
    (l.modify f i)[i]? = some (f w) := by
  simp [List.getElem?_modify, hw]

theorem timer_advance_terminated (fuel : Nat) (t : AsyncTimer) (i : Nat)
    (h : t.terminated = true) : AsyncTimer.advance t i fuel = t := by
  cases fuel with
  | zero => rfl
  | succ n => simp [AsyncTimer.advance, h]

theorem timer_request_stop_self (t : AsyncTimer) (i : Nat) (w : AsyncTimer._ExecutionContext)
    (hw : t.contexts[i]? = some w) :
    (AsyncTimer.request_stop t i).contexts[i]? = some { w with stop := true } :=
  timer_modify_self _ _ i w hw

/-- A timer at rest stays as it is as long as `Start` is not called. -/
theorem timer_Halted_run (evs : List AsyncTimer.Event) (t t2 : AsyncTimer)
    (h : AsyncTimer.Halted t) (hns : ∀ e ∈ evs, AsyncTimer.Event.isStart e = false)
    (hr : AsyncTimer.run t evs = some t2) : t2 = t := by
  induction evs with
  | nil =>
    simp only [AsyncTimer.run, Option.some.injEq] at hr
    exact hr.symm
  | cons e es ih =>
    have hstep : AsyncTimer.step t e = some t := by
      cases e with
      | Start caller =>
        have := hns (AsyncTimer.Event.Start caller) (List.mem_cons_self _ _)
        simp [AsyncTimer.Event.isStart] at this
      | Stop caller =>
        simp only [AsyncTimer.run] at hr
        cases h1 : AsyncTimer.step t (AsyncTimer.Event.Stop caller) with
        | none => simp [h1] at hr
        | some t1 =>
          unfold AsyncTimer.step at h1
          simp only [h.2.2, Bool.false_eq_true, if_false] at h1
          split at h1
          · simp only [Option.some.injEq] at h1
            subst h1
            simp [AsyncTimer.Stop, AsyncTimer._Stop, h.2.1]
          · cases h1
      | advance i =>
        simp only [AsyncTimer.run] at hr
        cases h1 : AsyncTimer.step t (AsyncTimer.Event.advance i) with
        | none => simp [h1] at hr
        | some t1 =>
          unfold AsyncTimer.step at h1
          simp only [h.2.2, Bool.false_eq_true, if_false] at h1
          split at h1
          · rename_i hlt
            simp only [Option.some.injEq] at h1
            subst h1
            have hw : t.contexts[i]? = some t.contexts[i] := List.getElem?_eq_getElem hlt
            have hd := h.1 _ (List.getElem_mem hlt)
            obtain ⟨_, _, hshape⟩ := timer_Routine_shape t i _ hw
            rcases hshape with ⟨_, hR⟩ | ⟨hnd, _⟩ | ⟨hnd, _⟩
            · rw [hR]
            · exact absurd hd hnd
            · exact absurd hd hnd
          · cases h1
    simp only [AsyncTimer.run, hstep, Option.some_bind] at hr
    exact ih (fun e he => hns e (List.mem_cons_of_mem _ he)) hr

theorem timer_advance_add (a b : Nat) (t : AsyncTimer) (i : Nat) :
    AsyncTimer.advance t i (a + b) = AsyncTimer.advance (AsyncTimer.advance t i a) i b := by
  induction a generalizing t with
  | zero => simp [AsyncTimer.advance]
  | succ n ih =>
    rw [Nat.add_right_comm]
    by_cases ht : t.terminated = true
    · rw [timer_advance_terminated _ t i ht, timer_advance_terminated _ t i ht,
        timer_advance_terminated _ t i ht]
    · simp only [AsyncTimer.advance, ht, Bool.false_eq_true, if_false]
      exact ih _

theorem timer_provides (holder : tDelayProviderHolder) (h : holder.Provides) (n : Nat) :
    (∃ d, holder = tDelayProviderHolder.delay d) ∨
    ∃ f d, holder = tDelayProviderHolder.provider (some f) ∧ f n = Except.ok d := by
  cases holder with
  | delay d => exact Or.inl ⟨d, rfl⟩
  | provider f =>
    cases f with
    | none => exact absurd h (by simp [tDelayProviderHolder.Provides])
    | some f =>
      obtain ⟨d, hd⟩ := h n
      exact Or.inr ⟨f, d, rfl, hd⟩

/-- The first step of an iteration: the delay is computed, by one call of
the provider if there is one, and the thread enters its wait. -/
theorem timer_compute_step (t : AsyncTimer) (i : Nat) (w : AsyncTimer._ExecutionContext)
    (p : AsyncTimer._Params) (hw : t.contexts[i]? = some w)
    (hpc : w.pc = AsyncTimer.PC.compute) (hp : t.m_Params = some p)
    (hprov : p.delayProviderHolder.Provides) :
    AsyncTimer._Routine t i =
      AsyncTimer.setPc
        { t with provided := t.provided + p.delayProviderHolder.calls
                 trace := t.trace ++ p.delayProviderHolder.observed t.provided }
        i AsyncTimer.PC.waiting := by
  rcases timer_provides _ hprov t.provided with ⟨d, hd⟩ | ⟨f, d, hd, hf⟩
  · have hR : AsyncTimer._Routine t i = AsyncTimer.setPc t i AsyncTimer.PC.waiting := by
      simp only [AsyncTimer._Routine, hw, hp, hpc, hd]
    rw [hR, hd]
    simp only [tDelayProviderHolder.calls, tDelayProviderHolder.observed, Nat.add_zero,
      List.append_nil]
  · have hR : AsyncTimer._Routine t i =
        AsyncTimer.setPc
          { t with provided := t.provided + 1
                   trace := t.trace ++ [AsyncTimer.Obs.provide t.provided] }
          i AsyncTimer.PC.waiting := by
      simp only [AsyncTimer._Routine, hw, hp, hpc, hd, hf]
    rw [hR, hd]
    simp only [tDelayProviderHolder.calls, tDelayProviderHolder.observed]

theorem timer_waiting_step (t : AsyncTimer) (i : Nat) (w : AsyncTimer._ExecutionContext)
    (p : AsyncTimer._Params) (hw : t.contexts[i]? = some w)
    (hpc : w.pc = AsyncTimer.PC.waiting) (hp : t.m_Params = some p) :
    AsyncTimer._Routine t i = AsyncTimer.setPc t i (AsyncTimer.PC.woke w.stop) := by
  simp only [AsyncTimer._Routine, hw, hp, hpc]

theorem timer_woke_step (t : AsyncTimer) (i : Nat) (w : AsyncTimer._ExecutionContext)
    (p : AsyncTimer._Params) (b : Bool) (task : Nat → Option Failure)
    (hw : t.contexts[i]? = some w) (hpc : w.pc = AsyncTimer.PC.woke b)
    (hp : t.m_Params = some p) (htask : p.task = some task)
    (hcond : (!b || !w.stop) = true) :
    AsyncTimer._Routine t i =
      AsyncTimer.setPc
        { t with invoked := t.invoked + 1
                 trace := t.trace ++ [AsyncTimer.Obs.invoke t.invoked] }
        i (AsyncTimer.PC.inTask b (task t.invoked)) := by
  simp only [AsyncTimer._Routine, hw, hp, hpc, htask, hcond, if_true]

theorem timer_woke_skip (t : AsyncTimer) (i : Nat) (w : AsyncTimer._ExecutionContext)
    (p : AsyncTimer._Params) (hw : t.contexts[i]? = some w)
    (hpc : w.pc = AsyncTimer.PC.woke true) (hp : t.m_Params = some p)
    (hs : w.stop = true) :
    AsyncTimer._Routine t i = AsyncTimer.setPc t i (AsyncTimer.PC.afterTask true) := by
  simp [AsyncTimer._Routine, hw, hp, hpc, hs]

theorem timer_inTask_step (t : AsyncTimer) (i : Nat) (w : AsyncTimer._ExecutionContext)
    (p : AsyncTimer._Params) (b : Bool) (hw : t.contexts[i]? = some w)
    (hpc : w.pc = AsyncTimer.PC.inTask b none) (hp : t.m_Params = some p) :
    AsyncTimer._Routine t i = AsyncTimer.setPc t i (AsyncTimer.PC.afterTask b) := by
  simp only [AsyncTimer._Routine, hw, hp, hpc]

theorem timer_afterTask_step (t : AsyncTimer) (i : Nat) (w : AsyncTimer._ExecutionContext)
    (p : AsyncTimer._Params) (b : Bool) (hw : t.contexts[i]? = some w)
    (hpc : w.pc = AsyncTimer.PC.afterTask b) (hp : t.m_Params = some p)
    (hs : w.stop = false) :
    AsyncTimer._Routine t i = AsyncTimer.setPc t i AsyncTimer.PC.compute := by
  simp [AsyncTimer._Routine, hw, hp, hpc, hs]

theorem timer_afterTask_exit (t : AsyncTimer) (i : Nat) (w : AsyncTimer._ExecutionContext)
    (p : AsyncTimer._Params) (b : Bool) (hw : t.contexts[i]? = some w)
    (hpc : w.pc = AsyncTimer.PC.afterTask b) (hp : t.m_Params = some p)
    (hs : w.stop = true) :
    AsyncTimer._Routine t i =
      AsyncTimer.setPc (AsyncTimer.scopeExit t) i AsyncTimer.PC.done := by
  simp [AsyncTimer._Routine, hw, hp, hpc, hs]

theorem timer_advance_succ (t : AsyncTimer) (i n : Nat) (ht : t.terminated = false) :
    AsyncTimer.advance t i (n + 1) = AsyncTimer.advance (AsyncTimer._Routine t i) i n := by
  simp [AsyncTimer.advance, ht]

/-- One iteration of the loop without cancellation or failure: five steps
of the thread, which compute the delay, wait, invoke the task once and come
back to the computation of the delay. -/
theorem timer_iteration (t : AsyncTimer) (i : Nat) (w : AsyncTimer._ExecutionContext)
    (p : AsyncTimer._Params) (task : Nat → Option Failure) (ht : t.terminated = false)
    (hw : t.contexts[i]? = some w) (hpc : w.pc = AsyncTimer.PC.compute)
    (hs : w.stop = false) (hp : t.m_Params = some p) (htask : p.task = some task)
    (hret : task t.invoked = none) (hprov : p.delayProviderHolder.Provides) :
    (AsyncTimer.advance t i 5).contexts[i]? = some w ∧
    (AsyncTimer.advance t i 5).m_Params = t.m_Params ∧
    (AsyncTimer.advance t i 5).terminated = false ∧
    (AsyncTimer.advance t i 5).m_State = t.m_State ∧
    (AsyncTimer.advance t i 5).m_ExecutionContext = t.m_ExecutionContext ∧
    (AsyncTimer.advance t i 5).provided = t.provided + p.delayProviderHolder.calls ∧
    (AsyncTimer.advance t i 5).invoked = t.invoked + 1 ∧
    (AsyncTimer.advance t i 5).trace =
      t.trace ++ p.delayProviderHolder.observed t.provided ++
        [AsyncTimer.Obs.invoke t.invoked] := by
  let T1 : AsyncTimer := AsyncTimer.setPc
    { t with provided := t.provided + p.delayProviderHolder.calls
             trace := t.trace ++ p.delayProviderHolder.observed t.provided }
    i AsyncTimer.PC.waiting
  let w1 : AsyncTimer._ExecutionContext := { w with pc := AsyncTimer.PC.waiting }
  have h1 : AsyncTimer._Routine t i = T1 := timer_compute_step t i w p hw hpc hp hprov
  have hw1 : T1.contexts[i]? = some w1 := timer_modify_self t.contexts _ i w hw
  let T2 : AsyncTimer := AsyncTimer.setPc T1 i (AsyncTimer.PC.woke w.stop)
  let w2 : AsyncTimer._ExecutionContext := { w with pc := AsyncTimer.PC.woke w.stop }
  have h2 : AsyncTimer._Routine T1 i = T2 := timer_waiting_step T1 i w1 p hw1 rfl hp
  have hw2 : T2.contexts[i]? = some w2 := timer_modify_self T1.contexts _ i w1 hw1
  let T3 : AsyncTimer := AsyncTimer.setPc
    { T2 with invoked := t.invoked + 1
              trace := T2.trace ++ [AsyncTimer.Obs.invoke t.invoked] }
    i (AsyncTimer.PC.inTask w.stop (task t.invoked))
  let w3 : AsyncTimer._ExecutionContext :=
    { w with pc := AsyncTimer.PC.inTask w.stop (task t.invoked) }
  have h3 : AsyncTimer._Routine T2 i = T3 :=
    timer_woke_step T2 i w2 p w.stop task hw2 rfl hp htask (by simp [w2, hs])
  have hw3 : T3.contexts[i]? = some w3 := timer_modify_self T2.contexts _ i w2 hw2
  let T4 : AsyncTimer := AsyncTimer.setPc T3 i (AsyncTimer.PC.afterTask w.stop)
  let w4 : AsyncTimer._ExecutionContext := { w with pc := AsyncTimer.PC.afterTask w.stop }
  have h4 : AsyncTimer._Routine T3 i = T4 :=
    timer_inTask_step T3 i w3 p w.stop hw3 (by simp only [w3, hret]) hp
  have hw4 : T4.contexts[i]? = some w4 := timer_modify_self T3.contexts _ i w3 hw3
  let T5 : AsyncTimer := AsyncTimer.setPc T4 i AsyncTimer.PC.compute
  have h5 : AsyncTimer._Routine T4 i = T5 :=
    timer_afterTask_step T4 i w4 p w.stop hw4 rfl hp hs
  have hw5 : T5.contexts[i]? = some { w with pc := AsyncTimer.PC.compute } :=
    timer_modify_self T4.contexts _ i w4 hw4
  have hadv : AsyncTimer.advance t i 5 = T5 := by
    rw [timer_advance_succ t i 4 ht, h1, timer_advance_succ T1 i 3 ht, h2,
      timer_advance_succ T2 i 2 ht, h3, timer_advance_succ T3 i 1 ht, h4,
      timer_advance_succ T4 i 0 ht, h5]
    rfl
  rw [hadv]
  refine ⟨?_, rfl, ht, rfl, rfl, rfl, rfl, rfl⟩
  have : ({ stop := w.stop, pc := AsyncTimer.PC.compute } : AsyncTimer._ExecutionContext) =
      w := by
    cases w
    simp only at hpc
    rw [hpc]
  rw [← this]
  exact hw5

/-- As many iterations as wanted, as long as no stop is requested, the
provider returns delays and the task returns. -/
theorem timer_iterations (k : Nat) (t : AsyncTimer) (i : Nat)
    (w : AsyncTimer._ExecutionContext) (p : AsyncTimer._Params)
    (task : Nat → Option Failure) (ht : t.terminated = false)
    (hw : t.contexts[i]? = some w) (hpc : w.pc = AsyncTimer.PC.compute)
    (hs : w.stop = false) (hp : t.m_Params = some p) (htask : p.task = some task)
    (hret : ∀ n, task n = none) (hprov : p.delayProviderHolder.Provides) :
    (AsyncTimer.advance t i (5 * k)).contexts[i]? = some w ∧
    (AsyncTimer.advance t i (5 * k)).m_Params = t.m_Params ∧
    (AsyncTimer.advance t i (5 * k)).terminated = false ∧
    (AsyncTimer.advance t i (5 * k)).m_State = t.m_State ∧
    (AsyncTimer.advance t i (5 * k)).m_ExecutionContext = t.m_ExecutionContext ∧
    (AsyncTimer.advance t i (5 * k)).provided = t.provided + k * p.delayProviderHolder.calls ∧
    (AsyncTimer.advance t i (5 * k)).invoked = t.invoked + k ∧
    (AsyncTimer.advance t i (5 * k)).trace =
      t.trace ++ AsyncTimer.iterations p.delayProviderHolder t.provided t.invoked k := by
  induction k generalizing t with
  | zero =>
    rw [Nat.mul_zero]
    exact ⟨hw, rfl, ht, rfl, rfl, by simp [AsyncTimer.advance], rfl,
      by simp [AsyncTimer.advance, AsyncTimer.iterations]⟩
  | succ n ih =>
    have h5 : 5 * (n + 1) = 5 + 5 * n := by ring
    rw [h5, timer_advance_add]
    obtain ⟨a1, a2, a3, a4, a5, a6, a7, a8⟩ :=
      timer_iteration t i w p task ht hw hpc hs hp htask (hret _) hprov
    obtain ⟨b1, b2, b3, b4, b5, b6, b7, b8⟩ := ih (AsyncTimer.advance t i 5) a3 a1 (a2.trans hp)
    refine ⟨b1, b2.trans a2, b3, b4.trans a4, b5.trans a5, ?_, ?_, ?_⟩
    · rw [b6, a6]
      ring
    · rw [b7, a7]
      ring
    · rw [b8, a8, a6, a7]
      simp only [AsyncTimer.iterations, List.append_assoc]

/-- A wait that the request of the stop ends: the task is not invoked and
`_Routine` returns. -/
theorem timer_cancelled_wait (t : AsyncTimer) (i : Nat) (w : AsyncTimer._ExecutionContext)
    (p : AsyncTimer._Params) (ht : t.terminated = false) (hw : t.contexts[i]? = some w)
    (hpc : w.pc = AsyncTimer.PC.waiting) (hs : w.stop = true) (hp : t.m_Params = some p) :
    (AsyncTimer.advance t i 3).contexts[i]? = some { w with pc := AsyncTimer.PC.done } ∧
    (AsyncTimer.advance t i 3).trace = t.trace ∧
    (AsyncTimer.advance t i 3).invoked = t.invoked ∧
    (AsyncTimer.advance t i 3).provided = t.provided ∧
    (AsyncTimer.advance t i 3).m_State = eAsyncState.Stopped ∧
    (AsyncTimer.advance t i 3).terminated = false := by
  let T1 : AsyncTimer := AsyncTimer.setPc t i (AsyncTimer.PC.woke w.stop)
  let w1 : AsyncTimer._ExecutionContext := { w with pc := AsyncTimer.PC.woke w.stop }
  have h1 : AsyncTimer._Routine t i = T1 := timer_waiting_step t i w p hw hpc hp
  have hw1 : T1.contexts[i]? = some w1 := timer_modify_self t.contexts _ i w hw
  let T2 : AsyncTimer := AsyncTimer.setPc T1 i (AsyncTimer.PC.afterTask true)
  let w2 : AsyncTimer._ExecutionContext := { w with pc := AsyncTimer.PC.afterTask true }
  have h2 : AsyncTimer._Routine T1 i = T2 :=
    timer_woke_skip T1 i w1 p hw1 (by simp only [w1, hs]) hp hs
  have hw2 : T2.contexts[i]? = some w2 := timer_modify_self T1.contexts _ i w1 hw1
  let T3 : AsyncTimer := AsyncTimer.setPc (AsyncTimer.scopeExit T2) i AsyncTimer.PC.done
  have h3 : AsyncTimer._Routine T2 i = T3 := timer_afterTask_exit T2 i w2 p true hw2 rfl hp hs
  have hw3 : T3.contexts[i]? = some { w with pc := AsyncTimer.PC.done } :=
    timer_modify_self T2.contexts _ i w2 hw2
  have hadv : AsyncTimer.advance t i 3 = T3 := by
    rw [timer_advance_succ t i 2 ht, h1, timer_advance_succ T1 i 1 ht, h2,
      timer_advance_succ T2 i 0 ht, h3]
    rfl
  rw [hadv]
  exact ⟨hw3, rfl, rfl, rfl, rfl, ht⟩
theorem release_handler (caller : ThreadId) (r r1 : QueueManager) (q p : Nat) (cell : Cell)
    (h : r.release caller q = some r1) (hp : r.heap[p]? = some cell) :
    ∃ cell1, r1.heap[p]? = some cell1 ∧
      cell1.queue.queue.m_ExceptionHandler = cell.queue.queue.m_ExceptionHandler := by
  by_cases hqp : q = p
  · subst hqp
    unfold QueueManager.release at h
    simp only [hp] at h
    split at h
    · simp only [Option.map_eq_some'] at h
      obtain ⟨s1, hd, rfl⟩ := h
      refine ⟨{ cell with queue := s1, alive := false }, ?_, destructor_handler _ _ _ hd⟩
      simp [List.getElem?_set_self (List.getElem?_eq_some.1 hp).1]
    · cases h
      exact ⟨cell, hp, rfl⟩
  · exact ⟨cell, by rw [release_other caller r r1 q p h hqp]; exact hp, rfl⟩

theorem releaseAll_handler (caller : Nat → ThreadId) (ps : List Nat) (r r1 : QueueManager)
    (p : Nat) (cell : Cell)
    (h : r.releaseAll caller ps = some r1) (hp : r.heap[p]? = some cell) :
    ∃ cell1, r1.heap[p]? = some cell1 ∧
      cell1.queue.queue.m_ExceptionHandler = cell.queue.queue.m_ExceptionHandler := by
  induction ps generalizing r cell with
  | nil =>
    simp only [QueueManager.releaseAll, Option.some.injEq] at h
    subst h
    exact ⟨cell, hp, rfl⟩
  | cons q ps ih =>
    simp only [QueueManager.releaseAll] at h
    cases h1 : r.release (caller q) q with
    | none => simp [h1] at h
    | some r2 =>
      simp only [h1, Option.some_bind] at h
      obtain ⟨c2, hc2, he2⟩ := release_handler _ r r2 q p cell h1 hp
      split at h
      · simp only [Option.some.injEq] at h
        subst h
        exact ⟨c2, hc2, he2⟩
      · obtain ⟨c1, hc1, he1⟩ := ih r2 c2 h hc2
        exact ⟨c1, hc1, he1.trans he2⟩

theorem forget_handler (caller : ThreadId) (name : String) (r r1 : QueueManager) (p : Nat)
    (cell : Cell)
    (h : QueueManager.ForgetByName caller name r = some r1) (hp : r.heap[p]? = some cell) :
    ∃ cell1, r1.heap[p]? = some cell1 ∧
      cell1.queue.queue.m_ExceptionHandler = cell.queue.queue.m_ExceptionHandler := by
  unfold QueueManager.ForgetByName QueueManager._ForgetByName at h
  cases hf : r.find name with
  | none =>
    simp only [hf, Option.some.injEq] at h
    subst h
    exact ⟨cell, hp, rfl⟩
  | some q =>
    simp only [hf] at h
    exact releaseAll_handler _ [q] _ r1 p cell h hp

theorem create_heap (name : String) (handler : tExceptionHandler) (r : QueueManager)
    (p : Nat) (cell : Cell) (hp : r.heap[p]? = some cell) :
    (QueueManager._CreateOrGetBackgroundQueueByName name handler r).2.heap[p]? = some cell := by
  unfold QueueManager._CreateOrGetBackgroundQueueByName
  cases r.find name with
  | some q => exact hp
  | none =>
    simp only
    rw [List.getElem?_append_left (List.getElem?_eq_some.1 hp).1]
    exact hp

/-- No step of a program changes the exception handler of a queue object. -/
theorem call_handler (r r1 : QueueManager) (c : Call) (p : Nat) (cell : Cell)
    (h : r.call c = some r1) (hp : r.heap[p]? = some cell) :
    ∃ cell1, r1.heap[p]? = some cell1 ∧
      cell1.queue.queue.m_ExceptionHandler = cell.queue.queue.m_ExceptionHandler := by
  unfold QueueManager.call at h
  split at h
  · cases h
  · cases c with
    | CreateOrGetBackgroundQueueByName name handler =>
      simp only at h
      split at h
      · simp only [Option.some.injEq] at h
        subst h
        exact ⟨cell, create_heap name handler r p cell hp, rfl⟩
      · cases h
    | CreateOrGetMainQueue handler =>
      simp only at h
      split at h
      · simp only [Option.some.injEq] at h
        subst h
        exact ⟨cell, create_heap mainQueueName handler r p cell hp, rfl⟩
      · cases h
    | ForgetByName caller name =>
      simp only at h
      split at h
      · exact forget_handler caller name r r1 p cell h hp
      · cases h
    | ForgetMainQueue caller =>
      simp only at h
      split at h
      · exact forget_handler caller mainQueueName r r1 p cell h hp
      · cases h
    | KillAndForgetAll caller =>
      simp only [QueueManager.KillAndForgetAll, QueueManager._KillAndForgetAll] at h
      split at h
      · exact releaseAll_handler _ _ _ r1 p cell h hp
      · cases h
    | resume =>
      simp only [QueueManager.resume] at h
      split at h
      · cases h
      · split at h
        · cases h
        · exact releaseAll_handler _ _ r r1 p cell h hp
    | lock q =>
      simp only [QueueManager.lock] at h
      cases hc : r.heap[q]? with
      | none => simp [hc] at h
      | some c0 =>
        simp only [hc] at h
        split at h
        · simp only [Option.some.injEq] at h
          subst h
          by_cases hqp : q = p
          · subst hqp
            rw [hc] at hp
            cases hp
            exact ⟨{ cell with holders := cell.holders + 1 },
              by simp [List.getElem?_set_self (List.getElem?_eq_some.1 hc).1], rfl⟩
          · exact ⟨cell, by simp [List.getElem?_set_ne hqp, hp], rfl⟩
        · cases h
    | reset caller q =>
      simp only at h
      split at h
      swap
      · cases h
      simp only [QueueManager.reset] at h
      cases hc : r.heap[q]? with
      | none => simp [hc] at h
      | some c0 =>
        simp only [hc] at h
        split at h
        · cases h
        · split at h
          · simp only [Option.map_eq_some'] at h
            obtain ⟨s1, hd, rfl⟩ := h
            by_cases hqp : q = p
            · subst hqp
              rw [hc] at hp
              cases hp
              exact ⟨{ queue := s1, holders := 0, alive := false },
                by simp [List.getElem?_set_self (List.getElem?_eq_some.1 hc).1],
                destructor_handler _ _ _ hd⟩
            · exact ⟨cell, by simp [List.getElem?_set_ne hqp, hp], rfl⟩
          · simp only [Option.some.injEq] at h
            subst h
            by_cases hqp : q = p
            · subst hqp
              rw [hc] at hp
              cases hp
              exact ⟨{ cell with holders := cell.holders - 1 },
                by simp [List.getElem?_set_self (List.getElem?_eq_some.1 hc).1], rfl⟩
            · exact ⟨cell, by simp [List.getElem?_set_ne hqp, hp], rfl⟩
    | queue q e =>
      simp only at h
      cases hc : r.heap[q]? with
      | none => simp [hc] at h
      | some c0 =>
        simp only [hc] at h
        split at h
        · simp only [Option.map_eq_some'] at h
          obtain ⟨s1, hstep, rfl⟩ := h
          by_cases hqp : q = p
          · subst hqp
            rw [hc] at hp
            cases hp
            exact ⟨{ cell with queue := s1 },
              by simp [List.getElem?_set_self (List.getElem?_eq_some.1 hc).1],
              (Kept_step _ _ e hstep).2.1⟩
          · exact ⟨cell, by simp [List.getElem?_set_ne hqp, hp], rfl⟩
        · cases h

theorem calls_handler (cs : List Call) (r r1 : QueueManager) (p : Nat) (cell : Cell)
    (h : r.calls cs = some r1) (hp : r.heap[p]? = some cell) :
    ∃ cell1, r1.heap[p]? = some cell1 ∧
      cell1.queue.queue.m_ExceptionHandler = cell.queue.queue.m_ExceptionHandler := by
  induction cs generalizing r cell with
  | nil =>
    simp only [QueueManager.calls, Option.some.injEq] at h
    subst h
    exact ⟨cell, hp, rfl⟩
  | cons c cs ih =>
    simp only [QueueManager.calls] at h
    cases h1 : r.call c with
    | none => simp [h1] at h
    | some r2 =>
      simp only [h1, Option.some_bind] at h
      obtain ⟨c2, hc2, he2⟩ := call_handler r r2 c p cell h1 hp
      obtain ⟨c1, hc1, he1⟩ := ih r2 c2 h hc2
      exact ⟨c1, hc1, he1.trans he2⟩

theorem timer_Routine_params (t : AsyncTimer) (i : Nat) :
    (AsyncTimer._Routine t i).m_Params = t.m_Params := by
  cases hw : t.contexts[i]? with
  | none => simp [AsyncTimer._Routine, hw]
  | some w => exact (timer_Routine_shape t i w hw).1

theorem timer_advance_params (fuel : Nat) (t : AsyncTimer) (i : Nat) :
    (AsyncTimer.advance t i fuel).m_Params = t.m_Params := by
  induction fuel generalizing t with
  | zero => rfl
  | succ n ih =>
    simp only [AsyncTimer.advance]
    split
    · rfl
    · rw [ih, timer_Routine_params]

theorem timer_destroy_params (caller : ThreadId) (t : AsyncTimer) (i : Nat) :
    (AsyncTimer.destroy caller t i).m_Params = t.m_Params := by
  unfold AsyncTimer.destroy
  split
  · rfl
  · rw [timer_advance_params]
    rfl

/-- No step of a program changes the parameters of a timer. -/
theorem timer_step_params (t t1 : AsyncTimer) (e : AsyncTimer.Event)
    (h : AsyncTimer.step t e = some t1) : t1.m_Params = t.m_Params := by
  unfold AsyncTimer.step at h
  split at h
  · cases h
  · cases e with
    | Start caller =>
      simp only at h
      split at h
      · simp only [Option.some.injEq] at h
        subst h
        unfold AsyncTimer.Start AsyncTimer._Start
        cases t.m_State
        · cases t.m_ExecutionContext with
          | none => rfl
          | some old => exact timer_destroy_params caller _ old
        · rfl
        · rfl
        · cases t.m_ExecutionContext with
          | none => rfl
          | some old => exact timer_destroy_params caller _ old
      · cases h
    | Stop caller =>
      simp only at h
      split at h
      · simp only [Option.some.injEq] at h
        subst h
        unfold AsyncTimer.Stop AsyncTimer._Stop
        cases t.m_State
        · rfl
        · cases t.m_ExecutionContext with
          | none => rfl
          | some c =>
            simp only
            rw [timer_destroy_params]
            rfl
        · rfl
        · rfl
      · cases h
    | advance i =>
      simp only at h
      split at h
      · simp only [Option.some.injEq] at h
        subst h
        exact timer_Routine_params t i
      · cases h

theorem timer_run_params (evs : List AsyncTimer.Event) (t t1 : AsyncTimer)
    (h : AsyncTimer.run t evs = some t1) : t1.m_Params = t.m_Params := by
  induction evs generalizing t with
  | nil =>
    simp only [AsyncTimer.run, Option.some.injEq] at h
    subst h
    rfl
  | cons e es ih =>
    simp only [AsyncTimer.run] at h
    cases h1 : AsyncTimer.step t e with
    | none => simp [h1] at h
    | some t2 =>
      simp only [h1, Option.some_bind] at h
      rw [ih t2 h, timer_step_params t t2 e h1]
theorem posted_posts (caller : ThreadId) (tasks : List tTask) :
    posted (posts caller tasks) = tasks := by
  induction tasks with
  | nil => rfl
  | cons t ts ih =>
    simp only [posts, List.map_cons, posted] at ih ⊢
    rw [ih]

theorem posts_isControl (caller : ThreadId) (tasks : List tTask) :
    ∀ e ∈ posts caller tasks, Event.isControl e = false := by
  intro e he
  simp only [posts, List.mem_map] at he
  obtain ⟨t, _, rfl⟩ := he
  rfl

/-- The posts of a thread that is free to call all return when the mutex is
free, and append the tasks behind the pending ones. -/
theorem run_posts (caller : ThreadId) (tasks : List tTask) (s : System)
    (ht : s.terminated = false) (hm : s.queue.m_Mutex = none) (hc : canCall s caller = true) :
    run s (posts caller tasks) =
      some { s with queue := { s.queue with m_TaskQueue := s.queue.m_TaskQueue ++ tasks } } := by
  induction tasks generalizing s with
  | nil => simp [posts, run]
  | cons t ts ih =>
    have h1 : step s (Event.Post caller t) =
        some { s with queue := { s.queue with m_TaskQueue := s.queue.m_TaskQueue ++ [t] } } := by
      simp [step, ht, hc, Queue.Post, hm]
    have h2 := ih { s with queue := { s.queue with m_TaskQueue := s.queue.m_TaskQueue ++ [t] } }
      ht hm hc
    simp only [posts, List.map_cons, run, h1, Option.some_bind] at h2 ⊢
    rw [h2]
    simp [List.append_assoc]

theorem canCall_of_Quiescent (s : System) (caller : ThreadId) (hq : Quiescent s) :
    canCall s caller = true := by
  unfold canCall
  rw [List.all_eq_true]
  intro w hw
  obtain ⟨j, hj⟩ := List.getElem?_of_mem hw
  rw [hq j w hj]
  simp

/-- In a state in which no activation is running, the mutex is free and
the state is `Free` or `Stopped`, of either execution policy, the call of
`Start` by the thread `user 0` returns, and the thread `user 1` is free to
call afterwards. -/
theorem Start_enabled (s : System) (hq : Quiescent s) (hmx : s.queue.m_Mutex = none)
    (hst : s.queue.m_State = eAsyncState.Free ∨ s.queue.m_State = eAsyncState.Stopped)
    (ht : s.terminated = false) :
    ∃ s1, step s (Event.Start (ThreadId.user 0)) = some s1 ∧
      s1.terminated = false ∧ s1.queue.m_Mutex = none ∧
      canCall s1 (ThreadId.user 1) = true := by
  have hcall : canCall s (ThreadId.user 0) = true := canCall_of_Quiescent s _ hq
  have hall : ∀ x ∈ s.loops,
      ¬x.tid = ThreadId.user 1 ∨
        (match x.pc with
          | PC.inTask _ => true
          | PC.done => true
          | _ => false) = true := by
    intro w hw
    obtain ⟨j, hj⟩ := List.getElem?_of_mem hw
    rw [hq j w hj]
    simp
  have hS : step s (Event.Start (ThreadId.user 0)) = Queue.Start (ThreadId.user 0) s := by
    simp [step, ht, hcall]
  rw [hS]
  unfold Queue.Start
  cases hp : s.queue.m_ExecutionPolicy with
  | MainThread m =>
    rcases hst with h | h <;>
      simp only [h, MainStart_eq] <;>
      refine ⟨_, rfl, ht, hmx, ?_⟩ <;>
      simpa [canCall, List.all_append] using hall
  | BackgroundThread m =>
    rcases hst with h | h <;>
      simp only [h, BackgroundStart_eq] <;>
      refine ⟨_, rfl, ht, hmx, ?_⟩ <;>
      simpa [canCall, List.all_append] using hall

/-- In a consistent state in which no activation is running and the state
is `Free` or `Stopped`, of either execution policy: the thread `user 1`
posts, the thread `user 0` calls `Start`, the thread `user 1` posts again.
Every one of these calls returns. -/
theorem posts_Start_posts_run (s : System) (hc : Consistent s) (hq : Quiescent s)
    (hst : s.queue.m_State = eAsyncState.Free ∨ s.queue.m_State = eAsyncState.Stopped)
    (ht : s.terminated = false) (tasks1 tasks2 : List tTask) :
    ∃ s2, run s (posts (ThreadId.user 1) tasks1 ++
      Event.Start (ThreadId.user 0) :: posts (ThreadId.user 1) tasks2) = some s2 := by
  have hmx : s.queue.m_Mutex = none := by
    by_contra hne
    obtain ⟨j, w, hj, hl⟩ := hc.mutex hne
    rw [hq j w hj] at hl
    cases hl
  rw [run_append, run_posts (ThreadId.user 1) tasks1 s ht hmx (canCall_of_Quiescent s _ hq)]
  simp only [Option.some_bind, run]
  obtain ⟨s1, h1, ht1, hm1, hc1⟩ := Start_enabled
    { s with queue := { s.queue with m_TaskQueue := s.queue.m_TaskQueue ++ tasks1 } }
    hq hmx hst ht
  rw [h1]
  simp only [Option.some_bind]
  exact ⟨_, run_posts (ThreadId.user 1) tasks2 s1 ht1 hm1 hc1⟩

theorem Quiescent_init (name : String) (handler : tExceptionHandler) (policy : ExecutionPolicy) :
    Quiescent (System.init name handler policy) := by
  intro j w hj
  simp [System.init] at hj

/-- C1, as stated, fails.  A queue with a handler that throws is started and
never stopped; task 1, which throws, and task 2 are posted.  The run loop
invokes task 1, the handler throws, and `_Routine` returns: of the posted
tasks only task 1 was executed, task 2 is pending, no stop was requested, and
no further step of the worker executes task 2. -/
theorem handler_failure_leaves_a_posted_task_unexecuted :
    run (System.init "worker" throwingHandler (ExecutionPolicy.BackgroundThread none))
      (escapingSchedule ++ [Event.advance 0]) = some escapedQueue ∧
    (∀ e ∈ escapingSchedule ++ [Event.advance 0], Event.isStop e = false) ∧
    labels (posted (escapingSchedule ++ [Event.advance 0])) = [1, 2] ∧
    escapedQueue.executed = [1] ∧
    escapedQueue.queue.m_TaskQueue = [some { label := 2, raises := none }] ∧
    stop_requested escapedQueue 0 = false ∧
    ∀ k, run escapedQueue (List.replicate k (Event.advance 0)) = some escapedQueue :=
  ⟨rfl, by simp [escapingSchedule, Event.isStop], rfl, rfl, rfl, rfl, fun k =>
    Quiescent_advance escapedQueue 0 k
      { tid := ThreadId.spawned 0, stopToken := 0, pc := PC.done }
      (Quiescent_of_all _ rfl) rfl rfl⟩

/-- C1, amended. A newly constructed queue (any name, either execution
policy) whose exception handler, when one is set, returns from every call.
Tasks are posted before and after one call of `Start`, interleaved in any way
with the steps of the run loop, and `Stop` is never called.  Then the labels
of the tasks invoked so far are a prefix of the labels of the posted
non-empty tasks in post order, and after some further steps of the run loop
they are exactly these labels, each once and in post order, with nothing
left pending.  Such runs exist for both policies: when one thread posts any
tasks, another calls `Start` and the first posts any further tasks, every
call returns, and the run loop then executes exactly the posted tasks, in
post order. -/
theorem posted_tasks_run_once_in_post_order (name : String) (handler : tExceptionHandler)
    (policy : ExecutionPolicy) (hp : policy.source = none) (hret : HandlerReturns handler) :
    (∀ (before after : List Event) (caller : ThreadId) (s : System),
      (∀ e ∈ before, Event.isControl e = false) →
      (∀ e ∈ after, Event.isControl e = false) →
      run (System.init name handler policy) (before ++ Event.Start caller :: after) = some s →
      s.executed <+: labels (posted before ++ posted after) ∧
      ∃ k s1, run s (List.replicate k (Event.advance 0)) = some s1 ∧
        s1.executed = labels (posted before ++ posted after) ∧
        s1.queue.m_TaskQueue = []) ∧
    ∀ tasks1 tasks2 : List tTask,
      ∃ s, run (System.init name handler policy)
          (posts (ThreadId.user 1) tasks1 ++
            Event.Start (ThreadId.user 0) :: posts (ThreadId.user 1) tasks2) = some s ∧
        ∃ k s1, run s (List.replicate k (Event.advance 0)) = some s1 ∧
          s1.executed = labels (tasks1 ++ tasks2) ∧
          s1.queue.m_TaskQueue = [] := by
  have general : ∀ (before after : List Event) (caller : ThreadId) (s : System),
      (∀ e ∈ before, Event.isControl e = false) →
      (∀ e ∈ after, Event.isControl e = false) →
      run (System.init name handler policy) (before ++ Event.Start caller :: after) = some s →
      s.executed <+: labels (posted before ++ posted after) ∧
      ∃ k s1, run s (List.replicate k (Event.advance 0)) = some s1 ∧
        s1.executed = labels (posted before ++ posted after) ∧
        s1.queue.m_TaskQueue = [] := by
    intro before after caller s hb ha hs
    obtain ⟨hsolo, hh, hout⟩ := Start_run (System.init name handler policy) caller
      (Consistent_init name handler policy hp) (fun j w hj => by simp [System.init] at hj)
      (Or.inl rfl) rfl hret before after hb ha s hs
    have hout2 : outlook s 0 =
        (posted before ++ posted after).flatMap (future s.queue.m_ExceptionHandler) := by
      rw [hh]
      simpa [System.init] using hout
    refine ⟨executed_starts s 0 _ hout2, ?_⟩
    obtain ⟨k, s1, hr, _, hidle, htr, _⟩ := Solo_drain s 0 hsolo
    refine ⟨k, s1, hr, ?_, hidle.1⟩
    rw [executed_append s1 _ (htr.trans hout2), executed_flatMap_future]
  refine ⟨general, ?_⟩
  intro tasks1 tasks2
  obtain ⟨s, hs⟩ := posts_Start_posts_run (System.init name handler policy)
    (Consistent_init name handler policy hp) (Quiescent_init name handler policy)
    (Or.inl rfl) rfl tasks1 tasks2
  have := (general _ _ _ s (posts_isControl _ tasks1) (posts_isControl _ tasks2) hs).2
  rw [posted_posts, posted_posts] at this
  exact ⟨s, hs, this⟩

theorem posted_tasks_run_once_in_post_order_witness :
    (∃ s, run (System.init "Darkness.Concurrency.MainQueue" (some fun _ => none)
          (ExecutionPolicy.MainThread none))
        [Event.Post (ThreadId.user 1) (some { label := 1, raises := none }),
          Event.Start (ThreadId.user 0),
          Event.Post (ThreadId.user 1) (some { label := 2, raises := some 7 })] = some s ∧
      ∃ k s1, run s (List.replicate k (Event.advance 0)) = some s1 ∧
        s1.executed = [1, 2] ∧ s1.queue.m_TaskQueue = []) ∧
    (∃ s, run (System.init "worker" (some fun _ => none)
          (ExecutionPolicy.BackgroundThread none))
        [Event.Post (ThreadId.user 1) (some { label := 1, raises := none }),
          Event.Start (ThreadId.user 0),
          Event.Post (ThreadId.user 1) (some { label := 2, raises := some 7 })] = some s ∧
      ∃ k s1, run s (List.replicate k (Event.advance 0)) = some s1 ∧
        s1.executed = [1, 2] ∧ s1.queue.m_TaskQueue = []) :=
  ⟨(posted_tasks_run_once_in_post_order "Darkness.Concurrency.MainQueue"
      (some fun _ => none) (ExecutionPolicy.MainThread none) rfl handlerReturns_const).2
      [some { label := 1, raises := none }] [some { label := 2, raises := some 7 }],
    (posted_tasks_run_once_in_post_order "worker"
      (some fun _ => none) (ExecutionPolicy.BackgroundThread none) rfl handlerReturns_const).2
      [some { label := 1, raises := none }] [some { label := 2, raises := some 7 }]⟩

/-- C2, as stated, fails.  On a queue whose handler throws 8 when it is given
the failure 7, task 1 throws 7 and task 2 is posted behind it.  The handler
is called twice for the one task that throws, with 7 and with the failure 8
of its own, the run loop ends, and task 2 is never executed. -/
theorem throwing_handler_is_called_twice_and_ends_the_loop :
    run (System.init "worker" throwingHandler (ExecutionPolicy.BackgroundThread none))
      (escapingSchedule ++ [Event.advance 0]) = some escapedQueue ∧
    labels (posted (escapingSchedule ++ [Event.advance 0])) = [1, 2] ∧
    failures (posted (escapingSchedule ++ [Event.advance 0])) = [7] ∧
    escapedQueue.handled = [7, 8] ∧
    escapedQueue.executed = [1] ∧
    escapedQueue.loops.map Loop.pc = [PC.done] ∧
    ∀ k, ∃ s, run escapedQueue (List.replicate k (Event.advance 0)) = some s ∧
      s.executed = [1] ∧ s.handled = [7, 8] :=
  ⟨rfl, rfl, rfl, rfl, rfl, rfl, fun k =>
    ⟨escapedQueue,
      Quiescent_advance escapedQueue 0 k
        { tid := ThreadId.spawned 0, stopToken := 0, pc := PC.done }
        (Quiescent_of_all _ rfl) rfl rfl, rfl, rfl⟩⟩

/-- C2, amended. Same setting as C1: a newly constructed queue of either
policy whose handler, when one is set, returns from every call; some of the
posted tasks throw.  After some steps of the run loop the observations are,
task after task in post order, the invocation of the task followed by one
call of the handler with the failure of that task when it throws and a
handler is set, and by nothing when it returns or no handler is set.  So
every task is invoked, and the failures passed to the handler are those of
the throwing tasks, in post order (none without a handler); before that the
observations are a prefix of this sequence.  Such runs exist for both
policies: posts by one thread around the call of `Start` by another all
return, and the run loop then shows exactly these observations. -/
theorem raising_task_is_handled_and_loop_goes_on (name : String)
    (handler : tExceptionHandler) (policy : ExecutionPolicy) (hp : policy.source = none)
    (hret : HandlerReturns handler) :
    (∀ (before after : List Event) (caller : ThreadId) (s : System),
      (∀ e ∈ before, Event.isControl e = false) →
      (∀ e ∈ after, Event.isControl e = false) →
      run (System.init name handler policy) (before ++ Event.Start caller :: after) = some s →
      s.trace <+: (posted before ++ posted after).flatMap (future handler) ∧
      ∃ k s1, run s (List.replicate k (Event.advance 0)) = some s1 ∧
        s1.trace = (posted before ++ posted after).flatMap (future handler) ∧
        s1.executed = labels (posted before ++ posted after) ∧
        s1.handled =
          (if handler.isSome then failures (posted before ++ posted after) else [])) ∧
    ∀ tasks1 tasks2 : List tTask,
      ∃ s, run (System.init name handler policy)
          (posts (ThreadId.user 1) tasks1 ++
            Event.Start (ThreadId.user 0) :: posts (ThreadId.user 1) tasks2) = some s ∧
        ∃ k s1, run s (List.replicate k (Event.advance 0)) = some s1 ∧
          s1.trace = (tasks1 ++ tasks2).flatMap (future handler) ∧
          s1.executed = labels (tasks1 ++ tasks2) ∧
          s1.handled = (if handler.isSome then failures (tasks1 ++ tasks2) else []) := by
  have general : ∀ (before after : List Event) (caller : ThreadId) (s : System),
      (∀ e ∈ before, Event.isControl e = false) →
      (∀ e ∈ after, Event.isControl e = false) →
      run (System.init name handler policy) (before ++ Event.Start caller :: after) = some s →
      s.trace <+: (posted before ++ posted after).flatMap (future handler) ∧
      ∃ k s1, run s (List.replicate k (Event.advance 0)) = some s1 ∧
        s1.trace = (posted before ++ posted after).flatMap (future handler) ∧
        s1.executed = labels (posted before ++ posted after) ∧
        s1.handled =
          (if handler.isSome then failures (posted before ++ posted after) else []) := by
    intro before after caller s hb ha hs
    obtain ⟨hsolo, hh, hout⟩ := Start_run (System.init name handler policy) caller
      (Consistent_init name handler policy hp) (fun j w hj => by simp [System.init] at hj)
      (Or.inl rfl) rfl hret before after hb ha s hs
    have hout2 : outlook s 0 = (posted before ++ posted after).flatMap (future handler) := by
      simpa [System.init] using hout
    refine ⟨by rw [← hout2]; exact trace_prefix_outlook s 0, ?_⟩
    obtain ⟨k, s1, hr, _, _, htr, _⟩ := Solo_drain s 0 hsolo
    have htr2 := htr.trans hout2
    refine ⟨k, s1, hr, htr2, ?_, ?_⟩
    · rw [executed_append s1 _ htr2, executed_flatMap_future]
    · simp only [System.handled, htr2]
      exact handled_flatMap_future handler _
  refine ⟨general, ?_⟩
  intro tasks1 tasks2
  obtain ⟨s, hs⟩ := posts_Start_posts_run (System.init name handler policy)
    (Consistent_init name handler policy hp) (Quiescent_init name handler policy)
    (Or.inl rfl) rfl tasks1 tasks2
  have := (general _ _ _ s (posts_isControl _ tasks1) (posts_isControl _ tasks2) hs).2
  rw [posted_posts, posted_posts] at this
  exact ⟨s, hs, this⟩

theorem raising_task_is_handled_and_loop_goes_on_witness :
    (∃ s, run (System.init "Darkness.Concurrency.MainQueue" (some fun _ => none)
          (ExecutionPolicy.MainThread none))
        [Event.Post (ThreadId.user 1) (some { label := 1, raises := some 7 }),
          Event.Start (ThreadId.user 0),
          Event.Post (ThreadId.user 1) (some { label := 2, raises := none })] = some s ∧
      ∃ k s1, run s (List.replicate k (Event.advance 0)) = some s1 ∧
        s1.trace = [Obs.invoke 1, Obs.handle 7, Obs.invoke 2] ∧
        s1.executed = [1, 2] ∧ s1.handled = [7]) ∧
    (∃ s, run (System.init "worker" none (ExecutionPolicy.BackgroundThread none))
        [Event.Post (ThreadId.user 1) (some { label := 1, raises := some 7 }),
          Event.Start (ThreadId.user 0),
          Event.Post (ThreadId.user 1) (some { label := 2, raises := none })] = some s ∧
      ∃ k s1, run s (List.replicate k (Event.advance 0)) = some s1 ∧
        s1.trace = [Obs.invoke 1, Obs.invoke 2] ∧
        s1.executed = [1, 2] ∧ s1.handled = []) :=
  ⟨(raising_task_is_handled_and_loop_goes_on "Darkness.Concurrency.MainQueue"
      (some fun _ => none) (ExecutionPolicy.MainThread none) rfl handlerReturns_const).2
      [some { label := 1, raises := some 7 }] [some { label := 2, raises := none }],
    (raising_task_is_handled_and_loop_goes_on "worker" none
      (ExecutionPolicy.BackgroundThread none) rfl (fun _ h => by cases h)).2
      [some { label := 1, raises := some 7 }] [some { label := 2, raises := none }]⟩

/-- C3. In every reachable state whose `m_State` is `Busy` and whose mutex is
free, `Stop` returns with `m_State = Stopping` and `m_TaskQueue` empty, and
every activation of `_Routine` that has not returned has its stop requested;
`m_Name`, `m_ExceptionHandler`, the execution policy, `m_Id`, the
activations and the observations are unchanged. -/
theorem Stop_on_Busy (s : System) (hr : Reachable s)
    (hb : s.queue.m_State = eAsyncState.Busy) (hm : s.queue.m_Mutex = none) :
    ∃ s1, Queue.Stop s = some s1 ∧
      s1.queue.m_State = eAsyncState.Stopping ∧
      s1.queue.m_TaskQueue = [] ∧
      (∀ (i : Nat) (w : Loop), s1.loops[i]? = some w → w.pc ≠ PC.done →
        stop_requested s1 w.stopToken = true) ∧
      s1.queue.m_Name = s.queue.m_Name ∧
      s1.queue.m_ExceptionHandler = s.queue.m_ExceptionHandler ∧
      s1.queue.m_ExecutionPolicy = s.queue.m_ExecutionPolicy ∧
      s1.queue.m_Id = s.queue.m_Id ∧
      s1.loops = s.loops ∧
      s1.trace = s.trace := by
  have hc := Consistent_of_Reachable s hr
  have hstop : Queue.Stop s = Queue._DoStop s := by
    simp [Queue.Stop, Queue._Stop, hb]
  cases hd : Queue._DoStop s with
  | none => simp [Queue._DoStop, hm] at hd
  | some s1 =>
    obtain ⟨_, he⟩ := DoStop_eq s s1 hd
    refine ⟨s1, by rw [hstop, hd], ?_, ?_, ?_, ?_, ?_, ?_, ?_, ?_, ?_⟩
    · rw [he]
    · rw [he]
    · exact DoStop_cancels s s1 hc hd
    · rw [he]
    · rw [he]
    · rw [he]
    · rw [he]
    · rw [he]
    · rw [he]

theorem Stop_on_Busy_witness :
    ∃ s1, Queue.Stop busyBackground = some s1 ∧
      s1.queue.m_State = eAsyncState.Stopping ∧
      s1.queue.m_TaskQueue = [] ∧
      (∀ (i : Nat) (w : Loop), s1.loops[i]? = some w → w.pc ≠ PC.done →
        stop_requested s1 w.stopToken = true) ∧
      s1.queue.m_Name = busyBackground.queue.m_Name ∧
      s1.queue.m_ExceptionHandler = busyBackground.queue.m_ExceptionHandler ∧
      s1.queue.m_ExecutionPolicy = busyBackground.queue.m_ExecutionPolicy ∧
      s1.queue.m_Id = busyBackground.queue.m_Id ∧
      s1.loops = busyBackground.loops ∧
      s1.trace = busyBackground.trace :=
  Stop_on_Busy busyBackground busyBackground_reachable rfl rfl

/-- C4. `Stop` is called on a queue whose `m_State` is `Busy` and returns;
any schedule follows (steps of the cancelled run loop, posts, further calls
of `Start` and `Stop`, steps of the run loops these create).  Everything
observed after the `Stop`, invocation or call of the handler, is caused by a
task some run loop had already dequeued when `Stop` was called or by a task
posted after the `Stop` (or is the handler receiving a failure the handler
itself threw): no budget is left for the tasks that were pending.  So a
pending task whose label no such task carries is never invoked, and a
failure no such task and no handler throws is never passed to the handler. -/
theorem Stop_discards_pending (s s1 s2 : System) (evs : List Event)
    (hb : s.queue.m_State = eAsyncState.Busy) (hs : Queue.Stop s = some s1)
    (hr : run s1 evs = some s2) :
    ∃ Y, s2.trace = s.trace ++ Y ∧
      (∀ o ∈ Y, Allowed s.queue.m_ExceptionHandler (s.heldTasks ++ posted evs) o) ∧
      (∀ c, some c ∈ s.queue.m_TaskQueue →
        (∀ c2, some c2 ∈ s.heldTasks ++ posted evs → c2.label ≠ c.label) →
        Obs.invoke c.label ∉ Y) ∧
      (∀ c f, some c ∈ s.queue.m_TaskQueue → c.raises = some f →
        (∀ c2, some c2 ∈ s.heldTasks ++ posted evs → c2.raises ≠ some f) →
        (∀ handler f0, s.queue.m_ExceptionHandler = some handler → handler f0 ≠ some f) →
        Obs.handle f ∉ Y) := by
  have hd : Queue._DoStop s = some s1 := by
    simpa [Queue.Stop, Queue._Stop, hb] using hs
  obtain ⟨_, he⟩ := DoStop_eq s s1 hd
  obtain ⟨Y, hY, hall⟩ := Accounted_run evs s1 s2 hr
  have h1 : s1.trace = s.trace := by rw [he]
  have h2 : s1.queue.m_ExceptionHandler = s.queue.m_ExceptionHandler := by rw [he]
  have h3 : s1.heldTasks = s.heldTasks := by rw [he]; rfl
  have h4 : s1.queue.m_TaskQueue = [] := by rw [he]
  rw [h1] at hY
  rw [h2, h3, h4, List.append_nil] at hall
  refine ⟨Y, hY, hall, ?_, ?_⟩
  · intro c _ hfresh hmem
    obtain ⟨c2, hc2, hl⟩ := hall _ hmem
    exact hfresh c2 hc2 hl
  · intro c f _ _ hfresh hhandler hmem
    rcases hall _ hmem with ⟨c2, hc2, hl⟩ | ⟨handler, f0, hh, hf⟩
    · exact hfresh c2 hc2 hl
    · exact hhandler handler f0 hh hf

theorem heldTasks_busyBackground (c2 : Callable)
    (h : some c2 ∈ busyBackground.heldTasks ++
      posted [Event.Post (ThreadId.user 0) (some { label := 3, raises := none }),
        Event.advance 0, Event.Start (ThreadId.user 0), Event.advance 1, Event.advance 1,
        Event.advance 1, Event.advance 1, Event.advance 1]) :
    c2 = { label := 3, raises := none } := by
  simpa [System.heldTasks, busyBackground, posted, PC.held] using h

theorem Stop_discards_pending_witness :
    ∃ s2, run stoppingBackground
        [Event.Post (ThreadId.user 0) (some { label := 3, raises := none }), Event.advance 0,
          Event.Start (ThreadId.user 0), Event.advance 1, Event.advance 1, Event.advance 1,
          Event.advance 1, Event.advance 1] = some s2 ∧
      ∃ Y, s2.trace = busyBackground.trace ++ Y ∧
        Obs.invoke 1 ∉ Y ∧ Obs.invoke 2 ∉ Y ∧ Obs.handle 7 ∉ Y :=
  ⟨_, rfl,
    match Stop_discards_pending busyBackground stoppingBackground _
      [Event.Post (ThreadId.user 0) (some { label := 3, raises := none }), Event.advance 0,
        Event.Start (ThreadId.user 0), Event.advance 1, Event.advance 1, Event.advance 1,
        Event.advance 1, Event.advance 1] rfl rfl rfl with
    | ⟨Y, hY, _, hinv, hhandle⟩ =>
      ⟨Y, hY,
        hinv { label := 1, raises := none } (by decide)
          (fun c2 h => by rw [heldTasks_busyBackground c2 h]; decide),
        hinv { label := 2, raises := some 7 } (by decide)
          (fun c2 h => by rw [heldTasks_busyBackground c2 h]; decide),
        hhandle { label := 2, raises := some 7 } 7 (by decide) rfl
          (fun c2 h => by rw [heldTasks_busyBackground c2 h]; decide)
          (by intro handler f0 h; cases h; simp)⟩⟩

/-- C5, counterexample. The background queue `busyBackground` is reachable
and `Busy`.  `Stop` is called and at once `Start`, while the worker has not
yet seen the stop request: the state is `Stopping` and the `Start` is
ignored.  A task is posted after that `Start`; the worker then sees the
request and returns.  The queue is `Stopped`, no run loop is left, the task
is pending and was not executed, and no step of the worker changes that. -/
theorem Start_right_after_Stop_is_lost :
    run (System.init "worker" (some fun _ => none) (ExecutionPolicy.BackgroundThread none))
      busyBackgroundSchedule = some busyBackground ∧
    busyBackground.queue.m_State = eAsyncState.Busy ∧
    run busyBackground [Event.Stop (ThreadId.user 0), Event.Start (ThreadId.user 0)] =
      run busyBackground [Event.Stop (ThreadId.user 0)] ∧
    run busyBackground
      [Event.Stop (ThreadId.user 0), Event.Start (ThreadId.user 0),
        Event.Post (ThreadId.user 0) (some { label := 3, raises := none }),
        Event.advance 0] = some abandonedBackground ∧
    abandonedBackground.queue.m_State = eAsyncState.Stopped ∧
    abandonedBackground.loops = [{ tid := ThreadId.spawned 0, stopToken := 0, pc := PC.done }] ∧
    abandonedBackground.queue.m_TaskQueue = [some { label := 3, raises := none }] ∧
    abandonedBackground.executed = [] ∧
    ∀ k, run abandonedBackground (List.replicate k (Event.advance 0)) =
      some abandonedBackground :=
  ⟨rfl, rfl, rfl, rfl, rfl, rfl, rfl, rfl, fun k =>
    Quiescent_advance abandonedBackground 0 k
      { tid := ThreadId.spawned 0, stopToken := 0, pc := PC.done }
      (Quiescent_of_all _ rfl) rfl rfl⟩

/-- C5, amended. `Stop` is called on a reachable `Busy` queue whose
exception handler, when one is set, returns from every call.  A `Start`
right after it finds the state `Stopping` and is ignored; the tasks posted
from then on are appended to the pending ones (which `Stop` emptied), in
post order, and the cancelled run loops do not dequeue them.  Once the run
loops have returned and the state is `Stopped`, a `Start` takes effect, and
the run loop it creates executes every task posted since the `Stop`, before
or after this `Start`, in post order.  Such a `Start` returns for either
execution policy: when a thread calls it and another thread posts any
tasks, every call returns and the new run loop executes, in order, the
tasks posted since the `Stop`. -/
theorem Start_after_Stop_takes_effect_once_Stopped (s s1 s2 : System)
    (evs1 : List Event) (caller : ThreadId) (hr : Reachable s)
    (ht : s.terminated = false) (hret : HandlerReturns s.queue.m_ExceptionHandler)
    (hb : s.queue.m_State = eAsyncState.Busy) (hstop : Queue.Stop s = some s1)
    (h1 : ∀ e ∈ evs1, Event.isControl e = false) (hs1 : run s1 evs1 = some s2)
    (hq : Quiescent s2) (hst : s2.queue.m_State = eAsyncState.Stopped) :
    Queue.Start caller s1 = some s1 ∧
    s2.queue.m_TaskQueue = posted evs1 ∧
    (∀ (caller2 : ThreadId) (evs2 : List Event) (s3 : System),
      (∀ e ∈ evs2, Event.isControl e = false) →
      run s2 (Event.Start caller2 :: evs2) = some s3 →
      s3.trace <+: s2.trace ++
        (posted evs1 ++ posted evs2).flatMap (future s.queue.m_ExceptionHandler) ∧
      ∃ k s4, run s3 (List.replicate k (Event.advance s2.loops.length)) = some s4 ∧
        s4.trace = s2.trace ++
          (posted evs1 ++ posted evs2).flatMap (future s.queue.m_ExceptionHandler) ∧
        s4.queue.m_TaskQueue = []) ∧
    ∀ tasks2 : List tTask,
      ∃ s3, run s2 (Event.Start (ThreadId.user 0) :: posts (ThreadId.user 1) tasks2) =
          some s3 ∧
        ∃ k s4, run s3 (List.replicate k (Event.advance s2.loops.length)) = some s4 ∧
          s4.trace = s2.trace ++
            (posted evs1 ++ tasks2).flatMap (future s.queue.m_ExceptionHandler) ∧
          s4.queue.m_TaskQueue = [] := by
  have hd : Queue._DoStop s = some s1 := by
    simpa [Queue.Stop, Queue._Stop, hb] using hstop
  obtain ⟨_, he⟩ := DoStop_eq s s1 hd
  have hc := Consistent_of_Reachable s hr
  have hc1 := Consistent_DoStop s s1 hc hd
  have hc2 := Consistent_run evs1 s1 s2 hc1 hs1
  have hw1 : Wound s1 := by
    intro j w hj
    by_cases hdone : w.pc = PC.done
    · exact Or.inl hdone
    · exact Or.inr (DoStop_cancels s s1 hc hd j w hj hdone)
  have ht1 : s1.terminated = false := by rw [he]; exact ht
  have hh1 : s1.queue.m_ExceptionHandler = s.queue.m_ExceptionHandler := by rw [he]
  have hq1 : s1.queue.m_TaskQueue = [] := by rw [he]
  have hst1 : s1.queue.m_State = eAsyncState.Stopping := by rw [he]
  obtain ⟨_, ht2, hh2, hq2, _, _⟩ :=
    Wound_run evs1 s1 s2 hw1 ht1 (by rw [hh1]; exact hret) h1 hs1
  rw [hq1, List.nil_append] at hq2
  have general : ∀ (caller2 : ThreadId) (evs2 : List Event) (s3 : System),
      (∀ e ∈ evs2, Event.isControl e = false) →
      run s2 (Event.Start caller2 :: evs2) = some s3 →
      s3.trace <+: s2.trace ++
        (posted evs1 ++ posted evs2).flatMap (future s.queue.m_ExceptionHandler) ∧
      ∃ k s4, run s3 (List.replicate k (Event.advance s2.loops.length)) = some s4 ∧
        s4.trace = s2.trace ++
          (posted evs1 ++ posted evs2).flatMap (future s.queue.m_ExceptionHandler) ∧
        s4.queue.m_TaskQueue = [] := by
    intro caller2 evs2 s3 h2 hs2
    obtain ⟨hsolo, _, hout⟩ := Start_run s2 caller2 hc2 hq (Or.inr hst) ht2
      (by rw [hh2, hh1]; exact hret) [] evs2 (by simp) h2 s3 (by simpa using hs2)
    have hout2 : outlook s3 s2.loops.length = s2.trace ++
        (posted evs1 ++ posted evs2).flatMap (future s.queue.m_ExceptionHandler) := by
      rw [hout, hh2, hh1, hq2]
      simp [posted]
    refine ⟨?_, ?_⟩
    · rw [← hout2]
      exact trace_prefix_outlook s3 _
    · obtain ⟨k, s4, hr4, _, hidle, htr, _⟩ := Solo_drain s3 s2.loops.length hsolo
      exact ⟨k, s4, hr4, htr.trans hout2, hidle.1⟩
  refine ⟨?_, hq2, general, ?_⟩
  · simp [Queue.Start, hst1]
  · intro tasks2
    obtain ⟨s3, hs3⟩ := posts_Start_posts_run s2 hc2 hq (Or.inr hst) ht2 [] tasks2
    simp only [posts, List.map_nil, List.nil_append] at hs3
    have := (general _ _ s3 (posts_isControl _ tasks2) hs3).2
    rw [posted_posts] at this
    exact ⟨s3, hs3, this⟩

theorem Start_after_Stop_takes_effect_once_Stopped_witness :
    Queue.Start (ThreadId.user 0) stoppingBackground = some stoppingBackground ∧
    abandonedBackground.queue.m_TaskQueue = [some { label := 3, raises := none }] ∧
    ∃ s3, run abandonedBackground
        [Event.Start (ThreadId.user 0),
          Event.Post (ThreadId.user 1) (some { label := 4, raises := none })] = some s3 ∧
      ∃ k s4, run s3 (List.replicate k (Event.advance 1)) = some s4 ∧
        s4.trace = [Obs.invoke 3, Obs.invoke 4] ∧ s4.queue.m_TaskQueue = [] :=
  ⟨(Start_after_Stop_takes_effect_once_Stopped busyBackground stoppingBackground
      abandonedBackground
      [Event.Post (ThreadId.user 0) (some { label := 3, raises := none }), Event.advance 0]
      (ThreadId.user 0) busyBackground_reachable rfl handlerReturns_const
      rfl rfl (by simp [Event.isControl]) rfl (Quiescent_of_all _ rfl) rfl).1,
    rfl,
    (Start_after_Stop_takes_effect_once_Stopped busyBackground stoppingBackground
      abandonedBackground
      [Event.Post (ThreadId.user 0) (some { label := 3, raises := none }), Event.advance 0]
      (ThreadId.user 0) busyBackground_reachable rfl handlerReturns_const
      rfl rfl (by simp [Event.isControl]) rfl (Quiescent_of_all _ rfl) rfl).2.2.2
      [some { label := 4, raises := none }]⟩

/-- C6, as stated, fails.  On the caller-driven queue with a handler that
throws, task 1, which throws, and task 2 are posted in the state `Free`,
before the first `Start`, and are pending in post order.  `Start` is called:
its run loop invokes task 1, the handler throws and `_Routine` returns.  The
state is `Stopped`, no stop was requested; task 2, posted while the queue
was not running, is still pending and is not executed by the run loop of
this `Start`, whatever steps follow. -/
theorem task_posted_before_Start_is_not_executed :
    (∃ s, run (System.init "Darkness.Concurrency.MainQueue" throwingHandler
          (ExecutionPolicy.MainThread none)) (lostSchedule.take 2) = some s ∧
        s.queue.m_State = eAsyncState.Free ∧
        s.queue.m_TaskQueue =
          [some { label := 1, raises := some 7 }, some { label := 2, raises := none }]) ∧
    run (System.init "Darkness.Concurrency.MainQueue" throwingHandler
      (ExecutionPolicy.MainThread none)) lostSchedule = some lostMain ∧
    lostMain.executed = [1] ∧
    lostMain.queue.m_TaskQueue = [some { label := 2, raises := none }] ∧
    lostMain.queue.m_State = eAsyncState.Stopped ∧
    stop_requested lostMain 0 = false ∧
    lostMain.loops.map Loop.pc = [PC.done] ∧
    ∀ k, run lostMain (List.replicate k (Event.advance 0)) = some lostMain :=
  ⟨⟨_, rfl, rfl, rfl⟩, rfl, rfl, rfl, rfl, rfl, rfl, fun k =>
    Quiescent_advance lostMain 0 k
      { tid := ThreadId.user 0, stopToken := 0, pc := PC.done }
      (Quiescent_of_all _ rfl) rfl rfl⟩

/-- C6, amended. In a reachable state the queue is not running: each run
loop has returned or is cancelled (`Free` before the first `Start`,
`Stopping` after a `Stop`, `Stopped`); the exception handler, when one is
set, returns from every call.  Tasks are posted, interleaved with the steps
of the cancelled loops, until the loops have returned and the state is `Free`
or `Stopped`.  Then: the posted tasks were appended to the pending ones, in
post order, and none was dequeued; the cancelled loops only completed tasks
they had dequeued before.  When `Start` is then called, and posts and steps
of the run loops follow, without `Start` or `Stop`: the activation the
`Start` creates has a stop state that did not exist before and is not
requested, and this activation executes, in order, the tasks pending at the
beginning, those posted while not running and those posted after the
`Start`.  Such a `Start` returns for either execution policy: when a thread
calls it and another thread posts any tasks, every call returns and the new
run loop executes all these tasks in order.  The execution policy is
arbitrary, and so is the history that led to the state. -/
theorem tasks_posted_while_not_running_wait_for_next_Start (s s1 : System)
    (evs1 : List Event) (hr : Reachable s)
    (ht : s.terminated = false) (hret : HandlerReturns s.queue.m_ExceptionHandler)
    (hw : Wound s) (h1 : ∀ e ∈ evs1, Event.isControl e = false)
    (hs1 : run s evs1 = some s1) (hq : Quiescent s1)
    (hst : s1.queue.m_State = eAsyncState.Free ∨ s1.queue.m_State = eAsyncState.Stopped) :
    s1.queue.m_TaskQueue = s.queue.m_TaskQueue ++ posted evs1 ∧
    (∃ Y, s1.trace = s.trace ++ Y ∧
      ∀ o ∈ Y, Allowed s.queue.m_ExceptionHandler s.heldTasks o) ∧
    s1.stopStates.length = s1.loops.length ∧
    (∀ (caller : ThreadId) (evs2 : List Event) (s2 : System),
      (∀ e ∈ evs2, Event.isControl e = false) →
      run s1 (Event.Start caller :: evs2) = some s2 →
      (∃ w, s2.loops[s1.loops.length]? = some w ∧ w.stopToken = s1.loops.length ∧
        w.pc ≠ PC.done ∧ stop_requested s2 w.stopToken = false) ∧
      s2.trace <+: s1.trace ++
        (s.queue.m_TaskQueue ++ posted evs1 ++ posted evs2).flatMap
          (future s.queue.m_ExceptionHandler) ∧
      ∃ k s3, run s2 (List.replicate k (Event.advance s1.loops.length)) = some s3 ∧
        s3.trace = s1.trace ++
          (s.queue.m_TaskQueue ++ posted evs1 ++ posted evs2).flatMap
            (future s.queue.m_ExceptionHandler) ∧
        s3.queue.m_TaskQueue = []) ∧
    ∀ tasks2 : List tTask,
      ∃ s2, run s1 (Event.Start (ThreadId.user 0) :: posts (ThreadId.user 1) tasks2) =
          some s2 ∧
        ∃ k s3, run s2 (List.replicate k (Event.advance s1.loops.length)) = some s3 ∧
          s3.trace = s1.trace ++
            (s.queue.m_TaskQueue ++ posted evs1 ++ tasks2).flatMap
              (future s.queue.m_ExceptionHandler) ∧
          s3.queue.m_TaskQueue = [] := by
  have hc := Consistent_of_Reachable s hr
  have hc1 := Consistent_run evs1 s s1 hc hs1
  obtain ⟨_, ht1, hh1, hq1, _, hY⟩ := Wound_run evs1 s s1 hw ht hret h1 hs1
  have general : ∀ (caller : ThreadId) (evs2 : List Event) (s2 : System),
      (∀ e ∈ evs2, Event.isControl e = false) →
      run s1 (Event.Start caller :: evs2) = some s2 →
      (∃ w, s2.loops[s1.loops.length]? = some w ∧ w.stopToken = s1.loops.length ∧
        w.pc ≠ PC.done ∧ stop_requested s2 w.stopToken = false) ∧
      s2.trace <+: s1.trace ++
        (s.queue.m_TaskQueue ++ posted evs1 ++ posted evs2).flatMap
          (future s.queue.m_ExceptionHandler) ∧
      ∃ k s3, run s2 (List.replicate k (Event.advance s1.loops.length)) = some s3 ∧
        s3.trace = s1.trace ++
          (s.queue.m_TaskQueue ++ posted evs1 ++ posted evs2).flatMap
            (future s.queue.m_ExceptionHandler) ∧
        s3.queue.m_TaskQueue = [] := by
    intro caller evs2 s2 h2 hs2
    have hc2 := Consistent_run _ s1 s2 hc1 hs2
    obtain ⟨hsolo, hh2, hout⟩ := Start_run s1 caller hc1 hq hst ht1 (by rw [hh1]; exact hret)
      [] evs2 (by simp) h2 s2 (by simpa using hs2)
    have hout2 : outlook s2 s1.loops.length = s1.trace ++
        (s.queue.m_TaskQueue ++ posted evs1 ++ posted evs2).flatMap
          (future s.queue.m_ExceptionHandler) := by
      rw [hout, hh1, hq1]
      simp [posted]
    refine ⟨?_, ?_, ?_⟩
    · obtain ⟨w, hw2, hlive, hreq, _⟩ := hsolo.loop
      exact ⟨w, hw2, hc2.token_eq _ w hw2, hlive, hreq⟩
    · rw [← hout2]
      exact trace_prefix_outlook s2 _
    · obtain ⟨k, s3, hr3, _, hidle, htr, _⟩ := Solo_drain s2 s1.loops.length hsolo
      exact ⟨k, s3, hr3, htr.trans hout2, hidle.1⟩
  refine ⟨hq1, hY, hc1.tokens, general, ?_⟩
  intro tasks2
  obtain ⟨s2, hs2⟩ := posts_Start_posts_run s1 hc1 hq hst ht1 [] tasks2
  simp only [posts, List.map_nil, List.nil_append] at hs2
  have := (general _ _ s2 (posts_isControl _ tasks2) hs2).2.2
  rw [posted_posts] at this
  exact ⟨s2, hs2, this⟩

theorem tasks_posted_while_not_running_wait_for_next_Start_witness :
    (run stoppingBackground
        [Event.Post (ThreadId.user 0) (some { label := 3, raises := none }),
          Event.advance 0,
          Event.Post (ThreadId.user 0) (some { label := 4, raises := some 9 })] =
        some pendingBackground ∧
      ∃ s2, run pendingBackground
          [Event.Start (ThreadId.user 0),
            Event.Post (ThreadId.user 1) (some { label := 5, raises := none })] = some s2 ∧
        ∃ k s3, run s2 (List.replicate k (Event.advance 1)) = some s3 ∧
          s3.trace = [Obs.invoke 3, Obs.invoke 4, Obs.handle 9, Obs.invoke 5] ∧
          s3.queue.m_TaskQueue = []) ∧
    (run (System.init "Darkness.Concurrency.MainQueue" (some fun _ => none)
          (ExecutionPolicy.MainThread none))
        [Event.Post (ThreadId.user 1) (some { label := 3, raises := none }),
          Event.Post (ThreadId.user 1) (some { label := 4, raises := some 9 })] =
        some pendingMain ∧
      ∃ s2, run pendingMain
          [Event.Start (ThreadId.user 0),
            Event.Post (ThreadId.user 1) (some { label := 5, raises := none })] = some s2 ∧
        ∃ k s3, run s2 (List.replicate k (Event.advance 0)) = some s3 ∧
          s3.trace = [Obs.invoke 3, Obs.invoke 4, Obs.handle 9, Obs.invoke 5] ∧
          s3.queue.m_TaskQueue = []) :=
  ⟨⟨rfl,
      (tasks_posted_while_not_running_wait_for_next_Start stoppingBackground
        pendingBackground
        [Event.Post (ThreadId.user 0) (some { label := 3, raises := none }), Event.advance 0,
          Event.Post (ThreadId.user 0) (some { label := 4, raises := some 9 })]
        stoppingBackground_reachable rfl handlerReturns_const (Wound_of_all _ rfl)
        (by simp [Event.isControl]) rfl (Quiescent_of_all _ rfl) (Or.inr rfl)).2.2.2.2
        [some { label := 5, raises := none }]⟩,
    ⟨rfl,
      (tasks_posted_while_not_running_wait_for_next_Start
        (System.init "Darkness.Concurrency.MainQueue" (some fun _ => none)
          (ExecutionPolicy.MainThread none))
        pendingMain
        [Event.Post (ThreadId.user 1) (some { label := 3, raises := none }),
          Event.Post (ThreadId.user 1) (some { label := 4, raises := some 9 })]
        ⟨"Darkness.Concurrency.MainQueue", some fun _ => none,
          ExecutionPolicy.MainThread none, [], rfl, rfl⟩
        rfl handlerReturns_const (Wound_of_all _ rfl)
        (by simp [Event.isControl]) rfl (Quiescent_of_all _ rfl) (Or.inl rfl)).2.2.2.2
        [some { label := 5, raises := none }]⟩⟩

/-- C7. `Stop` changes nothing unless `m_State` is `Busy`: in the states
`Free`, `Stopped` and `Stopping` it returns the system as it was (state,
pending tasks, worker identity, stop states and all); on a newly constructed
queue it leaves `GetState` at `Free`; and `Stop` followed by `Stop` is the
same as one `Stop`, in every state. -/
theorem Stop_ignored_unless_Busy (s : System) :
    (s.queue.m_State ≠ eAsyncState.Busy → Queue.Stop s = some s) ∧
    (∀ name handler policy,
      Queue.Stop (System.init name handler policy) = some (System.init name handler policy) ∧
      Queue.GetState (System.init name handler policy) = eAsyncState.Free) ∧
    (Queue.Stop s).bind Queue.Stop = Queue.Stop s := by
  refine ⟨?_, ?_, ?_⟩
  · intro h
    unfold Queue.Stop Queue._Stop
    cases hs : s.queue.m_State <;> simp_all
  · intro name handler policy
    exact ⟨rfl, rfl⟩
  · unfold Queue.Stop Queue._Stop
    cases hs : s.queue.m_State <;> simp [hs]
    unfold Queue._DoStop
    by_cases hm : s.queue.m_Mutex = none
    · simp [hm, ExecutionPolicy.RequestStop]
      cases s.queue.m_ExecutionPolicy.source <;> simp [request_stop]
    · simp [hm]

theorem Stop_ignored_unless_Busy_witness :
    Queue.Stop stoppingBackground = some stoppingBackground ∧
      (Queue.Stop busyBackground).bind Queue.Stop = Queue.Stop busyBackground :=
  ⟨(Stop_ignored_unless_Busy stoppingBackground).1 (by decide),
    (Stop_ignored_unless_Busy busyBackground).2.2⟩

/-- C8. `Start` on a queue whose `m_State` is `Busy` or `Stopping` returns
the system as it was: state, pending tasks, `m_Id`, stop states and the
list of activations of `_Routine` are unchanged, so the execution policy
was not started and no worker was created. -/
theorem Start_ignored_when_Busy_or_Stopping (s : System) (caller : ThreadId)
    (h : s.queue.m_State = eAsyncState.Busy ∨ s.queue.m_State = eAsyncState.Stopping) :
    Queue.Start caller s = some s := by
  unfold Queue.Start
  rcases h with h | h <;> simp [h]

theorem Start_ignored_when_Busy_or_Stopping_witness :
    Queue.Start (ThreadId.user 3) stoppingBackground = some stoppingBackground :=
  Start_ignored_when_Busy_or_Stopping stoppingBackground (ThreadId.user 3) (Or.inr rfl)

/-- C9. A step of `_Routine` from `entry` publishes the thread of the
activation in `m_Id` and `Busy` in `m_State`; the step at the loop test with
stop requested returns, and so does the step in which the handler threw
once (the failure left the loop) and then returned; and every step by which
an activation returns leaves `m_Id = none` and `m_State = Stopped`. -/
theorem Routine_publishes_entry_and_exit (s s1 : System) (i : Nat) (w : Loop)
    (hw : s.loops[i]? = some w) (hs : Queue._Routine s i = some s1) :
    (w.pc = PC.entry →
      s1.queue.m_Id = some w.tid ∧ s1.queue.m_State = eAsyncState.Busy ∧
        s1.loops[i]? = some { w with pc := PC.loopHead }) ∧
    (w.pc = PC.loopHead → stop_requested s w.stopToken = true →
      s1.loops[i]? = some { w with pc := PC.done }) ∧
    (∀ c f g handler, w.pc = PC.inTask c → c.raises = some f →
      s.queue.m_ExceptionHandler = some handler → handler f = some g → handler g = none →
      s1.loops[i]? = some { w with pc := PC.done }) ∧
    (w.pc ≠ PC.done → s1.loops[i]? = some { w with pc := PC.done } →
      s1.queue.m_Id = none ∧ s1.queue.m_State = eAsyncState.Stopped) := by
  unfold Queue._Routine at hs
  simp only [hw] at hs
  refine ⟨?_, ?_, ?_, ?_⟩
  · intro hpc
    simp only [hpc, Option.some.injEq] at hs
    subst hs
    exact ⟨rfl, rfl, setPc_self _ i _ w hw⟩
  · intro hpc hreq
    simp only [hpc, hreq, if_true, Option.some.injEq] at hs
    subst hs
    exact setPc_self _ i _ w hw
  · intro c f g handler hpc hf hh hg hg2
    simp only [hpc, hf, hh, hg, hg2, Option.some.injEq] at hs
    subst hs
    exact setPc_self _ i _ w hw
  · intro hlive hdone
    have stay : ∀ (s0 : System) (pc : PC), s0.loops = s.loops → pc ≠ PC.done →
        (setPc s0 i pc).loops[i]? = some { w with pc := PC.done } → False := by
      intro s0 pc hl hne hd
      rw [setPc_getElem?_eq_some, hl, hw] at hd
      obtain ⟨w0, hw0, he⟩ := hd
      have := congrArg Loop.pc he
      simp at this
      exact hne this.symm
    cases hpc : w.pc with
    | entry =>
      simp only [hpc, Option.some.injEq] at hs
      subst hs
      exact (stay _ _ rfl (by simp) hdone).elim
    | loopHead =>
      simp only [hpc] at hs
      split at hs <;> simp only [Option.some.injEq] at hs <;> subst hs
      · exact ⟨rfl, rfl⟩
      · exact (stay _ _ rfl (by simp) hdone).elim
    | waiting =>
      simp only [hpc] at hs
      split at hs
      · simp only [Option.some.injEq] at hs
        subst hs
        exact (stay _ _ rfl (by simp) hdone).elim
      · cases hs
    | locked =>
      simp only [hpc] at hs
      split at hs
      · simp only [Option.some.injEq] at hs
        subst hs
        exact (stay _ _ rfl (by simp) hdone).elim
      · split at hs <;> simp only [Option.some.injEq] at hs <;> subst hs <;>
          exact (stay _ _ rfl (by simp) hdone).elim
    | popped task =>
      simp only [hpc] at hs
      cases task <;> simp only [Option.some.injEq] at hs <;> subst hs <;>
        exact (stay _ _ rfl (by simp) hdone).elim
    | inTask c =>
      simp only [hpc] at hs
      split at hs
      · simp only [Option.some.injEq] at hs
        subst hs
        exact (stay _ _ rfl (by simp) hdone).elim
      · split at hs
        · simp only [Option.some.injEq] at hs
          subst hs
          exact (stay _ _ rfl (by simp) hdone).elim
        · split at hs
          · simp only [Option.some.injEq] at hs
            subst hs
            exact (stay _ _ rfl (by simp) hdone).elim
          · split at hs <;> simp only [Option.some.injEq] at hs <;> subst hs
            · exact ⟨rfl, rfl⟩
            · simp only [observe] at hdone
              rw [hw] at hdone
              simp only [Option.some.injEq] at hdone
              have := congrArg Loop.pc hdone
              simp [hpc] at this
    | done => exact absurd hpc hlive

theorem Routine_publishes_entry_and_exit_witness :
    Queue._Routine stoppingBackground 0 = some stoppedBackground ∧
      stoppedBackground.queue.m_Id = none ∧
      stoppedBackground.queue.m_State = eAsyncState.Stopped :=
  ⟨rfl, (Routine_publishes_entry_and_exit stoppingBackground stoppedBackground 0
    { tid := ThreadId.spawned 0, stopToken := 0, pc := PC.loopHead } rfl rfl).2.2.2
      (by decide) rfl⟩

/-- C11. In every reachable state the mutex is not held by the thread of an
activation that has popped a task or executes one.  The thread of an
activation that executes a task can call the interface of its own queue; when
the mutex is free its `Post` returns with the task appended behind the
pending ones and its `Stop` returns; when the mutex is held, it is held by
another thread, which evaluates the predicate of its wait and releases the
mutex with its next step, the task in flight being left where it is. -/
theorem mutex_released_while_task_executes (s : System) (n : Nat) (w : Loop) (c : Callable)
    (hr : Reachable s) (ht : s.terminated = false) (hw : s.loops[n]? = some w)
    (hpc : w.pc = PC.inTask c) :
    s.queue.m_Mutex ≠ some w.tid ∧
    (∀ (j : Nat) (v : Loop) (t : tTask), s.loops[j]? = some v → v.pc = PC.popped t →
      s.queue.m_Mutex ≠ some v.tid) ∧
    canCall s w.tid = true ∧
    (s.queue.m_Mutex = none →
      (∀ task : tTask, step s (Event.Post w.tid task) =
        some { s with queue :=
          { s.queue with m_TaskQueue := s.queue.m_TaskQueue ++ [task] } }) ∧
      (∃ s1, step s (Event.Stop w.tid) = some s1 ∧ s1.loops = s.loops)) ∧
    (∀ t, s.queue.m_Mutex = some t →
      ∃ (j : Nat) (v : Loop) (s1 : System), j ≠ n ∧ t ≠ w.tid ∧ s.loops[j]? = some v ∧
        v.pc = PC.locked ∧ v.tid = t ∧ step s (Event.advance j) = some s1 ∧
        s1.queue.m_Mutex = none ∧ s1.loops[n]? = some w ∧ s1.terminated = false) := by
  have hc := Consistent_of_Reachable s hr
  have he := Exclusive_of_Reachable s hr
  have hfree := not_holder s hc he n w hw (by rw [hpc]; simp) (by rw [hpc]; simp)
  have hcall := canCall_of_inTask s hc he n w c hw hpc
  refine ⟨hfree, ?_, hcall, ?_, ?_⟩
  · intro j v t hj hv
    exact not_holder s hc he j v hj (by rw [hv]; simp) (by rw [hv]; simp)
  · intro hm
    constructor
    · intro task
      simp [step, ht, hcall, Queue.Post, hm]
    · simp only [step, ht, hcall, Queue.Stop, Queue._Stop, Bool.false_eq_true, if_false,
        if_true]
      cases hst : s.queue.m_State
      · exact ⟨s, rfl, rfl⟩
      · simp only [Queue._DoStop, hm, if_true]
        refine ⟨_, rfl, ?_⟩
        unfold ExecutionPolicy.RequestStop request_stop
        split <;> rfl
      · exact ⟨s, rfl, rfl⟩
      · exact ⟨s, rfl, rfl⟩
  · intro t hm
    obtain ⟨j, v, hj, hlk, htid⟩ := he.holder t hm
    have hjn : j ≠ n := by
      intro e
      subst e
      rw [hw] at hj
      cases hj
      rw [hpc] at hlk
      cases hlk
    have htw : t ≠ w.tid := by
      intro e
      rw [e] at hm
      exact hfree hm
    have hstep : ∃ s1, Queue._Routine s j = some s1 ∧ s1.queue.m_Mutex = none ∧
        s1.loops[n]? = some w ∧ s1.terminated = false := by
      unfold Queue._Routine
      simp only [hj, hlk]
      split
      · exact ⟨_, rfl, rfl, by rw [setPc_other _ j n _ hjn]; exact hw, ht⟩
      · split
        · exact ⟨_, rfl, rfl, by rw [setPc_other _ j n _ hjn]; exact hw, ht⟩
        · exact ⟨_, rfl, rfl, by rw [setPc_other _ j n _ hjn]; exact hw, ht⟩
    obtain ⟨s1, h1, h2, h3, h4⟩ := hstep
    refine ⟨j, v, s1, hjn, htw, hj, hlk, htid, ?_, h2, h3, h4⟩
    simp [step, ht, h1]

theorem mutex_released_while_task_executes_witness :
    run (System.init "worker" none (ExecutionPolicy.BackgroundThread none))
        backgroundInTaskSchedule = some backgroundInTask ∧
      backgroundInTask.queue.m_Mutex ≠ some (ThreadId.spawned 0) ∧
      step backgroundInTask
          (Event.Post (ThreadId.spawned 0) (some { label := 7, raises := none })) =
        some { backgroundInTask with queue :=
          { backgroundInTask.queue with m_TaskQueue :=
              [some { label := 6, raises := none }, some { label := 7, raises := none }] } } ∧
      ∃ s1, step backgroundInTask (Event.Stop (ThreadId.spawned 0)) = some s1 ∧
        s1.loops = backgroundInTask.loops :=
  match mutex_released_while_task_executes backgroundInTask 0
    { tid := ThreadId.spawned 0, stopToken := 0,
      pc := PC.inTask { label := 5, raises := none } }
    { label := 5, raises := none }
    ⟨"worker", none, ExecutionPolicy.BackgroundThread none, backgroundInTaskSchedule,
      rfl, rfl⟩
    rfl rfl rfl with
  | ⟨h1, _, _, h4, _⟩ =>
    ⟨rfl, h1, (h4 rfl).1 (some { label := 7, raises := none }), (h4 rfl).2⟩

/-- C12. In every reachable registry, for every name and any two exception
handlers, the second of two successive calls of
`CreateOrGetBackgroundQueueByName` with this name returns the pointer the
first call returned and leaves the registry as the first call left it; the
name is then registered once, for this pointer, and the object is alive and
carries the name. -/
theorem CreateOrGet_twice_same_queue (r : QueueManager) (name : String)
    (h1 h2 : tExceptionHandler) (hr : QueueManager.Reachable r) :
    (QueueManager.CreateOrGetBackgroundQueueByName name h2
        (QueueManager.CreateOrGetBackgroundQueueByName name h1 r).2).1 =
      (QueueManager.CreateOrGetBackgroundQueueByName name h1 r).1 ∧
    (QueueManager.CreateOrGetBackgroundQueueByName name h2
        (QueueManager.CreateOrGetBackgroundQueueByName name h1 r).2).2 =
      (QueueManager.CreateOrGetBackgroundQueueByName name h1 r).2 ∧
    ((QueueManager.CreateOrGetBackgroundQueueByName name h1 r).2.m_QueuesStore.map
      Prod.fst).count name = 1 ∧
    (QueueManager.CreateOrGetBackgroundQueueByName name h1 r).2.find name =
      some (QueueManager.CreateOrGetBackgroundQueueByName name h1 r).1 ∧
    ∃ cell, (QueueManager.CreateOrGetBackgroundQueueByName name h1 r).2.heap[
        (QueueManager.CreateOrGetBackgroundQueueByName name h1 r).1]? = some cell ∧
      cell.alive = true ∧ Queue.GetName cell.queue = name := by
  have hs := Sound_of_Reachable r hr
  have hs1 := Sound_create r name h1 hs
  have hf := create_find r name h1 hs
  have hmem := create_mem r name h1
  unfold QueueManager.CreateOrGetBackgroundQueueByName
  refine ⟨?_, ?_, ?_, hf, ?_⟩
  · rw [create_found _ name h2 _ hf]
  · rw [create_found _ name h2 _ hf]
  · exact List.count_eq_one_of_mem hs1.keys (List.mem_map.2 ⟨_, hmem, rfl⟩)
  · obtain ⟨cell, g1, g2, g3, _⟩ := hs1.cells name _ hmem
    exact ⟨cell, g1, g2, g3⟩

theorem CreateOrGet_twice_same_queue_witness :
    (QueueManager.CreateOrGetBackgroundQueueByName "worker"
        (some fun _ => none) busyRegistered).1 = 0 ∧
      (QueueManager.CreateOrGetBackgroundQueueByName "worker" none
        (QueueManager.CreateOrGetBackgroundQueueByName "worker"
          (some fun _ => none) busyRegistered).2).1 = 0 ∧
      (QueueManager.CreateOrGetBackgroundQueueByName "other" none
        (QueueManager.CreateOrGetBackgroundQueueByName "other"
          (some fun _ => none) busyRegistered).2).1 = 1 :=
  ⟨rfl,
    (CreateOrGet_twice_same_queue busyRegistered "worker" (some fun _ => none) none
      ⟨busyRegisteredCalls, rfl⟩).1.trans rfl,
    (CreateOrGet_twice_same_queue busyRegistered "other" (some fun _ => none) none
      ⟨busyRegisteredCalls, rfl⟩).1.trans rfl⟩

/-- C13. In every reachable registry, the object registered under a name is
alive, carries this name, and its execution policy is the one of the main
thread if and only if the name equals `mainQueueName`, the literal
"Darkness.Concurrency.MainQueue" compared character by character; under any
other name, such as "MainQueue" or the literal in lower case, the policy is
the one of a background thread.  `CreateOrGetMainQueue` is
`CreateOrGetBackgroundQueueByName` called with `mainQueueName`. -/
theorem main_policy_iff_reserved_name (r : QueueManager) (name : String) (p : Nat)
    (hr : QueueManager.Reachable r) (hreg : r.find name = some p) :
    (∃ cell, r.heap[p]? = some cell ∧ cell.alive = true ∧ Queue.GetName cell.queue = name ∧
      (cell.queue.queue.m_ExecutionPolicy.isMain = true ↔ name = mainQueueName) ∧
      (cell.queue.queue.m_ExecutionPolicy.isMain = false ↔ name ≠ mainQueueName)) ∧
    mainQueueName = "Darkness.Concurrency.MainQueue" ∧
    "MainQueue" ≠ mainQueueName ∧
    "darkness.concurrency.mainqueue" ≠ mainQueueName ∧
    ∀ (handler : tExceptionHandler) (q : QueueManager),
      QueueManager.CreateOrGetMainQueue handler q =
        QueueManager.CreateOrGetBackgroundQueueByName mainQueueName handler q := by
  refine ⟨?_, rfl, by decide, by decide, fun _ _ => rfl⟩
  obtain ⟨cell, h1, h2, h3, h4⟩ :=
    (Sound_of_Reachable r hr).cells name p (find_mem r name p hreg)
  refine ⟨cell, h1, h2, h3, h4, ?_⟩
  rw [ne_eq, ← h4]
  cases cell.queue.queue.m_ExecutionPolicy.isMain <;> simp

theorem main_policy_iff_reserved_name_witness :
    (namedRegistry.heap[0]?.map fun cell => Queue.GetState cell.queue) =
      some eAsyncState.Busy ∧
    (∃ cell, namedRegistry.heap[0]? = some cell ∧
      Queue.GetName cell.queue = "Darkness.Concurrency.MainQueue" ∧
      cell.queue.queue.m_ExecutionPolicy.isMain = true) ∧
    (∃ cell, namedRegistry.heap[1]? = some cell ∧
      Queue.GetName cell.queue = "MainQueue" ∧
      cell.queue.queue.m_ExecutionPolicy.isMain = false) ∧
    (∃ cell, namedRegistry.heap[2]? = some cell ∧
      Queue.GetName cell.queue = "darkness.concurrency.mainqueue" ∧
      cell.queue.queue.m_ExecutionPolicy.isMain = false) :=
  ⟨rfl,
    match main_policy_iff_reserved_name namedRegistry "Darkness.Concurrency.MainQueue" 0
      ⟨namedCalls, rfl⟩ rfl with
    | ⟨⟨cell, h1, _, h3, h4, _⟩, _⟩ => ⟨cell, h1, h3, h4.2 rfl⟩,
    match main_policy_iff_reserved_name namedRegistry "MainQueue" 1
      ⟨namedCalls, rfl⟩ rfl with
    | ⟨⟨cell, h1, _, h3, _, h5⟩, _, hne, _⟩ => ⟨cell, h1, h3, h5.2 hne⟩,
    match main_policy_iff_reserved_name namedRegistry "darkness.concurrency.mainqueue" 2
      ⟨namedCalls, rfl⟩ rfl with
    | ⟨⟨cell, h1, _, h3, _, h5⟩, _, _, hne, _⟩ => ⟨cell, h1, h3, h5.2 hne⟩⟩

/-- C14. In every reachable registry, `CreateOrGetBackgroundQueueByName` on a
name that is not registered returns a pointer to a new object: it is no
object that existed before, hence none that any name was ever registered
for, and the name is now registered for it.  The object is the one the
constructor `Queue::Queue` makes from the name, the handler and the policy:
it carries the name and the handler, its state is `Free`, nothing is pending,
it has no worker identity, and no activation of `_Routine` and no stop state
exist, so it is not started.  When the name is forgotten and created again,
the pointer differs from the earlier one, whichever thread forgets it.
`CreateOrGetMainQueue` does the same for `mainQueueName`. -/
theorem create_on_unregistered_name (r : QueueManager) (name : String)
    (handler : tExceptionHandler) (hr : QueueManager.Reachable r)
    (hn : r.IsExists name = false) :
    (QueueManager.CreateOrGetBackgroundQueueByName name handler r).1 = r.heap.length ∧
    r.heap[(QueueManager.CreateOrGetBackgroundQueueByName name handler r).1]? = none ∧
    (∀ (m : String) (q : Nat), r.find m = some q →
      q ≠ (QueueManager.CreateOrGetBackgroundQueueByName name handler r).1) ∧
    (QueueManager.CreateOrGetBackgroundQueueByName name handler r).2.find name =
      some r.heap.length ∧
    (∃ cell, (QueueManager.CreateOrGetBackgroundQueueByName name handler r).2.heap[
        r.heap.length]? = some cell ∧
      cell.alive = true ∧
      cell.queue = System.init name handler
        (if name = mainQueueName then ExecutionPolicy.MainThread none
         else ExecutionPolicy.BackgroundThread none) ∧
      Queue.GetName cell.queue = name ∧
      cell.queue.queue.m_ExceptionHandler = handler ∧
      Queue.GetState cell.queue = eAsyncState.Free ∧
      cell.queue.queue.m_TaskQueue = [] ∧
      Queue.GetWorkThreadId cell.queue = none ∧
      cell.queue.loops = [] ∧ cell.queue.stopStates = [] ∧
      cell.queue.queue.m_ExecutionPolicy.source = none) ∧
    (∀ (caller : ThreadId) (again : tExceptionHandler) (r1 : QueueManager),
      QueueManager.ForgetByName caller name
        (QueueManager.CreateOrGetBackgroundQueueByName name handler r).2 = some r1 →
      r1.IsExists name = false ∧
      (QueueManager.CreateOrGetBackgroundQueueByName name again r1).1 ≠
        (QueueManager.CreateOrGetBackgroundQueueByName name handler r).1) ∧
    (name = mainQueueName →
      QueueManager.CreateOrGetMainQueue handler r =
        QueueManager.CreateOrGetBackgroundQueueByName name handler r) := by
  have hs := Sound_of_Reachable r hr
  have hnone : r.find name = none := by
    have := IsExists_eq r name
    unfold QueueManager.IsExists at hn
    rw [hn] at this
    cases hf : r.find name with
    | none => rfl
    | some p => simp [hf] at this
  have hcreate : QueueManager.CreateOrGetBackgroundQueueByName name handler r =
      (r.heap.length,
        { m_QueuesStore := r.m_QueuesStore ++ [(name, r.heap.length)]
          heap := r.heap ++
            [{ queue := System.init name handler
                 (if name = mainQueueName then ExecutionPolicy.MainThread none
                  else ExecutionPolicy.BackgroundThread none)
               holders := 0
               alive := true }]
          m_Access := r.m_Access }) := by
    unfold QueueManager.CreateOrGetBackgroundQueueByName
      QueueManager._CreateOrGetBackgroundQueueByName
    rw [hnone]
  have hfind := create_find r name handler hs
  unfold QueueManager.CreateOrGetBackgroundQueueByName at hcreate
  unfold QueueManager.CreateOrGetBackgroundQueueByName
  rw [hcreate] at hfind
  rw [hcreate]
  refine ⟨rfl, by simp, ?_, hfind, ?_, ?_, ?_⟩
  · intro m q hq
    obtain ⟨cell, h1, _⟩ := hs.cells m q (find_mem r m q hq)
    have := (List.getElem?_eq_some.1 h1).1
    simp only
    omega
  · refine ⟨_, List.getElem?_concat_length _ _, rfl, rfl, rfl, rfl, rfl, rfl, rfl, rfl, rfl, ?_⟩
    by_cases hm : name = mainQueueName <;> simp [System.init, hm, ExecutionPolicy.source]
  · intro caller again r1 hforget
    have hstore := ForgetByName_store caller _ r1 name hforget
    have hlen := ForgetByName_length caller _ r1 name hforget
    have hgone : r1.find name = none := by
      rw [find_none, hstore]
      intro e he
      rw [List.mem_filter] at he
      simpa using he.2
    constructor
    · have := IsExists_eq r1 name
      rw [hgone] at this
      exact this
    · unfold QueueManager._CreateOrGetBackgroundQueueByName
      rw [hgone]
      simp only [hlen, List.length_append, List.length_singleton]
      omega
  · intro hm
    subst hm
    exact hcreate

theorem create_on_unregistered_name_witness :
    (QueueManager.CreateOrGetBackgroundQueueByName "other" (some fun _ => none)
        busyRegistered).1 = 1 ∧
      busyRegistered.heap[1]? = none ∧
      ∃ cell, (QueueManager.CreateOrGetBackgroundQueueByName "other" (some fun _ => none)
          busyRegistered).2.heap[1]? = some cell ∧
        Queue.GetName cell.queue = "other" ∧
        Queue.GetState cell.queue = eAsyncState.Free ∧
        cell.queue.queue.m_TaskQueue = [] ∧
        Queue.GetWorkThreadId cell.queue = none ∧
        cell.queue.loops = [] :=
  match create_on_unregistered_name busyRegistered "other" (some fun _ => none)
    ⟨busyRegisteredCalls, rfl⟩ rfl with
  | ⟨h1, h2, _, _, ⟨cell, g1, _, _, g4, _, g6, g7, g8, g9, _⟩, _⟩ =>
    ⟨h1, h2, cell, g1, g4, g6, g7, g8, g9⟩
/-- C15, as stated, fails.  The queue "worker" was started through a handle
of the registry, is `Busy` with the task 5 pending and its stop not
requested; its callers hold the handle only.  `ForgetByName`, called by a
thread of the application, drops the only owning pointer and the destructor
runs: the object is destroyed, its state is `Stopping`, nothing is pending
and the stop of the worker is requested; the caller then waits, inside the
registry, for the worker.  `KillAndForgetAll` does the same. -/
theorem ForgetByName_stops_a_queue_nobody_owns :
    QueueManager.calls QueueManager.init busyRegisteredCalls = some busyRegistered ∧
    (busyRegistered.heap[0]?.map fun cell =>
      (cell.alive, Queue.GetState cell.queue, cell.queue.queue.m_TaskQueue.length,
        stop_requested cell.queue 0)) = some (true, eAsyncState.Busy, 1, false) ∧
    ∃ r1, busyRegistered.call (Call.ForgetByName (ThreadId.user 1) "worker") = some r1 ∧
      busyRegistered.call (Call.KillAndForgetAll fun _ => ThreadId.user 1) = some r1 ∧
      (r1.heap[0]?.map fun cell =>
        (cell.alive, Queue.GetState cell.queue, cell.queue.queue.m_TaskQueue.length,
          stop_requested cell.queue 0)) = some (false, eAsyncState.Stopping, 0, true) ∧
      r1.m_Access.isSome = true ∧ r1.call Call.resume = none :=
  ⟨rfl, rfl, _, rfl, rfl, rfl, rfl, rfl⟩

/-- C15, amended. In a reachable registry, for an object registered under a
name.  When a caller owns the object, through a pointer that `lock()` on its
handle gave, `ForgetByName`, `ForgetMainQueue` and `KillAndForgetAll`,
whichever thread calls them, and the continuation of a thread that waits
inside the registry, leave it as it is: it stays alive, and its state, its
pending tasks and its stop states are unchanged; forgetting its own name
returns at once and changes no object at all.  When only the registry owns
the object, and the object is `Busy` and its mutex is free, the thread that
gives up the pointer of the registry runs the destructor: the state becomes
`Stopping`, nothing is pending any more and the stop of the run loop is
requested; the process is terminated by it exactly when it was terminated
before or the thread is the one of the queue and has not returned from
`_Routine`.  `ForgetByName` on the name of the object, and `ForgetMainQueue`
when the name is `mainQueueName`, destroy the object so; the call has
returned exactly when the thread of the queue had returned, and else the
caller waits inside the registry and its continuation is not enabled.
After the step of `KillAndForgetAll`, and after a continuation of a thread
that has the pointer among those it has still to give up, the object is
destroyed so, or it is untouched and its pointer is among those that the
thread has still to give up.  `KillAndForgetAll` does not block when the
mutex of every queue is free. -/
theorem removal_spares_only_owned_queues (r : QueueManager) (name : String) (p : Nat)
    (cell : Cell) (hr : QueueManager.Reachable r) (hreg : r.find name = some p)
    (hcell : r.heap[p]? = some cell) :
    (0 < cell.holders →
      (∀ caller, ∃ r1, QueueManager.ForgetByName caller name r = some r1 ∧ r1.heap = r.heap ∧
        r1.IsExists name = false ∧ r1.m_Access = none) ∧
      (∀ (caller : ThreadId) (other : String) (r1 : QueueManager),
        QueueManager.ForgetByName caller other r = some r1 → r1.heap[p]? = some cell) ∧
      (∀ (caller : ThreadId) (r1 : QueueManager),
        QueueManager.ForgetMainQueue caller r = some r1 → r1.heap[p]? = some cell) ∧
      (∀ (callers : Nat → ThreadId) (r1 : QueueManager),
        QueueManager.KillAndForgetAll callers r = some r1 → r1.heap[p]? = some cell) ∧
      (∀ (r0 r1 : QueueManager), r0.heap[p]? = some cell → r0.resume = some r1 →
        r1.heap[p]? = some cell)) ∧
    (cell.holders = 0 → cell.queue.queue.m_State = eAsyncState.Busy →
      cell.queue.queue.m_Mutex = none →
      ∀ caller, ∃ q, Queue.destructor caller cell.queue = some q ∧
        Queue.GetState q = eAsyncState.Stopping ∧ q.queue.m_TaskQueue = [] ∧
        (∀ k, cell.queue.queue.m_ExecutionPolicy.source = some k →
          k < cell.queue.stopStates.length → stop_requested q k = true) ∧
        (q.terminated = true ↔
          cell.queue.terminated = true ∨
            ∃ worker,
              cell.queue.queue.m_ExecutionPolicy =
                ExecutionPolicy.BackgroundThread (some worker) ∧
              caller = ThreadId.spawned worker ∧ cell.queue.joined = false) ∧
        (∃ r1, QueueManager.ForgetByName caller name r = some r1 ∧
          r1.heap[p]? = some { queue := q, holders := 0, alive := false } ∧
          (r1.m_Access = none ↔ cell.queue.joined = true) ∧
          (cell.queue.joined = false → r1.waits p = true ∧ r1.call Call.resume = none)) ∧
        (name = mainQueueName →
          ∃ r1, QueueManager.ForgetMainQueue caller r = some r1 ∧
            r1.heap[p]? = some { queue := q, holders := 0, alive := false }) ∧
        (∀ (callers : Nat → ThreadId) (r1 : QueueManager), callers p = caller →
          QueueManager.KillAndForgetAll callers r = some r1 →
          r1.heap[p]? = some { queue := q, holders := 0, alive := false } ∨
            ∃ rem, r1.m_Access = some rem ∧ p ∈ rem.rest ∧ r1.heap[p]? = some cell) ∧
        (∀ (r0 r1 : QueueManager) (rem : Removal), QueueManager.Reachable r0 →
          r0.m_Access = some rem → rem.caller p = caller → p ∈ rem.rest →
          r0.heap[p]? = some cell → r0.resume = some r1 →
          r1.heap[p]? = some { queue := q, holders := 0, alive := false } ∨
            ∃ rem1, r1.m_Access = some rem1 ∧ p ∈ rem1.rest ∧ r1.heap[p]? = some cell)) ∧
    (∀ (callers : Nat → ThreadId),
      (∀ (q : Nat) (c : Cell), r.heap[q]? = some c → c.queue.queue.m_Mutex = none) →
      ∃ r1, QueueManager.KillAndForgetAll callers r = some r1) := by
  have hs := Sound_of_Reachable r hr
  have hlt := (List.getElem?_eq_some.1 hcell).1
  have hmem := find_mem r name p hreg
  obtain ⟨c2, g1, galive, _⟩ := hs.cells name p hmem
  rw [hcell] at g1
  cases g1
  refine ⟨?_, ?_, ?_⟩
  · intro hh
    refine ⟨?_, ?_, ?_, ?_, ?_⟩
    · intro caller
      refine ⟨_, forget_owned caller r name p cell hreg hcell hh galive, rfl, ?_, rfl⟩
      unfold QueueManager.IsExists
      rw [IsExists_eq]
      have : QueueManager.find
          { m_QueuesStore := r.m_QueuesStore.filter fun e => !(e.1 == name)
            heap := r.heap
            m_Access := none } name = none := by
        rw [find_none]
        intro e he
        rw [List.mem_filter] at he
        simpa using he.2
      rw [this]
      rfl
    · intro caller other r1 h
      unfold QueueManager.ForgetByName QueueManager._ForgetByName at h
      cases hf : r.find other with
      | none =>
        simp only [hf, Option.some.injEq] at h
        subst h
        exact hcell
      | some q =>
        simp only [hf] at h
        have := releaseAll_held _ _ _ r1 p cell h hcell hh
        exact this
    · intro caller r1 h
      unfold QueueManager.ForgetMainQueue QueueManager.ForgetByName
        QueueManager._ForgetByName at h
      cases hf : r.find mainQueueName with
      | none =>
        simp only [hf, Option.some.injEq] at h
        subst h
        exact hcell
      | some q =>
        simp only [hf] at h
        have := releaseAll_held _ _ _ r1 p cell h hcell hh
        exact this
    · intro callers r1 h
      have := releaseAll_held _ _ _ r1 p cell h hcell hh
      exact this
    · intro r0 r1 h0 h
      exact resume_held r0 r1 p cell h h0 hh
  · intro h0 hbusy hmutex caller
    obtain ⟨q, hq, k1, k2, _, _, k5⟩ := destructor_Busy caller cell.queue hbusy hmutex
    have hF := forget_unowned caller r name p cell q hreg hcell h0 hq
    have hget : (List.set r.heap p { queue := q, holders := 0, alive := false })[p]? =
        some { queue := q, holders := 0, alive := false } := by
      simp only [List.getElem?_set_self hlt]
    refine ⟨q, hq, k1, k2, k5, destructor_terminated caller cell.queue q hq, ?_, ?_, ?_, ?_⟩
    · refine ⟨_, hF, hget, ?_, ?_⟩
      · cases cell.queue.joined <;> simp
      · intro hj
        have hw : QueueManager.waits
            { m_QueuesStore := r.m_QueuesStore.filter fun e => !(e.1 == name)
              heap := r.heap.set p { queue := q, holders := 0, alive := false }
              m_Access :=
                if cell.queue.joined = true then none
                else some { joining := p, rest := [], caller := fun _ => caller } } p =
            true := by
          unfold QueueManager.waits
          simp only [hget]
          rw [destructor_joined caller cell.queue q hq, hj]
          rfl
        refine ⟨hw, ?_⟩
        refine (resume_forget _ p (fun _ => caller) ?_).1 hw
        simp [hj]
    · intro hm
      subst hm
      exact ⟨_, hF, hget⟩
    · intro callers r1 hcaller h
      unfold QueueManager.KillAndForgetAll QueueManager._KillAndForgetAll at h
      have hp : p ∈ r.m_QueuesStore.map Prod.snd := List.mem_map.2 ⟨_, hmem, rfl⟩
      have := releaseAll_spec callers _ { r with m_QueuesStore := [] } r1 p cell
        (Sound_nodup r hs) hp hcell h0 h
      rw [hcaller, hq] at this
      rcases this with ⟨q2, e1, e2⟩ | g
      · cases e1
        exact Or.inl e2
      · exact Or.inr g
    · intro r0 r1 rem hr0 ha hcaller hp hc0 h
      have hs0 := Sound_of_Reachable r0 hr0
      unfold QueueManager.resume at h
      simp only [ha] at h
      split at h
      · cases h
      · have := releaseAll_spec rem.caller _ _ r1 p cell (hs0.access rem ha).1 hp hc0 h0 h
        rw [hcaller, hq] at this
        rcases this with ⟨q2, e1, e2⟩ | g
        · cases e1
          exact Or.inl e2
        · exact Or.inr g
  · intro callers hall
    unfold QueueManager.KillAndForgetAll QueueManager._KillAndForgetAll
    exact releaseAll_enabled callers _ _ hall

theorem removal_spares_only_owned_queues_witness :
    QueueManager.calls QueueManager.init busyHeldCalls = some busyHeld ∧
    (∃ r1, QueueManager.ForgetByName (ThreadId.user 1) "worker" busyHeld = some r1 ∧
      r1.heap = busyHeld.heap ∧ r1.IsExists "worker" = false ∧ r1.m_Access = none) ∧
    (∃ r1, QueueManager.KillAndForgetAll (fun _ => ThreadId.user 1) busyHeld = some r1 ∧
      r1.heap[0]? = busyHeld.heap[0]?) ∧
    ∃ q, Queue.destructor (ThreadId.user 1)
        { queue :=
            { m_Name := "worker"
              m_ExceptionHandler := none
              m_ExecutionPolicy := ExecutionPolicy.BackgroundThread (some 0)
              m_State := eAsyncState.Busy
              m_Id := some (ThreadId.spawned 0)
              m_TaskQueue := [some { label := 5, raises := none }]
              m_Mutex := none }
          stopStates := [false]
          loops := [{ tid := ThreadId.spawned 0, stopToken := 0, pc := PC.waiting }]
          trace := []
          terminated := false } = some q ∧
      Queue.GetState q = eAsyncState.Stopping ∧ q.queue.m_TaskQueue = [] ∧
      ∃ r1, QueueManager.ForgetByName (ThreadId.user 1) "worker" busyRegistered = some r1 ∧
        r1.heap[0]? = some { queue := q, holders := 0, alive := false } ∧
        r1.waits 0 = true ∧ r1.call Call.resume = none :=
  ⟨rfl,
    ((removal_spares_only_owned_queues busyHeld "worker" 0 _ ⟨busyHeldCalls, rfl⟩ rfl rfl).1
      (by decide)).1 (ThreadId.user 1),
    ⟨_, rfl,
      ((removal_spares_only_owned_queues busyHeld "worker" 0 _ ⟨busyHeldCalls, rfl⟩ rfl rfl).1
        (by decide)).2.2.2.1 (fun _ => ThreadId.user 1) _ rfl⟩,
    match (removal_spares_only_owned_queues busyRegistered "worker" 0 _
      ⟨busyRegisteredCalls, rfl⟩ rfl rfl).2.1 rfl rfl rfl (ThreadId.user 1) with
    | ⟨q, h1, h2, h3, _, _, ⟨r1, g1, g2, _, g4⟩, _⟩ =>
      ⟨q, h1, h2, h3, r1, g1, g2, g4 rfl⟩⟩

/-- C16, as stated, fails.  The queue "worker" is registered, `Busy`, owned
by no caller, and its worker is inside the task 5.  The task calls
`ForgetByName("worker")`: the worker thread drops the only owning pointer,
runs the destructor of the queue and there joins itself, which terminates
the process.  The call does not return, and no step of the program follows
it. -/
theorem ForgetByName_from_the_task_of_the_queue_terminates :
    QueueManager.calls QueueManager.init inTaskCalls = some inTaskRegistered ∧
    inTaskRegistered.IsExists "worker" = true ∧
    inTaskRegistered.terminated = false ∧
    (inTaskRegistered.heap[0]?.map fun cell =>
      (cell.alive, cell.holders, Queue.GetState cell.queue,
        Queue.GetWorkThreadId cell.queue)) =
      some (true, 0, eAsyncState.Busy, some (ThreadId.spawned 0)) ∧
    ∃ r1, inTaskRegistered.call (Call.ForgetByName (ThreadId.spawned 0) "worker") = some r1 ∧
      r1.terminated = true ∧ ∀ c, r1.call c = none :=
  ⟨rfl, rfl, rfl, rfl, _, rfl, rfl, fun _ => rfl⟩

/-- C16, amended. In every reachable registry and for every calling thread.
The step of `ForgetByName(n)` leaves `n` unregistered; every other name keeps
its `IsExists` value and its pointer, and the object registered under it is
as before.  On a name that is not registered the call returns and leaves the
registry as it is.  The call returns at once, with the registry free, when a
caller owns the queue registered under `n`, or when the mutex of that queue
is free and the queue has no thread that has not returned from `_Routine`.
When nobody owns the queue, its mutex is free and its thread has not
returned: called by that thread, the call terminates the process and no step
follows; called by another thread, the caller waits inside the registry for
the thread of the queue: until the continuation of the caller, no step
changes the registered names or frees the registry, the continuation is not
enabled as long as the thread of the queue has not returned, and once it has
the continuation returns, frees the registry and changes nothing else.
When moreover the queue is `Busy` and the process runs, at most four steps
of the thread of the queue lead to a registry where the process is
terminated, which takes a handler that throws, or where the continuation
returns: then `n` is not registered, and every other name keeps its
`IsExists` value and its pointer.  After the step of `KillAndForgetAll` no
name is registered, and none is until a queue is created; the call has
returned, or the caller waits for a thread that has not returned; it returns
at once when each registered queue is owned by a caller or has its mutex
free and no thread that has not returned. -/
theorem ForgetByName_removes_exactly_the_name (r : QueueManager) (n : String)
    (caller : ThreadId) (hr : QueueManager.Reachable r) :
    (∀ r1, QueueManager.ForgetByName caller n r = some r1 →
      r1.IsExists n = false ∧
      ∀ m, m ≠ n →
        r1.IsExists m = r.IsExists m ∧ r1.find m = r.find m ∧
        ∀ (q : Nat) (cell : Cell), r.find m = some q → r.heap[q]? = some cell →
          r1.heap[q]? = some cell) ∧
    (r.IsExists n = false → QueueManager.ForgetByName caller n r = some r) ∧
    (∀ (p : Nat) (cell : Cell), r.find n = some p → r.heap[p]? = some cell →
      (0 < cell.holders ∨ (cell.queue.queue.m_Mutex = none ∧ cell.queue.joined = true)) →
      ∃ r1, QueueManager.ForgetByName caller n r = some r1 ∧ r1.m_Access = none) ∧
    (∀ (p : Nat) (cell : Cell) (worker : Nat), r.find n = some p → r.heap[p]? = some cell →
      cell.holders = 0 → cell.queue.queue.m_Mutex = none →
      cell.queue.queue.m_ExecutionPolicy = ExecutionPolicy.BackgroundThread (some worker) →
      cell.queue.joined = false →
      ∃ r1, QueueManager.ForgetByName caller n r = some r1 ∧
        (caller = ThreadId.spawned worker → r1.terminated = true ∧ ∀ c, r1.call c = none) ∧
        (caller ≠ ThreadId.spawned worker →
          r1.terminated = r.terminated ∧
          r1.m_Access = some { joining := p, rest := [], caller := fun _ => caller } ∧
          ∀ (cs : List Call) (r2 : QueueManager), Call.resume ∉ cs → r1.calls cs = some r2 →
            r2.m_QueuesStore = r1.m_QueuesStore ∧ r2.m_Access = r1.m_Access ∧
            (r2.waits p = true → r2.call Call.resume = none) ∧
            (r2.waits p = false → r2.terminated = false →
              r2.call Call.resume = some { r2 with m_Access := none }))) ∧
    (∀ (p : Nat) (cell : Cell) (worker : Nat), r.find n = some p → r.heap[p]? = some cell →
      cell.holders = 0 → cell.queue.queue.m_Mutex = none →
      cell.queue.queue.m_ExecutionPolicy = ExecutionPolicy.BackgroundThread (some worker) →
      cell.queue.joined = false → cell.queue.queue.m_State = eAsyncState.Busy →
      caller ≠ ThreadId.spawned worker → r.terminated = false →
      ∃ r1 k r2, QueueManager.ForgetByName caller n r = some r1 ∧ k ≤ 4 ∧
        r1.calls (List.replicate k (Call.queue p (Event.advance worker))) = some r2 ∧
        (HandlerReturns cell.queue.queue.m_ExceptionHandler → r2.terminated = false) ∧
        (r2.terminated = false →
          ∃ r3, r2.call Call.resume = some r3 ∧ r3.m_Access = none ∧
            r3.IsExists n = false ∧
            ∀ m, m ≠ n → r3.IsExists m = r.IsExists m ∧ r3.find m = r.find m)) ∧
    (∀ (callers : Nat → ThreadId) (r1 : QueueManager),
      QueueManager.KillAndForgetAll callers r = some r1 →
      (∀ m, r1.IsExists m = false) ∧
      (r1.m_Access = none ∨ ∃ rem, r1.m_Access = some rem ∧ r1.waits rem.joining = true) ∧
      ∀ (cs : List Call) (r2 : QueueManager), (∀ c ∈ cs, c.isCreate = false) →
        r1.calls cs = some r2 → ∀ m, r2.IsExists m = false) ∧
    (∀ (callers : Nat → ThreadId),
      (∀ (m : String) (p : Nat) (cell : Cell), r.find m = some p → r.heap[p]? = some cell →
        (0 < cell.holders ∨
          (cell.queue.queue.m_Mutex = none ∧ cell.queue.joined = true))) →
      ∃ r1, QueueManager.KillAndForgetAll callers r = some r1 ∧ r1.m_Access = none ∧
        ∀ m, r1.IsExists m = false) := by
  have hs := Sound_of_Reachable r hr
  have hlive := Live_of_Reachable r hr
  have hframe : ∀ r1, QueueManager.ForgetByName caller n r = some r1 →
      r1.IsExists n = false ∧
      ∀ m, m ≠ n →
        r1.IsExists m = r.IsExists m ∧ r1.find m = r.find m ∧
        ∀ (q : Nat) (cell : Cell), r.find m = some q → r.heap[q]? = some cell →
          r1.heap[q]? = some cell := by
    intro r1 h
    have hstore := ForgetByName_store caller r r1 n h
    have hfind : ∀ m, m ≠ n → r1.find m = r.find m := by
      intro m hm
      have := find_filter_ne r n m hm
      unfold QueueManager.find at this ⊢
      rw [hstore]
      exact this
    constructor
    · unfold QueueManager.IsExists
      rw [IsExists_eq]
      have : r1.find n = none := by
        rw [find_none, hstore]
        intro e he
        rw [List.mem_filter] at he
        simpa using he.2
      rw [this]
      rfl
    · intro m hm
      refine ⟨?_, hfind m hm, ?_⟩
      · unfold QueueManager.IsExists
        rw [IsExists_eq, IsExists_eq, hfind m hm]
      · intro q cell hq hcell
        have hne : r.find n ≠ some q := by
          intro hf
          exact hm (Sound_pointers r hs m n q (find_mem r m q hq) (find_mem r n q hf))
        rw [ForgetByName_other caller r r1 n q h hne]
        exact hcell
  have hexists : ∀ (q : QueueManager), q.m_QueuesStore = [] → ∀ m, q.IsExists m = false := by
    intro q hq m
    unfold QueueManager.IsExists QueueManager._IsExists
    rw [hq]
    rfl
  refine ⟨hframe, ?_, ?_, ?_, ?_, ?_, ?_⟩
  · intro hn
    have hnone : r.find n = none := by
      have := IsExists_eq r n
      unfold QueueManager.IsExists at hn
      rw [hn] at this
      cases hf : r.find n with
      | none => rfl
      | some p => simp [hf] at this
    unfold QueueManager.ForgetByName QueueManager._ForgetByName
    rw [hnone]
  · intro p cell hf hc hcase
    obtain ⟨c2, g1, galive, _⟩ := hs.cells n p (find_mem r n p hf)
    rw [hc] at g1
    cases g1
    by_cases hh : 0 < cell.holders
    · exact ⟨_, forget_owned caller r n p cell hf hc hh galive, rfl⟩
    · rcases hcase with hcase | ⟨hm, hj⟩
      · exact absurd hcase hh
      · obtain ⟨q, hq⟩ := destructor_enabled caller cell.queue hm
        refine ⟨_, forget_unowned caller r n p cell q hf hc (by omega) hq, ?_⟩
        simp [hj]
  · intro p cell worker hf hc h0 hm hpol hj
    have hlt := (List.getElem?_eq_some.1 hc).1
    obtain ⟨q, hq⟩ := destructor_enabled caller cell.queue hm
    have hF := forget_unowned caller r n p cell q hf hc h0 hq
    simp only [hj, Bool.false_eq_true, if_false] at hF
    refine ⟨_, hF, ?_, ?_⟩
    · intro hself
      have hqt : q.terminated = true := by
        rw [destructor_terminated caller cell.queue q hq]
        exact Or.inr ⟨worker, hpol, hself, hj⟩
      have hterm : QueueManager.terminated
          { m_QueuesStore := r.m_QueuesStore.filter fun e => !(e.1 == n)
            heap := r.heap.set p { queue := q, holders := 0, alive := false }
            m_Access := some { joining := p, rest := [], caller := fun _ => caller } } =
          true :=
        terminated_of_cell _ p { queue := q, holders := 0, alive := false }
          (by simp only [List.getElem?_set_self hlt]) hqt
      exact ⟨hterm, fun c => call_terminated _ c hterm⟩
    · intro hne
      have hqt : q.terminated = cell.queue.terminated := by
        have h1 := destructor_terminated caller cell.queue q hq
        cases hct : cell.queue.terminated with
        | true => exact h1.2 (Or.inl hct)
        | false =>
          cases hqt : q.terminated with
          | false => rfl
          | true =>
            rcases h1.1 hqt with g | ⟨w2, hw2, hcw, _⟩
            · rw [hct] at g
              cases g
            · rw [hpol] at hw2
              cases hw2
              exact absurd hcw hne
      refine ⟨?_, rfl, ?_⟩
      · cases hrt : r.terminated with
        | true =>
          cases hct : cell.queue.terminated with
          | true =>
            exact terminated_of_cell _ p { queue := q, holders := 0, alive := false }
              (by simp only [List.getElem?_set_self hlt]) (by rw [hqt, hct])
          | false =>
            have hex : ∃ (p2 : Nat) (c2 : Cell),
                r.heap[p2]? = some c2 ∧ c2.queue.terminated = true := by
              by_contra hcon
              have : r.terminated = false := by
                rw [terminated_eq_false]
                intro p2 c2 hc2
                cases hc2t : c2.queue.terminated with
                | false => rfl
                | true => exact absurd ⟨p2, c2, hc2, hc2t⟩ hcon
              rw [this] at hrt
              cases hrt
            obtain ⟨p2, c2, hc2, hc2t⟩ := hex
            have hp2 : p ≠ p2 := by
              intro e
              subst e
              rw [hc] at hc2
              cases hc2
              rw [hct] at hc2t
              cases hc2t
            exact terminated_of_cell _ p2 c2
              (by simp only [List.getElem?_set_ne hp2]; exact hc2) hc2t
        | false =>
          rw [terminated_eq_false] at hrt ⊢
          intro p2 c2 hc2
          by_cases hp2 : p = p2
          · subst hp2
            simp only [List.getElem?_set_self hlt, Option.some.injEq] at hc2
            subst hc2
            simp only
            rw [hqt]
            exact hrt p cell hc
          · simp only [List.getElem?_set_ne hp2] at hc2
            exact hrt p2 c2 hc2
      · intro cs r2 hcs hrun
        obtain ⟨g1, g2, _⟩ := calls_waiting cs _ r2 _ rfl hcs hrun
        obtain ⟨k1, k2⟩ := resume_forget r2 p (fun _ => caller) g2
        exact ⟨g1, g2, k1, k2⟩
  · intro p cell worker hf hc h0 hm hpol hj hb hne hterm
    obtain ⟨c2, g1, galive, _⟩ := hs.cells n p (find_mem r n p hf)
    rw [hc] at g1
    cases g1
    obtain ⟨q, hq⟩ := destructor_enabled caller cell.queue hm
    have hF := forget_unowned caller r n p cell q hf hc h0 hq
    simp only [hj, Bool.false_eq_true, if_false] at hF
    obtain ⟨k, r2, hk, hrun, gstore, gaccess, gret, gwait⟩ :=
      destroyed_worker_returns r p cell q worker caller
        (r.m_QueuesStore.filter fun e => !(e.1 == n))
        (some { joining := p, rest := [], caller := fun _ => caller })
        (hlive p cell hc galive) hterm hc hb hm hpol hj hne hq
    refine ⟨_, k, r2, hF, hk, hrun, gret, ?_⟩
    intro ht2
    have hres := (resume_forget r2 p (fun _ => caller) gaccess).2 (gwait ht2) ht2
    refine ⟨_, hres, rfl, ?_⟩
    obtain ⟨f1, f2⟩ := hframe _ hF
    have hI : ∀ m, QueueManager.IsExists { r2 with m_Access := none } m =
        QueueManager.IsExists
          { m_QueuesStore := r.m_QueuesStore.filter fun e => !(e.1 == n)
            heap := r.heap.set p { queue := q, holders := 0, alive := false }
            m_Access := some { joining := p, rest := [], caller := fun _ => caller } } m := by
      intro m
      unfold QueueManager.IsExists QueueManager._IsExists
      simp only [gstore]
    have hfd : ∀ m, QueueManager.find { r2 with m_Access := none } m =
        QueueManager.find
          { m_QueuesStore := r.m_QueuesStore.filter fun e => !(e.1 == n)
            heap := r.heap.set p { queue := q, holders := 0, alive := false }
            m_Access := some { joining := p, rest := [], caller := fun _ => caller } } m := by
      intro m
      unfold QueueManager.find
      simp only [gstore]
    refine ⟨by rw [hI]; exact f1, ?_⟩
    intro m hm
    rw [hI, hfd]
    exact ⟨(f2 m hm).1, (f2 m hm).2.1⟩
  · intro callers r1 h
    unfold QueueManager.KillAndForgetAll QueueManager._KillAndForgetAll at h
    have hstore := releaseAll_store _ _ _ r1 h
    refine ⟨hexists r1 hstore, ?_, ?_⟩
    · rcases releaseAll_access _ _ _ r1 h with g | ⟨p, before, rest, _, g2, g3⟩
      · exact Or.inl g
      · exact Or.inr ⟨_, g2, g3⟩
    · intro cs r2 hcs hrun
      exact hexists r2 (calls_store_nil cs r1 r2 hstore hcs hrun)
  · intro callers hall
    unfold QueueManager.KillAndForgetAll QueueManager._KillAndForgetAll
    obtain ⟨r1, g1, g2, g3⟩ := releaseAll_returns callers (r.m_QueuesStore.map Prod.snd)
      { r with m_QueuesStore := [] } (by
        intro p hp cell hc
        obtain ⟨e, he, rfl⟩ := List.mem_map.1 hp
        obtain ⟨c2, k1, kalive, _⟩ := hs.cells e.1 e.2 he
        have hc1 : r.heap[e.2]? = some cell := hc
        rw [hc1] at k1
        cases k1
        have hfind := find_of_mem r.m_QueuesStore r.heap r.m_Access hs.keys e.1 e.2 he
        rcases hall e.1 e.2 cell hfind hc1 with g | g
        · exact Or.inl ⟨g, kalive⟩
        · exact Or.inr g)
    exact ⟨r1, g1, g2, hexists r1 g3⟩

theorem ForgetByName_removes_exactly_the_name_witness :
    QueueManager.calls QueueManager.init busyRegisteredCalls = some busyRegistered ∧
    busyRegistered.call (Call.ForgetByName (ThreadId.user 1) "worker") = some busyForgotten ∧
    busyForgotten.call Call.resume = none ∧
    busyForgotten.calls workerReturns = some busyJoined ∧
    busyJoined.call Call.resume = some { busyJoined with m_Access := none } ∧
    (∃ r1 k r2,
      QueueManager.ForgetByName (ThreadId.user 1) "worker" busyRegistered = some r1 ∧ k ≤ 4 ∧
      r1.calls (List.replicate k (Call.queue 0 (Event.advance 0))) = some r2 ∧
      r2.terminated = false ∧
      ∃ r3, r2.call Call.resume = some r3 ∧ r3.m_Access = none ∧
        r3.IsExists "worker" = false) ∧
    namedRegistry.IsExists "darkness.concurrency.mainqueue" = true ∧
    (∃ r1,
      QueueManager.ForgetByName (ThreadId.user 0) "darkness.concurrency.mainqueue"
        namedRegistry = some r1 ∧
      r1.m_Access = none ∧
      r1.IsExists "darkness.concurrency.mainqueue" = false ∧
      r1.IsExists "Darkness.Concurrency.MainQueue" = true ∧
      r1.find "MainQueue" = some 1) :=
  ⟨rfl, rfl, rfl, rfl, rfl,
    match (ForgetByName_removes_exactly_the_name busyRegistered "worker" (ThreadId.user 1)
      ⟨busyRegisteredCalls, rfl⟩).2.2.2.2.1 0 _ 0 rfl rfl rfl rfl rfl rfl rfl (by decide) rfl with
    | ⟨r1, k, r2, h1, hk, h2, h3, h4⟩ =>
      match h4 (h3 (fun _ hh => by cases hh)) with
      | ⟨r3, g1, g2, g3, _⟩ =>
        ⟨r1, k, r2, h1, hk, h2, h3 (fun _ hh => by cases hh), r3, g1, g2, g3⟩,
    rfl,
    match (ForgetByName_removes_exactly_the_name namedRegistry "darkness.concurrency.mainqueue"
      (ThreadId.user 0) ⟨namedCalls, rfl⟩).2.2.1 2 _ rfl rfl (Or.inr ⟨rfl, rfl⟩) with
    | ⟨r1, h1, h2⟩ =>
      ⟨r1, h1, h2,
        ((ForgetByName_removes_exactly_the_name namedRegistry "darkness.concurrency.mainqueue"
          (ThreadId.user 0) ⟨namedCalls, rfl⟩).1 r1 h1).1,
        (((ForgetByName_removes_exactly_the_name namedRegistry "darkness.concurrency.mainqueue"
          (ThreadId.user 0) ⟨namedCalls, rfl⟩).1 r1 h1).2 "Darkness.Concurrency.MainQueue"
            (by decide)).1.trans rfl,
        (((ForgetByName_removes_exactly_the_name namedRegistry "darkness.concurrency.mainqueue"
          (ThreadId.user 0) ⟨namedCalls, rfl⟩).1 r1 h1).2 "MainQueue"
            (by decide)).2.1.trans rfl⟩⟩

/-- C17, the code at the failing input. A timer whose task throws at its
first invocation and would return at every later one: the handler is called
with the failure, then `_Routine` returns, because the `try` block encloses
the whole loop.  The state is `Stopped`, the task was invoked once, and as
long as `Start` is not called again nothing more is observed.  The same
happens when the delay provider throws at its first call: the task is never
invoked. -/
theorem task_failure_ends_the_timer_loop :
    (∃ t, AsyncTimer.run failingTimer (startAndAdvance 6) = some t ∧
      AsyncTimer.GetState t = eAsyncState.Stopped ∧
      t.contexts = [{ stop := false, pc := AsyncTimer.PC.done }] ∧
      t.trace = [AsyncTimer.Obs.invoke 0, AsyncTimer.Obs.handle 7] ∧
      t.invoked = 1 ∧ t.terminated = false ∧
      ∀ (evs : List AsyncTimer.Event) (t2 : AsyncTimer),
        (∀ e ∈ evs, AsyncTimer.Event.isStart e = false) → AsyncTimer.run t evs = some t2 →
        t2.trace = [AsyncTimer.Obs.invoke 0, AsyncTimer.Obs.handle 7] ∧
          AsyncTimer.GetState t2 = eAsyncState.Stopped) ∧
    (AsyncTimer.ofProvider (some fun n => if n = 0 then Except.error 7 else Except.ok 10)
        (some fun _ => none) "timer" (some fun _ => none)).1 =
      Except.ok failingProviderTimer ∧
    (∃ t, AsyncTimer.run failingProviderTimer (startAndAdvance 3) = some t ∧
      AsyncTimer.GetState t = eAsyncState.Stopped ∧
      t.contexts = [{ stop := false, pc := AsyncTimer.PC.done }] ∧
      t.trace = [AsyncTimer.Obs.provide 0, AsyncTimer.Obs.handle 7] ∧
      t.invoked = 0 ∧ t.terminated = false ∧
      ∀ (evs : List AsyncTimer.Event) (t2 : AsyncTimer),
        (∀ e ∈ evs, AsyncTimer.Event.isStart e = false) → AsyncTimer.run t evs = some t2 →
        t2.trace = [AsyncTimer.Obs.provide 0, AsyncTimer.Obs.handle 7] ∧
          AsyncTimer.GetState t2 = eAsyncState.Stopped) := by
  have key : ∀ (t : AsyncTimer) (evs : List AsyncTimer.Event) (t2 : AsyncTimer),
      (∀ e ∈ evs, AsyncTimer.Event.isStart e = false) → AsyncTimer.run t evs = some t2 →
      t.contexts = [{ stop := false, pc := AsyncTimer.PC.done }] →
      AsyncTimer.GetState t = eAsyncState.Stopped → t.terminated = false → t2 = t := by
    intro t evs t2 hns hr hc hs hterm
    exact timer_Halted_run evs t t2 ⟨by rw [hc]; simp, hs, hterm⟩ hns hr
  refine ⟨⟨_, rfl, rfl, rfl, rfl, rfl, rfl, ?_⟩, rfl, ⟨_, rfl, rfl, rfl, rfl, rfl, rfl, ?_⟩⟩
  · intro evs t2 hns hr
    rw [key _ evs t2 hns hr rfl rfl rfl]
    exact ⟨rfl, rfl⟩
  · intro evs t2 hns hr
    rw [key _ evs t2 hns hr rfl rfl rfl]
    exact ⟨rfl, rfl⟩
/-- C18, as stated, fails.  The task of a timer throws 7 and the exception
handler, called with 7, throws itself.  The exception leaves `_Routine`,
which is `noexcept`: the process is terminated.  The handler was called once,
the state is still `Busy`, not `Stopped`, and no step follows. -/
theorem timer_handler_failure_terminates_the_process :
    AsyncTimer.run doomedTimer (startAndAdvance 4) = some doomedTimerInTask ∧
    ∃ t, AsyncTimer.run doomedTimerInTask
        [AsyncTimer.Event.advance 0, AsyncTimer.Event.advance 0] = some t ∧
      t.terminated = true ∧
      AsyncTimer.GetState t = eAsyncState.Busy ∧
      AsyncTimer.GetState t ≠ eAsyncState.Stopped ∧
      t.trace = [AsyncTimer.Obs.invoke 0, AsyncTimer.Obs.handle 7] ∧
      ∀ e, AsyncTimer.step t e = none :=
  ⟨rfl, _, rfl, rfl, rfl, by decide, rfl, fun _ => rfl⟩

/-- C18, amended. When the task of a timer throws `f`, the next step of the
thread leaves the loop with the exception captured.  When no handler is set,
or the handler called with `f` returns, the step after it calls the handler
with `f`, once, if one is set, and returns from `_Routine`: the state is
then `Stopped`, no call of `Stop` was made, the task is not invoked again
and further steps of this thread change nothing.  When the handler called
with `f` throws, it was called once, the process is terminated, and the
state is what it was, not `Stopped` by this thread. -/
theorem timer_task_failure_stops_the_timer (t : AsyncTimer) (i : Nat)
    (w : AsyncTimer._ExecutionContext) (b : Bool) (f : Failure) (p : AsyncTimer._Params)
    (ht : t.terminated = false) (hw : t.contexts[i]? = some w)
    (hpc : w.pc = AsyncTimer.PC.inTask b (some f)) (hp : t.m_Params = some p) :
    ∃ t1 t2, AsyncTimer.step t (AsyncTimer.Event.advance i) = some t1 ∧
      AsyncTimer.step t1 (AsyncTimer.Event.advance i) = some t2 ∧
      t1.contexts[i]? = some { w with pc := AsyncTimer.PC.caught f } ∧
      t1.trace = t.trace ∧
      t1.terminated = false ∧
      AsyncTimer.GetState t1 = AsyncTimer.GetState t ∧
      t2.trace = t.trace ++
        (match p.exceptionHandler with
          | some _ => [AsyncTimer.Obs.handle f]
          | none => []) ∧
      t2.invoked = t.invoked ∧
      ((∀ handler, p.exceptionHandler = some handler → handler f = none) →
        t2.contexts[i]? = some { w with pc := AsyncTimer.PC.done } ∧
        AsyncTimer.GetState t2 = eAsyncState.Stopped ∧
        t2.terminated = false ∧
        ∀ n, AsyncTimer.advance t2 i n = t2) ∧
      (∀ handler g, p.exceptionHandler = some handler → handler f = some g →
        t2.terminated = true ∧
        AsyncTimer.GetState t2 = AsyncTimer.GetState t ∧
        ∀ e, AsyncTimer.step t2 e = none) := by
  have hlt : i < t.contexts.length := (List.getElem?_eq_some.1 hw).1
  have h1 : AsyncTimer._Routine t i = AsyncTimer.setPc t i (AsyncTimer.PC.caught f) := by
    simp only [AsyncTimer._Routine, hw, hp, hpc]
  have hw1 : (AsyncTimer.setPc t i (AsyncTimer.PC.caught f)).contexts[i]? =
      some { w with pc := AsyncTimer.PC.caught f } := timer_modify_self _ _ i w hw
  have hstep1 : AsyncTimer.step t (AsyncTimer.Event.advance i) =
      some (AsyncTimer.setPc t i (AsyncTimer.PC.caught f)) := by
    simp [AsyncTimer.step, ht, hlt, h1]
  have hlt1 : i < (AsyncTimer.setPc t i (AsyncTimer.PC.caught f)).contexts.length := by
    simp [timer_setPc_contexts, hlt]
  have hstay : ∀ t2 : AsyncTimer, (∃ v, t2.contexts[i]? = some v ∧ v.pc = AsyncTimer.PC.done) →
      ∀ n, AsyncTimer.advance t2 i n = t2 := by
    intro t2 ⟨v, hv, hd⟩ n
    induction n with
    | zero => rfl
    | succ n ih =>
      simp only [AsyncTimer.advance]
      split
      · rfl
      · obtain ⟨_, _, hshape⟩ := timer_Routine_shape t2 i v hv
        rcases hshape with ⟨_, hR⟩ | ⟨hnd, _⟩ | ⟨hnd, _⟩
        · rw [hR]
          exact ih
        · exact absurd hd hnd
        · exact absurd hd hnd
  cases hhandler : p.exceptionHandler with
  | none =>
    have h2 : AsyncTimer._Routine (AsyncTimer.setPc t i (AsyncTimer.PC.caught f)) i =
        AsyncTimer.setPc
          (AsyncTimer.scopeExit (AsyncTimer.setPc t i (AsyncTimer.PC.caught f)))
          i AsyncTimer.PC.done := by
      simp only [AsyncTimer._Routine, hw1, timer_setPc_params, hp, hhandler]
    have hw2 : (AsyncTimer.setPc
        (AsyncTimer.scopeExit (AsyncTimer.setPc t i (AsyncTimer.PC.caught f)))
        i AsyncTimer.PC.done).contexts[i]? = some { w with pc := AsyncTimer.PC.done } :=
      timer_modify_self (AsyncTimer.setPc t i (AsyncTimer.PC.caught f)).contexts
        (fun w => { w with pc := AsyncTimer.PC.done }) i
        { w with pc := AsyncTimer.PC.caught f } hw1
    refine ⟨AsyncTimer.setPc t i (AsyncTimer.PC.caught f),
      AsyncTimer.setPc
        (AsyncTimer.scopeExit (AsyncTimer.setPc t i (AsyncTimer.PC.caught f)))
        i AsyncTimer.PC.done, hstep1, ?_, hw1, rfl, ht, rfl, ?_, rfl, ?_, ?_⟩
    · simp only [AsyncTimer.step, timer_setPc_terminated, ht, Bool.false_eq_true, if_false,
        hlt1, if_true, h2]
    · simp [AsyncTimer.scopeExit]
    · intro _
      exact ⟨hw2, rfl, ht, hstay _ ⟨_, hw2, rfl⟩⟩
    · intro handler g hh
      cases hh
  | some handler =>
    cases hret : handler f with
    | none =>
      have h2 : AsyncTimer._Routine (AsyncTimer.setPc t i (AsyncTimer.PC.caught f)) i =
          AsyncTimer.setPc
            (AsyncTimer.scopeExit
              { AsyncTimer.setPc t i (AsyncTimer.PC.caught f) with
                trace := t.trace ++ [AsyncTimer.Obs.handle f] })
            i AsyncTimer.PC.done := by
        simp only [AsyncTimer._Routine, hw1, timer_setPc_params, hp, hhandler, hret,
          timer_setPc_trace]
      have hw2 : (AsyncTimer.setPc
          (AsyncTimer.scopeExit
            { AsyncTimer.setPc t i (AsyncTimer.PC.caught f) with
              trace := t.trace ++ [AsyncTimer.Obs.handle f] })
          i AsyncTimer.PC.done).contexts[i]? = some { w with pc := AsyncTimer.PC.done } :=
        timer_modify_self (AsyncTimer.setPc t i (AsyncTimer.PC.caught f)).contexts
          (fun w => { w with pc := AsyncTimer.PC.done }) i
          { w with pc := AsyncTimer.PC.caught f } hw1
      refine ⟨AsyncTimer.setPc t i (AsyncTimer.PC.caught f),
        AsyncTimer.setPc
          (AsyncTimer.scopeExit
            { AsyncTimer.setPc t i (AsyncTimer.PC.caught f) with
              trace := t.trace ++ [AsyncTimer.Obs.handle f] })
          i AsyncTimer.PC.done, hstep1, ?_, hw1, rfl, ht, rfl, rfl, rfl, ?_, ?_⟩
      · simp only [AsyncTimer.step, timer_setPc_terminated, ht, Bool.false_eq_true, if_false,
          hlt1, if_true, h2]
      · intro _
        exact ⟨hw2, rfl, ht, hstay _ ⟨_, hw2, rfl⟩⟩
      · intro handler2 g hh hg
        cases hh
        rw [hret] at hg
        cases hg
    | some g0 =>
      have h2 : AsyncTimer._Routine (AsyncTimer.setPc t i (AsyncTimer.PC.caught f)) i =
          { AsyncTimer.setPc t i (AsyncTimer.PC.caught f) with
            trace := t.trace ++ [AsyncTimer.Obs.handle f]
            terminated := true } := by
        simp only [AsyncTimer._Routine, hw1, timer_setPc_params, hp, hhandler, hret,
          timer_setPc_trace]
      refine ⟨AsyncTimer.setPc t i (AsyncTimer.PC.caught f),
        { AsyncTimer.setPc t i (AsyncTimer.PC.caught f) with
          trace := t.trace ++ [AsyncTimer.Obs.handle f]
          terminated := true }, hstep1, ?_, hw1, rfl, ht, rfl, rfl, rfl, ?_, ?_⟩
      · simp only [AsyncTimer.step, timer_setPc_terminated, ht, Bool.false_eq_true, if_false,
          hlt1, if_true, h2]
      · intro hall
        have := hall handler rfl
        rw [hret] at this
        cases this
      · intro handler2 g _ _
        exact ⟨rfl, rfl, fun e => by simp [AsyncTimer.step]⟩

theorem timer_task_failure_stops_the_timer_witness :
    AsyncTimer.run failingTimer (startAndAdvance 4) = some failingTimerInTask ∧
    AsyncTimer.GetState failingTimerInTask = eAsyncState.Busy ∧
    ∃ t2, AsyncTimer.run failingTimerInTask
        [AsyncTimer.Event.advance 0, AsyncTimer.Event.advance 0] = some t2 ∧
      AsyncTimer.GetState t2 = eAsyncState.Stopped ∧
      t2.trace = [AsyncTimer.Obs.invoke 0, AsyncTimer.Obs.handle 7] :=
  match timer_task_failure_stops_the_timer failingTimerInTask
    0 { stop := false, pc := AsyncTimer.PC.inTask false (some 7) } false 7
    { delayProviderHolder := tDelayProviderHolder.delay 10
      task := some fun n => if n = 0 then some 7 else none
      exceptionHandler := some fun _ => none
      name := "timer" }
    rfl rfl rfl rfl with
  | ⟨t1, t2, h1, h2, _, _, _, _, h7, _, h9, _⟩ =>
    ⟨rfl, rfl, t2, by simp only [AsyncTimer.run, h1, h2, Option.some_bind],
      (h9 (fun _ h => by cases h; rfl)).2.1, h7⟩

/-- C20. The constructor of a timer from a delay provider throws if and only
if the provider is empty, and what it throws is `std::invalid_argument`.
When it throws, no execution context, hence no thread, exists; when it does
not, the timer holds the provider, its state is `Free`, and no execution
context exists either, a thread being created by `Start` only. -/
theorem provider_constructor_refuses_empty_provider
    (provider : tDurationDelayRuntimeProvider) (task : tPeriodicTask) (name : String)
    (handler : tExceptionHandler) :
    ((AsyncTimer.ofProvider provider task name handler).1 = Except.error invalid_argument ↔
      provider = none) ∧
    ((∃ f, (AsyncTimer.ofProvider provider task name handler).1 = Except.error f) ↔
      provider = none) ∧
    ((∃ t, (AsyncTimer.ofProvider provider task name handler).1 = Except.ok t) ↔
      provider ≠ none) ∧
    (AsyncTimer.ofProvider provider task name handler).2 = [] ∧
    ∀ t, (AsyncTimer.ofProvider provider task name handler).1 = Except.ok t →
      AsyncTimer.GetState t = eAsyncState.Free ∧ t.contexts = [] ∧
      t.m_ExecutionContext = none ∧ t.terminated = false ∧
      t.m_Params = some
        { delayProviderHolder := tDelayProviderHolder.provider provider
          task := task
          exceptionHandler := handler
          name := name } := by
  cases provider with
  | none =>
    refine ⟨by simp [AsyncTimer.ofProvider], by simp [AsyncTimer.ofProvider],
      by simp [AsyncTimer.ofProvider], rfl, ?_⟩
    intro t h
    simp [AsyncTimer.ofProvider] at h
  | some f =>
    refine ⟨by simp [AsyncTimer.ofProvider], by simp [AsyncTimer.ofProvider],
      by simp [AsyncTimer.ofProvider], rfl, ?_⟩
    intro t h
    simp only [AsyncTimer.ofProvider, Except.ok.injEq] at h
    subst h
    exact ⟨rfl, rfl, rfl, rfl, rfl⟩

/-- C21. `Start` on a timer whose state is `Busy` or `Stopping`, and `Stop`
on a timer whose state is `Free`, `Stopped` or `Stopping`, return the timer
as it is, whichever thread calls: the state is unchanged, no execution
context is created, no stop is requested and the process is not terminated;
as steps of a program they are enabled for every thread of the application.
The queue does the same in these states. -/
theorem timer_ignores_misfit_control_calls (t : AsyncTimer) (caller : ThreadId) :
    ((AsyncTimer.GetState t = eAsyncState.Busy ∨
        AsyncTimer.GetState t = eAsyncState.Stopping) →
      AsyncTimer.Start caller t = t) ∧
    ((AsyncTimer.GetState t = eAsyncState.Free ∨
        AsyncTimer.GetState t = eAsyncState.Stopped ∨
        AsyncTimer.GetState t = eAsyncState.Stopping) →
      AsyncTimer.Stop caller t = t) ∧
    (∀ n, t.terminated = false →
      (AsyncTimer.GetState t = eAsyncState.Busy ∨
        AsyncTimer.GetState t = eAsyncState.Stopping) →
      AsyncTimer.step t (AsyncTimer.Event.Start (ThreadId.user n)) = some t) ∧
    (∀ n, t.terminated = false →
      (AsyncTimer.GetState t = eAsyncState.Free ∨
        AsyncTimer.GetState t = eAsyncState.Stopped ∨
        AsyncTimer.GetState t = eAsyncState.Stopping) →
      AsyncTimer.step t (AsyncTimer.Event.Stop (ThreadId.user n)) = some t) ∧
    ∀ s : System,
      ((Queue.GetState s = eAsyncState.Busy ∨ Queue.GetState s = eAsyncState.Stopping) →
        Queue.Start caller s = some s) ∧
      ((Queue.GetState s = eAsyncState.Free ∨ Queue.GetState s = eAsyncState.Stopped ∨
          Queue.GetState s = eAsyncState.Stopping) →
        Queue.Stop s = some s) := by
  have hStart : (AsyncTimer.GetState t = eAsyncState.Busy ∨
      AsyncTimer.GetState t = eAsyncState.Stopping) → AsyncTimer.Start caller t = t := by
    intro h
    unfold AsyncTimer.GetState at h
    unfold AsyncTimer.Start AsyncTimer._Start
    rcases h with h | h <;> rw [h]
  have hStop : ∀ c : ThreadId, (AsyncTimer.GetState t = eAsyncState.Free ∨
      AsyncTimer.GetState t = eAsyncState.Stopped ∨
      AsyncTimer.GetState t = eAsyncState.Stopping) → AsyncTimer.Stop c t = t := by
    intro c h
    unfold AsyncTimer.GetState at h
    unfold AsyncTimer.Stop AsyncTimer._Stop
    rcases h with h | h | h <;> rw [h]
  refine ⟨hStart, hStop caller, ?_, ?_, ?_⟩
  · intro n ht h
    have hS : AsyncTimer.Start (ThreadId.user n) t = t := by
      unfold AsyncTimer.GetState at h
      unfold AsyncTimer.Start AsyncTimer._Start
      rcases h with h | h <;> rw [h]
    simp [AsyncTimer.step, ht, AsyncTimer.canCall, hS]
  · intro n ht h
    simp [AsyncTimer.step, ht, AsyncTimer.canCall, hStop (ThreadId.user n) h]
  · intro s
    constructor
    · intro h
      unfold Queue.GetState at h
      unfold Queue.Start
      rcases h with h | h <;> rw [h]
    · intro h
      unfold Queue.GetState at h
      unfold Queue.Stop Queue._Stop
      rcases h with h | h | h <;> rw [h]

/-- C22, the code at the failing input. On a background queue, two calls of
`Start` before the first worker has published `Busy` create two run loops
that are live together.  The first worker, cancelled by the second `Start`,
returns after the second worker has published `Busy`, and its `ScopeExit`
sets the state `Stopped` while the second worker goes on.  With the second
worker inside task 1 the state is still `Stopped`, so a third `Start` is
accepted; its worker dequeues task 2 and is inside it while the second worker
is still inside task 1: both tasks were invoked and none has returned. -/
theorem two_tasks_of_one_queue_overlap :
    (∃ s2, run (System.init "worker" none (ExecutionPolicy.BackgroundThread none))
        (overlappingSchedule.take 2) = some s2 ∧
      s2.loops.map Loop.pc = [PC.entry, PC.entry] ∧
      Queue.GetState s2 = eAsyncState.Free) ∧
    (∃ s5, run (System.init "worker" none (ExecutionPolicy.BackgroundThread none))
        (overlappingSchedule.take 5) = some s5 ∧
      s5.loops.map Loop.pc = [PC.done, PC.loopHead] ∧
      stop_requested s5 1 = false ∧
      Queue.GetState s5 = eAsyncState.Stopped) ∧
    (∃ s11, run (System.init "worker" none (ExecutionPolicy.BackgroundThread none))
        (overlappingSchedule.take 11) = some s11 ∧
      s11.loops.map Loop.pc = [PC.done, PC.inTask { label := 1, raises := none }] ∧
      Queue.GetState s11 = eAsyncState.Stopped) ∧
    ∃ s, run (System.init "worker" none (ExecutionPolicy.BackgroundThread none))
        overlappingSchedule = some s ∧
      s.loops.map Loop.pc =
        [PC.done, PC.inTask { label := 1, raises := none },
          PC.inTask { label := 2, raises := none }] ∧
      s.loops.map Loop.tid = [ThreadId.spawned 0, ThreadId.spawned 1, ThreadId.spawned 2] ∧
      s.trace = [Obs.invoke 1, Obs.invoke 2] ∧
      s.terminated = false :=
  ⟨⟨_, rfl, rfl, rfl⟩, ⟨_, rfl, rfl, rfl, rfl⟩, ⟨_, rfl, rfl, rfl⟩, _, rfl, rfl, rfl, rfl, rfl⟩

/-- C23, as stated, fails.  Task 1 throws 7, the handler is called with 7
and itself throws 8: the handler is called again, with 8, and then
`_Routine` returns.  The state is `Stopped`, task 2 is still pending and was
not invoked, and a further step of the worker changes nothing, although no
stop was requested. -/
theorem handler_failure_ends_the_run_loop :
    run (System.init "worker" throwingHandler (ExecutionPolicy.BackgroundThread none))
      escapingSchedule = some escapingInTask ∧
    ∃ s, step escapingInTask (Event.advance 0) = some s ∧
      s.loops.map Loop.pc = [PC.done] ∧
      Queue.GetState s = eAsyncState.Stopped ∧
      stop_requested s 0 = false ∧
      s.trace = [Obs.invoke 1, Obs.handle 7, Obs.handle 8] ∧
      s.queue.m_TaskQueue = [some { label := 2, raises := none }] ∧
      s.terminated = false ∧
      run s [Event.advance 0, Event.advance 0, Event.advance 0] = some s :=
  ⟨rfl, _, rfl, rfl, rfl, rfl, rfl, rfl, rfl, rfl⟩

/-- C23, amended. When a task throws `f`, the exception handler called with
`f` throws `g`, and the handler called with `g` returns: the one step of the
run loop calls the handler with `f`, then with `g`, and returns from
`_Routine`.  The loop has ended: the state is `Stopped`, no worker identity
is published, the pending tasks are left as they are, not invoked, and every
further step of this activation changes nothing.  When the handler throws
again on `g`, the process is terminated. -/
theorem handler_failure_is_reported_and_ends_the_loop (s : System) (i : Nat) (w : Loop)
    (c : Callable) (f g : Failure) (handler : Failure → Option Failure)
    (ht : s.terminated = false) (hw : s.loops[i]? = some w) (hpc : w.pc = PC.inTask c)
    (hf : c.raises = some f) (hh : s.queue.m_ExceptionHandler = some handler)
    (hthrow : handler f = some g) :
    (handler g = none →
      ∃ s1, step s (Event.advance i) = some s1 ∧
        s1.trace = s.trace ++ [Obs.handle f, Obs.handle g] ∧
        s1.loops[i]? = some { w with pc := PC.done } ∧
        Queue.GetState s1 = eAsyncState.Stopped ∧
        Queue.GetWorkThreadId s1 = none ∧
        s1.queue.m_TaskQueue = s.queue.m_TaskQueue ∧
        s1.stopStates = s.stopStates ∧
        s1.terminated = false ∧
        step s1 (Event.advance i) = some s1) ∧
    (∀ g2, handler g = some g2 →
      ∃ s1, step s (Event.advance i) = some s1 ∧ s1.terminated = true ∧
        s1.trace = s.trace ++ [Obs.handle f, Obs.handle g]) := by
  constructor
  · intro hret
    have hR : Queue._Routine s i =
        some (setPc (scopeExit (observe (observe s (Obs.handle f)) (Obs.handle g))) i PC.done) := by
      unfold Queue._Routine
      simp only [hw, hpc, hf, hh, hthrow, hret]
    have hw1 : (setPc (scopeExit (observe (observe s (Obs.handle f)) (Obs.handle g))) i
        PC.done).loops[i]? = some { w with pc := PC.done } :=
      setPc_self _ i PC.done w hw
    have hstep : step s (Event.advance i) =
        some (setPc (scopeExit (observe (observe s (Obs.handle f)) (Obs.handle g))) i
          PC.done) := by
      simp [step, ht, hR]
    have hagain : step (setPc (scopeExit (observe (observe s (Obs.handle f)) (Obs.handle g)))
        i PC.done) (Event.advance i) =
        some (setPc (scopeExit (observe (observe s (Obs.handle f)) (Obs.handle g))) i
          PC.done) := by
      have hterm : (setPc (scopeExit (observe (observe s (Obs.handle f)) (Obs.handle g))) i
          PC.done).terminated = false := ht
      unfold step
      rw [hterm]
      exact Routine_done _ i _ hw1 rfl
    refine ⟨_, hstep, ?_, hw1, rfl, rfl, rfl, rfl, ht, hagain⟩
    simp [observe, scopeExit]
  · intro g2 hthrow2
    have hR : Queue._Routine s i =
        some { observe (observe s (Obs.handle f)) (Obs.handle g) with terminated := true } := by
      unfold Queue._Routine
      simp only [hw, hpc, hf, hh, hthrow, hthrow2]
    have hstep : step s (Event.advance i) =
        some { observe (observe s (Obs.handle f)) (Obs.handle g) with terminated := true } := by
      simp [step, ht, hR]
    refine ⟨_, hstep, rfl, ?_⟩
    simp [observe]

theorem handler_failure_is_reported_and_ends_the_loop_witness :
    ∃ s1, step escapingInTask (Event.advance 0) = some s1 ∧
      s1.trace = [Obs.invoke 1, Obs.handle 7, Obs.handle 8] ∧
      Queue.GetState s1 = eAsyncState.Stopped ∧
      s1.queue.m_TaskQueue = [some { label := 2, raises := none }] :=
  match (handler_failure_is_reported_and_ends_the_loop escapingInTask 0
    { tid := ThreadId.spawned 0, stopToken := 0,
      pc := PC.inTask { label := 1, raises := some 7 } }
    { label := 1, raises := some 7 } 7 8 (fun f => if f = 7 then some 8 else none)
    rfl rfl rfl rfl rfl rfl).1 rfl with
  | ⟨s1, h1, h2, _, h4, _, h6, _⟩ => ⟨s1, h1, h2, h4, h6⟩

/-- C24. The thread of a timer is about to compute a delay, its stop is not
requested, the provider, if there is one, returns a delay at every call and
the task is set and returns at every invocation.  Then the first step of the
iteration computes the delay, by exactly one call of the provider or none
for a fixed delay, and only then the thread waits; the five steps of the
iteration invoke the task exactly once, after the delay was computed, and
come back to the computation of the delay; and after `k` iterations the
provider was called `k` times more (not at all for a fixed delay), the task
`k` times more, and what was observed is, `k` times, the call of the provider
followed by the invocation of the task.  A wait that the request of the stop
ends is followed by no invocation of the task: `_Routine` returns. -/
theorem timer_iteration_computes_delay_then_invokes_task (t : AsyncTimer) (i : Nat)
    (w : AsyncTimer._ExecutionContext) (p : AsyncTimer._Params)
    (task : Nat → Option Failure) (k : Nat) (ht : t.terminated = false)
    (hw : t.contexts[i]? = some w) (hpc : w.pc = AsyncTimer.PC.compute)
    (hs : w.stop = false) (hp : t.m_Params = some p) (htask : p.task = some task)
    (hret : ∀ n, task n = none) (hprov : p.delayProviderHolder.Provides) :
    ((AsyncTimer.advance t i 1).contexts[i]? = some { w with pc := AsyncTimer.PC.waiting } ∧
      (AsyncTimer.advance t i 1).provided = t.provided + p.delayProviderHolder.calls ∧
      (AsyncTimer.advance t i 1).invoked = t.invoked ∧
      (AsyncTimer.advance t i 1).trace =
        t.trace ++ p.delayProviderHolder.observed t.provided) ∧
    ((AsyncTimer.advance t i 5).contexts[i]? = some w ∧
      (AsyncTimer.advance t i 5).provided = t.provided + p.delayProviderHolder.calls ∧
      (AsyncTimer.advance t i 5).invoked = t.invoked + 1 ∧
      (AsyncTimer.advance t i 5).trace =
        t.trace ++ p.delayProviderHolder.observed t.provided ++
          [AsyncTimer.Obs.invoke t.invoked]) ∧
    ((AsyncTimer.advance t i (5 * k)).contexts[i]? = some w ∧
      (AsyncTimer.advance t i (5 * k)).terminated = false ∧
      AsyncTimer.GetState (AsyncTimer.advance t i (5 * k)) = AsyncTimer.GetState t ∧
      (AsyncTimer.advance t i (5 * k)).provided =
        t.provided + k * p.delayProviderHolder.calls ∧
      (AsyncTimer.advance t i (5 * k)).invoked = t.invoked + k ∧
      (AsyncTimer.advance t i (5 * k)).trace =
        t.trace ++ AsyncTimer.iterations p.delayProviderHolder t.provided t.invoked k) ∧
    ((∀ f, p.delayProviderHolder = tDelayProviderHolder.provider f →
        p.delayProviderHolder.calls = 1 ∧
        AsyncTimer.iterations p.delayProviderHolder t.provided t.invoked 2 =
          [AsyncTimer.Obs.provide t.provided, AsyncTimer.Obs.invoke t.invoked,
            AsyncTimer.Obs.provide (t.provided + 1),
            AsyncTimer.Obs.invoke (t.invoked + 1)]) ∧
      (∀ d, p.delayProviderHolder = tDelayProviderHolder.delay d →
        p.delayProviderHolder.calls = 0 ∧
        AsyncTimer.iterations p.delayProviderHolder t.provided t.invoked 2 =
          [AsyncTimer.Obs.invoke t.invoked, AsyncTimer.Obs.invoke (t.invoked + 1)])) ∧
    ∀ (t1 : AsyncTimer) (v : AsyncTimer._ExecutionContext), t1.terminated = false →
      t1.contexts[i]? = some v → v.pc = AsyncTimer.PC.waiting → v.stop = true →
      t1.m_Params = some p →
      (AsyncTimer.advance t1 i 3).contexts[i]? = some { v with pc := AsyncTimer.PC.done } ∧
      (AsyncTimer.advance t1 i 3).trace = t1.trace ∧
      (AsyncTimer.advance t1 i 3).invoked = t1.invoked ∧
      AsyncTimer.GetState (AsyncTimer.advance t1 i 3) = eAsyncState.Stopped := by
  refine ⟨?_, ?_, ?_, ⟨?_, ?_⟩, ?_⟩
  · have h1 := timer_compute_step t i w p hw hpc hp hprov
    have hadv : AsyncTimer.advance t i 1 = AsyncTimer._Routine t i := by
      rw [timer_advance_succ t i 0 ht]
      rfl
    rw [hadv, h1]
    exact ⟨timer_modify_self t.contexts _ i w hw, rfl, rfl, rfl⟩
  · obtain ⟨a1, _, _, _, _, a6, a7, a8⟩ :=
      timer_iteration t i w p task ht hw hpc hs hp htask (hret _) hprov
    exact ⟨a1, a6, a7, a8⟩
  · obtain ⟨a1, _, a3, a4, _, a6, a7, a8⟩ :=
      timer_iterations k t i w p task ht hw hpc hs hp htask hret hprov
    exact ⟨a1, a3, a4, a6, a7, a8⟩
  · intro f hf
    rw [hf]
    exact ⟨rfl, rfl⟩
  · intro d hd
    rw [hd]
    exact ⟨rfl, rfl⟩
  · intro t1 v ht1 hv hvpc hvs hp1
    obtain ⟨c1, c2, c3, _, c5, _⟩ := timer_cancelled_wait t1 i v p ht1 hv hvpc hvs hp1
    exact ⟨c1, c2, c3, c5⟩

theorem timer_iteration_computes_delay_then_invokes_task_witness :
    AsyncTimer.run providedTimer
      [AsyncTimer.Event.Start (ThreadId.user 0), AsyncTimer.Event.advance 0] =
        some providedTimerBusy ∧
    (AsyncTimer.advance providedTimerBusy 0 (5 * 3)).trace =
      [AsyncTimer.Obs.provide 0, AsyncTimer.Obs.invoke 0,
        AsyncTimer.Obs.provide 1, AsyncTimer.Obs.invoke 1,
        AsyncTimer.Obs.provide 2, AsyncTimer.Obs.invoke 2] ∧
    (AsyncTimer.advance providedTimerBusy 0 (5 * 3)).provided = 3 ∧
    (AsyncTimer.advance providedTimerBusy 0 (5 * 3)).invoked = 3 :=
  match (timer_iteration_computes_delay_then_invokes_task providedTimerBusy 0
    { stop := false, pc := AsyncTimer.PC.compute }
    { delayProviderHolder := tDelayProviderHolder.provider (some fun _ => Except.ok 10)
      task := some fun _ => none
      exceptionHandler := none
      name := "timer" }
    (fun _ => none) 3 rfl rfl rfl rfl rfl rfl (fun _ => rfl) (fun _ => ⟨10, rfl⟩)).2.2.1 with
  | ⟨_, _, _, h4, h5, h6⟩ => ⟨rfl, h6, h4, h5⟩

/-- C25, as stated, fails.  The thread of the timer is inside the task and
calls `Stop`: the state is `Busy`, so `_Stop` sets `Stopping`, requests the
stop and destroys the execution context, whose `std::jthread` joins the
calling thread itself.  The call does not return: the process is
terminated. -/
theorem Stop_from_the_task_terminates_the_process :
    AsyncTimer.run steadyTimer (startAndAdvance 4) = some steadyTimerInTask ∧
    AsyncTimer.canCall steadyTimerInTask (ThreadId.spawned 0) = true ∧
    ∃ t1, AsyncTimer.step steadyTimerInTask (AsyncTimer.Event.Stop (ThreadId.spawned 0)) =
        some t1 ∧
      t1.terminated = true ∧
      AsyncTimer.GetState t1 = eAsyncState.Stopping ∧
      t1.contexts = [{ stop := true, pc := AsyncTimer.PC.inTask false none }] :=
  ⟨rfl, rfl, _, rfl, rfl, rfl, rfl⟩

/-- C25, amended. The thread of an execution context is inside the task, the
timer holds this context and its state is `Busy`.  A call of `Stop` by this
thread is not refused: it sets the state `Stopping`, requests the stop of
the thread, which stays inside the task, resets the pointer to the context
and destroys the context, whose `std::jthread` joins the calling thread
itself: the process is terminated, and no step follows. -/
theorem Stop_from_the_task_is_not_guarded (t : AsyncTimer) (c : Nat)
    (w : AsyncTimer._ExecutionContext) (b : Bool) (r : Option Failure)
    (ht : t.terminated = false) (hw : t.contexts[c]? = some w)
    (hpc : w.pc = AsyncTimer.PC.inTask b r) (hctx : t.m_ExecutionContext = some c)
    (hbusy : AsyncTimer.GetState t = eAsyncState.Busy) :
    AsyncTimer.canCall t (ThreadId.spawned c) = true ∧
    ∃ t1, AsyncTimer.step t (AsyncTimer.Event.Stop (ThreadId.spawned c)) = some t1 ∧
      t1.terminated = true ∧
      AsyncTimer.GetState t1 = eAsyncState.Stopping ∧
      t1.m_ExecutionContext = none ∧
      t1.contexts[c]? = some { w with stop := true } ∧
      t1.trace = t.trace ∧
      t1.invoked = t.invoked ∧
      ∀ e, AsyncTimer.step t1 e = none := by
  have hb : t.m_State = eAsyncState.Busy := hbusy
  have hcall : AsyncTimer.canCall t (ThreadId.spawned c) = true := by
    simp [AsyncTimer.canCall, hw, hpc]
  have hS : AsyncTimer._Stop (ThreadId.spawned c) t =
      { AsyncTimer.request_stop
          (AsyncTimer.request_stop { t with m_State := eAsyncState.Stopping } c) c with
        terminated := true
        m_ExecutionContext := none } := by
    unfold AsyncTimer._Stop
    simp only [hb, hctx, AsyncTimer.destroy, if_true]
  have hstep : AsyncTimer.step t (AsyncTimer.Event.Stop (ThreadId.spawned c)) =
      some (AsyncTimer._Stop (ThreadId.spawned c) t) := by
    simp [AsyncTimer.step, ht, hcall, AsyncTimer.Stop]
  refine ⟨hcall, AsyncTimer._Stop (ThreadId.spawned c) t, hstep, ?_, ?_, ?_, ?_, ?_, ?_, ?_⟩
  · rw [hS]
  · rw [hS]
    rfl
  · rw [hS]
  · rw [hS]
    have h1 := timer_request_stop_self { t with m_State := eAsyncState.Stopping } c w hw
    have h2 := timer_request_stop_self
      (AsyncTimer.request_stop { t with m_State := eAsyncState.Stopping } c) c _ h1
    exact h2
  · rw [hS]
    rfl
  · rw [hS]
    rfl
  · intro e
    rw [hS]
    simp [AsyncTimer.step]

theorem Stop_from_the_task_is_not_guarded_witness :
    ∃ t1, AsyncTimer.step steadyTimerInTask (AsyncTimer.Event.Stop (ThreadId.spawned 0)) =
        some t1 ∧
      t1.terminated = true ∧ AsyncTimer.GetState t1 = eAsyncState.Stopping :=
  match (Stop_from_the_task_is_not_guarded steadyTimerInTask 0
    { stop := false, pc := AsyncTimer.PC.inTask false none } false none
    rfl rfl rfl rfl rfl).2 with
  | ⟨t1, h1, h2, h3, _⟩ => ⟨t1, h1, h2, h3⟩

/-- C27, the code at the failing input. `CreateOrGetBackgroundQueueByName`
called with the empty string builds a queue whose name is empty and registers
it under the empty key; the queue can be started and its worker publishes
`Busy`.  What does hold in every reachable registry is that the name of a
registered queue equals its key. -/
theorem registry_creates_a_queue_with_the_empty_name :
    (QueueManager.CreateOrGetBackgroundQueueByName "" none QueueManager.init).1 = 0 ∧
    (QueueManager.CreateOrGetBackgroundQueueByName "" none QueueManager.init).2.IsExists "" =
      true ∧
    ((QueueManager.CreateOrGetBackgroundQueueByName "" none QueueManager.init).2.heap[0]?.map
      fun cell => (cell.alive, Queue.GetName cell.queue, (Queue.GetName cell.queue).isEmpty,
        Queue.GetState cell.queue)) = some (true, "", true, eAsyncState.Free) ∧
    (∃ r, QueueManager.calls QueueManager.init emptyNameCalls = some r ∧
      r.find "" = some 0 ∧
      (r.heap[0]?.map fun cell =>
        (cell.alive, Queue.GetName cell.queue, Queue.GetState cell.queue,
          Queue.GetWorkThreadId cell.queue)) =
        some (true, "", eAsyncState.Busy, some (ThreadId.spawned 0))) ∧
    ∀ (r : QueueManager) (name : String) (p : Nat), QueueManager.Reachable r →
      r.find name = some p →
      ∃ cell, r.heap[p]? = some cell ∧ Queue.GetName cell.queue = name :=
  ⟨rfl, rfl, rfl, ⟨_, rfl, rfl, rfl⟩, fun r name p hr hreg =>
    match (Sound_of_Reachable r hr).cells name p (find_mem r name p hreg) with
    | ⟨cell, h1, _, h3, _⟩ => ⟨cell, h1, h3⟩⟩

/-- C28, the code at the failing input. The default constructor is one of
the public constructors and leaves `m_Params` empty.  `Start` on such a timer
finds the state `Free` and creates the thread, whose first step in `_Routine`
reads `m_Params->name` from the empty optional: the process is lost.  The
timers of the two other constructors hold their parameters in every state a
program reaches. -/
theorem default_timer_runs_the_routine_without_parameters :
    AsyncTimer.Constructed AsyncTimer.default ∧
    AsyncTimer.default.m_Params = none ∧
    AsyncTimer.GetState AsyncTimer.default = eAsyncState.Free ∧
    (∃ t1 t2, AsyncTimer.step AsyncTimer.default (AsyncTimer.Event.Start (ThreadId.user 0)) =
        some t1 ∧
      t1.contexts = [{ stop := false, pc := AsyncTimer.PC.entry }] ∧
      t1.m_Params = none ∧
      AsyncTimer.step t1 (AsyncTimer.Event.advance 0) = some t2 ∧
      t2.m_Params = none ∧
      t2.terminated = true) ∧
    (∀ (delay : tDurationDelay) (task : tPeriodicTask) (name : String)
        (handler : tExceptionHandler) (evs : List AsyncTimer.Event) (t : AsyncTimer),
      AsyncTimer.run (AsyncTimer.ofDelay delay task name handler) evs = some t →
      t.m_Params ≠ none) ∧
    ∀ (provider : tDurationDelayRuntimeProvider) (task : tPeriodicTask) (name : String)
        (handler : tExceptionHandler) (t0 : AsyncTimer) (evs : List AsyncTimer.Event)
        (t : AsyncTimer),
      (AsyncTimer.ofProvider provider task name handler).1 = Except.ok t0 →
      AsyncTimer.run t0 evs = some t → t.m_Params ≠ none := by
  refine ⟨Or.inr (Or.inr rfl), rfl, rfl, ⟨_, _, rfl, rfl, rfl, rfl, rfl, rfl⟩, ?_, ?_⟩
  · intro delay task name handler evs t h
    rw [timer_run_params evs _ t h]
    simp [AsyncTimer.ofDelay, AsyncTimer._Impl]
  · intro provider task name handler t0 evs t h0 h
    rw [timer_run_params evs _ t h]
    cases provider with
    | none => simp [AsyncTimer.ofProvider] at h0
    | some f =>
      simp only [AsyncTimer.ofProvider, Except.ok.injEq] at h0
      rw [← h0]
      simp [AsyncTimer._Impl]

/-- C29. On a name that is registered, `CreateOrGetBackgroundQueueByName`
returns the registered pointer and leaves the registry and every object as
they are, whatever handler is passed: the state, the pending tasks and the
execution policy of the queue are unchanged and the handler passed is
dropped.  A queue created under a name with the handler `h1` carries `h1`
after any program, as long as the name is registered for it: a later call
for this name with another handler returns this queue, with `h1`. -/
theorem registered_queue_keeps_its_handler (r : QueueManager) (name : String)
    (h1 h2 : tExceptionHandler) (cs : List Call) (r1 : QueueManager)
    (hr : QueueManager.Reachable r) (hn : r.IsExists name = false)
    (hcs : QueueManager.calls
      (QueueManager.CreateOrGetBackgroundQueueByName name h1 r).2 cs = some r1)
    (hreg : r1.find name = some r.heap.length) :
    (QueueManager.CreateOrGetBackgroundQueueByName name h1 r).1 = r.heap.length ∧
    QueueManager.CreateOrGetBackgroundQueueByName name h2 r1 = (r.heap.length, r1) ∧
    (∃ cell, r1.heap[r.heap.length]? = some cell ∧
      (QueueManager.CreateOrGetBackgroundQueueByName name h2 r1).2.heap[r.heap.length]? =
        some cell ∧
      cell.queue.queue.m_ExceptionHandler = h1) ∧
    ∀ (q : QueueManager) (m : String) (h : tExceptionHandler) (p : Nat),
      q.find m = some p →
      QueueManager.CreateOrGetBackgroundQueueByName m h q = (p, q) ∧
      (m = mainQueueName → QueueManager.CreateOrGetMainQueue h q = (p, q)) := by
  have hs := Sound_of_Reachable r hr
  have hnone : r.find name = none := by
    have := IsExists_eq r name
    unfold QueueManager.IsExists at hn
    rw [hn] at this
    cases hf : r.find name with
    | none => rfl
    | some p => simp [hf] at this
  have hcreate : QueueManager.CreateOrGetBackgroundQueueByName name h1 r =
      (r.heap.length,
        { m_QueuesStore := r.m_QueuesStore ++ [(name, r.heap.length)]
          heap := r.heap ++
            [{ queue := System.init name h1
                 (if name = mainQueueName then ExecutionPolicy.MainThread none
                  else ExecutionPolicy.BackgroundThread none)
               holders := 0
               alive := true }]
          m_Access := r.m_Access }) := by
    unfold QueueManager.CreateOrGetBackgroundQueueByName
      QueueManager._CreateOrGetBackgroundQueueByName
    rw [hnone]
  have hfound : ∀ (q : QueueManager) (m : String) (h : tExceptionHandler) (p : Nat),
      q.find m = some p → QueueManager.CreateOrGetBackgroundQueueByName m h q = (p, q) := by
    intro q m h p hq
    unfold QueueManager.CreateOrGetBackgroundQueueByName
    exact create_found q m h p hq
  rw [hcreate] at hcs
  obtain ⟨cell, hcell, hh⟩ := calls_handler cs _ r1 r.heap.length _ hcs
    (List.getElem?_concat_length _ _)
  refine ⟨by rw [hcreate], hfound r1 name h2 _ hreg, ⟨cell, hcell, ?_, hh⟩, ?_⟩
  · rw [hfound r1 name h2 _ hreg]
    exact hcell
  · intro q m h p hq
    refine ⟨hfound q m h p hq, ?_⟩
    intro hm
    subst hm
    exact hfound q mainQueueName h p hq

theorem registered_queue_keeps_its_handler_witness :
    QueueManager.calls
        (QueueManager.CreateOrGetBackgroundQueueByName "worker" throwingHandler
          QueueManager.init).2 handlerCalls = some handlerRegistry ∧
      QueueManager.CreateOrGetBackgroundQueueByName "worker" none handlerRegistry =
        (0, handlerRegistry) ∧
      (handlerRegistry.heap[0]?.map fun cell =>
        (Queue.GetState cell.queue, cell.queue.queue.m_TaskQueue)) =
          some (eAsyncState.Busy, [some { label := 5, raises := none }]) ∧
      ∃ cell, handlerRegistry.heap[0]? = some cell ∧
        cell.queue.queue.m_ExceptionHandler = throwingHandler :=
  ⟨rfl,
    (registered_queue_keeps_its_handler QueueManager.init "worker" throwingHandler none
      handlerCalls handlerRegistry ⟨[], rfl⟩ rfl rfl rfl).2.1,
    rfl,
    match (registered_queue_keeps_its_handler QueueManager.init "worker" throwingHandler none
      handlerCalls handlerRegistry ⟨[], rfl⟩ rfl rfl rfl).2.2.1 with
    | ⟨cell, h1, _, h3⟩ => ⟨cell, h1, h3⟩⟩

end Darkness.Concurrency
